import Mathlib

/-!
# Polygon triangulation core (`polygon.cpp`)

A shallow embedding of the polygon assembler, the monotone decomposer, the
monotone triangulator, the backup triangulator and the validators, followed by
theorems about them.

Modelling conventions.

* `float` values are modelled by `F32`: a finite value is a rational number,
  the two infinities and NaN are separate values that follow the IEEE rules.
  A zero divisor is taken as `+0`, which is what `x - x` gives; the sign of
  zero is not modelled.  The operations of `F32` are exact, and the pipeline
  (`Monotones`, `Triangulator`, `Triangulate`) is stated over them.
* Rounding is `F32.round`: to the nearest single-precision value, ties to the
  even significand, 24 bits of significand, least exponent `−126` with
  subnormals below it, and infinity from `2^128 − 2^103` on.  The namespace
  `Rounded` repeats `CCW` and the method `Triangulator::ProcessVert` with every
  addition, subtraction and multiplication rounded once (no fused
  multiply-add, no wider intermediate); the theorems on the antisymmetry of
  `CCW` and on the orientation of the triangles of the same-chain case are
  theorems about `Rounded`.
* `int` values are modelled by `Int`; the sizes involved are far below `2^31`.
* C++ exceptions thrown through `ALWAYS_ASSERT` are the errors of `Except Err`.
  Reading or writing a `std::vector` out of range, `back()` of an empty vector
  and dereferencing `end()` have no defined behaviour in C++; the embedding
  reports them as `Err.undefined`, which is not an exception and which no
  `catch` handler intercepts.
* The one read out of range that the program survives is `poly[-1]` in the
  shared-edge block of `BackupTriangulate`: `operator[]` does no check, the
  value read goes into a variable that is assigned again before it is used.
  The namespace `Unchecked` repeats the backup triangulator with that read
  returning an arbitrary `int` `g`; its theorems hold for every `g`.
* `std::sort` is modelled by insertion sort with the comparator of the source.
  Where no key is a NaN the comparator is a strict total order and the sorted
  arrangement is unique, so the result does not depend on the algorithm; with a
  NaN key the precondition of `std::sort` fails, and the theorem on the
  agreement of the two sweep orders assumes there is none.
* Loops are structural recursions on a fuel argument; `none` means the fuel ran
  out, and the theorems show that the fuel supplied by the callers suffices.
-/

set_option linter.dupNamespace false

namespace manifold

/-! ## Scalars and vectors -/

/-- Single-precision values under exact arithmetic. -/
inductive F32 where
  | fin (q : ℚ)
  | pinf
  | ninf
  | nan
  deriving DecidableEq

namespace F32

/-- Sign of a value that is not NaN: `-1`, `0` or `1`. -/
def sgn : F32 → Int
  | fin q => if 0 < q then 1 else if q < 0 then -1 else 0
  | pinf => 1
  | ninf => -1
  | nan => 0

/-- The infinity of the given sign, NaN for sign `0`. -/
def ofSign (s : Int) : F32 :=
  if 0 < s then pinf else if s < 0 then ninf else nan

def neg : F32 → F32
  | fin q => fin (-q)
  | pinf => ninf
  | ninf => pinf
  | nan => nan

def add : F32 → F32 → F32
  | fin a, fin b => fin (a + b)
  | nan, _ => nan
  | _, nan => nan
  | pinf, ninf => nan
  | ninf, pinf => nan
  | pinf, _ => pinf
  | _, pinf => pinf
  | ninf, _ => ninf
  | _, ninf => ninf

def sub (a b : F32) : F32 := add a (neg b)

def mul : F32 → F32 → F32
  | fin a, fin b => fin (a * b)
  | nan, _ => nan
  | _, nan => nan
  | a, b => ofSign (sgn a * sgn b)

def div : F32 → F32 → F32
  | nan, _ => nan
  | _, nan => nan
  | fin a, fin b => if b = 0 then ofSign (sgn (fin a)) else fin (a / b)
  | fin _, _ => fin 0
  | a, fin b => if b < 0 then neg a else a
  | _, _ => nan

def abs : F32 → F32
  | fin q => fin |q|
  | pinf => pinf
  | ninf => pinf
  | nan => nan

/-- The comparison `a < b`; false as soon as one side is NaN. -/
def lt : F32 → F32 → Bool
  | fin a, fin b => decide (a < b)
  | nan, _ => false
  | _, nan => false
  | ninf, ninf => false
  | ninf, _ => true
  | pinf, _ => false
  | _, pinf => true
  | _, ninf => false

/-- The comparison `a <= b`; false as soon as one side is NaN. -/
def le : F32 → F32 → Bool
  | fin a, fin b => decide (a ≤ b)
  | nan, _ => false
  | _, nan => false
  | ninf, _ => true
  | _, pinf => true
  | pinf, _ => false
  | _, ninf => false

def isnan : F32 → Bool
  | nan => true
  | _ => false

/-- The function `std::min(a, b)`, which is `(b < a) ? b : a`. -/
def min (a b : F32) : F32 := if lt b a then b else a

/-- The function `std::max(a, b)`, which is `(a < b) ? b : a`. -/
def max (a b : F32) : F32 := if lt a b then b else a

end F32

/-- The type `glm::vec2`. -/
structure Vec2 where
  x : F32
  y : F32
  deriving DecidableEq

/-- A point with finite (rational) coordinates. -/
def Vec2.ofRat (x y : ℚ) : Vec2 := ⟨.fin x, .fin y⟩

def Vec2.sub (a b : Vec2) : Vec2 := ⟨F32.sub a.x b.x, F32.sub a.y b.y⟩

def Vec2.abs (a : Vec2) : Vec2 := ⟨F32.abs a.x, F32.abs a.y⟩

/-- The constant `kTolerance = 1e5`. -/
def kTolerance : F32 := .fin 100000

/-! ## Data model -/

/-- Modelled from the spec: the vertex reference `PolyVert` of `polygon.h`
(position, caller identity `idx`, tag `nextEdge` of the outgoing edge), in the
field order of its brace initialisers in `polygon.cpp`. -/
structure PolyVert where
  pos : Vec2
  idx : Int
  nextEdge : Int
  deriving DecidableEq

abbrev SimplePolygon := List PolyVert

abbrev Polygons := List SimplePolygon

/-- Modelled from the spec: the directed edge `EdgeVerts` of `polygon.h`
(`first → second` with its metadata `edge`). -/
structure EdgeVerts where
  first : Int
  second : Int
  edge : Int
  deriving DecidableEq

/-- Modelled from the spec: the sentinel tags `Edge::kNoIdx`, `Edge::kInvalid`
and `Edge::kInterior` of `polygon.h`, whose values are not in the sources at
hand; every definition that uses one takes them as a parameter. -/
structure Edge where
  kNoIdx : Int
  kInvalid : Int
  kInterior : Int
  deriving DecidableEq

/-- A triangle `glm::ivec3` of vertex identities. -/
structure IVec3 where
  x : Int
  y : Int
  z : Int
  deriving DecidableEq

/-- The errors: one constructor for each message thrown in `polygon.cpp`, and
`undefined` for an execution that leaves defined behaviour. -/
inductive Err where
  | twoEdgeMonotone
  | neighborsDisagree
  | didNotFinishWithEnd
  | wrongTriangleCount
  | duplicateVertices
  | nonmanifoldEdge
  | oddHalfedges
  | halfForward
  | halfBackward
  | forwardBackwardMismatch
  | notTwoManifold
  | interfaceEdge
  | folded
  | undefined
  deriving DecidableEq

/-- Modelled from the spec: the macro `ALWAYS_ASSERT(cond, type, msg)` of the
missing headers throws when `cond` is false. -/
def ALWAYS_ASSERT (cond : Bool) (e : Err) : Except Err Unit :=
  if cond then .ok () else .error e

/-- Element `v[i]` of a `std::vector` at an `int` index. -/
def getI {α : Type} (v : List α) (i : Int) : Except Err α :=
  if i < 0 then .error .undefined
  else match v[i.toNat]? with
    | some a => .ok a
    | none => .error .undefined

/-! ## Orientation predicate -/

def CCW (p0 p1 p2 : Vec2) : Int :=
  let v1 := p1.sub p0
  let v2 := p2.sub p0
  let result := F32.sub (F32.mul v1.x v2.y) (F32.mul v1.y v2.x)
  let p0 := p0.abs
  let p1 := p1.abs
  let p2 := p2.abs
  let norm := F32.add (F32.add (F32.mul p0.x p0.y) (F32.mul p1.x p1.y)) (F32.mul p2.x p2.y)
  if F32.le (F32.mul (F32.abs result) kTolerance) norm then 0
  else if F32.lt (.fin 0) result then 1 else -1

/-! ## Ordered maps -/

/-- A `std::map<int, β>`: its entries in ascending key order. -/
abbrev Map (β : Type) := List (Int × β)

namespace Map

def find {β : Type} : Map β → Int → Option β
  | [], _ => none
  | (k, v) :: m, key => if k = key then some v else find m key

/-- The call `emplace(key, val)`: the map afterwards, and whether the entry
was inserted (it is not when the key is already present). -/
def emplace {β : Type} : Map β → Int → β → Map β × Bool
  | [], key, val => ([(key, val)], true)
  | (k, v) :: m, key, val =>
    if key < k then ((key, val) :: (k, v) :: m, true)
    else if key = k then ((k, v) :: m, false)
    else ((k, v) :: (emplace m key val).1, (emplace m key val).2)

def erase {β : Type} : Map β → Int → Map β
  | [], _ => []
  | (k, v) :: m, key => if k = key then m else (k, v) :: erase m key

/-- Overwrite the value stored at a key that is present. -/
def update {β : Type} : Map β → Int → (β → β) → Map β
  | [], _, _ => []
  | (k, v) :: m, key, f => if k = key then (k, f v) :: m else (k, v) :: update m key f

end Map

/-- A counted loop body run over a list of indices, stopping at the first
error. -/
def forEach {α : Type} (f : α → Except Err Unit) : List α → Except Err Unit
  | [] => .ok ()
  | a :: l =>
    match f a with
    | .ok _ => forEach f l
    | .error e => .error e

/-! ## Polygon assembler -/

/-- The vector `glm::vec2(1.0f / 0.0f)`. -/
def Vec2.inf : Vec2 := ⟨.pinf, .pinf⟩

/-- The statement `polys.back().push_back(v)`. -/
def pushToBack (polys : Polygons) (v : PolyVert) : Except Err Polygons :=
  match polys.getLast? with
  | none => .error .undefined
  | some p => .ok (polys.dropLast ++ [p ++ [v]])

/-- The first loop of `Assemble`: index the edges by their `first` vertex. -/
def buildVertEdge : List EdgeVerts → Int → Map Int → Except Err (Map Int)
  | [], _, vert_edge => .ok vert_edge
  | e :: es, i, vert_edge =>
    match Map.emplace vert_edge e.first i with
    | (m, true) => buildVertEdge es (i + 1) m
    | (_, false) => .error .duplicateVertices

/-- The variables of the `for (;;)` loop of `Assemble`; the two iterators are
held as offsets from `halfedges.begin()`. -/
structure AssembleState where
  vert_edge : Map Int
  startEdge : Int
  thisEdge : Int
  polys : Polygons

/-- The part of the loop body of `Assemble` after the `if`. -/
def AssembleBody (halfedges : List EdgeVerts) (s : AssembleState) :
    Except Err AssembleState :=
  match getI halfedges s.thisEdge with
  | .error e => .error e
  | .ok e =>
    match pushToBack s.polys ⟨Vec2.inf, e.first, e.edge⟩ with
    | .error err => .error err
    | .ok polys =>
      match s.vert_edge.find e.second with
      | none => .error .nonmanifoldEdge
      | some idx =>
        .ok { vert_edge := s.vert_edge.erase e.second, startEdge := s.startEdge,
              thisEdge := idx, polys := polys }

/-- The `for (;;)` loop of `Assemble`; `none` when the fuel runs out. -/
def AssembleLoop (halfedges : List EdgeVerts) :
    Nat → AssembleState → Option (Except Err Polygons)
  | 0, _ => none
  | fuel + 1, s =>
    if s.thisEdge = s.startEdge then
      match s.vert_edge with
      | [] => some (.ok s.polys)
      | (_, idx) :: _ =>
        match AssembleBody halfedges
            { s with startEdge := idx, thisEdge := idx, polys := s.polys ++ [[]] } with
        | .error e => some (.error e)
        | .ok s1 => AssembleLoop halfedges fuel s1
    else
      match AssembleBody halfedges s with
      | .error e => some (.error e)
      | .ok s1 => AssembleLoop halfedges fuel s1

/-- The function `Assemble`, as far as the fuel goes: one pass of the loop for
each edge and one more to leave it. -/
def AssembleRun (halfedges : List EdgeVerts) : Option (Except Err Polygons) :=
  match buildVertEdge halfedges 0 [] with
  | .error e => some (.error e)
  | .ok vert_edge => AssembleLoop halfedges (halfedges.length + 1) ⟨vert_edge, 0, 0, []⟩

/-- The function `Assemble`. The fuel of `AssembleRun` never runs out
(`AssembleRun_terminates`), so the last case does not arise. -/
def Assemble (halfedges : List EdgeVerts) : Except Err Polygons :=
  match AssembleRun halfedges with
  | some r => r
  | none => .error .undefined

/-! ## Halfedge lists -/

/-- The loop `for (int i = 1; i < poly.size(); ++i)` of `Polygons2Edges`. -/
def polyEdges : SimplePolygon → List EdgeVerts
  | a :: b :: rest => ⟨a.idx, b.idx, a.nextEdge⟩ :: polyEdges (b :: rest)
  | _ => []

/-- The edges that `Polygons2Edges` appends for one polygon; `poly.back()` and
`poly[0]` are undefined for an empty polygon. -/
def polyLoopEdges (poly : SimplePolygon) : Except Err (List EdgeVerts) :=
  match poly.head?, poly.getLast? with
  | some h, some l => .ok (polyEdges poly ++ [⟨l.idx, h.idx, l.nextEdge⟩])
  | _, _ => .error .undefined

def Polygons2Edges : Polygons → Except Err (List EdgeVerts)
  | [] => .ok []
  | poly :: rest =>
    match polyLoopEdges poly with
    | .error e => .error e
    | .ok es =>
      match Polygons2Edges rest with
      | .error e => .error e
      | .ok more => .ok (es ++ more)

def Triangles2Edges (K : Edge) : List IVec3 → List EdgeVerts
  | [] => []
  | tri :: rest =>
    ⟨tri.x, tri.y, K.kInterior⟩ :: ⟨tri.y, tri.z, K.kInterior⟩ ::
      ⟨tri.z, tri.x, K.kInterior⟩ :: Triangles2Edges K rest

/-! ## Validators -/

def SharedEdge (K : Edge) (edges0 edges1 : Int × Int) : Bool :=
  (edges0.1 != K.kNoIdx && (edges0.1 == edges1.1 || edges0.1 == edges1.2)) ||
    (edges0.2 != K.kNoIdx && (edges0.2 == edges1.1 || edges0.2 == edges1.2))

/-- The comparator `cmp` of `CheckManifold`. -/
def cmp (a b : EdgeVerts) : Bool :=
  decide (a.first < b.first) || (a.first == b.first && decide (a.second < b.second))

/-- The call `std::sort(v.begin(), v.end(), cmp)`. -/
def sortEdges (v : List EdgeVerts) : List EdgeVerts :=
  v.insertionSort (fun a b => cmp b a = false)

/-- The lambda `std::swap(e.first, e.second)`. -/
def swapEnds (e : EdgeVerts) : EdgeVerts := ⟨e.second, e.first, e.edge⟩

/-- The two statements of `CheckManifold` that record tag `edge` at vertex
`vert`: emplace `(edge, kInvalid)`, and overwrite component 1 when the vertex
has an entry already. -/
def vert2edgesAdd (K : Edge) (m : Map (Int × Int)) (vert edge : Int) : Map (Int × Int) :=
  match Map.emplace m vert (edge, K.kInvalid) with
  | (m1, true) => m1
  | (_, false) => Map.update m vert (fun p => (p.1, edge))

/-- The loop of `CheckManifold` that fills `vert2edges`. -/
def buildVert2edges (K : Edge) : List EdgeVerts → Map (Int × Int) → Map (Int × Int)
  | [], m => m
  | halfedge :: rest, m =>
    if halfedge.edge = K.kInterior then buildVert2edges K rest m
    else
      buildVert2edges K rest
        (vert2edgesAdd K (vert2edgesAdd K m halfedge.first halfedge.edge)
          halfedge.second halfedge.edge)

/-- Body of the first `for (int i = 0; i < n_edges; ++i)` loop of
`CheckManifold`. -/
def matchBody (forward backward : List EdgeVerts) (i : Nat) : Except Err Unit :=
  match getI forward i, getI backward i with
  | .ok f, .ok b =>
    match ALWAYS_ASSERT (f.first == b.first && f.second == b.second)
        .forwardBackwardMismatch with
    | .error e => .error e
    | .ok _ =>
      if 0 < i then
        match getI forward ((i : Int) - 1), getI backward ((i : Int) - 1) with
        | .ok f0, .ok b0 =>
          match ALWAYS_ASSERT (f0.first != f.first || f0.second != f.second)
              .notTwoManifold with
          | .error e => .error e
          | .ok _ =>
            ALWAYS_ASSERT (b0.first != b.first || b0.second != b.second) .notTwoManifold
        | _, _ => .error .undefined
      else .ok ()
  | _, _ => .error .undefined

/-- Body of the second `for (int i = 0; i < n_edges; ++i)` loop of
`CheckManifold`; `find` of an absent vertex gives `end()`, whose dereference is
undefined. -/
def interfaceBody (K : Edge) (forward backward : List EdgeVerts)
    (vert2edges : Map (Int × Int)) (i : Nat) : Except Err Unit :=
  match getI forward i, getI backward i with
  | .ok f, .ok b =>
    if f.edge == K.kInterior && b.edge == K.kInterior then
      match vert2edges.find f.first, vert2edges.find f.second with
      | some TwoEdges0, some TwoEdges1 =>
        ALWAYS_ASSERT (!SharedEdge K TwoEdges0 TwoEdges1) .interfaceEdge
      | _, _ => .error .undefined
    else .ok ()
  | _, _ => .error .undefined

/-- The function `CheckManifold(halfedges)`. -/
def CheckManifold (K : Edge) (halfedges : List EdgeVerts) : Except Err Unit :=
  match ALWAYS_ASSERT (halfedges.length % 2 == 0) .oddHalfedges with
  | .error e => .error e
  | .ok _ =>
    let n_edges := halfedges.length / 2
    let forward := halfedges.filter (fun e => decide (e.second > e.first))
    match ALWAYS_ASSERT (forward.length == n_edges) .halfForward with
    | .error e => .error e
    | .ok _ =>
      let backward := halfedges.filter (fun e => decide (e.second < e.first))
      match ALWAYS_ASSERT (backward.length == n_edges) .halfBackward with
      | .error e => .error e
      | .ok _ =>
        let backward := backward.map swapEnds
        let forward := sortEdges forward
        let backward := sortEdges backward
        match forEach (matchBody forward backward) (List.range n_edges) with
        | .error e => .error e
        | .ok _ =>
          let vert2edges := buildVert2edges K halfedges []
          forEach (interfaceBody K forward backward vert2edges) (List.range n_edges)

/-- The function `CheckManifold(triangles, polys)`. -/
def CheckManifoldTP (K : Edge) (triangles : List IVec3) (polys : Polygons) :
    Except Err Unit :=
  match Polygons2Edges polys with
  | .error e => .error e
  | .ok openEdges => CheckManifold K (Triangles2Edges K triangles ++ openEdges.map swapEnds)

/-! ## Backup triangulator -/

def Next (i n : Int) : Int := if i + 1 ≥ n then 0 else i + 1

def Prev (i n : Int) : Int := if i - 1 < 0 then n - 1 else i - 1

/-- The pair `{poly[i].nextEdge, poly[j].nextEdge}`. -/
def edgePair (poly : SimplePolygon) (i j : Int) : Except Err (Int × Int) :=
  match getI poly i, getI poly j with
  | .ok a, .ok b => .ok (a.nextEdge, b.nextEdge)
  | _, _ => .error .undefined

/-- The local variables of `BackupTriangulate` inside the loop over one
polygon, with the output vector. -/
structure BackupState where
  start : Int
  stop : Int
  tri : IVec3
  startEdges : Int × Int
  endEdges : Int × Int
  forward : Bool
  triangles : List IVec3
  deriving DecidableEq

/-- The `if (SharedEdge(startEdges, endEdges))` block of `BackupTriangulate`
(`stop` is the variable `end`). -/
def BackupSwitch (poly : SimplePolygon) (s : BackupState) : Except Err BackupState :=
  let n : Int := poly.length
  let start := if s.forward then Prev s.start n else Next s.start n
  let stop := if s.forward then Prev s.stop n else Next s.stop n
  let corner := if s.forward then getI poly stop else getI poly start
  match corner with
  | .error e => .error e
  | .ok c =>
    let tri : IVec3 := if s.forward then ⟨c.idx, s.tri.x, s.tri.y⟩ else ⟨s.tri.y, s.tri.z, c.idx⟩
    match edgePair poly (start - 1) start, edgePair poly (stop - 1) stop with
    | .ok startEdges, .ok endEdges =>
      .ok { s with start := start, stop := stop, tri := tri, startEdges := startEdges,
                   endEdges := endEdges, forward := !s.forward }
    | _, _ => .error .undefined

/-- The rest of the loop body of `BackupTriangulate`: emit `tri`, then advance
one of the two cursors. -/
def BackupAdvance (poly : SimplePolygon) (s : BackupState) : Except Err BackupState :=
  let n : Int := poly.length
  let triangles := s.triangles ++ [s.tri]
  let forward := !s.forward
  if forward then
    let start := Next s.start n
    match edgePair poly (Prev start n) start, getI poly start with
    | .ok startEdges, .ok c =>
      .ok { s with start := start, startEdges := startEdges,
                   tri := ⟨s.tri.x, s.tri.z, c.idx⟩, forward := forward,
                   triangles := triangles }
    | _, _ => .error .undefined
  else
    let stop := Prev s.stop n
    match edgePair poly (Prev stop n) stop, getI poly stop with
    | .ok endEdges, .ok c =>
      .ok { s with stop := stop, endEdges := endEdges,
                   tri := ⟨c.idx, s.tri.x, s.tri.z⟩, forward := forward,
                   triangles := triangles }
    | _, _ => .error .undefined

/-- The `for (;;)` loop of `BackupTriangulate`; `none` when the fuel runs
out. -/
def BackupLoop (K : Edge) (poly : SimplePolygon) :
    Nat → BackupState → Option (Except Err (List IVec3))
  | 0, _ => none
  | fuel + 1, s =>
    if s.start = s.stop then some (.ok s.triangles)
    else
      let switched :=
        if SharedEdge K s.startEdges s.endEdges then BackupSwitch poly s else .ok s
      match switched with
      | .error e => some (.error e)
      | .ok s1 =>
        match BackupAdvance poly s1 with
        | .error e => some (.error e)
        | .ok s2 => BackupLoop K poly fuel s2

/-- The body of the loop over the polygons in `BackupTriangulate`. -/
def BackupPoly (K : Edge) (poly : SimplePolygon) (triangles : List IVec3) :
    Option (Except Err (List IVec3)) :=
  if poly.length < 3 then some (.ok triangles)
  else
    let start : Int := 1
    let stop : Int := (poly.length : Int) - 1
    match getI poly stop, getI poly 0, getI poly start,
        edgePair poly (start - 1) start, edgePair poly (stop - 1) stop with
    | .ok pe, .ok p0, .ok ps, .ok startEdges, .ok endEdges =>
      BackupLoop K poly poly.length
        ⟨start, stop, ⟨pe.idx, p0.idx, ps.idx⟩, startEdges, endEdges, false, triangles⟩
    | _, _, _, _, _ => some (.error .undefined)

/-- The function `BackupTriangulate`, as far as the fuel goes. -/
def BackupRun (K : Edge) : Polygons → List IVec3 → Option (Except Err (List IVec3))
  | [], triangles => some (.ok triangles)
  | poly :: rest, triangles =>
    match BackupPoly K poly triangles with
    | some (.ok t) => BackupRun K rest t
    | r => r

/-- The function `BackupTriangulate`. -/
def BackupTriangulate (K : Edge) (polys : Polygons) : Except Err (List IVec3) :=
  match BackupRun K polys [] with
  | some r => r
  | none => .error .undefined

/-! ## Monotone decomposer -/

structure VertAdj where
  pos : Vec2
  mesh_idx : Int
  right : Int
  left : Int
  across : Int
  merge : Bool
  sweep_order : Int
  deriving DecidableEq

def VertAdj.Processed (v : VertAdj) : Bool := decide (v.across ≥ 0)

inductive VertType where
  | START
  | END
  | RIGHTWARDS
  | LEFTWARDS
  | MERGE
  | SPLIT
  | REV_START
  deriving DecidableEq

/-- The assignment `v[i] = f(v[i])` on a `std::vector` at an `int` index. -/
def modifyI {α : Type} (v : List α) (i : Int) (f : α → α) : Except Err (List α) :=
  match getI v i with
  | .error e => .error e
  | .ok a => .ok (v.set i.toNat (f a))

namespace Monotones

/-- The member `monotones_`. -/
abbrev Verts := List VertAdj

def Vert (m : Verts) (idx : Int) : Except Err VertAdj := getI m idx

def Right (m : Verts) (v : VertAdj) : Except Err VertAdj := getI m v.right

def Left (m : Verts) (v : VertAdj) : Except Err VertAdj := getI m v.left

def Across (m : Verts) (v : VertAdj) : Except Err VertAdj := getI m v.across

def Num_verts (m : Verts) : Int := m.length

def Match (m : Verts) (idx1 idx2 : Int) : Except Err Verts := do
  let m ← modifyI m idx1 (fun v => { v with across := idx2 })
  modifyI m idx2 (fun v => { v with across := idx1 })

def Link (m : Verts) (left_idx right_idx : Int) : Except Err Verts := do
  let m ← modifyI m left_idx (fun v => { v with right := right_idx })
  modifyI m right_idx (fun v => { v with left := left_idx })

def Helper (m : Verts) (v_idx neighbor_idx : Int) : Except Err Int := do
  let helper_idx := (← Vert m neighbor_idx).across
  return if helper_idx = v_idx then neighbor_idx else helper_idx

def Duplicate (m : Verts) (v_idx : Int) : Except Err Verts := do
  let m ← modifyI m v_idx (fun v => { v with merge := true })
  let v_right_idx := Num_verts m
  let v ← Vert m v_idx
  let m := m ++ [v]
  let m ← modifyI m v.right (fun v => { v with left := v_right_idx })
  let v ← Vert m v_idx
  let m ←
    if v.Processed then do
      let r ← Right m v
      if r.Processed then do
        let m ← Match m v_right_idx v.across
        Match m v_idx v_idx
      else
        Match m v_right_idx v_right_idx
    else do
      let l ← Left m v
      let m ←
        if l.Processed then do
          let h ← Helper m v_idx v.left
          Match m v_idx h
        else
          modifyI m v_idx (fun v => { v with across := v_idx })
      let v ← Vert m v_idx
      let r ← Right m v
      if r.Processed then do
        let h ← Helper m v_idx v.right
        Match m v_right_idx h
      else
        modifyI m v_right_idx (fun v => { v with across := v_right_idx })
  Link m v_idx v_right_idx

def SplitVerts (m : Verts) (v_idx left_dupe_idx : Int) : Except Err (Verts × Int) := do
  let m ← modifyI m left_dupe_idx (fun v => { v with merge := false })
  let d ← Vert m left_dupe_idx
  let m ← modifyI m d.right (fun v => { v with merge := false })
  let newVert_idx := Num_verts m
  let v ← Vert m v_idx
  let m := m ++ [v]
  let n ← Vert m newVert_idx
  let m ← modifyI m n.left (fun v => { v with right := newVert_idx })
  let d ← Vert m left_dupe_idx
  let m ← Link m newVert_idx d.right
  let m ← Link m left_dupe_idx v_idx
  return (m, newVert_idx)

/-- The accumulators of the loop of `PositiveExteriorHelper`. -/
structure HelperAcc where
  best_x : F32
  helper_idx : Int
  winding : Int

/-- Body of the loop of `PositiveExteriorHelper`. -/
def PositiveExteriorStep (m : Verts) (v_idx : Int) (acc : HelperAcc) (i : Nat) :
    Except Err HelperAcc := do
  let vi ← Vert m i
  let li ← Left m vi
  let v ← Vert m v_idx
  if vi.Processed != li.Processed then
    let a := F32.div (F32.sub vi.pos.y v.pos.y) (F32.sub vi.pos.y li.pos.y)
    let x :=
      if F32.isnan a then F32.min vi.pos.x li.pos.x
      else
        let a := F32.max (F32.min a (.fin 1)) (.fin 0)
        F32.add (F32.mul (F32.sub (.fin 1) a) vi.pos.x) (F32.mul a li.pos.x)
    if F32.lt x v.pos.x then
      let winding := acc.winding + (if vi.Processed then 1 else -1)
      if vi.Processed && F32.lt acc.best_x x then
        return { best_x := x, helper_idx := i, winding := winding }
      else
        return { acc with winding := winding }
    else
      return acc
  else
    return acc

/-- The loop of `PositiveExteriorHelper` over the given indices. -/
def PositiveExteriorLoop (m : Verts) (v_idx : Int) : List Nat → HelperAcc → Except Err HelperAcc
  | [], acc => .ok acc
  | i :: rest, acc =>
    match PositiveExteriorStep m v_idx acc i with
    | .error e => .error e
    | .ok acc1 => PositiveExteriorLoop m v_idx rest acc1

def PositiveExteriorHelper (m : Verts) (v_idx : Int) : Except Err Int := do
  let acc ← PositiveExteriorLoop m v_idx (List.range m.length) ⟨.ninf, -1, 0⟩
  return if acc.winding = 1 then acc.helper_idx else -1

/-- The call `Match(a, Right(Vert(a)).across)`. -/
def MatchRightAcross (m : Verts) (a : Int) : Except Err Verts := do
  let v ← Vert m a
  let r ← Right m v
  Match m a r.across

/-- The call `Match(a, Vert(b).across)`. -/
def MatchAcrossOf (m : Verts) (a b : Int) : Except Err Verts := do
  let v ← Vert m b
  Match m a v.across

/-- The `Merge` branch of `ProcessVert`. -/
def ProcessMerge (m : Verts) (idx : Int) : Except Err Verts := do
  let m ← Duplicate m idx
  let v ← Vert m idx
  let a ← Across m v
  let m ←
    if a.merge then do
      let helper_idx := a.left
      let (m, _) ← SplitVerts m idx helper_idx
      MatchAcrossOf m idx helper_idx
    else pure m
  let v ← Vert m idx
  let r ← Right m v
  let a ← Across m r
  if a.merge then do
    let (m, newVert_idx) ← SplitVerts m v.right r.across
    MatchRightAcross m newVert_idx
  else pure m

/-- The `Split` branch of `ProcessVert`. -/
def ProcessSplit (m : Verts) (idx helper_idx : Int) : Except Err Verts := do
  let h ← Vert m helper_idx
  let a ← Across m h
  let helper_idx := if F32.lt h.pos.y a.pos.y then h.across else helper_idx
  let h ← Vert m helper_idx
  let m ← if !h.merge then Duplicate m helper_idx else pure m
  let (m, newVert_idx) ← SplitVerts m idx helper_idx
  let m ← MatchRightAcross m newVert_idx
  MatchAcrossOf m idx helper_idx

def ProcessVert (m : Verts) (idx : Int) : Except Err (Verts × VertType) := do
  let vert ← Vert m idx
  let right ← Right m vert
  if right.Processed then do
    let left ← Left m vert
    if left.Processed then do
      if right.across = vert.left then
        return (m, .END)
      else do
        let a ← Across m right
        if a.right = left.across && a.merge then do
          let (m, _) ← SplitVerts m idx right.across
          return (m, .END)
        else do
          let m ← ProcessMerge m idx
          return (m, .MERGE)
    else do
      let helper_idx ← Helper m idx vert.right
      let h ← Vert m helper_idx
      if h.merge then do
        let (m, newVert_idx) ← SplitVerts m idx helper_idx
        let m ← MatchRightAcross m newVert_idx
        return (m, .LEFTWARDS)
      else do
        let m ← Match m idx helper_idx
        return (m, .LEFTWARDS)
  else do
    let left ← Left m vert
    if left.Processed then do
      let helper_idx ← Helper m idx vert.left
      let h ← Vert m helper_idx
      if h.merge then do
        let helper_idx := h.left
        let (m, _) ← SplitVerts m idx helper_idx
        let m ← MatchAcrossOf m idx helper_idx
        return (m, .RIGHTWARDS)
      else do
        let m ← Match m idx helper_idx
        return (m, .RIGHTWARDS)
    else do
      if CCW vert.pos right.pos left.pos > 0 then do
        let m ← modifyI m idx (fun v => { v with across := idx })
        return (m, .START)
      else do
        let helper_idx ← PositiveExteriorHelper m idx
        if helper_idx ≥ 0 then do
          let m ← ProcessSplit m idx helper_idx
          return (m, .SPLIT)
        else do
          let m ← modifyI m idx (fun v => { v with across := idx })
          return (m, .REV_START)

/-- Body of the loop of `Check`. -/
def CheckBody (m : Verts) (i : Nat) : Except Err Unit := do
  let r ← getI m (← getI m i).right
  ALWAYS_ASSERT (r.right != i) .twoEdgeMonotone
  ALWAYS_ASSERT (r.left == i) .neighborsDisagree

/-- The vector `edges` that `Check` hands to `Assemble`. -/
def CheckEdges (K : Edge) (m : Verts) : List EdgeVerts :=
  m.enum.map (fun iv => ⟨iv.1, iv.2.right, K.kNoIdx⟩)

def Check (K : Edge) (m : Verts) : Except Err Unit := do
  forEach (CheckBody m) (List.range m.length)
  let _ ← Assemble (CheckEdges K m)
  return ()

/-- The vertices that the constructor appends for one polygon, the buffer
holding `start` vertices before. -/
def initPoly (poly : SimplePolygon) (start : Int) : List VertAdj :=
  poly.enum.map (fun ip =>
    ⟨ip.2.pos, ip.2.idx, Next ip.1 poly.length + start, Prev ip.1 poly.length + start,
      -1, false, -1⟩)

/-- The first loop of the constructor: the initial `monotones_`. -/
def initVerts : Polygons → Verts → Verts
  | [], m => m
  | poly :: rest, m => initVerts rest (m ++ initPoly poly (Num_verts m))

/-- The vector `sweep_line` of the constructor before it is sorted: the pair
`(pos.y, idx)` of every vertex, in buffer order. -/
def initSweepLine (m : Verts) : List (F32 × Int) :=
  m.enum.map (fun iv => (iv.2.pos.y, (iv.1 : Int)))

/-- The order `operator<` of `std::tuple<float, int>`. -/
def tupleLt (a b : F32 × Int) : Bool :=
  F32.lt a.1 b.1 || (!F32.lt b.1 a.1 && decide (a.2 < b.2))

/-- The sweep loop of the constructor, `i` being the loop counter. -/
def sweep : List (F32 × Int) → Int → Verts → VertType → Except Err (Verts × VertType)
  | [], _, m, v_type => .ok (m, v_type)
  | (_, idx) :: rest, i, m, _ =>
    match modifyI m idx (fun v => { v with sweep_order := i }) with
    | .error e => .error e
    | .ok m1 =>
      match ProcessVert m1 idx with
      | .error e => .error e
      | .ok (m2, v_type) => sweep rest (i + 1) m2 v_type

/-- The constructor `Monotones(polys)`; the value is the member `monotones_`,
which `GetMonotones` returns. -/
def Monotones (K : Edge) (polys : Polygons) : Except Err Verts := do
  let m := initVerts polys []
  let sweep_line := (initSweepLine m).insertionSort (fun a b => tupleLt b a = false)
  let (m, v_type) ← sweep sweep_line 0 m .START
  Check K m
  ALWAYS_ASSERT (v_type == .END) .didNotFinishWithEnd
  return m

end Monotones

/-! ## Monotone triangulator -/

/-- The members of `Triangulator` other than the reference to the buffer; the
head of `reflex_chain_` is the top of the stack. -/
structure Triangulator where
  reflex_chain_ : List Int
  other_side_ : Int
  triangles_output : Int
  onRight_ : Bool
  deriving DecidableEq

namespace Triangulator

/-- The constructor. It leaves `onRight_` unassigned: `garbage` is the value
that the member happens to hold. -/
def new (v_idx : Int) (garbage : Bool) : Triangulator :=
  { reflex_chain_ := [v_idx], other_side_ := v_idx, triangles_output := 0,
    onRight_ := garbage }

def NumTriangles (t : Triangulator) : Int := t.triangles_output

/-- The call `reflex_chain_.top()`. -/
def top (t : Triangulator) : Except Err Int :=
  match t.reflex_chain_ with
  | [] => .error .undefined
  | v :: _ => .ok v

def GetTop (monotones : List VertAdj) (t : Triangulator) : Except Err VertAdj := do
  getI monotones (← t.top)

def GetOther (monotones : List VertAdj) (t : Triangulator) : Except Err VertAdj :=
  getI monotones t.other_side_

def Attached (monotones : List VertAdj) (t : Triangulator) (v_idx : Int) : Except Err Int := do
  if t.onRight_ then do
    let o ← GetOther monotones t
    if o.left = v_idx then return -1
    else do
      let p ← GetTop monotones t
      if p.right = v_idx then return 1 else return 0
  else do
    let o ← GetOther monotones t
    if o.right = v_idx then return -1
    else do
      let p ← GetTop monotones t
      if p.left = v_idx then return 1 else return 0

/-- The triangle that `AddTriangle(triangles, v0, v1, v2)` appends. -/
def AddTriangle (onRight : Bool) (v0 v1 v2 : Int) : IVec3 :=
  if onRight then ⟨v0, v1, v2⟩ else ⟨v0, v2, v1⟩

/-- The variables that the two `while` loops of `ProcessVert` change. -/
structure ChainState where
  chain : List Int
  v_top_idx : Int
  triangles : List IVec3
  triangles_output : Int

/-- The `while` loop of the same-chain case, entered with the stack `chain`
(its top is `vj_idx`), `v_top` and `vj`. Every pass pops the stack, so the
recursion is on the stack. -/
def sameChain (monotones : List VertAdj) (vi : VertAdj) (onRight : Bool) :
    List Int → Int → VertAdj → VertAdj → List IVec3 → Int → Except Err ChainState
  | [], v_top_idx, _, _, triangles, n => .ok ⟨[], v_top_idx, triangles, n⟩
  | vj_idx :: rest, v_top_idx, v_top, vj, triangles, n =>
    if CCW vi.pos vj.pos v_top.pos != (if onRight then -1 else 1) then
      let triangles := triangles ++ [AddTriangle onRight vi.mesh_idx vj.mesh_idx v_top.mesh_idx]
      match rest with
      | [] => .ok ⟨[], vj_idx, triangles, n + 1⟩
      | vj_idx1 :: _ =>
        match getI monotones vj_idx1 with
        | .error e => .error e
        | .ok vj1 => sameChain monotones vi onRight rest vj_idx vj vj1 triangles (n + 1)
    else .ok ⟨vj_idx :: rest, v_top_idx, triangles, n⟩

/-- The `while (!reflex_chain_.empty())` loop of the opposite-chain case. -/
def otherChain (monotones : List VertAdj) (vi : VertAdj) (onRight : Bool) :
    List Int → VertAdj → List IVec3 → Int → Except Err (List IVec3 × Int)
  | [], _, triangles, n => .ok (triangles, n)
  | j :: rest, v_last, triangles, n =>
    match getI monotones j with
    | .error e => .error e
    | .ok vj =>
      otherChain monotones vi onRight rest vj
        (triangles ++ [AddTriangle onRight vi.mesh_idx v_last.mesh_idx vj.mesh_idx]) (n + 1)

/-- The method `ProcessVert`: whether the vertex was accepted, the
triangulator afterwards and the output vector afterwards. -/
def ProcessVert (monotones : List VertAdj) (t : Triangulator) (vi_idx : Int)
    (triangles : List IVec3) : Except Err (Bool × Triangulator × List IVec3) := do
  let attached ← Attached monotones t vi_idx
  if attached = 0 then return (false, t, triangles)
  else do
    let vi ← getI monotones vi_idx
    let v_top_idx ← t.top
    let v_top ← getI monotones v_top_idx
    if t.reflex_chain_.length < 2 then
      return (true, { t with reflex_chain_ := vi_idx :: t.reflex_chain_,
                             onRight_ := decide (vi.left = v_top_idx) }, triangles)
    else do
      let chain := t.reflex_chain_.tail
      let vj_idx ← top { t with reflex_chain_ := chain }
      let vj ← getI monotones vj_idx
      if attached = 1 then do
        let r ← sameChain monotones vi t.onRight_ chain v_top_idx v_top vj triangles
          t.triangles_output
        return (true, { t with reflex_chain_ := vi_idx :: r.v_top_idx :: r.chain,
                               triangles_output := r.triangles_output }, r.triangles)
      else do
        let onRight := !t.onRight_
        let (triangles, n) ← otherChain monotones vi onRight chain v_top triangles
          t.triangles_output
        return (true, { reflex_chain_ := [vi_idx, v_top_idx], other_side_ := v_top_idx,
                        triangles_output := n, onRight_ := onRight }, triangles)

end Triangulator

/-- The order `operator<` of `std::tuple<int, int>`. -/
def tupleLtInt (a b : Int × Int) : Bool :=
  decide (a.1 < b.1) || (!decide (b.1 < a.1) && decide (a.2 < b.2))

/-- The loop over `triangulators` in `TriangulateMonotones`: offer the vertex
to each in turn, stopping at the first that accepts it. The result is `none`
when none accepts (`found` stays false). -/
def dispatch (monotones : List VertAdj) (v_idx : Int) :
    List Triangulator → List IVec3 → Except Err (Option (List Triangulator × List IVec3))
  | [], _ => .ok none
  | t :: rest, triangles =>
    match Triangulator.ProcessVert monotones t v_idx triangles with
    | .error e => .error e
    | .ok (true, t1, triangles1) => .ok (some (t1 :: rest, triangles1))
    | .ok (false, _, _) =>
      match dispatch monotones v_idx rest triangles with
      | .error e => .error e
      | .ok none => .ok none
      | .ok (some (rest1, triangles1)) => .ok (some (t :: rest1, triangles1))

/-- The loop over the sorted `sweep_line` in `TriangulateMonotones`;
`garbage j` is the unassigned `onRight_` of the triangulator spawned as number
`j`. -/
def triangulateSweep (garbage : Nat → Bool) (monotones : List VertAdj) :
    List (Int × Int) → List Triangulator → List IVec3 →
      Except Err (List Triangulator × List IVec3)
  | [], triangulators, triangles => .ok (triangulators, triangles)
  | (_, v_idx) :: rest, triangulators, triangles =>
    match dispatch monotones v_idx triangulators triangles with
    | .error e => .error e
    | .ok (some (ts, triangles1)) => triangulateSweep garbage monotones rest ts triangles1
    | .ok none =>
      triangulateSweep garbage monotones rest
        (triangulators ++ [Triangulator.new v_idx (garbage triangulators.length)]) triangles

/-- The value of `triangles_left` after the validation loop. -/
def trianglesLeft (monotones : List VertAdj) (triangulators : List Triangulator) : Int :=
  triangulators.foldl (fun left t => left - 2 - t.NumTriangles) (monotones.length : Int)

def TriangulateMonotones (garbage : Nat → Bool) (monotones : List VertAdj)
    (triangles : List IVec3) : Except Err (List IVec3) := do
  let sweep_line :=
    (monotones.enum.map (fun iv => (iv.2.sweep_order, (iv.1 : Int)))).insertionSort
      (fun a b => tupleLtInt b a = false)
  let (triangulators, triangles) ← triangulateSweep garbage monotones sweep_line [] triangles
  ALWAYS_ASSERT (trianglesLeft monotones triangulators == 0) .wrongTriangleCount
  return triangles

/-! ## Entry points -/

def PrimaryTriangulate (K : Edge) (garbage : Nat → Bool) (polys : Polygons) :
    Except Err (List IVec3) := do
  let monotones ← Monotones.Monotones K polys
  TriangulateMonotones garbage monotones []

/-- The `try` block of `Triangulate` (`kWarning` is false, so `CheckFolded` is
not called). -/
def TriangulatePrimary (K : Edge) (garbage : Nat → Bool) (polys : Polygons) :
    Except Err (List IVec3) :=
  match PrimaryTriangulate K garbage polys with
  | .error e => .error e
  | .ok triangles =>
    match CheckManifoldTP K triangles polys with
    | .error e => .error e
    | .ok _ => .ok triangles

/-- The inner `try` block of `Triangulate`; its handler rethrows. -/
def TriangulateBackup (K : Edge) (polys : Polygons) : Except Err (List IVec3) :=
  match BackupTriangulate K polys with
  | .error e => .error e
  | .ok triangles =>
    match CheckManifoldTP K triangles polys with
    | .error e => .error e
    | .ok _ => .ok triangles

/-- The function `Triangulate`. The handler `catch (const std::exception &)`
takes every exception; undefined behaviour is not one. -/
def Triangulate (K : Edge) (garbage : Nat → Bool) (polys : Polygons) :
    Except Err (List IVec3) :=
  match TriangulatePrimary K garbage polys with
  | .ok triangles => .ok triangles
  | .error .undefined => .error .undefined
  | .error _ => TriangulateBackup K polys

/-! ## Definitions used by the statements -/

/-- The determinant `r` of the orientation predicate, on rational
coordinates. -/
def ccwDet (x0 y0 x1 y1 x2 y2 : ℚ) : ℚ := (x1 - x0) * (y2 - y0) - (y1 - y0) * (x2 - x0)

/-- The scale `N` of the orientation predicate, on rational coordinates. -/
def ccwNorm (x0 y0 x1 y1 x2 y2 : ℚ) : ℚ := |x0 * y0| + |x1 * y1| + |x2 * y2|

deriving instance DecidableEq for Except

/-- A choice of the three sentinel tags: distinct and negative, as the spec
requires of them. -/
def sampleTags : Edge := ⟨-1, -2, -3⟩

/-- The polygon with the given rational corners, identities `base, base + 1, …`
and no edge tags (`nextEdge = kNoIdx` of `sampleTags`). -/
def mkPoly (base : Int) (pts : List (ℚ × ℚ)) : SimplePolygon :=
  pts.enum.map (fun ip => ⟨Vec2.ofRat ip.2.1 ip.2.2, base + ip.1, sampleTags.kNoIdx⟩)

/-- The unit square `(0,0), (1,0), (1,1), (0,1)`. -/
def unitSquare : Polygons := [mkPoly 0 [(0, 0), (1, 0), (1, 1), (0, 1)]]

/-- Every triangulator starts with `onRight_` holding `false`. -/
def garbageFalse : Nat → Bool := fun _ => false

/-- The second stage of the two-stage reference: the backup triangles when
`BackupTriangulate` completes and they pass `CheckManifold`; otherwise the
error raised on the backup path. -/
def TriangulateRefBackup (K : Edge) (polys : Polygons) : Except Err (List IVec3) :=
  match BackupTriangulate K polys with
  | .ok backup =>
    match CheckManifoldTP K backup polys with
    | .ok _ => .ok backup
    | .error e => .error e
  | .error e => .error e

/-- The two-stage reference for `Triangulate`, in the words of the spec: the
primary triangles when `PrimaryTriangulate` completes and they pass
`CheckManifold`; otherwise the outcome of the second stage. -/
def TriangulateRef (K : Edge) (garbage : Nat → Bool) (polys : Polygons) :
    Except Err (List IVec3) :=
  match PrimaryTriangulate K garbage polys with
  | .ok primary =>
    if CheckManifoldTP K primary polys = .ok () then .ok primary
    else TriangulateRefBackup K polys
  | .error _ => TriangulateRefBackup K polys

/-- A degenerate polygon of two vertices, `(0,0), (1,0)`. -/
def twoGon : Polygons := [mkPoly 0 [(0, 0), (1, 0)]]

/-- The keys of a map, in iteration order. -/
def Map.keys {β : Type} (m : Map β) : List Int := m.map Prod.fst

/-- The keys of a map ascend strictly. -/
def Map.Ordered {β : Type} (m : Map β) : Prop := m.keys.Pairwise (· < ·)

/-- The `first` ids of an edge list, in order. -/
def firsts (E : List EdgeVerts) : List Int := E.map (fun e => e.first)

/-- The `second` ids of an edge list, in order. -/
def seconds (E : List EdgeVerts) : List Int := E.map (fun e => e.second)

/-- The entries that the first loop of `Assemble` emplaces for the edges `es`,
the first of them having offset `i`. -/
def vertEntries : List EdgeVerts → Int → List (Int × Int)
  | [], _ => []
  | e :: es, i => (e.first, i) :: vertEntries es (i + 1)

/-- The `second` id of the edge at offset `i`. -/
def secOf (E : List EdgeVerts) (i : Int) : Int :=
  match getI E i with
  | .ok e => e.second
  | .error _ => 0

/-- The `first` id of the edge at offset `i`. -/
def firstOf (E : List EdgeVerts) (i : Int) : Int :=
  match getI E i with
  | .ok e => e.first
  | .error _ => 0

/-- The ids that the loop of `Assemble` has yet to look up, counted from the
point where the loop body starts: the `second` of the current edge and those of
the edges still indexed, the start edge apart (it is looked up last). -/
def pendingBody (E : List EdgeVerts) (s : AssembleState) : List Int :=
  secOf E s.thisEdge ::
    (s.vert_edge.erase (firstOf E s.startEdge)).map (fun kv => secOf E kv.2)

/-- The ids that the loop of `Assemble` has yet to look up, at the top of the
loop. -/
def pending (E : List EdgeVerts) (s : AssembleState) : List Int :=
  if s.thisEdge = s.startEdge then s.vert_edge.map (fun kv => secOf E kv.2)
  else pendingBody E s

/-- What holds of the index at any point of `Assemble`. -/
structure IndexInv (E : List EdgeVerts) (m : Map Int) : Prop where
  ordered : m.Ordered
  valid : ∀ kv ∈ m, ∃ e, getI E kv.2 = .ok e ∧ e.first = kv.1

/-- What holds where the loop body of `Assemble` starts. -/
structure BodyInv (E : List EdgeVerts) (s : AssembleState) : Prop where
  index : IndexInv E s.vert_edge
  start : (firstOf E s.startEdge, s.startEdge) ∈ s.vert_edge
  this : ∃ e, getI E s.thisEdge = .ok e
  polys : s.polys ≠ []

/-- What holds at the top of the loop of `Assemble`. -/
structure LoopInv (E : List EdgeVerts) (s : AssembleState) : Prop where
  index : IndexInv E s.vert_edge
  mid : s.thisEdge ≠ s.startEdge → BodyInv E s

/-- The two end points `(first, second)` of a halfedge. -/
def ends (e : EdgeVerts) : Int × Int := (e.first, e.second)

/-- The end points of a halfedge as a key in lexicographic order, the order of
`cmp`. -/
def lexKey (e : EdgeVerts) : Int ×ₗ Int := toLex (e.first, e.second)

/-- The vector `forward` of `CheckManifold` after `copy_if` and `resize`. -/
def fwdEdges (H : List EdgeVerts) : List EdgeVerts :=
  H.filter (fun e => decide (e.second > e.first))

/-- The vector `backward` of `CheckManifold` after `copy_if` and `resize`. -/
def bwdEdges (H : List EdgeVerts) : List EdgeVerts :=
  H.filter (fun e => decide (e.second < e.first))

/-- A halfedge list is a 2-manifold edge set: no halfedge joins a vertex to
itself, no two halfedges have the same `(first, second)`, and the reverse of
every halfedge is present (hence exactly once). -/
def Manifold2 (H : List EdgeVerts) : Prop :=
  (∀ e ∈ H, e.first ≠ e.second) ∧ (H.map ends).Nodup ∧
    ∀ e ∈ H, (e.second, e.first) ∈ H.map ends

/-- The tags of the boundary (non-`kInterior`) halfedges at vertex `a`, one for
each end of such a halfedge that is `a`, in the order in which `CheckManifold`
records them. -/
def boundaryTags (K : Edge) : List EdgeVerts → Int → List Int
  | [], _ => []
  | h :: rest, a =>
    if h.edge = K.kInterior then boundaryTags K rest a
    else
      (if h.first = a then [h.edge] else []) ++ (if h.second = a then [h.edge] else []) ++
        boundaryTags K rest a

/-- Vertex `a` is incident to a boundary (non-`kInterior`) halfedge that
carries tag `t`. -/
def IncidentTag (K : Edge) (H : List EdgeVerts) (a t : Int) : Prop :=
  ∃ h ∈ H, h.edge ≠ K.kInterior ∧ h.edge = t ∧ (h.first = a ∨ h.second = a)

/-- No undirected edge with both halfedges tagged `kInterior` joins two
vertices that are incident to boundary halfedges carrying a common tag other
than `kNoIdx`. -/
def NoBridge (K : Edge) (H : List EdgeVerts) : Prop :=
  ∀ a b t : Int, (⟨a, b, K.kInterior⟩ : EdgeVerts) ∈ H → (⟨b, a, K.kInterior⟩ : EdgeVerts) ∈ H →
    IncidentTag K H a t → IncidentTag K H b t → t = K.kNoIdx

/-- What `vert2edges` holds for a vertex after the tags `ts` have been recorded
for it, one after the other, `o` being what it held before: the first tag stays
in component 0 and the latest one is in component 1. -/
def recordTags (K : Edge) : Option (Int × Int) → List Int → Option (Int × Int)
  | o, [] => o
  | none, t :: ts => recordTags K (some (t, K.kInvalid)) ts
  | some p, t :: ts => recordTags K (some (p.1, t)) ts

/-- The halfedges of the two triangles `(2,0,1), (3,0,2)` of the unit square
followed by its reversed boundary edges, which carry no tag. -/
def squareHalfedges : List EdgeVerts :=
  [⟨2, 0, -3⟩, ⟨0, 1, -3⟩, ⟨1, 2, -3⟩, ⟨3, 0, -3⟩, ⟨0, 2, -3⟩, ⟨2, 3, -3⟩,
   ⟨1, 0, -1⟩, ⟨2, 1, -1⟩, ⟨3, 2, -1⟩, ⟨0, 3, -1⟩]

/-- A halfedge list in which vertex `0` lies on four boundary halfedges, with
tags `1, 5, 5, 2` in this order, vertex `1` lies on two with tag `5`, and the
edge between `0` and `1` is interior. -/
def bridgeHalfedges : List EdgeVerts :=
  [⟨0, 1, -3⟩, ⟨1, 0, -3⟩, ⟨0, 2, 1⟩, ⟨0, 3, 5⟩, ⟨3, 0, 5⟩, ⟨2, 0, 2⟩, ⟨1, 4, 5⟩, ⟨4, 1, 5⟩]

/-- A triangle `(0,0), (2,0), (2,2)` with a fourth vertex `(1,1)` on its long
side (identities `0..3`; the two halves of the long side both carry the tag `5`,
the other sides the tags `1` and `2`), and a triangle `(0,0), (-2,0), (-2,-2)`
that touches it at vertex `0` (identities `0, 4, 5`, tags `6, 7, 8`). -/
def touchingPolys : Polygons :=
  [[⟨Vec2.ofRat 0 0, 0, 1⟩, ⟨Vec2.ofRat 2 0, 1, 2⟩, ⟨Vec2.ofRat 2 2, 2, 5⟩,
    ⟨Vec2.ofRat 1 1, 3, 5⟩],
   [⟨Vec2.ofRat 0 0, 0, 6⟩, ⟨Vec2.ofRat (-2) 0, 4, 7⟩, ⟨Vec2.ofRat (-2) (-2), 5, 8⟩]]

/-- A triangulation of `touchingPolys` whose second triangle lies flat on the
long side of the first polygon: its edge `0 – 2` joins two vertices of that
side. -/
def touchingTriangles : List IVec3 := [⟨0, 1, 2⟩, ⟨0, 2, 3⟩, ⟨0, 4, 5⟩]

/-- The halfedge list that `CheckManifold(triangles, polys)` builds for
`touchingTriangles` and `touchingPolys`. -/
def touchingHalfedges : List EdgeVerts :=
  [⟨0, 1, -3⟩, ⟨1, 2, -3⟩, ⟨2, 0, -3⟩, ⟨0, 2, -3⟩, ⟨2, 3, -3⟩, ⟨3, 0, -3⟩,
   ⟨0, 4, -3⟩, ⟨4, 5, -3⟩, ⟨5, 0, -3⟩,
   ⟨1, 0, 1⟩, ⟨2, 1, 2⟩, ⟨3, 2, 5⟩, ⟨0, 3, 5⟩, ⟨4, 0, 6⟩, ⟨5, 4, 7⟩, ⟨0, 5, 8⟩]

/-- The vertex that `Assemble` emits for `v`: same `idx` and `nextEdge`, the
position replaced by `glm::vec2(1.0f / 0.0f)`. -/
def toInf (v : PolyVert) : PolyVert := ⟨Vec2.inf, v.idx, v.nextEdge⟩

/-- The edges of a polygon read as a cycle: those of the path that runs
through the polygon and back to its first vertex. -/
def cycEdges (p : SimplePolygon) : List EdgeVerts := polyEdges (p ++ p.take 1)

/-- The index of `Assemble` after the given keys have been erased, one after
the other. -/
def eraseAll (M : Map Int) (ks : List Int) : Map Int := ks.foldl Map.erase M

/-- The loop of `Assemble`, entered where its body starts. -/
def AssembleFrom (E : List EdgeVerts) (fuel : Nat) (s : AssembleState) :
    Option (Except Err Polygons) :=
  match AssembleBody E s with
  | .error e => some (.error e)
  | .ok s1 => AssembleLoop E fuel s1

/-- The index `M` of `Assemble` holds exactly the edges of the loops `R`: each
edge of each loop is indexed under its `first` id, and every entry belongs to
some loop. -/
structure Rep (E : List EdgeVerts) (M : Map Int) (R : Polygons) : Prop where
  ordered : M.Ordered
  entries : ∀ p ∈ R, ∀ g ∈ cycEdges p, ∃ j, M.find g.first = some j ∧ getI E j = .ok g
  cover : ∀ kv ∈ M, ∃ p ∈ R, kv.1 ∈ p.map (fun v => v.idx)
  nodup : (R.flatten.map (fun v => v.idx)).Nodup
  nonempty : ∀ p ∈ R, p ≠ []

/-- The round trip as the spec states it: as many loops, and the i-th loop of
`Q` is a cyclic rotation of the i-th loop of `P`, vertex for vertex. -/
def RoundTrip (P Q : Polygons) : Prop :=
  List.Forall₂ (fun q p => ∃ k, q = p.rotate k) Q P

/-- The round trip up to the order of the loops and up to positions: the loops
of `Q` are, in some order, cyclic rotations of the loops of `P` with every
position replaced by the placeholder. -/
def RoundTripUpTo (P Q : Polygons) : Prop :=
  ∃ P1, List.Perm P1 P ∧ List.Forall₂ (fun q p => ∃ k, q = (p.rotate k).map toInf) Q P1

/-- Two disjoint triangles `(0,0), (1,0), (0,1)` and `(2,2), (3,2), (2,3)`, the
first with identities `5, 6, 7` and the second with `1, 2, 3`. -/
def twoTriangles : Polygons :=
  [mkPoly 5 [(0, 0), (1, 0), (0, 1)], mkPoly 1 [(2, 2), (3, 2), (2, 3)]]

/-- What `Assemble` returns for the edges of `twoTriangles`: the loop with the
smaller identities first, every position the placeholder. -/
def twoTrianglesAssembled : Polygons :=
  [[⟨Vec2.inf, 1, -1⟩, ⟨Vec2.inf, 2, -1⟩, ⟨Vec2.inf, 3, -1⟩],
   [⟨Vec2.inf, 5, -1⟩, ⟨Vec2.inf, 6, -1⟩, ⟨Vec2.inf, 7, -1⟩]]

/-- The identity of the vertex of `poly` at position `i`. -/
def vid (poly : SimplePolygon) (i : Nat) : Int :=
  match poly[i]? with
  | some v => v.idx
  | none => 0

/-- The triangle that extends the strip of `BackupTriangulate` at its start
cursor: the strip covers positions `e, …, n − 1, 0, …, s` and the triangle adds
position `s + 1`. -/
def triF (poly : SimplePolygon) (s e : Nat) : IVec3 :=
  ⟨vid poly e, vid poly s, vid poly (s + 1)⟩

/-- The triangle that extends the strip of `BackupTriangulate` at its end
cursor: it adds position `e − 1`. -/
def triB (poly : SimplePolygon) (s e : Nat) : IVec3 :=
  ⟨vid poly (e - 1), vid poly e, vid poly s⟩

/-- The triangles of a strip between positions `s` and `e`, one for each
choice of the cursor to move (`true` for the start cursor). -/
def strip (poly : SimplePolygon) : Nat → Nat → List Bool → List IVec3
  | _, _, [] => []
  | s, e, true :: cs => triF poly s e :: strip poly (s + 1) e cs
  | s, e, false :: cs => triB poly s e :: strip poly s (e - 1) cs

/-- The state of the loop of `BackupTriangulate` when the triangles `T` have
been emitted and the strip lies between positions `s` and `e`: the cursor that
moved last is one step ahead and `tri` is the triangle that adds its vertex. -/
structure Corr (poly : SimplePolygon) (st : BackupState) (s e : Nat) (T : List IVec3) :
    Prop where
  low : 1 ≤ s
  lt : s < e
  high : e + 1 ≤ poly.length
  triangles : st.triangles = T
  fwd : st.forward = true → st.start = (s : Int) + 1 ∧ st.stop = e ∧ st.tri = triF poly s e
  bwd : st.forward = false → st.start = s ∧ st.stop = (e : Int) - 1 ∧ st.tri = triB poly s e

/-- The triangles of a strip as triples of positions. -/
def stripIdx : Nat → Nat → List Bool → List (Nat × Nat × Nat)
  | _, _, [] => []
  | s, e, true :: cs => (e, s, s + 1) :: stripIdx (s + 1) e cs
  | s, e, false :: cs => (e - 1, e, s) :: stripIdx s (e - 1) cs

/-- The halfedges of triangles given as triples of positions. -/
def hedgesIdx : List (Nat × Nat × Nat) → List (Nat × Nat)
  | [] => []
  | t :: ts => (t.1, t.2.1) :: (t.2.1, t.2.2) :: (t.2.2, t.1) :: hedgesIdx ts

/-- The diagonals inside a strip, each from the end cursor to the start
cursor, as pairs of positions. -/
def fronts : Nat → Nat → List Bool → List (Nat × Nat)
  | _, _, [] => []
  | _, _, [_] => []
  | s, e, true :: c :: cs => (e, s + 1) :: fronts (s + 1) e (c :: cs)
  | s, e, false :: c :: cs => (e - 1, s) :: fronts s (e - 1) (c :: cs)

/-- The boundary edges between positions `s` and `e`, as pairs of positions:
`(s, s + 1), …, (e − 1, e)`. -/
def pathIdx (s e : Nat) : List (Nat × Nat) :=
  (List.range (e - s)).map (fun i => (s + i, s + i + 1))

/-- The end points of a pair of positions. -/
def vp (poly : SimplePolygon) (x : Nat × Nat) : Int × Int := (vid poly x.1, vid poly x.2)

/-- The triangles of one polygon that `BackupTriangulate` emits when it never
switches on the first pass: the corner at vertex `0`, then a strip between
positions `1` and `n − 1`, advancing the start cursor where `cs` says `true`
and the end cursor where it says `false`. -/
def fan (poly : SimplePolygon) (cs : List Bool) : List IVec3 :=
  ⟨vid poly (poly.length - 1), vid poly 0, vid poly 1⟩ :: strip poly 1 (poly.length - 1) cs

/-- The boundary of a polygon of `n` vertices as pairs of positions. -/
def bndIdx (n : Nat) : List (Nat × Nat) := pathIdx 0 (n - 1) ++ [(n - 1, 0)]

/-- The diagonals of a fan over `n` vertices as pairs of positions. -/
def diagIdx (n : Nat) : List Bool → List (Nat × Nat)
  | [] => []
  | c :: cs => (n - 1, 1) :: fronts 1 (n - 1) (c :: cs)

/-- The halfedges of a triangulated polygon together with its reversed
boundary, as pairs of positions: the boundary and every diagonal, each in both
directions. -/
def meshIdx (n : Nat) (cs : List Bool) : List (Nat × Nat) :=
  bndIdx n ++ diagIdx n cs ++ (diagIdx n cs).map Prod.swap ++ (bndIdx n).map Prod.swap

/-- The halfedges of the triangles of polygon `p` with choices `cs`, followed by
the reversed boundary edges of `p`. -/
def fanEdges (K : Edge) (p : SimplePolygon) (cs : List Bool) : List EdgeVerts :=
  Triangles2Edges K (fan p cs) ++ (cycEdges p).map swapEnds

/-- A convex pentagon `(0,0), (2,0), (3,2), (1,3), (-1,2)` with identities
`0..4`. -/
def pentagon : Polygons := [mkPoly 0 [(0, 0), (2, 0), (3, 2), (1, 3), (-1, 2)]]

/-- Vertex `a` is the first end of a boundary (non-`kInterior`) halfedge of `H`
and the second end of one. -/
def OnBoundary (K : Edge) (H : List EdgeVerts) (a : Int) : Prop :=
  (∃ h ∈ H, h.edge ≠ K.kInterior ∧ h.first = a) ∧ ∃ h ∈ H, h.edge ≠ K.kInterior ∧ h.second = a

/-- Two triangulators agree except, possibly, in the `onRight_` of one that
still holds only its seed (where the member has not been assigned yet). -/
def Triangulator.Agree (t u : Triangulator) : Prop :=
  t.reflex_chain_ = u.reflex_chain_ ∧ t.other_side_ = u.other_side_ ∧
    t.triangles_output = u.triangles_output ∧
    (t.onRight_ = u.onRight_ ∨ t.reflex_chain_ = [t.other_side_])

/-- Renumber the mesh identity of a sweep vertex. -/
def VertAdj.relabel (f : Int → Int) (v : VertAdj) : VertAdj := { v with mesh_idx := f v.mesh_idx }

/-- Renumber the vertices of a triangle. -/
def IVec3.relabel (f : Int → Int) (t : IVec3) : IVec3 := ⟨f t.x, f t.y, f t.z⟩

/-- Renumber the identity of a polygon vertex by `f` and replace its edge tag
by `g`; the position stays. -/
def PolyVert.relabel (f g : Int → Int) (v : PolyVert) : PolyVert :=
  ⟨v.pos, f v.idx, g v.nextEdge⟩

/-- The square with a square hole: outer loop `(0,0), (3,0), (3,3), (0,3)`
(counter-clockwise), inner loop `(1,1), (1,2), (2,2), (2,1)` (clockwise). The
vertex at place `i` of this listing has identity `a i`; no edge carries a tag
(`nextEdge = kNoIdx`). -/
def holeSquare (K : Edge) (a : Nat → Int) : Polygons :=
  [[⟨Vec2.ofRat 0 0, a 0, K.kNoIdx⟩, ⟨Vec2.ofRat 3 0, a 1, K.kNoIdx⟩,
    ⟨Vec2.ofRat 3 3, a 2, K.kNoIdx⟩, ⟨Vec2.ofRat 0 3, a 3, K.kNoIdx⟩],
   [⟨Vec2.ofRat 1 1, a 4, K.kNoIdx⟩, ⟨Vec2.ofRat 1 2, a 5, K.kNoIdx⟩,
    ⟨Vec2.ofRat 2 2, a 6, K.kNoIdx⟩, ⟨Vec2.ofRat 2 1, a 7, K.kNoIdx⟩]]

/-- The triangles of the square with a square hole, by the places of their
vertices, in the order in which the primary triangulator emits them. -/
def holeIdx : List (Nat × Nat × Nat) :=
  [(4, 0, 1), (7, 4, 1), (5, 0, 4), (6, 7, 1), (2, 5, 6), (2, 6, 1), (3, 5, 2), (3, 0, 5)]

/-- The triangles of the square with a square hole whose vertices have the
identities `a`. -/
def holeTriangles (a : Nat → Int) : List IVec3 :=
  holeIdx.map (fun t => ⟨a t.1, a t.2.1, a t.2.2⟩)

/-- The boundary edges of the square with a square hole, reversed, by the
places of their ends. -/
def holeBoundaryIdx : List (Nat × Nat) :=
  [(1, 0), (2, 1), (3, 2), (0, 3), (5, 4), (6, 5), (7, 6), (4, 7)]

/-- The identities `0, 1, 2, …`. -/
def natIds : Nat → Int := fun i => (i : Int)

/-- The collinear-spike polygon `(0,0), (2,0), (2,0.000001), (0,0.000001)`, a
near-degenerate rectangle, with identities `0..3`. -/
def spike : Polygons :=
  [mkPoly 0 [(0, 0), (2, 0), (2, 1 / 1000000), (0, 1 / 1000000)]]

/-- The four triples of cyclically consecutive corners of the collinear-spike
polygon. -/
def spikeTriples : List (Vec2 × Vec2 × Vec2) :=
  [(Vec2.ofRat 0 0, Vec2.ofRat 2 0, Vec2.ofRat 2 (1 / 1000000)),
   (Vec2.ofRat 2 0, Vec2.ofRat 2 (1 / 1000000), Vec2.ofRat 0 (1 / 1000000)),
   (Vec2.ofRat 2 (1 / 1000000), Vec2.ofRat 0 (1 / 1000000), Vec2.ofRat 0 0),
   (Vec2.ofRat 0 (1 / 1000000), Vec2.ofRat 0 0, Vec2.ofRat 2 0)]

/-- The errors that the spec lists as logic errors: those of the monotone
decomposer and of the monotone triangulator. -/
def Err.isLogic : Err → Bool
  | .twoEdgeMonotone => true
  | .neighborsDisagree => true
  | .didNotFinishWithEnd => true
  | .wrongTriangleCount => true
  | _ => false

/-- A triangle `(0,0), (1,0), (0,1)` with identities `0, 1, 2` whose three edges
carry the tags `0, 1, 2`. -/
def taggedTriangle : Polygons :=
  [[⟨Vec2.ofRat 0 0, 0, 0⟩, ⟨Vec2.ofRat 1 0, 1, 1⟩, ⟨Vec2.ofRat 0 1, 2, 2⟩]]

/-- The sorted vector `sweep_line` of `TriangulateMonotones`. -/
def sweepLine (monotones : List VertAdj) : List (Int × Int) :=
  (monotones.enum.map (fun iv => (iv.2.sweep_order, (iv.1 : Int)))).insertionSort
    (fun a b => tupleLtInt b a = false)

/-- The sum of the counters `triangles_output` of the triangulators. -/
def outputSum (ts : List Triangulator) : Int := (ts.map (fun t => t.triangles_output)).sum

/-- The pointer `right` of the sweep vertex at index `j` (`0` past the end of
the buffer). -/
def rightOf (m : List VertAdj) (j : Nat) : Int :=
  match m[j]? with
  | some v => v.right
  | none => 0

/-- The pointer `left` of the sweep vertex at index `j` (`0` past the end of
the buffer). -/
def leftOf (m : List VertAdj) (j : Nat) : Int :=
  match m[j]? with
  | some v => v.left
  | none => 0

/-- The pointer `across` of the sweep vertex at index `j` (`0` past the end of
the buffer). -/
def acrossOf (m : List VertAdj) (j : Nat) : Int :=
  match m[j]? with
  | some v => v.across
  | none => 0

/-- The doubly-linked invariant of the sweep-vertex buffer: for every sweep
vertex `v`, the pointers `right[v]` and `left[v]` are indices of the buffer,
`left[right[v]] = v` and `right[left[v]] = v`. -/
def Linked (m : List VertAdj) : Prop :=
  ∀ i, i < m.length →
    0 ≤ rightOf m i ∧ rightOf m i < m.length ∧ 0 ≤ leftOf m i ∧ leftOf m i < m.length ∧
      leftOf m (rightOf m i).toNat = i ∧ rightOf m (leftOf m i).toNat = i

/-- The doubly-linked invariant on pointer tables: `R` and `L` map `0..N−1`
into itself and each undoes the other. -/
def LinkedFn (R L : Nat → Int) (N : Nat) : Prop :=
  (∀ i, i < N → 0 ≤ R i ∧ R i < N ∧ 0 ≤ L i ∧ L i < N) ∧
    ∀ i j, i < N → j < N → (R i = j ↔ L j = i)

/-- Two buffers have the same size and the same `right` and `left`
pointers. -/
def SameLinks (m m1 : List VertAdj) : Prop :=
  m1.length = m.length ∧ rightOf m1 = rightOf m ∧ leftOf m1 = leftOf m

/-- The computation raises no exception; what can go wrong in it is a read or
write outside a vector only. -/
structure Undef {α : Type} (x : Except Err α) : Prop where
  out : ∀ e, x = .error e → e = .undefined

/-- The sweep vertex at index `j` of the buffer is processed: `across ≥ 0`. -/
def Marked (j : Nat) (m : List VertAdj) : Prop := j < m.length ∧ 0 ≤ acrossOf m j

/-- The property `P` of the buffer is kept by the four ways in which the
decomposer changes it apart from the links: an assignment to a member other
than `across`, a `push_back`, `Match`, and the marking of a vertex with its own
index. -/
structure AcrossInv (P : List VertAdj → Prop) : Prop where
  write : ∀ m i f m1, modifyI m i f = .ok m1 → (∀ a : VertAdj, (f a).across = a.across) →
    P m → P m1
  push : ∀ m v, P m → P (m ++ [v])
  mtch : ∀ m a b m1, Monotones.Match m a b = .ok m1 → P m → P m1
  mark : ∀ m a m1, modifyI m a (fun v => { v with across := a }) = .ok m1 → P m → P m1

/-- The sweep loop of the constructor together with the values that `v_type`
takes in it, one for each vertex of the sweep line, in order. -/
def Monotones.sweepEvents :
    List (F32 × Int) → Int → Monotones.Verts → Except Err (Monotones.Verts × List VertType)
  | [], _, m => .ok (m, [])
  | (_, idx) :: rest, i, m =>
    match modifyI m idx (fun v => { v with sweep_order := i }) with
    | .error e => .error e
    | .ok m1 =>
      match Monotones.ProcessVert m1 idx with
      | .error e => .error e
      | .ok (m2, v_type) =>
        match Monotones.sweepEvents rest (i + 1) m2 with
        | .error e => .error e
        | .ok (m3, l) => .ok (m3, v_type :: l)

/-- The buffer that the constructor returns for the unit square. -/
def unitSquareMonotones : List VertAdj :=
  [⟨Vec2.ofRat 0 0, 0, 1, 3, 2, false, 0⟩, ⟨Vec2.ofRat 1 0, 1, 2, 0, 0, false, 1⟩,
   ⟨Vec2.ofRat 1 1, 2, 3, 1, 0, false, 2⟩, ⟨Vec2.ofRat 0 1, 3, 0, 2, -1, false, 3⟩]

/-! ## Fold check -/

/-- The statement `vertPos[key] = pos` on a `std::map<int, glm::vec2>`. -/
def vertPosSet (m : Map Vec2) (key : Int) (pos : Vec2) : Map Vec2 :=
  match Map.emplace m key pos with
  | (m1, true) => m1
  | (_, false) => Map.update m key (fun _ => pos)

/-- The read `vertPos[key]`; `operator[]` gives a value-initialised vector for
a key that is absent. -/
def vertPosGet (m : Map Vec2) (key : Int) : Vec2 :=
  match m.find key with
  | some p => p
  | none => Vec2.ofRat 0 0

/-- The three halfedges that `CheckFolded` pushes for each triangle, the third
component being the opposite vertex. -/
def foldedTriEdges : List IVec3 → List IVec3
  | [] => []
  | tri :: rest =>
    ⟨tri.x, tri.y, tri.z⟩ :: ⟨tri.y, tri.z, tri.x⟩ :: ⟨tri.z, tri.x, tri.y⟩ ::
      foldedTriEdges rest

/-- The loop `for (int i = 1; i < poly.size(); ++i)` of `CheckFolded`: the
halfedges `{poly[i].idx, poly[i - 1].idx, -1}`, in order. -/
def foldedPolyEdges : SimplePolygon → List IVec3
  | a :: b :: rest => ⟨b.idx, a.idx, -1⟩ :: foldedPolyEdges (b :: rest)
  | _ => []

/-- The body of the loop of `CheckFolded` over the polygons; `poly[0]` and
`poly.back()` are undefined for an empty polygon. -/
def foldedPolys : Polygons → List IVec3 → Map Vec2 → Except Err (List IVec3 × Map Vec2)
  | [], halfedges, vertPos => .ok (halfedges, vertPos)
  | poly :: rest, halfedges, vertPos =>
    match poly.head?, poly.getLast? with
    | some h, some l =>
      foldedPolys rest (halfedges ++ foldedPolyEdges poly ++ [⟨h.idx, l.idx, -1⟩])
        (poly.foldl (fun m v => vertPosSet m v.idx v.pos) vertPos)
    | _, _ => .error .undefined

/-- The call `std::copy_if` into a vector of `n` value-initialised elements:
writing more than `n` elements is undefined, and the elements not written stay
zero. -/
def copyIf (halfedges : List IVec3) (n : Nat) (p : IVec3 → Bool) : Except Err (List IVec3) :=
  let sel := halfedges.filter p
  if sel.length ≤ n then .ok (sel ++ List.replicate (n - sel.length) ⟨0, 0, 0⟩)
  else .error .undefined

/-- The comparator `cmp` of `CheckFolded`. -/
def cmp3 (a b : IVec3) : Bool :=
  decide (a.x < b.x) || (a.x == b.x && decide (a.y < b.y))

/-- The call `std::sort(v.begin(), v.end(), cmp)` of `CheckFolded`. -/
def sortHalfedges (v : List IVec3) : List IVec3 :=
  v.insertionSort (fun a b => cmp3 b a = false)

/-- Body of the last loop of `CheckFolded`. -/
def foldedBody (forward backward : List IVec3) (vertPos : Map Vec2) (i : Nat) :
    Except Err Unit :=
  match getI forward i, getI backward i with
  | .ok f, .ok b =>
    if f.z ≥ 0 ∧ b.z ≥ 0 then
      let origin := vertPosGet vertPos f.x
      let edge := vertPosGet vertPos f.y
      let vL := vertPosGet vertPos f.z
      let vR := vertPosGet vertPos b.z
      let CCWL := CCW origin vL edge
      let CCWR := CCW origin edge vR
      ALWAYS_ASSERT (decide (CCWL * CCWR ≥ 0)) .folded
    else .ok ()
  | _, _ => .error .undefined

/-- The function `CheckFolded`. -/
def CheckFolded (triangles : List IVec3) (polys : Polygons) : Except Err Unit :=
  match foldedPolys polys (foldedTriEdges triangles) [] with
  | .error e => .error e
  | .ok (halfedges, vertPos) =>
    let n_edges := halfedges.length / 2
    match copyIf halfedges n_edges (fun e => decide (e.y > e.x)),
        copyIf halfedges n_edges (fun e => decide (e.y < e.x)) with
    | .ok forward, .ok backward =>
      let backward := backward.map (fun e => (⟨e.y, e.x, e.z⟩ : IVec3))
      let forward := sortHalfedges forward
      let backward := sortHalfedges backward
      forEach (foldedBody forward backward vertPos) (List.range n_edges)
    | _, _ => .error .undefined

/-! ## Definitions used by the statements on orientation and folding -/

/-- Twice the signed area of the triangle `a, b, c`. -/
def orient2 (a b c : ℚ × ℚ) : ℚ := (b.1 - a.1) * (c.2 - a.2) - (b.2 - a.2) * (c.1 - a.1)

/-- The point `p` lies on the closed segment `ab`. -/
def onSegment (a b p : ℚ × ℚ) : Bool :=
  decide (orient2 a b p = 0 ∧ min a.1 b.1 ≤ p.1 ∧ p.1 ≤ max a.1 b.1 ∧
    min a.2 b.2 ≤ p.2 ∧ p.2 ≤ max a.2 b.2)

/-- The closed segments `ab` and `cd` have a point in common: they cross, or an
end of one lies on the other. -/
def segmentsMeet (a b c d : ℚ × ℚ) : Bool :=
  decide (orient2 a b c * orient2 a b d < 0 ∧ orient2 c d a * orient2 c d b < 0) ||
    onSegment a b c || onSegment a b d || onSegment c d a || onSegment c d b

/-- The edges of the closed polygon with the corners `pts`, in order. -/
def ringEdges (pts : List (ℚ × ℚ)) : List ((ℚ × ℚ) × (ℚ × ℚ)) := pts.zip (pts.rotate 1)

/-- The polygon with the corners `pts` is simple: two consecutive edges are not
collinear, so they share their common corner only, and two edges that are not
consecutive have no point in common. -/
def simplePolygon (pts : List (ℚ × ℚ)) : Bool :=
  (ringEdges pts).enum.all fun ie =>
    (ringEdges pts).enum.all fun jf =>
      if ie.1 = jf.1 then true
      else if jf.1 = (ie.1 + 1) % pts.length then decide (orient2 ie.2.1 ie.2.2 jf.2.2 ≠ 0)
      else if ie.1 = (jf.1 + 1) % pts.length then true
      else !segmentsMeet ie.2.1 ie.2.2 jf.2.1 jf.2.2

/-- Twice the signed area of the polygon with the corners `pts`; it is positive
when the corners run counter-clockwise. -/
def area2 (pts : List (ℚ × ℚ)) : ℚ :=
  ((ringEdges pts).map (fun e => e.1.1 * e.2.2 - e.2.1 * e.1.2)).sum

/-- The position of the polygon vertex with identity `i`. -/
def posOf (polys : Polygons) (i : Int) : Vec2 :=
  match polys.flatten.find? (fun v => v.idx == i) with
  | some v => v.pos
  | none => Vec2.ofRat 0 0

/-- The corners of a hexagon with two notches, at `(4,2)` and at `(4,5)`, and
no two corners at the same height. -/
def notchedPts : List (ℚ × ℚ) := [(1, 6), (4, 2), (2, 3), (4, 1), (6, 7), (4, 5)]

/-- The notched hexagon, with identities `0..5` and no edge tags. -/
def notched : Polygons := [mkPoly 0 notchedPts]

/-- The triangles that `Triangulate` returns for the notched hexagon. -/
def notchedTriangles : List IVec3 := [⟨5, 0, 1⟩, ⟨5, 1, 2⟩, ⟨4, 5, 2⟩, ⟨4, 2, 3⟩]

/-- The buffer of the decomposer on the notched hexagon after the first three
events: vertex 3 `START`, vertex 1 `SPLIT` (with the copies 6 of vertex 3 and 7
of vertex 1), vertex 2 `END`. -/
def notchedSwept : List VertAdj :=
  [⟨Vec2.ofRat 1 6, 0, 7, 5, -1, false, -1⟩, ⟨Vec2.ofRat 4 2, 1, 2, 3, 3, false, 1⟩,
   ⟨Vec2.ofRat 2 3, 2, 3, 1, -1, false, 2⟩, ⟨Vec2.ofRat 4 1, 3, 1, 2, 1, false, 0⟩,
   ⟨Vec2.ofRat 6 7, 4, 5, 6, -1, false, -1⟩, ⟨Vec2.ofRat 4 5, 5, 0, 4, -1, false, -1⟩,
   ⟨Vec2.ofRat 4 1, 3, 4, 7, 7, false, 0⟩, ⟨Vec2.ofRat 4 2, 1, 6, 0, 6, false, 1⟩]

/-- The corners of a hexagon with three corners at the same height `y = 2`. -/
def tiedPts : List (ℚ × ℚ) := [(0, 3), (0, 2), (1, 2), (1, 0), (3, 3), (2, 2)]

/-- The hexagon `tiedPts`, with identities `0..5` and no edge tags. -/
def tied : Polygons := [mkPoly 0 tiedPts]

/-- The triangles that the primary triangulator returns for `tied`. -/
def tiedTriangles : List IVec3 := [⟨5, 1, 2⟩, ⟨0, 1, 5⟩, ⟨4, 5, 2⟩, ⟨4, 2, 3⟩]

/-- The two-peaks polygon `(0,0), (4,0), (4,3), (3,2), (2,3), (1,2), (0,3)`,
with identities `0..6` and no edge tags. -/
def twoPeaks : Polygons := [mkPoly 0 [(0, 0), (4, 0), (4, 3), (3, 2), (2, 3), (1, 2), (0, 3)]]

/-- The triangles that `Triangulate` returns for the two-peaks polygon. -/
def twoPeaksTriangles : List IVec3 :=
  [⟨3, 0, 1⟩, ⟨5, 0, 3⟩, ⟨2, 3, 1⟩, ⟨4, 5, 3⟩, ⟨6, 0, 5⟩]

/-- The `Split` branch of `ProcessVert` for the vertex `idx` with the helper
`helper_idx` that is not a merge vertex: `Duplicate` the helper, split, and
match twice. -/
def splitByDuplicate (m : Monotones.Verts) (idx helper_idx : Int) :
    Except Err (Monotones.Verts × VertType) := do
  let m ← Monotones.Duplicate m helper_idx
  let (m, newVert_idx) ← Monotones.SplitVerts m idx helper_idx
  let m ← Monotones.MatchRightAcross m newVert_idx
  let m ← Monotones.MatchAcrossOf m idx helper_idx
  return (m, .SPLIT)

/-! ## Same-chain case of the triangulator, in the words of the specification -/

/-- The quadrilateral `(0,0), (1,3), (0,2), (−1,1)`, whose left chain is
`0, 3, 2`. -/
def kite : Polygons := [mkPoly 0 [(0, 0), (1, 3), (0, 2), (-1, 1)]]

/-- The buffer that the constructor returns for `kite`. -/
def kiteMonotones : List VertAdj :=
  [⟨Vec2.ofRat 0 0, 0, 1, 3, 2, false, 0⟩, ⟨Vec2.ofRat 1 3, 1, 2, 0, -1, false, 3⟩,
   ⟨Vec2.ofRat 0 2, 2, 3, 1, 0, false, 2⟩, ⟨Vec2.ofRat (-1) 1, 3, 0, 2, 0, false, 1⟩]

/-- The quadrilateral `(0,0), (1,3), (−∞,2), (0,1)`: a left chain `0, 3, 2`
with a corner whose `x` is the float `−∞`. -/
def leftInf : Polygons :=
  [[⟨Vec2.ofRat 0 0, 0, sampleTags.kNoIdx⟩, ⟨Vec2.ofRat 1 3, 1, sampleTags.kNoIdx⟩,
    ⟨⟨.ninf, .fin 2⟩, 2, sampleTags.kNoIdx⟩, ⟨Vec2.ofRat 0 1, 3, sampleTags.kNoIdx⟩]]

/-- The buffer that the constructor returns for `leftInf`. -/
def leftInfMonotones : List VertAdj :=
  [⟨Vec2.ofRat 0 0, 0, 1, 3, 2, false, 0⟩, ⟨Vec2.ofRat 1 3, 1, 2, 0, -1, false, 3⟩,
   ⟨⟨.ninf, .fin 2⟩, 2, 3, 1, 0, false, 2⟩, ⟨Vec2.ofRat 0 1, 3, 0, 2, 0, false, 1⟩]


/-- The test of the same-chain loop in the words of the specification: emit
while `ccw(vi, vj, v_top) ≠ (onRight ? −1 : +1)`. -/
def emitWhile (onRight : Bool) (vi vj v_top : VertAdj) : Bool :=
  CCW vi.pos vj.pos v_top.pos != (if onRight then -1 else 1)

/-- The pairs `(vj, v_top)` of neighbours down a reflex chain with the top
`v_top` and the vertices `vs` below it. -/
def chainPairs (v_top : VertAdj) (vs : List VertAdj) : List (VertAdj × VertAdj) :=
  vs.zip (v_top :: vs)

/-- The pairs `(vj, v_top)` for which the specification emits a triangle: the
longest prefix of the pairs down the chain on which the test holds. -/
def sameChainEmitted (onRight : Bool) (vi v_top : VertAdj) (vs : List VertAdj) :
    List (VertAdj × VertAdj) :=
  (chainPairs v_top vs).takeWhile (fun p => emitWhile onRight vi p.1 p.2)

/-- The vertex order in which the specification emits the triangle of `vi` and
a pair `(vj, v_top)`: `(vi, vj, v_top)` on the right chain, `(vi, v_top, vj)`
otherwise. -/
def emittedOrder (onRight : Bool) (vi : VertAdj) (p : VertAdj × VertAdj) :
    VertAdj × VertAdj × VertAdj :=
  if onRight then (vi, p.1, p.2) else (vi, p.2, p.1)

/-- The identities of a triple of sweep vertices. -/
def meshTriangle (q : VertAdj × VertAdj × VertAdj) : IVec3 :=
  ⟨q.1.mesh_idx, q.2.1.mesh_idx, q.2.2.mesh_idx⟩

/-- Both coordinates are finite numbers. -/
def Vec2.isFinite : Vec2 → Bool
  | ⟨.fin _, .fin _⟩ => true
  | _ => false

/-! ## Backup triangulator: the first pass -/

/-- The test `SharedEdge(startEdges, endEdges)` at the first pass of the loop
of `BackupTriangulate` over `poly`. -/
def firstShared (K : Edge) (poly : SimplePolygon) : Bool :=
  match edgePair poly 0 1, edgePair poly ((poly.length : Int) - 2) ((poly.length : Int) - 1) with
  | .ok startEdges, .ok endEdges => SharedEdge K startEdges endEdges
  | _, _ => false

/-! ## Positions and identities of the buffer -/

/-- The position and the identity of a sweep vertex. -/
def VertAdj.key (v : VertAdj) : Vec2 × Int := (v.pos, v.mesh_idx)

/-- The position, the identity and the rank of a sweep vertex. -/
def VertAdj.tag (v : VertAdj) : Vec2 × Int × Int := (v.pos, v.mesh_idx, v.sweep_order)

/-- The property `P` of the buffer is kept by an assignment to a member other
than `pos`, `mesh_idx` and `sweep_order`, and by the `push_back` of a vertex
read from the buffer. -/
structure CopyInv (P : List VertAdj → Prop) : Prop where
  write : ∀ m i f m1, modifyI m i f = .ok m1 → (∀ a : VertAdj, (f a).tag = a.tag) → P m → P m1
  push : ∀ m i v, getI m i = .ok v → P m → P (m ++ [v])

/-- The positions and identities of the vertices of a polygon set, in order. -/
def inputKeys (polys : Polygons) : List (Vec2 × Int) :=
  polys.flatten.map (fun w => (w.pos, w.idx))

/-- The vertex that `Assemble` emits for the edge `g`. -/
def vertOf (g : EdgeVerts) : PolyVert := ⟨Vec2.inf, g.first, g.edge⟩

/-- The edge at offset `j` of `E`. -/
def edgeAt (E : List EdgeVerts) (j : Int) : EdgeVerts :=
  match getI E j with
  | .ok e => e
  | .error _ => ⟨0, 0, 0⟩

/-- The edges that the index of `Assemble` still holds. -/
def indexed (E : List EdgeVerts) (M : Map Int) : List EdgeVerts :=
  M.map (fun kv => edgeAt E kv.2)

/-- The `first` id of the first edge of a walk. -/
def headFirst : List EdgeVerts → Int
  | [] => 0
  | g :: _ => g.first

/-- Each edge of the walk ends where the next one starts. -/
def Joined (es : List EdgeVerts) : Prop :=
  List.Chain' (fun a b : EdgeVerts => a.second = b.first) es

/-- A walk that returns to its first vertex. -/
def ClosedWalk (es : List EdgeVerts) : Prop :=
  Joined es ∧ ∃ l, es.getLast? = some l ∧ l.second = headFirst es

/-- The walk starts at its smallest vertex id. -/
def SmallestFirst (es : List EdgeVerts) : Prop := ∀ g ∈ es.tail, headFirst es < g.first

/-- The state of `Assemble` between two loops: the walks `G` are complete and
the index `M` holds the edges that are left. -/
structure TopInv (E : List EdgeVerts) (M : Map Int) (G : List (List EdgeVerts)) : Prop where
  index : IndexInv E M
  perm : List.Perm (G.flatten ++ indexed E M) E
  closed : ∀ es ∈ G, ClosedWalk es
  small : ∀ es ∈ G, SmallestFirst es
  sorted : (G.map headFirst).Pairwise (· < ·)
  below : ∀ es ∈ G, ∀ kv ∈ M, headFirst es < kv.1

/-- The state of `Assemble` where its loop body starts: the walks `G` are
complete, the vertices of the edges `pre` have been emitted for the current
walk, `e` is the current edge, and the index `M` holds the first edge of the
walk and the edges that are left. -/
structure MidInv (E : List EdgeVerts) (M : Map Int) (start this : Int)
    (G : List (List EdgeVerts)) (pre : List EdgeVerts) (e : EdgeVerts) : Prop where
  index : IndexInv E M
  this : getI E this = .ok e
  start : ∃ e0, (pre ++ [e]).head? = some e0 ∧ getI E start = .ok e0 ∧ (e0.first, start) ∈ M
  joined : Joined (pre ++ [e])
  perm : List.Perm (G.flatten ++ (pre ++ [e]).tail ++ indexed E M) E
  closed : ∀ es ∈ G, ClosedWalk es
  small : ∀ es ∈ G, SmallestFirst es
  sorted : (G.map headFirst).Pairwise (· < ·)
  smallest : SmallestFirst (pre ++ [e])
  least : ∀ kv ∈ M, headFirst (pre ++ [e]) ≤ kv.1
  below : ∀ es ∈ G, headFirst es < headFirst (pre ++ [e])

/-! ## Ranks of the buffer -/

/-- The sweep vertex at index `i` of the buffer has a rank. -/
def RankedI (m : List VertAdj) (i : Int) : Prop := ∃ v, getI m i = .ok v ∧ 0 ≤ v.sweep_order

/-- The buffer `m1` is `m` with the same positions, identities and ranks, and
vertices appended. -/
def Ext (m m1 : List VertAdj) : Prop := ∃ l, m1.map VertAdj.tag = m.map VertAdj.tag ++ l

/-- Every processed vertex has a rank, and `across` of it is the index of a
vertex that has a rank. -/
def AcrossRanked (m : List VertAdj) : Prop :=
  ∀ x ∈ m, 0 ≤ x.across → 0 ≤ x.sweep_order ∧ RankedI m x.across

/-- Every entry after the first `N` has a rank and is, in position, identity
and rank, one of the first `N`. -/
def CopiesOf (N : Nat) (ts : List (Vec2 × Int × Int)) : Prop :=
  N ≤ ts.length ∧ ∀ t ∈ ts.drop N, 0 ≤ t.2.2 ∧ t ∈ ts.take N

/-- What the sweep of the decomposer keeps about ranks, `N` being the number
of input vertices. -/
structure RankInv (N : Nat) (m : List VertAdj) : Prop where
  across : AcrossRanked m
  copies : CopiesOf N (m.map VertAdj.tag)

/-- What holds of the buffer in the sweep loop of the decomposer, `rest` being
the part of the sweep line still to come: the ranks given so far are
consistent, and the vertices still to come are input vertices without a
rank. -/
structure SweepInv (N : Nat) (rest : List (F32 × Int)) (m : List VertAdj) : Prop where
  rank : RankInv N m
  todo : ∀ p ∈ rest, 0 ≤ p.2 ∧ p.2.toNat < N ∧ ∃ v, getI m p.2 = .ok v ∧ v.sweep_order = -1
  nodup : (rest.map Prod.snd).Nodup

/-- The vector `sweep_line` of the constructor after `std::sort`: the order in
which the sweep processes the input vertices. -/
def Monotones.sortedSweepLine (polys : Polygons) : List (F32 × Int) :=
  (Monotones.initSweepLine (Monotones.initVerts polys [])).insertionSort
    (fun a b => Monotones.tupleLt b a = false)

/-- The rank `sweep_order` of the sweep vertex at index `j` of the buffer. -/
def rankAt (m : List VertAdj) (j : Int) : Int :=
  match getI m j with
  | .ok v => v.sweep_order
  | .error _ => -1

/-- The buffer that the constructor returns for `twoPeaks`: the seven input
vertices and four copies. -/
def twoPeaksMonotones : List VertAdj :=
  [⟨Vec2.ofRat 0 0, 0, 3, 6, 5, false, 0⟩, ⟨Vec2.ofRat 4 0, 1, 2, 7, 8, false, 1⟩,
   ⟨Vec2.ofRat 4 3, 2, 8, 1, -1, false, 4⟩, ⟨Vec2.ofRat 3 2, 3, 5, 0, 0, false, 2⟩,
   ⟨Vec2.ofRat 2 3, 4, 10, 9, -1, false, 5⟩, ⟨Vec2.ofRat 1 2, 5, 6, 3, 0, false, 3⟩,
   ⟨Vec2.ofRat 0 3, 6, 0, 5, -1, false, 6⟩, ⟨Vec2.ofRat 0 0, 0, 1, 8, 1, false, 0⟩,
   ⟨Vec2.ofRat 3 2, 3, 7, 2, 1, false, 2⟩, ⟨Vec2.ofRat 3 2, 3, 4, 10, 10, false, 2⟩,
   ⟨Vec2.ofRat 1 2, 5, 9, 4, 9, false, 3⟩]

/-! ## The order of heights -/

/-- The place of a `float` that is not a NaN in the order of the extended
rationals. -/
def F32.toExt : F32 → WithBot (WithTop ℚ)
  | .fin q => ((q : WithTop ℚ) : WithBot (WithTop ℚ))
  | .pinf => ((⊤ : WithTop ℚ) : WithBot (WithTop ℚ))
  | .ninf => ⊥
  | .nan => ⊥

/-! ## Backup triangulator: reads through the unchecked `operator[]` -/

namespace Unchecked

/-- The member `poly[i].nextEdge` as the unchecked `operator[]` of
`std::vector` delivers it: the member of the element for an index inside the
vector, and for the index `-1` the value `g` that the memory in front of the
storage holds.  Every other index outside the vector stays `Err.undefined`. -/
def nextEdgeAt (g : Int) (poly : SimplePolygon) (i : Int) : Except Err Int :=
  if i = -1 then .ok g
  else
    match getI poly i with
    | .ok a => .ok a.nextEdge
    | .error e => .error e

/-- The pair `{poly[i].nextEdge, poly[j].nextEdge}`. -/
def edgePair (g : Int) (poly : SimplePolygon) (i j : Int) : Except Err (Int × Int) :=
  match nextEdgeAt g poly i, nextEdgeAt g poly j with
  | .ok a, .ok b => .ok (a, b)
  | _, _ => .error .undefined

/-- The `if (SharedEdge(startEdges, endEdges))` block of `BackupTriangulate`
(`stop` is the variable `end`). -/
def BackupSwitch (g : Int) (poly : SimplePolygon) (s : BackupState) : Except Err BackupState :=
  let n : Int := poly.length
  let start := if s.forward then Prev s.start n else Next s.start n
  let stop := if s.forward then Prev s.stop n else Next s.stop n
  let corner := if s.forward then getI poly stop else getI poly start
  match corner with
  | .error e => .error e
  | .ok c =>
    let tri : IVec3 := if s.forward then ⟨c.idx, s.tri.x, s.tri.y⟩ else ⟨s.tri.y, s.tri.z, c.idx⟩
    match edgePair g poly (start - 1) start, edgePair g poly (stop - 1) stop with
    | .ok startEdges, .ok endEdges =>
      .ok { s with start := start, stop := stop, tri := tri, startEdges := startEdges,
                   endEdges := endEdges, forward := !s.forward }
    | _, _ => .error .undefined

/-- The rest of the loop body of `BackupTriangulate`: emit `tri`, then advance
one of the two cursors. -/
def BackupAdvance (g : Int) (poly : SimplePolygon) (s : BackupState) : Except Err BackupState :=
  let n : Int := poly.length
  let triangles := s.triangles ++ [s.tri]
  let forward := !s.forward
  if forward then
    let start := Next s.start n
    match edgePair g poly (Prev start n) start, getI poly start with
    | .ok startEdges, .ok c =>
      .ok { s with start := start, startEdges := startEdges,
                   tri := ⟨s.tri.x, s.tri.z, c.idx⟩, forward := forward,
                   triangles := triangles }
    | _, _ => .error .undefined
  else
    let stop := Prev s.stop n
    match edgePair g poly (Prev stop n) stop, getI poly stop with
    | .ok endEdges, .ok c =>
      .ok { s with stop := stop, endEdges := endEdges,
                   tri := ⟨c.idx, s.tri.x, s.tri.z⟩, forward := forward,
                   triangles := triangles }
    | _, _ => .error .undefined

/-- The `for (;;)` loop of `BackupTriangulate`; `none` when the fuel runs
out. -/
def BackupLoop (g : Int) (K : Edge) (poly : SimplePolygon) :
    Nat → BackupState → Option (Except Err (List IVec3))
  | 0, _ => none
  | fuel + 1, s =>
    if s.start = s.stop then some (.ok s.triangles)
    else
      let switched :=
        if SharedEdge K s.startEdges s.endEdges then BackupSwitch g poly s else .ok s
      match switched with
      | .error e => some (.error e)
      | .ok s1 =>
        match BackupAdvance g poly s1 with
        | .error e => some (.error e)
        | .ok s2 => BackupLoop g K poly fuel s2

/-- The body of the loop over the polygons in `BackupTriangulate`. -/
def BackupPoly (g : Int) (K : Edge) (poly : SimplePolygon) (triangles : List IVec3) :
    Option (Except Err (List IVec3)) :=
  if poly.length < 3 then some (.ok triangles)
  else
    let start : Int := 1
    let stop : Int := (poly.length : Int) - 1
    match getI poly stop, getI poly 0, getI poly start,
        edgePair g poly (start - 1) start, edgePair g poly (stop - 1) stop with
    | .ok pe, .ok p0, .ok ps, .ok startEdges, .ok endEdges =>
      BackupLoop g K poly poly.length
        ⟨start, stop, ⟨pe.idx, p0.idx, ps.idx⟩, startEdges, endEdges, false, triangles⟩
    | _, _, _, _, _ => some (.error .undefined)

/-- The function `BackupTriangulate`, as far as the fuel goes. -/
def BackupRun (g : Int) (K : Edge) : Polygons → List IVec3 → Option (Except Err (List IVec3))
  | [], triangles => some (.ok triangles)
  | poly :: rest, triangles =>
    match BackupPoly g K poly triangles with
    | some (.ok t) => BackupRun g K rest t
    | r => r

/-- The function `BackupTriangulate`. -/
def BackupTriangulate (g : Int) (K : Edge) (polys : Polygons) : Except Err (List IVec3) :=
  match BackupRun g K polys [] with
  | some r => r
  | none => .error .undefined

end Unchecked

/-- A square `(0,0), (1,0), (1,1), (0,1)` with identities `0..3` whose four
edges all carry the tag `5`. -/
def taggedSquare : Polygons :=
  [[⟨Vec2.ofRat 0 0, 0, 5⟩, ⟨Vec2.ofRat 1 0, 1, 5⟩, ⟨Vec2.ofRat 1 1, 2, 5⟩,
    ⟨Vec2.ofRat 0 1, 3, 5⟩]]

/-- The state of the loop of `BackupTriangulate`, read through the unchecked
`operator[]`, when the triangles `T` have been emitted and the strip lies
between positions `s` and `e` of the closed polygon `poly ++ [poly[0]]`: position
`n` is vertex `0` again, where the variable `end` holds `0`. -/
structure Unchecked.Corr (poly : SimplePolygon) (st : BackupState) (s e : Nat)
    (T : List IVec3) : Prop where
  low : 1 ≤ s
  lt : s < e
  high : e ≤ poly.length
  triangles : st.triangles = T
  fwd : st.forward = true → st.start = (s : Int) + 1 ∧
    st.stop = (if e = poly.length then 0 else (e : Int)) ∧
    st.tri = triF (poly ++ poly.take 1) s e
  bwd : st.forward = false → st.start = s ∧ st.stop = (e : Int) - 1 ∧
    st.tri = triB (poly ++ poly.take 1) s e

/-! ## Single precision with rounding -/

namespace F32

/-- The power `2 ^ e` of two as a rational. -/
def pow2 (e : Int) : ℚ :=
  if 0 ≤ e then ((2 ^ e.toNat : Nat) : ℚ) else 1 / ((2 ^ (-e).toNat : Nat) : ℚ)

/-- The number of halvings that bring `n` below `2`, at most `fuel` of
them. -/
def halvings : Nat → Nat → Nat
  | 0, _ => 0
  | fuel + 1, n => if n < 2 then 0 else halvings fuel (n / 2) + 1

/-- The integer part of the binary logarithm of a positive natural number. -/
def log2 (n : Nat) : Nat := halvings n n

/-- The exponent `e` of the binade of a positive rational `q`:
`2 ^ e ≤ q < 2 ^ (e + 1)`. -/
def ilog2 (q : ℚ) : Int :=
  let e : Int := (log2 q.num.natAbs : Int) - (log2 q.den : Int)
  if pow2 e ≤ q then e else e - 1

/-- The integer nearest to `m`, a tie going to the even one. -/
def nearestEven (m : ℚ) : Int :=
  let f := Rat.floor m
  let r := m - f
  if r < 1 / 2 then f else if 1 / 2 < r then f + 1 else if f % 2 = 0 then f else f + 1

/-- The `float` nearest to the positive rational `q`, a tie going to the even
significand: the significand has 24 bits, so the values of the binade of
exponent `e` are the multiples of `2 ^ (e - 23)`; the exponent is at least
`-126` (below `2 ^ (-126)` the values are spaced by `2 ^ (-149)` and `q` can
round to `0`); a result of `2 ^ 128` or more is `+∞`. -/
def roundPos (q : ℚ) : F32 :=
  let e : Int := if ilog2 q < -126 then -126 else ilog2 q
  let u := pow2 (e - 23)
  let v := (nearestEven (q / u) : ℚ) * u
  if pow2 128 ≤ v then pinf else fin v

/-- The rounding of an exact result to `float` (round to nearest, ties to
even); infinities and NaN stay. -/
def round : F32 → F32
  | fin q => if 0 < q then roundPos q else if q < 0 then neg (roundPos (-q)) else fin 0
  | x => x

end F32

namespace Rounded

/-- The sum `a + b` of two `float`s: the exact sum, rounded. -/
def add (a b : F32) : F32 := F32.round (F32.add a b)

/-- The difference `a - b` of two `float`s: the exact difference, rounded. -/
def sub (a b : F32) : F32 := F32.round (F32.sub a b)

/-- The product `a * b` of two `float`s: the exact product, rounded. -/
def mul (a b : F32) : F32 := F32.round (F32.mul a b)

/-- The difference `a - b` of two `glm::vec2`. -/
def vsub (a b : Vec2) : Vec2 := ⟨sub a.x b.x, sub a.y b.y⟩

/-- The variable `result` of `CCW`. -/
def det (p0 p1 p2 : Vec2) : F32 :=
  let v1 := vsub p1 p0
  let v2 := vsub p2 p0
  sub (mul v1.x v2.y) (mul v1.y v2.x)

/-- The variable `norm` of `CCW`, summed from left to right. -/
def norm (p0 p1 p2 : Vec2) : F32 :=
  let p0 := p0.abs
  let p1 := p1.abs
  let p2 := p2.abs
  add (add (mul p0.x p0.y) (mul p1.x p1.y)) (mul p2.x p2.y)

/-- The function `CCW`, every operation rounded to single precision. -/
def CCW (p0 p1 p2 : Vec2) : Int :=
  let result := det p0 p1 p2
  let norm := norm p0 p1 p2
  if F32.le (mul (F32.abs result) kTolerance) norm then 0
  else if F32.lt (.fin 0) result then 1 else -1

end Rounded

/-- A `float` that is `+∞` or a finite number that is not negative. -/
def F32.NonNeg (a : F32) : Prop := a = .pinf ∨ ∃ r : ℚ, 0 ≤ r ∧ a = .fin r

namespace Rounded

/-- The `while` loop of the same-chain case of `Triangulator::ProcessVert`,
entered with the stack `chain` (its top is `vj_idx`), `v_top` and `vj`; `CCW` is
computed in single precision. -/
def sameChain (monotones : List VertAdj) (vi : VertAdj) (onRight : Bool) :
    List Int → Int → VertAdj → VertAdj → List IVec3 → Int →
      Except Err Triangulator.ChainState
  | [], v_top_idx, _, _, triangles, n => .ok ⟨[], v_top_idx, triangles, n⟩
  | vj_idx :: rest, v_top_idx, v_top, vj, triangles, n =>
    if CCW vi.pos vj.pos v_top.pos != (if onRight then -1 else 1) then
      let triangles :=
        triangles ++ [Triangulator.AddTriangle onRight vi.mesh_idx vj.mesh_idx v_top.mesh_idx]
      match rest with
      | [] => .ok ⟨[], vj_idx, triangles, n + 1⟩
      | vj_idx1 :: _ =>
        match getI monotones vj_idx1 with
        | .error e => .error e
        | .ok vj1 => sameChain monotones vi onRight rest vj_idx vj vj1 triangles (n + 1)
    else .ok ⟨vj_idx :: rest, v_top_idx, triangles, n⟩

/-- The method `Triangulator::ProcessVert`, `CCW` computed in single
precision: whether the vertex was accepted, the triangulator afterwards and
the output vector afterwards. -/
def ProcessVert (monotones : List VertAdj) (t : Triangulator) (vi_idx : Int)
    (triangles : List IVec3) : Except Err (Bool × Triangulator × List IVec3) := do
  let attached ← Triangulator.Attached monotones t vi_idx
  if attached = 0 then return (false, t, triangles)
  else do
    let vi ← getI monotones vi_idx
    let v_top_idx ← t.top
    let v_top ← getI monotones v_top_idx
    if t.reflex_chain_.length < 2 then
      return (true, { t with reflex_chain_ := vi_idx :: t.reflex_chain_,
                             onRight_ := decide (vi.left = v_top_idx) }, triangles)
    else do
      let chain := t.reflex_chain_.tail
      let vj_idx ← Triangulator.top { t with reflex_chain_ := chain }
      let vj ← getI monotones vj_idx
      if attached = 1 then do
        let r ← sameChain monotones vi t.onRight_ chain v_top_idx v_top vj triangles
          t.triangles_output
        return (true, { t with reflex_chain_ := vi_idx :: r.v_top_idx :: r.chain,
                               triangles_output := r.triangles_output }, r.triangles)
      else do
        let onRight := !t.onRight_
        let (triangles, n) ← Triangulator.otherChain monotones vi onRight chain v_top triangles
          t.triangles_output
        return (true, { reflex_chain_ := [vi_idx, v_top_idx], other_side_ := v_top_idx,
                        triangles_output := n, onRight_ := onRight }, triangles)

/-- The test of the same-chain loop in the words of the specification: emit
while `ccw(vi, vj, v_top) ≠ (onRight ? −1 : +1)`, in single precision. -/
def emitWhile (onRight : Bool) (vi vj v_top : VertAdj) : Bool :=
  CCW vi.pos vj.pos v_top.pos != (if onRight then -1 else 1)

/-- The pairs `(vj, v_top)` for which the specification emits a triangle: the
longest prefix of the pairs down the chain on which the test holds. -/
def sameChainEmitted (onRight : Bool) (vi v_top : VertAdj) (vs : List VertAdj) :
    List (VertAdj × VertAdj) :=
  (chainPairs v_top vs).takeWhile (fun p => emitWhile onRight vi p.1 p.2)

end Rounded

/-- A quadrilateral with identities `0..3` whose left chain `0, 3, 2` is bent
inwards at vertex 3 by less than the tolerance of `CCW`. -/
def sliver : Polygons :=
  [[⟨Vec2.ofRat (1607 / 1024) 2583, 0, sampleTags.kNoIdx⟩,
    ⟨Vec2.ofRat 4 2585, 1, sampleTags.kNoIdx⟩,
    ⟨Vec2.ofRat (1607 / 1024) 2584, 2, sampleTags.kNoIdx⟩,
    ⟨Vec2.ofRat (14211921 / 8388608) (5167 / 2), 3, sampleTags.kNoIdx⟩]]

/-- The buffer that the constructor returns for `sliver`. -/
def sliverMonotones : List VertAdj :=
  [⟨Vec2.ofRat (1607 / 1024) 2583, 0, 1, 3, 2, false, 0⟩,
   ⟨Vec2.ofRat 4 2585, 1, 2, 0, -1, false, 3⟩,
   ⟨Vec2.ofRat (1607 / 1024) 2584, 2, 3, 1, 0, false, 2⟩,
   ⟨Vec2.ofRat (14211921 / 8388608) (5167 / 2), 3, 0, 2, 0, false, 1⟩]

/-! # Theorems -/

/-! ## Orientation predicate -/

/-- On points with finite coordinates `CCW` is the tolerant sign of the
determinant. -/
theorem CCW_finite (x0 y0 x1 y1 x2 y2 : ℚ) :
    CCW (Vec2.ofRat x0 y0) (Vec2.ofRat x1 y1) (Vec2.ofRat x2 y2) =
      if |ccwDet x0 y0 x1 y1 x2 y2| * 100000 ≤ ccwNorm x0 y0 x1 y1 x2 y2 then 0
      else if 0 < ccwDet x0 y0 x1 y1 x2 y2 then 1 else -1 := by
  simp only [CCW, Vec2.ofRat, Vec2.sub, Vec2.abs, F32.sub, F32.neg, F32.add, F32.mul, F32.abs,
    F32.le, F32.lt, kTolerance, ccwDet, ccwNorm, abs_mul, decide_eq_true_eq, sub_eq_add_neg]

/-- C10: for all points with finite coordinates, under exact arithmetic, with
`r` the determinant and `N = |p0.x·p0.y| + |p1.x·p1.y| + |p2.x·p2.y|`: `CCW` is
`0` when `|r|·1e5 ≤ N`, otherwise `+1` when `r > 0` and `−1` when `r < 0`; the
result is always one of `−1, 0, +1`; and it is `0` for every exactly collinear
triple (`r = 0`). -/
theorem CCW_spec (x0 y0 x1 y1 x2 y2 : ℚ) :
    (|ccwDet x0 y0 x1 y1 x2 y2| * 100000 ≤ ccwNorm x0 y0 x1 y1 x2 y2 →
        CCW (Vec2.ofRat x0 y0) (Vec2.ofRat x1 y1) (Vec2.ofRat x2 y2) = 0) ∧
    (¬ |ccwDet x0 y0 x1 y1 x2 y2| * 100000 ≤ ccwNorm x0 y0 x1 y1 x2 y2 →
        (0 < ccwDet x0 y0 x1 y1 x2 y2 →
          CCW (Vec2.ofRat x0 y0) (Vec2.ofRat x1 y1) (Vec2.ofRat x2 y2) = 1) ∧
        (ccwDet x0 y0 x1 y1 x2 y2 < 0 →
          CCW (Vec2.ofRat x0 y0) (Vec2.ofRat x1 y1) (Vec2.ofRat x2 y2) = -1)) ∧
    (CCW (Vec2.ofRat x0 y0) (Vec2.ofRat x1 y1) (Vec2.ofRat x2 y2) = -1 ∨
      CCW (Vec2.ofRat x0 y0) (Vec2.ofRat x1 y1) (Vec2.ofRat x2 y2) = 0 ∨
      CCW (Vec2.ofRat x0 y0) (Vec2.ofRat x1 y1) (Vec2.ofRat x2 y2) = 1) ∧
    (ccwDet x0 y0 x1 y1 x2 y2 = 0 →
      CCW (Vec2.ofRat x0 y0) (Vec2.ofRat x1 y1) (Vec2.ofRat x2 y2) = 0) := by
  rw [CCW_finite]
  have hN : 0 ≤ ccwNorm x0 y0 x1 y1 x2 y2 := by
    unfold ccwNorm; positivity
  refine ⟨fun h => by simp [h], fun h => ⟨fun hr => by simp [h, hr], fun hr => ?_⟩, ?_, fun h0 => ?_⟩
  · simp [h, not_lt.mpr hr.le]
  · split_ifs <;> simp
  · simp [h0, hN]

/-! ## Top-level entry -/

theorem TriangulatePrimary_ok {K : Edge} {garbage : Nat → Bool} {polys : Polygons}
    {t : List IVec3} (h : TriangulatePrimary K garbage polys = .ok t) :
    PrimaryTriangulate K garbage polys = .ok t ∧ CheckManifoldTP K t polys = .ok () := by
  unfold TriangulatePrimary at h
  split at h
  · cases h
  · rename_i t1 h1
    split at h
    · cases h
    · rename_i u h2
      cases h
      exact ⟨h1, h2⟩

theorem TriangulateBackup_ok {K : Edge} {polys : Polygons}
    {t : List IVec3} (h : TriangulateBackup K polys = .ok t) :
    BackupTriangulate K polys = .ok t ∧ CheckManifoldTP K t polys = .ok () := by
  unfold TriangulateBackup at h
  split at h
  · cases h
  · rename_i t1 h1
    split at h
    · cases h
    · rename_i u h2
      cases h
      exact ⟨h1, h2⟩

/-- C1: whenever `Triangulate` returns a triangle list, that list passes
`CheckManifold(triangles, polys)`, whether it came from the primary or from the
backup triangulator. -/
theorem Triangulate_result_checked (K : Edge) (garbage : Nat → Bool) (polys : Polygons)
    (t : List IVec3) (h : Triangulate K garbage polys = .ok t) :
    CheckManifoldTP K t polys = .ok () := by
  unfold Triangulate at h
  split at h
  · rename_i t1 h1
    cases h
    exact (TriangulatePrimary_ok h1).2
  · cases h
  · exact (TriangulateBackup_ok h).2

set_option maxRecDepth 100000 in
/-- C1 at the unit square: `Triangulate` returns `(2,0,1), (3,0,2)`, which
passes the manifold check. -/
theorem Triangulate_result_checked_witness :
    Triangulate sampleTags garbageFalse unitSquare = .ok [⟨2, 0, 1⟩, ⟨3, 0, 2⟩] ∧
      CheckManifoldTP sampleTags [⟨2, 0, 1⟩, ⟨3, 0, 2⟩] unitSquare = .ok () :=
  ⟨by decide!, Triangulate_result_checked sampleTags garbageFalse unitSquare _ (by decide!)⟩

/-- C2: as long as the primary path stays within defined behaviour,
`Triangulate` equals the two-stage reference: the primary triangles when
`PrimaryTriangulate` completes and they pass `CheckManifold`; otherwise the
backup triangles when `BackupTriangulate` completes and they pass; otherwise
the failure of the backup path, with the error raised there. -/
theorem Triangulate_eq_reference (K : Edge) (garbage : Nat → Bool) (polys : Polygons)
    (hdef : TriangulatePrimary K garbage polys ≠ .error .undefined) :
    Triangulate K garbage polys = TriangulateRef K garbage polys := by
  have hb : TriangulateBackup K polys = TriangulateRefBackup K polys := by
    unfold TriangulateBackup TriangulateRefBackup
    cases BackupTriangulate K polys with
    | error e => rfl
    | ok t => cases h : CheckManifoldTP K t polys <;> simp [h]
  unfold Triangulate TriangulateRef
  rw [← hb]
  unfold TriangulatePrimary at hdef ⊢
  cases h1 : PrimaryTriangulate K garbage polys with
  | error e =>
    rw [h1] at hdef
    cases e <;> first | exact absurd rfl hdef | rfl
  | ok t =>
    rw [h1] at hdef
    simp only at hdef ⊢
    cases h2 : CheckManifoldTP K t polys with
    | error e =>
      rw [h2] at hdef
      cases e <;> first | exact absurd rfl hdef | simp
    | ok u => simp

set_option maxRecDepth 100000 in
/-- C2 at a polygon of two vertices: the primary path raises the two-edge
logic error, and both `Triangulate` and the reference give the (empty) backup
result. -/
theorem Triangulate_eq_reference_witness :
    TriangulatePrimary sampleTags garbageFalse twoGon ≠ .error .undefined ∧
      Triangulate sampleTags garbageFalse twoGon = TriangulateRef sampleTags garbageFalse twoGon ∧
      TriangulateRef sampleTags garbageFalse twoGon = .ok [] :=
  ⟨by decide!, Triangulate_eq_reference sampleTags garbageFalse twoGon (by decide!), by decide!⟩

/-! ## Ordered maps -/

namespace Map

variable {β : Type}

theorem Ordered.nodup {m : Map β} (h : m.Ordered) : m.keys.Nodup :=
  List.Pairwise.imp (fun hab => ne_of_lt hab) h

theorem find_eq_none_iff (m : Map β) (k : Int) : find m k = none ↔ k ∉ m.keys := by
  induction m with
  | nil => simp [find, keys]
  | cons kv m ih =>
    obtain ⟨k1, v1⟩ := kv
    by_cases h : k1 = k
    · simp [find, keys, h]
    · have ih1 : find m k = none ↔ k ∉ List.map Prod.fst m := ih
      simp [find, keys, h, ih1, Ne.symm h]

theorem mem_of_find {m : Map β} {k : Int} {v : β} (h : find m k = some v) : (k, v) ∈ m := by
  induction m with
  | nil => simp [find] at h
  | cons kv m ih =>
    obtain ⟨k1, v1⟩ := kv
    by_cases hk : k1 = k
    · simp [find, hk] at h
      simp [hk, h]
    · simp [find, hk] at h
      exact List.mem_cons_of_mem _ (ih h)

theorem find_of_mem {m : Map β} {k : Int} {v : β} (hnd : m.keys.Nodup) (h : (k, v) ∈ m) :
    find m k = some v := by
  induction m with
  | nil => simp at h
  | cons kv m ih =>
    obtain ⟨k1, v1⟩ := kv
    simp only [keys, List.map_cons, List.nodup_cons] at hnd
    rcases List.mem_cons.mp h with h1 | h1
    · cases h1
      simp [find]
    · have hne : k1 ≠ k := by
        rintro rfl
        exact hnd.1 (List.mem_map_of_mem Prod.fst h1)
      simp only [find, hne, if_false]
      exact ih hnd.2 h1

theorem erase_perm {m : Map β} {k : Int} {v : β} (h : find m k = some v) :
    List.Perm m ((k, v) :: erase m k) := by
  induction m with
  | nil => simp [find] at h
  | cons kv m ih =>
    obtain ⟨k1, v1⟩ := kv
    by_cases hk : k1 = k
    · simp [find, hk] at h
      simp [erase, hk, h]
    · simp only [find, hk, if_false] at h
      simp only [erase, hk, if_false]
      exact ((ih h).cons (k1, v1)).trans (List.Perm.swap _ _ _)

theorem erase_sublist (m : Map β) (k : Int) : List.Sublist (erase m k) m := by
  induction m with
  | nil => simp [erase]
  | cons kv m ih =>
    obtain ⟨k1, v1⟩ := kv
    by_cases hk : k1 = k
    · simp [erase, hk]
    · simp only [erase, hk, if_false]
      exact ih.cons₂ _

theorem erase_ordered {m : Map β} (h : m.Ordered) (k : Int) : (erase m k).Ordered :=
  List.Pairwise.sublist ((erase_sublist m k).map Prod.fst) h

theorem erase_length {m : Map β} {k : Int} {v : β} (h : find m k = some v) :
    (erase m k).length + 1 = m.length := by
  simpa using (erase_perm h).length_eq.symm

theorem emplace_false {m : Map β} {k : Int} {v : β} (h : (emplace m k v).2 = false) :
    k ∈ m.keys := by
  induction m with
  | nil => simp [emplace] at h
  | cons kv m ih =>
    obtain ⟨k1, v1⟩ := kv
    unfold emplace at h
    split_ifs at h with h1 h2
    · simp [keys, h2]
    · simp only [keys, List.map_cons, List.mem_cons]
      exact Or.inr (ih h)

theorem emplace_true {m : Map β} {k : Int} {v : β} (ho : m.Ordered)
    (h : (emplace m k v).2 = true) : k ∉ m.keys := by
  induction m with
  | nil => simp [keys]
  | cons kv m ih =>
    obtain ⟨k1, v1⟩ := kv
    have ho1 := ho
    simp only [Ordered, keys, List.map_cons, List.pairwise_cons] at ho1
    unfold emplace at h
    simp only [keys, List.map_cons, List.mem_cons, not_or]
    split_ifs at h with h1 h2
    · refine ⟨ne_of_lt h1, fun hmem => ?_⟩
      have := ho1.1 k hmem
      omega
    · exact ⟨h2, ih ho1.2 h⟩

theorem emplace_perm {m : Map β} {k : Int} {v : β} (h : (emplace m k v).2 = true) :
    List.Perm (emplace m k v).1 ((k, v) :: m) := by
  induction m with
  | nil => simp [emplace]
  | cons kv m ih =>
    obtain ⟨k1, v1⟩ := kv
    unfold emplace at h ⊢
    split_ifs at h ⊢ with h1 h2
    · exact List.Perm.refl _
    · exact ((ih h).cons (k1, v1)).trans (List.Perm.swap _ _ _)

theorem emplace_ordered {m : Map β} {k : Int} {v : β} (ho : m.Ordered) :
    (emplace m k v).1.Ordered := by
  induction m with
  | nil => simp [emplace, Ordered, keys]
  | cons kv m ih =>
    obtain ⟨k1, v1⟩ := kv
    have ho1 := ho
    simp only [Ordered, keys, List.map_cons, List.pairwise_cons] at ho1
    unfold emplace
    split_ifs with h1 h2
    · simp only [Ordered, keys, List.map_cons, List.pairwise_cons, List.mem_cons,
        forall_eq_or_imp]
      exact ⟨⟨h1, fun a ha => lt_trans h1 (ho1.1 a ha)⟩, ho1⟩
    · exact ho
    · have hlt : k1 < k := by omega
      have ih1 := ih ho1.2
      simp only [Ordered, keys, List.map_cons, List.pairwise_cons]
      refine ⟨fun a ha => ?_, ih1⟩
      by_cases hb : (emplace m k v).2 = true
      · have hp := (emplace_perm hb).map Prod.fst
        have ha1 := hp.subset ha
        simp only [List.map_cons, List.mem_cons] at ha1
        rcases ha1 with rfl | ha1
        · exact hlt
        · exact ho1.1 a ha1
      · have hm : (emplace m k v).1 = m := by
          clear ih ih1 ha ho ho1
          induction m with
          | nil => simp [emplace] at hb
          | cons kv2 m2 ih2 =>
            obtain ⟨k2, v2⟩ := kv2
            unfold emplace at hb ⊢
            split_ifs at hb ⊢ with h3 h4
            · simp at hb
            · rfl
            · simp only
              rw [ih2 hb]
        rw [hm] at ha
        exact ho1.1 a ha

theorem find_erase_ne (m : Map β) {a k : Int} (h : k ≠ a) : find (erase m a) k = find m k := by
  induction m with
  | nil => simp [erase]
  | cons kv m ih =>
    obtain ⟨k1, v1⟩ := kv
    by_cases h1 : k1 = a
    · subst h1
      have h2 : ¬ k1 = k := fun h3 => h h3.symm
      simp only [erase, find, if_true, h2, if_false]
    · by_cases h2 : k1 = k
      · subst h2
        simp only [erase, find, h1, if_false, if_true]
      · simp only [erase, find, h1, h2, if_false, ih]

theorem erase_comm (m : Map β) (a b : Int) : erase (erase m a) b = erase (erase m b) a := by
  induction m with
  | nil => simp [erase]
  | cons kv m ih =>
    obtain ⟨k1, v1⟩ := kv
    by_cases h1 : k1 = a
    · by_cases h2 : k1 = b
      · subst h1
        subst h2
        rfl
      · subst h1
        simp only [erase, if_true, h2, if_false]
    · by_cases h2 : k1 = b
      · subst h2
        simp only [erase, if_true, h1, if_false]
      · simp only [erase, h1, h2, if_false, ih]

theorem mem_erase_of_ne {m : Map β} {a k : Int} {v : β} (h : k ≠ a) (hm : (k, v) ∈ m) :
    (k, v) ∈ erase m a := by
  induction m with
  | nil => simp at hm
  | cons kv m ih =>
    obtain ⟨k1, v1⟩ := kv
    by_cases h1 : k1 = a
    · simp only [erase, h1, if_true]
      rcases List.mem_cons.mp hm with h2 | h2
      · cases h2
        omega
      · exact h2
    · simp only [erase, h1, if_false]
      rcases List.mem_cons.mp hm with h2 | h2
      · cases h2
        exact List.mem_cons_self _ _
      · exact List.mem_cons_of_mem _ (ih h2)

end Map

/-! ## Polygon assembler: the failure modes -/

theorem perm_congr_right' {α : Type} {a b c : List α} (h : List.Perm b c) :
    List.Perm a b ↔ List.Perm a c :=
  ⟨fun h1 => h1.trans h, fun h1 => h1.trans h.symm⟩

theorem perm_congr_left' {α : Type} {a b c : List α} (h : List.Perm a b) :
    List.Perm a c ↔ List.Perm b c :=
  ⟨fun h1 => h.symm.trans h1, fun h1 => h.trans h1⟩

theorem pushToBack_ok {polys : Polygons} (h : polys ≠ []) (v : PolyVert) :
    ∃ q, pushToBack polys v = .ok q ∧ q ≠ [] := by
  unfold pushToBack
  cases hl : polys.getLast? with
  | none => exact absurd (List.getLast?_eq_none_iff.mp hl) h
  | some p => exact ⟨_, rfl, by simp⟩

theorem secOf_eq {E : List EdgeVerts} {i : Int} {e : EdgeVerts} (h : getI E i = .ok e) :
    secOf E i = e.second := by
  simp [secOf, h]

theorem firstOf_eq {E : List EdgeVerts} {i : Int} {e : EdgeVerts} (h : getI E i = .ok e) :
    firstOf E i = e.first := by
  simp [firstOf, h]

theorem IndexInv.erase {E : List EdgeVerts} {m : Map Int} (h : IndexInv E m) (k : Int) :
    IndexInv E (m.erase k) :=
  ⟨Map.erase_ordered h.ordered k, fun kv hkv => h.valid kv ((Map.erase_sublist m k).subset hkv)⟩

theorem keys_erase_perm {m : Map Int} {k j : Int} (h : m.find k = some j) :
    List.Perm m.keys (k :: (m.erase k).keys) := by
  have := (Map.erase_perm h).map Prod.fst
  simpa [Map.keys] using this

/-- One pass of the loop body of `Assemble`: it fails exactly when the id it
looks up is no longer indexed, and otherwise keeps the invariant and the
balance between the ids still to look up and the ids still indexed. -/
theorem AssembleBody_spec {E : List EdgeVerts} {s : AssembleState} (h : BodyInv E s) :
    (AssembleBody E s = .error .nonmanifoldEdge ∧
        ¬ List.Perm (pendingBody E s) s.vert_edge.keys) ∨
      ∃ s1, AssembleBody E s = .ok s1 ∧ LoopInv E s1 ∧
        (List.Perm (pending E s1) s1.vert_edge.keys ↔
          List.Perm (pendingBody E s) s.vert_edge.keys) ∧
        s1.vert_edge.length + 1 = s.vert_edge.length := by
  obtain ⟨e, he⟩ := h.this
  obtain ⟨q, hq, hqne⟩ := pushToBack_ok h.polys ⟨Vec2.inf, e.first, e.edge⟩
  have hsec : secOf E s.thisEdge = e.second := secOf_eq he
  cases hf : s.vert_edge.find e.second with
  | none =>
    left
    refine ⟨by simp [AssembleBody, he, hq, hf], fun hp => ?_⟩
    have hmem : e.second ∈ s.vert_edge.keys :=
      hp.subset (by simp [pendingBody, hsec])
    exact (Map.find_eq_none_iff _ _).mp hf hmem
  | some j =>
    right
    have hmem : (e.second, j) ∈ s.vert_edge := Map.mem_of_find hf
    obtain ⟨e1, he1, hfirst⟩ := h.index.valid _ hmem
    simp only at he1 hfirst
    have hkeys := keys_erase_perm hf
    refine ⟨⟨s.vert_edge.erase e.second, s.startEdge, j, q⟩,
      by simp [AssembleBody, he, hq, hf], ⟨h.index.erase _, fun hne => ?_⟩, ?_,
      Map.erase_length hf⟩
    · -- the start edge is still indexed
      simp only at hne
      have hks : firstOf E s.startEdge ≠ e.second := by
        intro heq
        have h2 := h.start
        rw [heq] at h2
        have h3 := Map.find_of_mem h.index.ordered.nodup h2
        rw [hf] at h3
        exact hne (Option.some.inj h3)
      exact ⟨h.index.erase _, Map.mem_erase_of_ne hks h.start, ⟨e1, he1⟩, hqne⟩
    · by_cases hj : j = s.startEdge
      · have hks : firstOf E s.startEdge = e.second := by
          rw [← hj, firstOf_eq he1, hfirst]
        simp only [pending, hj, if_true, pendingBody, hsec, hks]
        rw [perm_congr_right' hkeys, List.perm_cons]
      · have hks : firstOf E s.startEdge ≠ e.second := by
          intro heq
          have h2 := h.start
          rw [heq] at h2
          have h3 := Map.find_of_mem h.index.ordered.nodup h2
          rw [hf] at h3
          exact hj (Option.some.inj h3)
        have hf2 : (s.vert_edge.erase (firstOf E s.startEdge)).find e.second = some j := by
          rw [Map.find_erase_ne _ (Ne.symm hks)]
          exact hf
        have hp2 := (Map.erase_perm hf2).map (fun kv => secOf E kv.2)
        rw [Map.erase_comm] at hp2
        simp only [List.map_cons] at hp2
        simp only [pending, hj, if_false, pendingBody, hsec]
        rw [perm_congr_right' hkeys, perm_congr_left' (hp2.cons e.second), List.perm_cons]

/-- The loop of `Assemble`, entered where its body starts. -/
theorem AssembleLoop_body (E : List EdgeVerts) (fuel : Nat) (s : AssembleState)
    (h : s.thisEdge ≠ s.startEdge) :
    AssembleLoop E (fuel + 1) s =
      match AssembleBody E s with
      | .error e => some (.error e)
      | .ok s1 => AssembleLoop E fuel s1 := by
  simp [AssembleLoop, h]

/-- With one unit of fuel for every edge still indexed and one more, the loop of
`Assemble` returns: polygons when the ids still to look up are a permutation of
the ids still indexed, the nonmanifold-edge error otherwise. -/
theorem AssembleLoop_spec (E : List EdgeVerts) :
    ∀ (fuel : Nat) (s : AssembleState), LoopInv E s → s.vert_edge.length + 1 ≤ fuel →
      (List.Perm (pending E s) s.vert_edge.keys → ∃ P, AssembleLoop E fuel s = some (.ok P)) ∧
      (¬ List.Perm (pending E s) s.vert_edge.keys →
        AssembleLoop E fuel s = some (.error .nonmanifoldEdge)) := by
  intro fuel
  induction fuel with
  | zero => intro s _ hf; omega
  | succ fuel ih =>
    intro s hinv hfuel
    -- the state in which the body starts, and what is known there
    have key : ∀ s0 : AssembleState, BodyInv E s0 →
        s0.vert_edge.length + 1 ≤ fuel + 1 →
        (List.Perm (pendingBody E s0) s0.vert_edge.keys →
          ∃ P, (match AssembleBody E s0 with
            | .error e => some (.error e)
            | .ok s1 => AssembleLoop E fuel s1) = some (.ok P)) ∧
        (¬ List.Perm (pendingBody E s0) s0.vert_edge.keys →
          (match AssembleBody E s0 with
            | .error e => some (.error e)
            | .ok s1 => AssembleLoop E fuel s1) = some (.error .nonmanifoldEdge)) := by
      intro s0 hb hlen
      rcases AssembleBody_spec hb with ⟨herr, hnp⟩ | ⟨s1, hok, hinv1, hiff, hlen1⟩
      · exact ⟨fun hp => absurd hp hnp, fun _ => by rw [herr]⟩
      · have ih1 := ih s1 hinv1 (by omega)
        rw [hok]
        exact ⟨fun hp => ih1.1 (hiff.mpr hp), fun hnp => ih1.2 (fun hp => hnp (hiff.mp hp))⟩
    by_cases hts : s.thisEdge = s.startEdge
    · cases hve : s.vert_edge with
      | nil =>
        simp [AssembleLoop, hts, hve, pending, Map.keys]
      | cons kv rest =>
        obtain ⟨k0, idx⟩ := kv
        obtain ⟨e0, he0, hfirst0⟩ := hinv.index.valid (k0, idx) (by simp [hve])
        simp only at he0 hfirst0
        have hb : BodyInv E ⟨s.vert_edge, idx, idx, s.polys ++ [[]]⟩ :=
          ⟨hinv.index, by simp [firstOf_eq he0, hfirst0, hve], ⟨e0, he0⟩, by simp⟩
        have hk := key _ hb hfuel
        have hpend : pendingBody E ⟨s.vert_edge, idx, idx, s.polys ++ [[]]⟩ = pending E s := by
          simp [pendingBody, pending, hts, hve, firstOf_eq he0, secOf_eq he0, hfirst0, Map.erase]
        rw [hpend] at hk
        have hloop : AssembleLoop E (fuel + 1) s =
            match AssembleBody E ⟨s.vert_edge, idx, idx, s.polys ++ [[]]⟩ with
            | .error e => some (.error e)
            | .ok s1 => AssembleLoop E fuel s1 := by
          simp [AssembleLoop, hts, hve]
        rw [hloop, ← hve]
        exact hk
    · have hb := hinv.mid hts
      have hk := key s hb hfuel
      rw [AssembleLoop_body E fuel s hts]
      have hpend : pending E s = pendingBody E s := by simp [pending, hts]
      rw [hpend]
      exact hk

@[simp] theorem getElem_append_length {α : Type} (pre : List α) (a : α) (l : List α)
    (h : pre.length < (pre ++ a :: l).length) : (pre ++ a :: l)[pre.length] = a := by
  induction pre with
  | nil => rfl
  | cons b pre ih => simpa using ih (by simp)

theorem getI_natCast {α : Type} (v : List α) (n : Nat) :
    getI v (n : Int) = match v[n]? with
      | some a => .ok a
      | none => .error .undefined := by
  simp [getI]

theorem vertEntries_keys (es : List EdgeVerts) (i : Int) :
    (vertEntries es i).map Prod.fst = firsts es := by
  induction es generalizing i with
  | nil => rfl
  | cons e es ih =>
    have := ih (i + 1)
    simp only [firsts] at this
    simp [vertEntries, firsts, this]

theorem vertEntries_length (es : List EdgeVerts) (i : Int) :
    (vertEntries es i).length = es.length := by
  induction es generalizing i with
  | nil => rfl
  | cons e es ih => simp [vertEntries, ih (i + 1)]

theorem vertEntries_valid (pre es : List EdgeVerts) :
    ∀ kv ∈ vertEntries es pre.length, ∃ e, getI (pre ++ es) kv.2 = .ok e ∧ e.first = kv.1 := by
  induction es generalizing pre with
  | nil => simp [vertEntries]
  | cons e es ih =>
    intro kv hkv
    simp only [vertEntries, List.mem_cons] at hkv
    rcases hkv with rfl | hkv
    · exact ⟨e, by simp [getI_natCast], rfl⟩
    · have := ih (pre ++ [e]) kv (by simpa using hkv)
      simpa using this

theorem vertEntries_seconds (pre es : List EdgeVerts) :
    (vertEntries es pre.length).map (fun kv => secOf (pre ++ es) kv.2) = seconds es := by
  induction es generalizing pre with
  | nil => rfl
  | cons e es ih =>
    have h1 := ih (pre ++ [e])
    simp only [List.length_append, List.length_singleton, Nat.cast_add, Nat.cast_one,
      List.append_assoc, List.singleton_append] at h1
    have h0 : secOf (pre ++ e :: es) (pre.length : Int) = e.second := by
      simp [secOf, getI_natCast]
    simp only [vertEntries, List.map_cons, h0, h1, seconds]

/-- The first loop of `Assemble` fails exactly when a `first` id repeats (or is
indexed already), with the duplicate-vertices error; otherwise it adds one
entry for each edge. -/
theorem buildVertEdge_spec (es : List EdgeVerts) :
    ∀ (i : Int) (m : Map Int), m.Ordered →
      (¬ (firsts es ++ m.keys).Nodup → buildVertEdge es i m = .error .duplicateVertices) ∧
      ((firsts es ++ m.keys).Nodup →
        ∃ m1, buildVertEdge es i m = .ok m1 ∧ m1.Ordered ∧
          List.Perm m1 (vertEntries es i ++ m)) := by
  induction es with
  | nil =>
    intro i m ho
    exact ⟨fun h => absurd (by simpa [firsts] using ho.nodup) h,
      fun _ => ⟨m, rfl, ho, by simp [vertEntries]⟩⟩
  | cons e es ih =>
    intro i m ho
    cases hem : Map.emplace m e.first i with
    | mk m1 b =>
      cases b with
      | false =>
        have hmem : e.first ∈ m.keys := Map.emplace_false (by rw [hem])
        have hnot : ¬ (firsts (e :: es) ++ m.keys).Nodup := by
          simp only [firsts, List.map_cons, List.cons_append, List.nodup_cons]
          exact fun h => h.1 (List.mem_append_right _ hmem)
        exact ⟨fun _ => by simp [buildVertEdge, hem], fun h => absurd h hnot⟩
      | true =>
        have hnotmem : e.first ∉ m.keys := Map.emplace_true ho (by rw [hem])
        have hperm : List.Perm m1 ((e.first, i) :: m) := by
          have := Map.emplace_perm (m := m) (k := e.first) (v := i) (by rw [hem])
          rwa [hem] at this
        have ho1 : m1.Ordered := by
          have := Map.emplace_ordered (k := e.first) (v := i) ho
          rwa [hem] at this
        have hkeys : List.Perm (firsts es ++ m1.keys) (firsts (e :: es) ++ m.keys) := by
          have h1 : List.Perm m1.keys (e.first :: m.keys) := by
            simpa [Map.keys] using hperm.map Prod.fst
          have h2 := (List.Perm.append_left (firsts es) h1)
          refine h2.trans ?_
          simp only [firsts, List.map_cons, List.cons_append]
          exact List.perm_middle
        have hrec := ih (i + 1) m1 ho1
        have hstep : buildVertEdge (e :: es) i m = buildVertEdge es (i + 1) m1 := by
          simp [buildVertEdge, hem]
        rw [hstep]
        refine ⟨fun h => hrec.1 (fun h1 => h (hkeys.nodup_iff.mp h1)), fun h => ?_⟩
        obtain ⟨m2, hm2, ho2, hp2⟩ := hrec.2 (hkeys.nodup_iff.mpr h)
        refine ⟨m2, hm2, ho2, hp2.trans ?_⟩
        simp only [vertEntries, List.cons_append]
        exact (List.Perm.append_left _ hperm).trans List.perm_middle

/-- The state in which the loop of `Assemble` starts satisfies the
invariant, and its balance is that of the `second` ids against the `first`
ids. -/
theorem Assemble_init {E : List EdgeVerts} {m : Map Int} (ho : m.Ordered)
    (hp : List.Perm m (vertEntries E 0)) :
    LoopInv E ⟨m, 0, 0, []⟩ ∧ m.length = E.length ∧
      (List.Perm (pending E ⟨m, 0, 0, []⟩) (Map.keys m) ↔
        List.Perm (seconds E) (firsts E)) := by
  have hvalid := vertEntries_valid [] E
  simp only [List.length_nil, Nat.cast_zero, List.nil_append] at hvalid
  refine ⟨⟨⟨ho, fun kv hkv => hvalid kv (hp.subset hkv)⟩, fun h => absurd rfl h⟩, ?_, ?_⟩
  · rw [hp.length_eq, vertEntries_length]
  · have hsec := vertEntries_seconds [] E
    simp only [List.length_nil, Nat.cast_zero, List.nil_append] at hsec
    have h1 : List.Perm (pending E ⟨m, 0, 0, []⟩) (seconds E) := by
      simp only [pending, if_true]
      rw [← hsec]
      exact hp.map _
    have h2 : List.Perm (Map.keys m) (firsts E) := by
      rw [← vertEntries_keys E 0]
      exact hp.map _
    rw [perm_congr_left' h1, perm_congr_right' h2]

/-- The outcome of `Assemble` in full: the duplicate-vertices error when a
`first` id repeats; otherwise polygons when the `second` ids are a permutation
of the `first` ids, and the nonmanifold-edge error when they are not. The fuel
never runs out. -/
theorem AssembleRun_cases (E : List EdgeVerts) :
    (¬ (firsts E).Nodup ∧ buildVertEdge E 0 [] = .error .duplicateVertices ∧
        AssembleRun E = some (.error .duplicateVertices)) ∨
      ((firsts E).Nodup ∧ List.Perm (seconds E) (firsts E) ∧
        ∃ P, AssembleRun E = some (.ok P)) ∨
      ((firsts E).Nodup ∧ ¬ List.Perm (seconds E) (firsts E) ∧
        AssembleRun E = some (.error .nonmanifoldEdge)) := by
  have hb := buildVertEdge_spec E 0 [] (by simp [Map.Ordered, Map.keys])
  simp only [Map.keys, List.map_nil, List.append_nil] at hb
  by_cases hnd : (firsts E).Nodup
  · right
    obtain ⟨m, hm, ho, hp⟩ := hb.2 hnd
    obtain ⟨hinv, hlen, hiff⟩ := Assemble_init ho hp
    have hl := AssembleLoop_spec E (E.length + 1) ⟨m, 0, 0, []⟩ hinv (by simp [hlen])
    have hrun : AssembleRun E = AssembleLoop E (E.length + 1) ⟨m, 0, 0, []⟩ := by
      simp [AssembleRun, hm]
    rw [hrun]
    by_cases hperm : List.Perm (seconds E) (firsts E)
    · exact Or.inl ⟨hnd, hperm, hl.1 (hiff.mpr hperm)⟩
    · exact Or.inr ⟨hnd, hperm, hl.2 (fun h => hperm (hiff.mp h))⟩
  · left
    exact ⟨hnd, hb.1 hnd, by simp [AssembleRun, hb.1 hnd]⟩

theorem AssembleRun_terminates (E : List EdgeVerts) : AssembleRun E ≠ none := by
  rcases AssembleRun_cases E with ⟨_, _, h⟩ | ⟨_, _, P, h⟩ | ⟨_, _, h⟩ <;> simp [h]

/-- With pairwise distinct `first` ids, the `second` ids are a permutation of
them iff each `second` is some edge's `first` and no two edges share a
`second`. -/
theorem seconds_perm_iff {E : List EdgeVerts} (hnd : (firsts E).Nodup) :
    List.Perm (seconds E) (firsts E) ↔
      (∀ e ∈ E, e.second ∈ firsts E) ∧ (seconds E).Nodup := by
  constructor
  · intro hp
    exact ⟨fun e he => hp.subset (List.mem_map_of_mem _ he), hp.nodup_iff.mpr hnd⟩
  · rintro ⟨hsub, hnd2⟩
    have hsub2 : seconds E ⊆ firsts E := by
      intro v hv
      obtain ⟨e, he, rfl⟩ := List.mem_map.mp hv
      exact hsub e he
    exact (List.subperm_of_subset hnd2 hsub2).perm_of_length_le (by simp [seconds, firsts])

/-- With pairwise distinct `first` ids, the `second` ids are a permutation of
them iff every vertex id that occurs is the `first` of exactly one edge and the
`second` of exactly one edge. -/
theorem seconds_perm_iff_count {E : List EdgeVerts} (hnd : (firsts E).Nodup) :
    List.Perm (seconds E) (firsts E) ↔
      ∀ v, v ∈ firsts E ∨ v ∈ seconds E →
        (firsts E).count v = 1 ∧ (seconds E).count v = 1 := by
  constructor
  · intro hp v hv
    have hv1 : v ∈ firsts E := hv.elim id (fun h => hp.subset h)
    have hc := List.count_eq_one_of_mem hnd hv1
    exact ⟨hc, by rw [hp.count_eq, hc]⟩
  · intro h
    rw [List.perm_iff_count]
    intro v
    by_cases hv : v ∈ firsts E ∨ v ∈ seconds E
    · rw [(h v hv).1, (h v hv).2]
    · rw [not_or] at hv
      rw [List.count_eq_zero_of_not_mem hv.1, List.count_eq_zero_of_not_mem hv.2]

theorem Assemble_eq_of_run {E : List EdgeVerts} {r : Except Err Polygons}
    (h : AssembleRun E = some r) : Assemble E = r := by
  simp [Assemble, h]

/-- C8: `Assemble` fails with the duplicate-vertices error iff two edges have
the same `first` id; the check is made by the indexing loop, before any polygon
is built, so it takes precedence over the nonmanifold-edge failure. -/
theorem Assemble_duplicate_vertices (E : List EdgeVerts) :
    (Assemble E = .error .duplicateVertices ↔ ¬ (firsts E).Nodup) ∧
      (¬ (firsts E).Nodup → buildVertEdge E 0 [] = .error .duplicateVertices) := by
  rcases AssembleRun_cases E with ⟨h1, h2, h3⟩ | ⟨h1, _, P, h3⟩ | ⟨h1, _, h3⟩
  · exact ⟨by simp [Assemble_eq_of_run h3, h1], fun _ => h2⟩
  · exact ⟨by simp [Assemble_eq_of_run h3, h1], fun h => absurd h1 h⟩
  · exact ⟨by simp [Assemble_eq_of_run h3, h1], fun h => absurd h1 h⟩

/-- C7: `Assemble` terminates on every input (the fuel never runs out); and for
edges with pairwise distinct `first` ids it fails with the nonmanifold-edge
error iff the `second` ids are not a permutation of the `first` ids, that is iff
some edge's `second` is no edge's `first` or two edges share a `second`;
equivalently it succeeds iff every vertex id is the `first` of exactly one edge
and the `second` of exactly one edge. -/
theorem Assemble_nonmanifold_edge (E : List EdgeVerts) :
    AssembleRun E ≠ none ∧
      ((firsts E).Nodup →
        (Assemble E = .error .nonmanifoldEdge ↔ ¬ List.Perm (seconds E) (firsts E)) ∧
        (Assemble E = .error .nonmanifoldEdge ↔
          (∃ e ∈ E, e.second ∉ firsts E) ∨ ¬ (seconds E).Nodup) ∧
        ((∃ P, Assemble E = .ok P) ↔
          ∀ v, v ∈ firsts E ∨ v ∈ seconds E →
            (firsts E).count v = 1 ∧ (seconds E).count v = 1)) := by
  refine ⟨AssembleRun_terminates E, fun hnd => ?_⟩
  have hA : (Assemble E = .error .nonmanifoldEdge ↔ ¬ List.Perm (seconds E) (firsts E)) ∧
      ((∃ P, Assemble E = .ok P) ↔ List.Perm (seconds E) (firsts E)) := by
    rcases AssembleRun_cases E with ⟨h1, _, _⟩ | ⟨_, h2, P, h3⟩ | ⟨_, h2, h3⟩
    · exact absurd hnd h1
    · simp [Assemble_eq_of_run h3, h2]
    · simp [Assemble_eq_of_run h3, h2]
  refine ⟨hA.1, ?_, ?_⟩
  · rw [hA.1, seconds_perm_iff hnd, not_and_or]
    simp only [not_forall, exists_prop]
  · rw [hA.2, seconds_perm_iff_count hnd]

/-! ## Manifold check -/

theorem forEach_ok_iff {α : Type} (f : α → Except Err Unit) (l : List α) :
    forEach f l = .ok () ↔ ∀ a ∈ l, f a = .ok () := by
  induction l with
  | nil => simp [forEach]
  | cons a l ih =>
    cases h : f a with
    | error e => simp [forEach, h]
    | ok u => simp [forEach, h, ih]

theorem getI_of_lt {α : Type} {v : List α} {n : Nat} (h : n < v.length) :
    getI v (n : Int) = .ok v[n] := by
  simp [getI_natCast, List.getElem?_eq_getElem h]

theorem getI_pred_of_lt {α : Type} {v : List α} {n : Nat} (h0 : 0 < n) (h : n < v.length) :
    getI v ((n : Int) - 1) = .ok (v.get ⟨n - 1, by omega⟩) := by
  have : ((n : Int) - 1) = ((n - 1 : Nat) : Int) := by omega
  rw [this]
  exact getI_of_lt (by omega)

theorem cmp_iff (a b : EdgeVerts) : cmp a b = true ↔ lexKey a < lexKey b := by
  simp [cmp, lexKey, Prod.Lex.lt_iff]

theorem cmp_false_iff (a b : EdgeVerts) : cmp b a = false ↔ lexKey a ≤ lexKey b := by
  rw [← not_lt, ← cmp_iff]
  simp

theorem sortEdges_perm (v : List EdgeVerts) : List.Perm (sortEdges v) v :=
  List.perm_insertionSort _ v

theorem sortEdges_sorted (v : List EdgeVerts) :
    ((sortEdges v).map lexKey).Sorted (· ≤ ·) := by
  have h := @List.sorted_insertionSort EdgeVerts (fun a b => cmp b a = false) _
    ⟨fun a b => by
      simp only [cmp_false_iff]
      exact le_total _ _⟩
    ⟨fun a b c => by
      simp only [cmp_false_iff]
      exact le_trans⟩ v
  unfold List.Sorted
  rw [List.pairwise_map]
  exact List.Pairwise.imp (fun hab => (cmp_false_iff _ _).mp hab) h

theorem ends_eq_iff (a b : EdgeVerts) : ends a = ends b ↔ lexKey a = lexKey b := by
  simp [ends, lexKey]

theorem lexKey_eq_toLex (e : EdgeVerts) : lexKey e = toLex (ends e) := rfl

/-- Body of the matching loop, at an index inside both vectors. -/
theorem matchBody_ok_iff {F B : List EdgeVerts} {i : Nat} (hF : i < F.length)
    (hB : i < B.length) :
    matchBody F B i = .ok () ↔
      ends F[i] = ends B[i] ∧
        (0 < i → ends (F.get ⟨i - 1, by omega⟩) ≠ ends F[i] ∧
          ends (B.get ⟨i - 1, by omega⟩) ≠ ends B[i]) := by
  unfold matchBody
  rw [getI_of_lt hF, getI_of_lt hB]
  by_cases h0 : 0 < i
  · rw [getI_pred_of_lt h0 hF, getI_pred_of_lt h0 hB]
    simp only [ALWAYS_ASSERT, ends, h0, if_true, Prod.mk.injEq, ne_eq, forall_true_left]
    split_ifs with h1 h2 h3 <;> (simp_all; try tauto)
  · have hi : i = 0 := by omega
    subst hi
    simp only [ALWAYS_ASSERT, ends, Prod.mk.injEq]
    split_ifs with h1 <;> simp_all

theorem ends_getElem_eq {F B : List EdgeVerts} (heq : F.map ends = B.map ends) {i : Nat}
    (hF : i < F.length) (hB : i < B.length) : ends F[i] = ends B[i] := by
  have h1 := congrArg (fun l => l[i]?) heq
  simpa [List.getElem?_eq_getElem, hF, hB] using h1

/-- The matching loop passes iff the two sorted vectors have the same end
points position by position and no two neighbours in them coincide. -/
theorem matchLoop_ok_iff {F B : List EdgeVerts} {n : Nat} (hF : F.length = n)
    (hB : B.length = n) :
    forEach (matchBody F B) (List.range n) = .ok () ↔
      F.map ends = B.map ends ∧ List.Chain' (· ≠ ·) (F.map ends) := by
  rw [forEach_ok_iff]
  constructor
  · intro h
    refine ⟨List.ext_getElem (by simp [hF, hB]) (fun i h1 h2 => ?_), ?_⟩
    · simp only [List.length_map] at h1 h2
      simp only [List.getElem_map]
      exact ((matchBody_ok_iff h1 h2).mp (h i (List.mem_range.mpr (by omega)))).1
    · rw [List.chain'_iff_get]
      intro i hi
      simp only [List.length_map] at hi
      have hi1 : i + 1 < F.length := by omega
      have hi2 : i + 1 < B.length := by omega
      have := (((matchBody_ok_iff hi1 hi2).mp
        (h (i + 1) (List.mem_range.mpr (by omega)))).2 (by omega)).1
      simpa using this
  · rintro ⟨heq, hch⟩ i hi
    have hi' : i < n := List.mem_range.mp hi
    have hiF : i < F.length := by omega
    have hiB : i < B.length := by omega
    rw [matchBody_ok_iff hiF hiB]
    refine ⟨ends_getElem_eq heq hiF hiB, fun h0 => ?_⟩
    rw [List.chain'_iff_get] at hch
    have h2 := hch (i - 1) (by simp only [List.length_map]; omega)
    simp only [List.get_eq_getElem, List.getElem_map] at h2
    have h3 : i - 1 + 1 = i := by omega
    simp only [h3] at h2
    refine ⟨by simpa using h2, ?_⟩
    have h4 := ends_getElem_eq heq hiF hiB
    have h5 := ends_getElem_eq heq (i := i - 1) (by omega) (by omega)
    simp only [List.get_eq_getElem]
    rw [← h4, ← h5]
    exact h2

/-- The self-loops of a halfedge list. -/
theorem ends_partition (H : List EdgeVerts) :
    List.Perm (H.map ends)
      ((fwdEdges H).map ends ++ (bwdEdges H).map ends ++
        (H.filter (fun e => decide (e.first = e.second))).map ends) := by
  induction H with
  | nil => simp [fwdEdges, bwdEdges]
  | cons e H ih =>
    rcases lt_trichotomy e.first e.second with h | h | h
    · have d1 : decide (e.second > e.first) = true := by simpa using h
      have d2 : decide (e.second < e.first) = false := by simp; omega
      have d3 : decide (e.first = e.second) = false := by simp; omega
      simp only [fwdEdges, bwdEdges, List.filter_cons, d1, d2, d3, if_true, List.map_cons,
        List.cons_append, Bool.false_eq_true, if_false] at ih ⊢
      exact ih.cons _
    · have d1 : decide (e.second > e.first) = false := by simp; omega
      have d2 : decide (e.second < e.first) = false := by simp; omega
      have d3 : decide (e.first = e.second) = true := by simpa using h
      simp only [fwdEdges, bwdEdges, List.filter_cons, d1, d2, d3, if_true, List.map_cons,
        Bool.false_eq_true, if_false] at ih ⊢
      exact (ih.cons _).trans List.perm_middle.symm
    · have d1 : decide (e.second > e.first) = false := by simp; omega
      have d2 : decide (e.second < e.first) = true := by simpa using h
      have d3 : decide (e.first = e.second) = false := by simp; omega
      simp only [fwdEdges, bwdEdges, List.filter_cons, d1, d2, d3, if_true, List.map_cons,
        Bool.false_eq_true, if_false] at ih ⊢
      refine (ih.cons _).trans ?_
      rw [List.append_assoc, List.append_assoc]
      refine List.perm_middle.symm.trans ?_
      simp

theorem ends_swapEnds (v : List EdgeVerts) :
    (v.map swapEnds).map ends = (v.map ends).map Prod.swap := by
  simp [List.map_map, Function.comp_def, ends, swapEnds]

theorem mem_fwdEdges {H : List EdgeVerts} {e : EdgeVerts} :
    e ∈ fwdEdges H ↔ e ∈ H ∧ e.first < e.second := by
  simp [fwdEdges]

theorem mem_bwdEdges {H : List EdgeVerts} {e : EdgeVerts} :
    e ∈ bwdEdges H ↔ e ∈ H ∧ e.second < e.first := by
  simp [bwdEdges]

/-- Sorted vectors have the same end points position by position iff the
vectors have the same end points up to order. -/
theorem sorted_ends_eq_iff (v w : List EdgeVerts) :
    (sortEdges v).map ends = (sortEdges w).map ends ↔ List.Perm (v.map ends) (w.map ends) := by
  constructor
  · intro h
    exact ((sortEdges_perm v).map ends).symm.trans (h ▸ (sortEdges_perm w).map ends)
  · intro h
    have hp : List.Perm ((sortEdges v).map lexKey) ((sortEdges w).map lexKey) := by
      have h1 : List.Perm ((sortEdges v).map ends) ((sortEdges w).map ends) :=
        ((sortEdges_perm v).map ends).trans (h.trans ((sortEdges_perm w).map ends).symm)
      have h2 := h1.map toLex
      simpa [List.map_map, Function.comp_def, lexKey_eq_toLex] using h2
    have heq := List.eq_of_perm_of_sorted hp (sortEdges_sorted v) (sortEdges_sorted w)
    have h3 := congrArg (List.map ofLex) heq
    simpa [List.map_map, Function.comp_def, lexKey_eq_toLex] using h3

/-- In a sorted vector, neighbours never coincide iff no two elements do. -/
theorem sorted_chain_ne_iff (v : List EdgeVerts) :
    List.Chain' (· ≠ ·) ((sortEdges v).map ends) ↔ (v.map ends).Nodup := by
  rw [← ((sortEdges_perm v).map ends).nodup_iff]
  constructor
  · intro h
    have h1 : List.Chain' (· < ·) ((sortEdges v).map lexKey) := by
      have hs := (sortEdges_sorted v).chain'
      have hne : List.Chain' (· ≠ ·) ((sortEdges v).map lexKey) := by
        rw [List.chain'_map] at h ⊢
        exact h.imp (fun a b hab heq => hab ((ends_eq_iff a b).mpr heq))
      rw [List.chain'_iff_get] at hs hne ⊢
      exact fun i hi => lt_of_le_of_ne (hs i hi) (hne i hi)
    have h2 : ((sortEdges v).map lexKey).Nodup :=
      (List.chain'_iff_pairwise.mp h1).imp (fun hab => ne_of_lt hab)
    have h3 : ((sortEdges v).map lexKey) = ((sortEdges v).map ends).map toLex := by
      simp [List.map_map, Function.comp_def, lexKey_eq_toLex]
    rw [h3] at h2
    exact h2.of_map _
  · intro h
    exact List.Pairwise.chain' h

theorem loops_nil_iff (H : List EdgeVerts) :
    H.filter (fun e => decide (e.first = e.second)) = [] ↔ ∀ e ∈ H, e.first ≠ e.second := by
  simp [List.filter_eq_nil_iff]

theorem length_partition (H : List EdgeVerts) :
    H.length = (fwdEdges H).length + (bwdEdges H).length +
      (H.filter (fun e => decide (e.first = e.second))).length := by
  have := (ends_partition H).length_eq
  simp only [List.length_map, List.length_append] at this
  exact this

/-- In a 2-manifold edge set the forward halfedges are the reversed backward
halfedges, up to order. -/
theorem Manifold2.fwd_perm_bwd {H : List EdgeVerts} (h : Manifold2 H) :
    List.Perm ((fwdEdges H).map ends) (((bwdEdges H).map swapEnds).map ends) := by
  obtain ⟨_, hnd, hrev⟩ := h
  have hsubF : List.Sublist ((fwdEdges H).map ends) (H.map ends) :=
    (List.filter_sublist H).map ends
  have hsubB : List.Sublist ((bwdEdges H).map ends) (H.map ends) :=
    (List.filter_sublist H).map ends
  rw [ends_swapEnds]
  refine (List.perm_ext_iff_of_nodup (hnd.sublist hsubF)
    ((hnd.sublist hsubB).map Prod.swap_injective)).mpr (fun x => ?_)
  simp only [List.mem_map, mem_fwdEdges, mem_bwdEdges]
  constructor
  · rintro ⟨e, ⟨he, hlt⟩, rfl⟩
    obtain ⟨e1, he1, heq⟩ := List.mem_map.mp (hrev e he)
    simp only [ends, Prod.mk.injEq] at heq
    exact ⟨ends e1, ⟨e1, ⟨he1, by omega⟩, rfl⟩, by simp [ends, heq.1, heq.2]⟩
  · rintro ⟨_, ⟨e, ⟨he, hlt⟩, rfl⟩, rfl⟩
    obtain ⟨e1, he1, heq⟩ := List.mem_map.mp (hrev e he)
    simp only [ends, Prod.mk.injEq] at heq
    exact ⟨e1, ⟨he1, by omega⟩, by simp [ends, heq.1, heq.2]⟩

/-- A 2-manifold edge set passes the counting and matching checks of
`CheckManifold`. -/
theorem topology_of_manifold {H : List EdgeVerts} (h : Manifold2 H) :
    H.length % 2 = 0 ∧ (fwdEdges H).length = H.length / 2 ∧
      (bwdEdges H).length = H.length / 2 ∧
      forEach (matchBody (sortEdges (fwdEdges H)) (sortEdges ((bwdEdges H).map swapEnds)))
        (List.range (H.length / 2)) = .ok () := by
  have hperm := h.fwd_perm_bwd
  have hlen : (fwdEdges H).length = (bwdEdges H).length := by
    simpa using hperm.length_eq
  have hloops := (loops_nil_iff H).mpr h.1
  have hpart := length_partition H
  rw [hloops] at hpart
  simp only [List.length_nil, add_zero] at hpart
  have hF : (fwdEdges H).length = H.length / 2 := by omega
  have hB : (bwdEdges H).length = H.length / 2 := by omega
  refine ⟨by omega, hF, hB, ?_⟩
  rw [matchLoop_ok_iff (by rw [(sortEdges_perm _).length_eq, hF])
    (by rw [(sortEdges_perm _).length_eq, List.length_map, hB])]
  refine ⟨(sorted_ends_eq_iff _ _).mpr hperm, (sorted_chain_ne_iff _).mpr ?_⟩
  exact h.2.1.sublist ((List.filter_sublist H).map ends)

/-- A halfedge list that passes the counting and matching checks of
`CheckManifold` is a 2-manifold edge set. -/
theorem manifold_of_topology {H : List EdgeVerts} (h1 : H.length % 2 = 0)
    (h2 : (fwdEdges H).length = H.length / 2) (h3 : (bwdEdges H).length = H.length / 2)
    (h4 : forEach (matchBody (sortEdges (fwdEdges H)) (sortEdges ((bwdEdges H).map swapEnds)))
        (List.range (H.length / 2)) = .ok ()) : Manifold2 H := by
  rw [matchLoop_ok_iff (by rw [(sortEdges_perm _).length_eq, h2])
    (by rw [(sortEdges_perm _).length_eq, List.length_map, h3])] at h4
  obtain ⟨heq, hch⟩ := h4
  have hperm := (sorted_ends_eq_iff _ _).mp heq
  have hndF := (sorted_chain_ne_iff _).mp hch
  have hndB : ((bwdEdges H).map ends).Nodup := by
    have : (((bwdEdges H).map swapEnds).map ends).Nodup := hperm.nodup_iff.mp hndF
    rw [ends_swapEnds] at this
    exact this.of_map _
  have hpart := length_partition H
  have hloops : H.filter (fun e => decide (e.first = e.second)) = [] :=
    List.length_eq_zero.mp (by omega)
  have hnoloop := (loops_nil_iff H).mp hloops
  have hp := ends_partition H
  rw [hloops] at hp
  simp only [List.map_nil, List.append_nil] at hp
  refine ⟨hnoloop, hp.nodup_iff.mpr ?_, fun e he => ?_⟩
  · refine List.Nodup.append hndF hndB (fun x hx hx1 => ?_)
    obtain ⟨e1, he1, rfl⟩ := List.mem_map.mp hx
    obtain ⟨e2, he2, heq2⟩ := List.mem_map.mp hx1
    have := (mem_fwdEdges.mp he1).2
    have := (mem_bwdEdges.mp he2).2
    simp only [ends, Prod.mk.injEq] at heq2
    omega
  · rw [ends_swapEnds] at hperm
    rcases lt_trichotomy e.first e.second with hlt | heq1 | hgt
    · have hm : ends e ∈ (fwdEdges H).map ends :=
        List.mem_map_of_mem _ (mem_fwdEdges.mpr ⟨he, hlt⟩)
      obtain ⟨k, hk, hk1⟩ := List.mem_map.mp (hperm.subset hm)
      have hk2 : k = (e.second, e.first) := by
        rw [← Prod.swap_swap k, hk1]
        rfl
      rw [← hk2]
      exact hp.symm.subset (List.mem_append_right _ hk)
    · exact absurd heq1 (hnoloop e he)
    · have hm : Prod.swap (ends e) ∈ ((bwdEdges H).map ends).map Prod.swap :=
        List.mem_map_of_mem _ (List.mem_map_of_mem _ (mem_bwdEdges.mpr ⟨he, hgt⟩))
      exact hp.symm.subset (List.mem_append_left _ (hperm.symm.subset hm))

/-- The checks that `CheckManifold` makes, one by one. -/
theorem CheckManifold_ok_iff (K : Edge) (H : List EdgeVerts) :
    CheckManifold K H = .ok () ↔
      H.length % 2 = 0 ∧ (fwdEdges H).length = H.length / 2 ∧
        (bwdEdges H).length = H.length / 2 ∧
        forEach (matchBody (sortEdges (fwdEdges H)) (sortEdges ((bwdEdges H).map swapEnds)))
          (List.range (H.length / 2)) = .ok () ∧
        forEach (interfaceBody K (sortEdges (fwdEdges H))
          (sortEdges ((bwdEdges H).map swapEnds)) (buildVert2edges K H []))
          (List.range (H.length / 2)) = .ok () := by
  unfold CheckManifold ALWAYS_ASSERT
  simp only [fwdEdges, bwdEdges, beq_iff_eq]
  split_ifs with h1 h2 h3
  · simp only [h1, h2, h3, true_and]
    cases h4 : forEach (matchBody _ _) (List.range (H.length / 2)) with
    | error e => simp
    | ok u => simp
  · simp [h3]
  · simp [h2]
  · simp [h1]

theorem reverse_count {H : List EdgeVerts} (hnd : (H.map ends).Nodup) {a b : Int}
    (hm : (a, b) ∈ H.map ends) :
    (H.filter (fun r => decide (r.first = a ∧ r.second = b))).length = 1 := by
  induction H with
  | nil => simp at hm
  | cons e H ih =>
    simp only [List.map_cons, List.nodup_cons] at hnd
    by_cases he : e.first = a ∧ e.second = b
    · have hnone : H.filter (fun r => decide (r.first = a ∧ r.second = b)) = [] := by
        rw [List.filter_eq_nil_iff]
        intro r hr hr1
        simp only [decide_eq_true_eq] at hr1
        apply hnd.1
        have : ends e = ends r := by simp [ends, he.1, he.2, hr1.1, hr1.2]
        rw [this]
        exact List.mem_map_of_mem _ hr
      have hd : decide (e.first = a ∧ e.second = b) = true := by simpa using he
      rw [List.filter_cons, hd, if_pos rfl, hnone]
      rfl
    · have hm1 : (a, b) ∈ H.map ends := by
        simp only [List.map_cons, List.mem_cons] at hm
        rcases hm with hm | hm
        · simp only [ends, Prod.mk.injEq] at hm
          exact absurd ⟨hm.1.symm, hm.2.symm⟩ he
        · exact hm
      simp only [List.filter_cons, he, decide_False, Bool.false_eq_true, if_false]
      exact ih hnd.2 hm1

/-- C5: a halfedge list that passes `CheckManifold` has even length, contains no
halfedge with `first = second`, contains no two halfedges with the same
`(first, second)`, and contains the reverse of each of its halfedges exactly
once. -/
theorem CheckManifold_two_manifold (K : Edge) (H : List EdgeVerts)
    (h : CheckManifold K H = .ok ()) :
    H.length % 2 = 0 ∧ (∀ e ∈ H, e.first ≠ e.second) ∧ (H.map ends).Nodup ∧
      ∀ e ∈ H, (H.filter (fun r => decide (r.first = e.second ∧ r.second = e.first))).length
        = 1 := by
  obtain ⟨h1, h2, h3, h4, _⟩ := (CheckManifold_ok_iff K H).mp h
  obtain ⟨hloop, hnd, hrev⟩ := manifold_of_topology h1 h2 h3 h4
  exact ⟨h1, hloop, hnd, fun e he => reverse_count hnd (hrev e he)⟩

set_option maxRecDepth 100000 in
/-- C5 at the triangulated unit square. -/
theorem CheckManifold_two_manifold_witness :
    CheckManifold sampleTags squareHalfedges = .ok () ∧
      squareHalfedges.length % 2 = 0 ∧ (∀ e ∈ squareHalfedges, e.first ≠ e.second) ∧
      (squareHalfedges.map ends).Nodup ∧
      ∀ e ∈ squareHalfedges,
        (squareHalfedges.filter
          (fun r => decide (r.first = e.second ∧ r.second = e.first))).length = 1 :=
  ⟨by decide!, CheckManifold_two_manifold sampleTags squareHalfedges (by decide!)⟩

/-! ## Manifold check: the interface test -/

namespace Map

variable {β : Type}

theorem update_keys (m : Map β) (k : Int) (f : β → β) : (update m k f).keys = m.keys := by
  induction m with
  | nil => rfl
  | cons kv m ih =>
    obtain ⟨k1, v1⟩ := kv
    have ih1 : List.map Prod.fst (update m k f) = List.map Prod.fst m := ih
    by_cases h : k1 = k
    · simp [update, h, keys]
    · simp [update, h, keys, ih1]

theorem find_update (m : Map β) (k a : Int) (f : β → β) :
    find (update m k f) a = if a = k then (find m k).map f else find m a := by
  induction m with
  | nil => simp [update, find]
  | cons kv m ih =>
    obtain ⟨k1, v1⟩ := kv
    by_cases h : k1 = k
    · subst h
      by_cases h2 : a = k1
      · subst h2
        simp [update, find]
      · have h3 : ¬ k1 = a := fun h => h2 h.symm
        simp [update, find, h2, h3]
    · by_cases h2 : a = k
      · subst h2
        have h3 : ¬ k1 = a := h
        simp only [update, h, if_false, find, h3, ih, if_true]
      · by_cases h3 : k1 = a
        · simp [update, find, h, h2, h3]
        · simp only [update, h, if_false, find, h3, ih, h2]

theorem find_emplace {m : Map β} {k : Int} {v : β} (ho : m.Ordered)
    (h : (emplace m k v).2 = true) (a : Int) :
    find (emplace m k v).1 a = if a = k then some v else find m a := by
  have hp := emplace_perm h
  have ho1 : (emplace m k v).1.Ordered := emplace_ordered ho
  by_cases ha : a = k
  · subst ha
    simp only [if_true]
    exact find_of_mem ho1.nodup (hp.symm.subset (List.mem_cons_self _ _))
  · simp only [ha, if_false]
    cases hf : find m a with
    | none =>
      rw [find_eq_none_iff] at hf ⊢
      intro hmem
      have := (hp.map Prod.fst).subset hmem
      simp only [List.map_cons, List.mem_cons] at this
      rcases this with h1 | h1
      · exact ha h1
      · exact hf h1
    | some w =>
      exact find_of_mem ho1.nodup (hp.symm.subset (List.mem_cons_of_mem _ (mem_of_find hf)))

end Map

theorem vert2edgesAdd_ordered {K : Edge} {m : Map (Int × Int)} (ho : m.Ordered) (v t : Int) :
    (vert2edgesAdd K m v t).Ordered := by
  unfold vert2edgesAdd
  cases h : Map.emplace m v (t, K.kInvalid) with
  | mk m1 b =>
    cases b with
    | true =>
      have := Map.emplace_ordered (k := v) (v := (t, K.kInvalid)) ho
      rw [h] at this
      exact this
    | false =>
      simp only [Map.Ordered, Map.update_keys]
      exact ho

theorem find_vert2edgesAdd {K : Edge} {m : Map (Int × Int)} (ho : m.Ordered) (v t a : Int) :
    (vert2edgesAdd K m v t).find a =
      if a = v then recordTags K (m.find v) [t] else m.find a := by
  unfold vert2edgesAdd
  cases h : Map.emplace m v (t, K.kInvalid) with
  | mk m1 b =>
    cases b with
    | true =>
      have hnot : v ∉ m.keys := Map.emplace_true ho (by rw [h])
      have hnone : m.find v = none := (Map.find_eq_none_iff _ _).mpr hnot
      have := Map.find_emplace (k := v) (v := (t, K.kInvalid)) ho (by rw [h]) a
      rw [h] at this
      simp only [this, hnone, recordTags]
    | false =>
      have hmem : v ∈ m.keys := Map.emplace_false (by rw [h])
      simp only [Map.find_update]
      cases hf : m.find v with
      | none => exact absurd hmem ((Map.find_eq_none_iff _ _).mp hf)
      | some p => simp [recordTags]

@[simp] theorem recordTags_nil (K : Edge) (o : Option (Int × Int)) : recordTags K o [] = o := by
  cases o <;> rfl

theorem recordTags_append (K : Edge) (o : Option (Int × Int)) (l1 l2 : List Int) :
    recordTags K o (l1 ++ l2) = recordTags K (recordTags K o l1) l2 := by
  induction l1 generalizing o with
  | nil => simp
  | cons t l1 ih =>
    cases o with
    | none => simp [recordTags, ih]
    | some p => simp [recordTags, ih]

/-- What `vert2edges` holds for a vertex: the record of its boundary tags. -/
theorem find_buildVert2edges (K : Edge) (H : List EdgeVerts) :
    ∀ (m : Map (Int × Int)), m.Ordered → ∀ a : Int,
      (buildVert2edges K H m).find a = recordTags K (m.find a) (boundaryTags K H a) := by
  induction H with
  | nil => intro m _ a; simp [buildVert2edges, boundaryTags]
  | cons h H ih =>
    intro m ho a
    by_cases hI : h.edge = K.kInterior
    · simp only [buildVert2edges, boundaryTags, hI, if_true]
      exact ih m ho a
    · simp only [buildVert2edges, boundaryTags, hI, if_false]
      have ho1 := vert2edgesAdd_ordered (K := K) ho h.first h.edge
      have ho2 := vert2edgesAdd_ordered (K := K) ho1 h.second h.edge
      rw [ih _ ho2 a, recordTags_append, recordTags_append]
      congr 1
      simp only [find_vert2edgesAdd ho1, find_vert2edgesAdd ho]
      by_cases h1 : a = h.first <;> by_cases h2 : a = h.second
      · have h3 : h.second = h.first := by rw [← h2, h1]
        simp only [h1, h3, if_true]
      · subst h1
        have h3 : ¬ h.second = h.first := fun h => h2 h.symm
        simp only [h2, h3, if_true, if_false, recordTags_nil]
      · subst h2
        have h3 : ¬ h.first = h.second := fun h => h1 h.symm
        simp only [h1, h3, if_true, if_false, recordTags_nil]
      · have h3 : ¬ h.first = a := fun h => h1 h.symm
        have h4 : ¬ h.second = a := fun h => h2 h.symm
        simp only [h1, h2, h3, h4, if_false, recordTags_nil]

theorem mem_boundaryTags_iff (K : Edge) (H : List EdgeVerts) (a t : Int) :
    t ∈ boundaryTags K H a ↔ IncidentTag K H a t := by
  induction H with
  | nil => simp [boundaryTags, IncidentTag]
  | cons h H ih =>
    unfold IncidentTag at ih ⊢
    by_cases hI : h.edge = K.kInterior
    · simp only [boundaryTags, hI, if_true, ih, List.mem_cons, exists_eq_or_imp, ne_eq,
        not_true_eq_false, false_and, false_or]
    · simp only [boundaryTags, hI, if_false, List.mem_append, ih, List.mem_cons,
        exists_eq_or_imp, ne_eq, not_false_eq_true, true_and]
      by_cases h1 : h.first = a <;> by_cases h2 : h.second = a <;>
        simp [h1, h2, eq_comm]

/-- The record of at most two tags holds each of them. -/
theorem recordTags_mem {K : Edge} {ts : List Int} (hlen : ts.length ≤ 2) {t : Int}
    (ht : t ∈ ts) : ∃ p, recordTags K none ts = some p ∧ (t = p.1 ∨ t = p.2) := by
  match ts, hlen, ht with
  | [t1], _, ht =>
    simp only [List.mem_singleton] at ht
    exact ⟨(t1, K.kInvalid), rfl, Or.inl ht⟩
  | [t1, t2], _, ht =>
    simp only [List.mem_cons, List.mem_singleton, List.not_mem_nil, or_false] at ht
    exact ⟨(t1, t2), rfl, ht⟩

theorem SharedEdge_false_iff (K : Edge) (e0 e1 : Int × Int) :
    SharedEdge K e0 e1 = false ↔
      ∀ t, t ≠ K.kNoIdx → (t = e0.1 ∨ t = e0.2) → ¬ (t = e1.1 ∨ t = e1.2) := by
  unfold SharedEdge
  simp only [Bool.or_eq_false_iff, Bool.and_eq_false_imp, bne_iff_ne, ne_eq, beq_iff_eq,
    Bool.or_eq_true, not_or]
  constructor
  · rintro ⟨h1, h2⟩ t ht (rfl | rfl)
    · simpa using h1 ht
    · simpa using h2 ht
  · intro h
    refine ⟨fun h1 => ?_, fun h1 => ?_⟩
    · simpa using h e0.1 h1 (Or.inl rfl)
    · simpa using h e0.2 h1 (Or.inr rfl)

/-- Body of the interface loop, at an index inside both vectors. -/
theorem interfaceBody_ok {K : Edge} {F B : List EdgeVerts} {m : Map (Int × Int)} {i : Nat}
    (hF : i < F.length) (hB : i < B.length)
    (h : interfaceBody K F B m i = .ok ()) (hf : F[i].edge = K.kInterior)
    (hb : B[i].edge = K.kInterior) :
    ∃ t0 t1, m.find F[i].first = some t0 ∧ m.find F[i].second = some t1 ∧
      SharedEdge K t0 t1 = false := by
  unfold interfaceBody at h
  rw [getI_of_lt hF, getI_of_lt hB] at h
  simp only [hf, hb, beq_self_eq_true, Bool.and_self, if_true] at h
  cases h0 : m.find F[i].first with
  | none => simp [h0] at h
  | some t0 =>
    cases h1 : m.find F[i].second with
    | none => simp [h0, h1] at h
    | some t1 =>
      refine ⟨t0, t1, rfl, rfl, ?_⟩
      simp only [h0, h1, ALWAYS_ASSERT] at h
      by_cases hs : SharedEdge K t0 t1 = true
      · simp [hs] at h
      · simpa using hs

/-- For an interior edge `a – b` with `a < b` of a list that passes
`CheckManifold`, both end points have an entry in `vert2edges` and the two
entries share no tag other than `kNoIdx`. -/
theorem interface_of_check {K : Edge} {H : List EdgeVerts} (h : CheckManifold K H = .ok ())
    {a b : Int} (hlt : a < b) (hab : (⟨a, b, K.kInterior⟩ : EdgeVerts) ∈ H)
    (hba : (⟨b, a, K.kInterior⟩ : EdgeVerts) ∈ H) :
    ∃ t0 t1, (buildVert2edges K H []).find a = some t0 ∧
      (buildVert2edges K H []).find b = some t1 ∧ SharedEdge K t0 t1 = false := by
  obtain ⟨h1, h2, h3, h4, h5⟩ := (CheckManifold_ok_iff K H).mp h
  have hFlen : (sortEdges (fwdEdges H)).length = H.length / 2 := by
    rw [(sortEdges_perm _).length_eq, h2]
  have hBlen : (sortEdges ((bwdEdges H).map swapEnds)).length = H.length / 2 := by
    rw [(sortEdges_perm _).length_eq, List.length_map, h3]
  obtain ⟨heq, hch⟩ := (matchLoop_ok_iff hFlen hBlen).mp h4
  have hndF : ((sortEdges (fwdEdges H)).map ends).Nodup :=
    (((sortEdges_perm _).map ends).nodup_iff).mpr ((sorted_chain_ne_iff _).mp hch)
  have hndB : ((sortEdges ((bwdEdges H).map swapEnds)).map ends).Nodup := heq ▸ hndF
  have hmF : (⟨a, b, K.kInterior⟩ : EdgeVerts) ∈ sortEdges (fwdEdges H) :=
    (sortEdges_perm _).symm.subset (mem_fwdEdges.mpr ⟨hab, hlt⟩)
  have hmB : (⟨a, b, K.kInterior⟩ : EdgeVerts) ∈ sortEdges ((bwdEdges H).map swapEnds) := by
    refine (sortEdges_perm _).symm.subset (List.mem_map.mpr ⟨⟨b, a, K.kInterior⟩, ?_, rfl⟩)
    exact mem_bwdEdges.mpr ⟨hba, hlt⟩
  obtain ⟨i, hi, hFi⟩ := List.getElem_of_mem hmF
  have hiB : i < (sortEdges ((bwdEdges H).map swapEnds)).length := by omega
  have hBi : (sortEdges ((bwdEdges H).map swapEnds))[i] = ⟨a, b, K.kInterior⟩ := by
    refine List.inj_on_of_nodup_map hndB (List.getElem_mem _) hmB ?_
    have h6 := ends_getElem_eq heq hi hiB
    rw [hFi] at h6
    exact h6.symm
  have hbody := (forEach_ok_iff _ _).mp h5 i (List.mem_range.mpr (by omega))
  have := interfaceBody_ok hi hiB hbody (by rw [hFi]) (by rw [hBi])
  simpa [hFi] using this

theorem find_vert2edges_of_tag {K : Edge} {H : List EdgeVerts} {a t : Int}
    (hlen : (boundaryTags K H a).length ≤ 2) (ht : IncidentTag K H a t) :
    ∃ p, (buildVert2edges K H []).find a = some p ∧ (t = p.1 ∨ t = p.2) := by
  rw [find_buildVert2edges K H [] (by simp [Map.Ordered, Map.keys]) a]
  exact recordTags_mem hlen ((mem_boundaryTags_iff K H a t).mpr ht)

/-- Where each of the two end points lies on at most two boundary halfedge
ends, the second loop of `CheckManifold` does what its comment says: in a
halfedge list that passes, an undirected edge with both halfedges tagged
`kInterior` never joins two vertices that are incident to boundary halfedges
carrying a common tag other than `kNoIdx`. -/
theorem CheckManifold_no_bridge (K : Edge) (H : List EdgeVerts)
    (h : CheckManifold K H = .ok ()) (a b t : Int)
    (hab : (⟨a, b, K.kInterior⟩ : EdgeVerts) ∈ H) (hba : (⟨b, a, K.kInterior⟩ : EdgeVerts) ∈ H)
    (ha : (boundaryTags K H a).length ≤ 2) (hb : (boundaryTags K H b).length ≤ 2)
    (hta : IncidentTag K H a t) (htb : IncidentTag K H b t) : t = K.kNoIdx := by
  by_contra hne
  obtain ⟨pa, hpa, hta1⟩ := find_vert2edges_of_tag ha hta
  obtain ⟨pb, hpb, htb1⟩ := find_vert2edges_of_tag hb htb
  have hloop := (CheckManifold_two_manifold K H h).2.1 _ hab
  simp only [ne_eq] at hloop
  rcases lt_or_gt_of_ne hloop with hlt | hgt
  · obtain ⟨t0, t1, h0, h1, hs⟩ := interface_of_check h hlt hab hba
    rw [hpa] at h0
    rw [hpb] at h1
    cases h0
    cases h1
    exact (SharedEdge_false_iff K _ _).mp hs t hne hta1 htb1
  · obtain ⟨t0, t1, h0, h1, hs⟩ := interface_of_check h hgt hba hab
    rw [hpb] at h0
    rw [hpa] at h1
    cases h0
    cases h1
    exact (SharedEdge_false_iff K _ _).mp hs t hne htb1 hta1

/-- What the second loop of `CheckManifold` compares: for an undirected edge
with both halfedges tagged `kInterior`, the records of its two end points,
each holding the first and the latest tag recorded for the vertex, share no
tag other than `kNoIdx`. -/
theorem CheckManifold_records (K : Edge) (H : List EdgeVerts)
    (h : CheckManifold K H = .ok ()) (a b : Int) (hlt : a < b)
    (hab : (⟨a, b, K.kInterior⟩ : EdgeVerts) ∈ H) (hba : (⟨b, a, K.kInterior⟩ : EdgeVerts) ∈ H) :
    ∃ pa pb, recordTags K none (boundaryTags K H a) = some pa ∧
      recordTags K none (boundaryTags K H b) = some pb ∧ SharedEdge K pa pb = false := by
  obtain ⟨t0, t1, h0, h1, hs⟩ := interface_of_check h hlt hab hba
  rw [find_buildVert2edges K H [] (by simp [Map.Ordered, Map.keys]) a] at h0
  rw [find_buildVert2edges K H [] (by simp [Map.Ordered, Map.keys]) b] at h1
  exact ⟨t0, t1, h0, h1, hs⟩

set_option maxRecDepth 100000 in
/-- C6 fails on the code. In `touchingPolys` the vertices `0`, `3` and `2` lie
on one side of the first polygon, whose two halves carry the tag `5`, and the
triangle `(0, 2, 3)` of `touchingTriangles` bridges `0` and `2` by an interior
edge. For the first polygon alone the check raises "Added an interface edge!".
With the second polygon, which touches the first at vertex `0`, that vertex
lies on four boundary halfedges; their tags are recorded in the order
`1, 5, 6, 8` and the record keeps `(1, 8)`, so the check passes although `0`
and `2` are both incident to boundary halfedges tagged `5`. The same happens
on `bridgeHalfedges`, where the tags at vertex `0` are `1, 5, 5, 2`. -/
theorem CheckManifold_bridge :
    CheckManifoldTP sampleTags [⟨0, 1, 2⟩, ⟨0, 2, 3⟩] (touchingPolys.take 1) =
        .error .interfaceEdge ∧
      CheckManifoldTP sampleTags touchingTriangles touchingPolys = .ok () ∧
      (Polygons2Edges touchingPolys).map
          (fun E => Triangles2Edges sampleTags touchingTriangles ++ E.map swapEnds) =
        .ok touchingHalfedges ∧
      CheckManifold sampleTags touchingHalfedges = .ok () ∧
      boundaryTags sampleTags touchingHalfedges 0 = [1, 5, 6, 8] ∧
      boundaryTags sampleTags touchingHalfedges 2 = [2, 5] ∧
      (buildVert2edges sampleTags touchingHalfedges []).find 0 = some (1, 8) ∧
      (buildVert2edges sampleTags touchingHalfedges []).find 2 = some (2, 5) ∧
      ¬ NoBridge sampleTags touchingHalfedges ∧
      CheckManifold sampleTags bridgeHalfedges = .ok () ∧
      ¬ NoBridge sampleTags bridgeHalfedges := by
  refine ⟨by decide!, by decide!, by decide!, by decide!, by decide!, by decide!,
    by decide!, by decide!, fun h => ?_, by decide!, fun h => ?_⟩
  · have h5 := h 0 2 5 (by decide) (by decide)
      ⟨⟨0, 3, 5⟩, by decide, by decide, rfl, Or.inl rfl⟩
      ⟨⟨3, 2, 5⟩, by decide, by decide, rfl, Or.inr rfl⟩
    exact absurd h5 (by decide)
  · have h5 := h 0 1 5 (by decide) (by decide)
      ⟨⟨0, 3, 5⟩, by decide, by decide, rfl, Or.inl rfl⟩
      ⟨⟨1, 4, 5⟩, by decide, by decide, rfl, Or.inl rfl⟩
    exact absurd h5 (by decide)

/-! ## Polygon assembler: the round trip -/

theorem polyEdges_cons_cons (a b : PolyVert) (l : List PolyVert) :
    polyEdges (a :: b :: l) = ⟨a.idx, b.idx, a.nextEdge⟩ :: polyEdges (b :: l) := rfl

theorem polyEdges_append_singleton (p : SimplePolygon) (hp : p ≠ []) (x : PolyVert) :
    polyEdges (p ++ [x]) =
      polyEdges p ++ [⟨(p.getLast hp).idx, x.idx, (p.getLast hp).nextEdge⟩] := by
  induction p with
  | nil => exact absurd rfl hp
  | cons a p ih =>
    cases p with
    | nil => simp [polyEdges]
    | cons b p =>
      have := ih (by simp)
      simp only [List.cons_append, polyEdges_cons_cons, List.getLast_cons_cons] at this ⊢
      rw [this]

theorem polyLoopEdges_eq (p : SimplePolygon) (hp : p ≠ []) :
    polyLoopEdges p = .ok (cycEdges p) := by
  cases p with
  | nil => exact absurd rfl hp
  | cons a p =>
    have h1 : (a :: p).getLast? = some ((a :: p).getLast hp) := List.getLast?_eq_getLast _ hp
    simp only [polyLoopEdges, List.head?_cons, h1, cycEdges, List.take_succ_cons, List.take_zero]
    rw [polyEdges_append_singleton (a :: p) hp a]

theorem firsts_polyEdges (l : List PolyVert) (x : PolyVert) :
    firsts (polyEdges (l ++ [x])) = l.map (fun v => v.idx) := by
  induction l with
  | nil => simp [polyEdges, firsts]
  | cons a l ih =>
    cases l with
    | nil => simp [polyEdges, firsts]
    | cons b l =>
      simp only [List.cons_append, polyEdges_cons_cons, firsts, List.map_cons] at ih ⊢
      rw [ih]

theorem firsts_cycEdges (p : SimplePolygon) (hp : p ≠ []) :
    firsts (cycEdges p) = p.map (fun v => v.idx) := by
  cases p with
  | nil => exact absurd rfl hp
  | cons a p => exact firsts_polyEdges (a :: p) a

theorem Polygons2Edges_eq (P : Polygons) (hne : ∀ p ∈ P, p ≠ []) :
    Polygons2Edges P = .ok (P.flatMap cycEdges) := by
  induction P with
  | nil => rfl
  | cons p P ih =>
    simp only [Polygons2Edges, polyLoopEdges_eq p (hne p (List.mem_cons_self _ _)),
      ih (fun q hq => hne q (List.mem_cons_of_mem _ hq)), List.flatMap_cons]

theorem firsts_flatMap_cycEdges (P : Polygons) (hne : ∀ p ∈ P, p ≠ []) :
    firsts (P.flatMap cycEdges) = P.flatten.map (fun v => v.idx) := by
  induction P with
  | nil => rfl
  | cons p P ih =>
    have h1 := firsts_cycEdges p (hne p (List.mem_cons_self _ _))
    have h2 := ih (fun q hq => hne q (List.mem_cons_of_mem _ hq))
    simp only [firsts] at h1 h2 ⊢
    simp [List.flatMap_cons, h1, h2]

theorem pushToBack_append (Q : Polygons) (cur : SimplePolygon) (v : PolyVert) :
    pushToBack (Q ++ [cur]) v = .ok (Q ++ [cur ++ [v]]) := by
  simp [pushToBack]

theorem firsts_polyEdges_subset (l : List PolyVert) :
    ∀ g ∈ polyEdges l, g.first ∈ l.map (fun v => v.idx) := by
  induction l with
  | nil => simp [polyEdges]
  | cons a l ih =>
    cases l with
    | nil => simp [polyEdges]
    | cons b l =>
      intro g hg
      rw [polyEdges_cons_cons, List.mem_cons] at hg
      rcases hg with rfl | hg
      · simp
      · exact List.mem_cons_of_mem _ (ih g hg)

theorem AssembleLoop_eq_from (E : List EdgeVerts) (fuel : Nat) (s : AssembleState)
    (h : s.thisEdge ≠ s.startEdge) :
    AssembleLoop E (fuel + 1) s = AssembleFrom E fuel s := by
  rw [AssembleLoop_body E fuel s h]
  rfl

/-- One pass of the body of `Assemble` where the id looked up is indexed. -/
theorem AssembleFrom_step (E : List EdgeVerts) (fuel : Nat) (M : Map Int)
    (start this j : Int) (Q : Polygons) (cur : SimplePolygon) (g : EdgeVerts)
    (hg : getI E this = .ok g) (hf : M.find g.second = some j) :
    AssembleFrom E fuel ⟨M, start, this, Q ++ [cur]⟩ =
      AssembleLoop E fuel ⟨M.erase g.second, start, j,
        Q ++ [cur ++ [⟨Vec2.inf, g.first, g.edge⟩]]⟩ := by
  simp [AssembleFrom, AssembleBody, hg, pushToBack_append, hf]

/-- The loop of `Assemble` walks a path of vertices whose edges are indexed, up
to the vertex at which it started: it emits the vertices of the path and erases
their entries. -/
theorem walkPath (E : List EdgeVerts) (start : Int) (Q : Polygons) :
    ∀ (l : List PolyVert) (y x : PolyVert) (this : Int) (M : Map Int) (cur : SimplePolygon)
      (fuel : Nat),
      getI E this = .ok ⟨x.idx, y.idx, x.nextEdge⟩ →
      (∀ g ∈ polyEdges (y :: l), ∃ j, M.find g.first = some j ∧ getI E j = .ok g ∧ j ≠ start) →
      M.find ((y :: l).getLast (by simp)).idx = some start →
      ((y :: l).map (fun v => v.idx)).Nodup →
      AssembleFrom E (fuel + l.length) ⟨M, start, this, Q ++ [cur]⟩ =
        AssembleLoop E fuel ⟨eraseAll M ((y :: l).map (fun v => v.idx)), start, start,
          Q ++ [cur ++ (x :: (y :: l).dropLast).map toInf]⟩ := by
  intro l
  induction l with
  | nil =>
    intro y x this M cur fuel hg _ hlast _
    simp only [List.getLast_singleton] at hlast
    rw [AssembleFrom_step E _ M start this start Q cur _ hg hlast]
    simp [eraseAll, toInf]
  | cons z l ih =>
    intro y x this M cur fuel hg hent hlast hnd
    obtain ⟨j, hj, hgj, hjs⟩ := hent ⟨y.idx, z.idx, y.nextEdge⟩
      (by rw [polyEdges_cons_cons]; exact List.mem_cons_self _ _)
    simp only at hj
    rw [AssembleFrom_step E _ M start this j Q cur _ hg hj]
    simp only [List.length_cons]
    rw [← Nat.add_assoc, AssembleLoop_eq_from E _ _ hjs]
    simp only [List.map_cons, List.nodup_cons] at hnd
    have hres := ih z y j (M.erase y.idx) (cur ++ [toInf x]) fuel hgj
      (fun g hg1 => by
        obtain ⟨j1, hj1, hgj1, hjs1⟩ := hent g
          (by rw [polyEdges_cons_cons]; exact List.mem_cons_of_mem _ hg1)
        have hne : g.first ≠ y.idx := by
          intro heq
          apply hnd.1
          rw [← heq]
          simpa using firsts_polyEdges_subset (z :: l) g hg1
        exact ⟨j1, by rw [Map.find_erase_ne _ hne]; exact hj1, hgj1, hjs1⟩)
      (by
        have hne : ((z :: l).getLast (by simp)).idx ≠ y.idx := by
          intro heq
          apply hnd.1
          rw [← heq]
          exact List.mem_map_of_mem _ (List.getLast_mem _)
        rw [Map.find_erase_ne _ hne]
        simpa using hlast)
      (by simpa using hnd.2)
    simp only [toInf] at hres ⊢
    rw [hres]
    simp [eraseAll, List.dropLast, toInf]

theorem polyEdges_split (l1 : List PolyVert) (x : PolyVert) (l2 : List PolyVert) :
    polyEdges (l1 ++ x :: l2) = polyEdges (l1 ++ [x]) ++ polyEdges (x :: l2) := by
  induction l1 with
  | nil => simp [polyEdges]
  | cons a l1 ih =>
    cases l1 with
    | nil => simp [polyEdges_cons_cons, polyEdges]
    | cons b l1 =>
      simp only [List.cons_append, polyEdges_cons_cons] at ih ⊢
      rw [ih]

/-- The edges of a loop read from one of its vertices are the edges of the
loop. -/
theorem cycEdges_rotate_perm (pre : List PolyVert) (w0 : PolyVert) (post : List PolyVert) :
    List.Perm (polyEdges (w0 :: (post ++ pre) ++ [w0])) (cycEdges (pre ++ w0 :: post)) := by
  cases pre with
  | nil => simp [cycEdges]
  | cons h pre =>
    have h1 : cycEdges ((h :: pre) ++ w0 :: post) =
        polyEdges ((h :: pre) ++ [w0]) ++ polyEdges (w0 :: (post ++ [h])) := by
      have := polyEdges_split (h :: pre) w0 (post ++ [h])
      simpa [cycEdges] using this
    have h2 : polyEdges (w0 :: (post ++ (h :: pre)) ++ [w0]) =
        polyEdges (w0 :: (post ++ [h])) ++ polyEdges ((h :: pre) ++ [w0]) := by
      have := polyEdges_split (w0 :: post) h (pre ++ [w0])
      simpa using this
    rw [h1, h2]
    exact List.perm_append_comm

namespace Map

theorem not_mem_keys_erase {β : Type} {m : Map β} (hnd : m.keys.Nodup) (k : Int) :
    k ∉ (erase m k).keys := by
  induction m with
  | nil => simp [erase, keys]
  | cons kv m ih =>
    obtain ⟨k1, v1⟩ := kv
    simp only [keys, List.map_cons, List.nodup_cons] at hnd
    by_cases h : k1 = k
    · subst h
      simpa [erase, keys] using hnd.1
    · simp only [erase, h, if_false, keys, List.map_cons, List.mem_cons, not_or]
      exact ⟨fun h1 => h h1.symm, ih hnd.2⟩

end Map

theorem eraseAll_ordered {M : Map Int} (h : M.Ordered) (ks : List Int) :
    (eraseAll M ks).Ordered := by
  induction ks generalizing M with
  | nil => exact h
  | cons k ks ih => exact ih (Map.erase_ordered h k)

theorem find_eraseAll {M : Map Int} {ks : List Int} {k : Int} (h : k ∉ ks) :
    (eraseAll M ks).find k = M.find k := by
  induction ks generalizing M with
  | nil => rfl
  | cons a ks ih =>
    simp only [List.mem_cons, not_or] at h
    simp only [eraseAll, List.foldl_cons] at ih ⊢
    rw [ih h.2, Map.find_erase_ne _ h.1]

theorem mem_eraseAll {M : Map Int} (ho : M.Ordered) {ks : List Int} {kv : Int × Int}
    (h : kv ∈ eraseAll M ks) : kv ∈ M ∧ kv.1 ∉ ks := by
  induction ks generalizing M with
  | nil => exact ⟨h, by simp⟩
  | cons a ks ih =>
    simp only [eraseAll, List.foldl_cons] at h ih
    obtain ⟨h1, h2⟩ := ih (Map.erase_ordered ho a) h
    refine ⟨(Map.erase_sublist M a).subset h1, ?_⟩
    simp only [List.mem_cons, not_or]
    refine ⟨fun heq => ?_, h2⟩
    apply Map.not_mem_keys_erase ho.nodup a
    have h3 : kv.1 ∈ (M.erase a).keys := List.mem_map_of_mem Prod.fst h1
    rwa [heq] at h3

theorem ids_middle (R1 : Polygons) (p : SimplePolygon) (R2 : Polygons) :
    List.Perm ((R1 ++ p :: R2).flatten.map (fun v => v.idx))
      (p.map (fun v => v.idx) ++ (R1 ++ R2).flatten.map (fun v => v.idx)) := by
  have h1 : List.Perm (R1 ++ p :: R2) (p :: (R1 ++ R2)) := List.perm_middle
  have h2 := (h1.flatten).map (fun v => v.idx)
  simpa using h2

/-- Erasing the ids of one loop from the index leaves the index of the other
loops. -/
theorem Rep.erase_loop {E : List EdgeVerts} {M : Map Int} {R1 R2 : Polygons}
    {p : SimplePolygon} (h : Rep E M (R1 ++ p :: R2)) (ks : List Int)
    (hks : ∀ k, k ∈ ks ↔ k ∈ p.map (fun v => v.idx)) :
    Rep E (eraseAll M ks) (R1 ++ R2) := by
  have hnd := (ids_middle R1 p R2).nodup_iff.mp h.nodup
  have hdisj := List.disjoint_of_nodup_append hnd
  have hsub : ∀ q ∈ R1 ++ R2, q ∈ R1 ++ p :: R2 := by
    intro q hq
    rcases List.mem_append.mp hq with hq | hq
    · exact List.mem_append_left _ hq
    · exact List.mem_append_right _ (List.mem_cons_of_mem _ hq)
  refine ⟨eraseAll_ordered h.ordered ks, fun q hq g hg => ?_, fun kv hkv => ?_,
    (List.nodup_append.mp hnd).2.1, fun q hq => h.nonempty q (hsub q hq)⟩
  · obtain ⟨j, hj, hgj⟩ := h.entries q (hsub q hq) g hg
    refine ⟨j, ?_, hgj⟩
    rw [find_eraseAll]
    · exact hj
    · intro hmem
      have h1 : g.first ∈ q.map (fun v => v.idx) := by
        rw [← firsts_cycEdges q (h.nonempty q (hsub q hq))]
        exact List.mem_map_of_mem _ hg
      have h2 : g.first ∈ (R1 ++ R2).flatten.map (fun v => v.idx) := by
        obtain ⟨v, hv, hv1⟩ := List.mem_map.mp h1
        exact List.mem_map.mpr ⟨v, List.mem_flatten.mpr ⟨q, hq, hv⟩, hv1⟩
      exact hdisj ((hks _).mp hmem) h2
  · obtain ⟨hm, hnot⟩ := mem_eraseAll h.ordered hkv
    obtain ⟨q, hq, hq1⟩ := h.cover kv hm
    refine ⟨q, ?_, hq1⟩
    rcases List.mem_append.mp hq with hq | hq
    · exact List.mem_append_left _ hq
    · rcases List.mem_cons.mp hq with rfl | hq
      · exact absurd ((hks _).mpr hq1) hnot
      · exact List.mem_append_right _ hq

theorem sum_length_middle (R1 : Polygons) (p : SimplePolygon) (R2 : Polygons) :
    ((R1 ++ p :: R2).map List.length).sum = ((R1 ++ R2).map List.length).sum + p.length := by
  simp only [List.map_append, List.map_cons, List.sum_append, List.sum_cons]
  omega

/-- From the top of the loop, with the index holding the edges of the loops
`R`, `Assemble` appends to its result one rotation of each loop of `R`, in some
order, and returns. -/
theorem assembleLoops (E : List EdgeVerts) :
    ∀ (n : Nat) (R : Polygons), R.length = n →
      ∀ (M : Map Int) (st : Int) (Q : Polygons) (extra : Nat), Rep E M R →
        ∃ Qn, AssembleLoop E ((R.map List.length).sum + 1 + extra) ⟨M, st, st, Q⟩ =
            some (.ok (Q ++ Qn)) ∧ RoundTripUpTo R Qn := by
  intro n
  induction n with
  | zero =>
    intro R hR M st Q extra hrep
    have hR0 : R = [] := List.length_eq_zero.mp hR
    subst hR0
    have hM : M = [] := by
      cases M with
      | nil => rfl
      | cons kv M =>
        obtain ⟨p, hp, _⟩ := hrep.cover kv (List.mem_cons_self _ _)
        simp at hp
    subst hM
    have hfuel : (([] : Polygons).map List.length).sum + 1 + extra = extra + 1 := by
      simp only [List.map_nil, List.sum_nil]
      omega
    rw [hfuel]
    exact ⟨[], by simp [AssembleLoop], [], List.Perm.refl _, List.Forall₂.nil⟩
  | succ n ih =>
    intro R hR M st Q extra hrep
    -- the index is not empty: its least entry lies on some loop `p`
    cases M with
    | nil =>
      cases R with
      | nil => simp at hR
      | cons p0 R0 =>
        have hp0 := hrep.nonempty p0 (List.mem_cons_self _ _)
        cases p0 with
        | nil => exact absurd rfl hp0
        | cons a p0 =>
          have hfirst := firsts_cycEdges (a :: p0) (by simp)
          cases hc : cycEdges (a :: p0) with
          | nil => rw [hc] at hfirst; simp [firsts] at hfirst
          | cons g gs =>
            obtain ⟨j, hj, _⟩ := hrep.entries (a :: p0) (List.mem_cons_self _ _) g
              (by rw [hc]; exact List.mem_cons_self _ _)
            simp [Map.find] at hj
    | cons kv M0 =>
      obtain ⟨k0, i0⟩ := kv
      obtain ⟨p, hpR, hk0⟩ := hrep.cover (k0, i0) (List.mem_cons_self _ _)
      obtain ⟨w0, hw0, hw0k⟩ := List.mem_map.mp hk0
      simp only at hw0k
      obtain ⟨pre, post, hp⟩ := List.append_of_mem hw0
      obtain ⟨R1, R2, hRsplit⟩ := List.append_of_mem hpR
      subst hp
      subst hRsplit
      have hfind0 : Map.find ((k0, i0) :: M0) k0 = some i0 := by simp [Map.find]
      -- the ids of the loop are pairwise distinct
      have hndp : ((pre ++ w0 :: post).map (fun v => v.idx)).Nodup :=
        (List.nodup_append.mp ((ids_middle R1 _ R2).nodup_iff.mp hrep.nodup)).1
      -- the path that the walk follows, back to `w0`
      have hpath : ∃ y l, post ++ pre ++ [w0] = y :: l := by
        cases hpp : post ++ pre with
        | nil => exact ⟨w0, [], rfl⟩
        | cons y l => exact ⟨y, l ++ [w0], rfl⟩
      obtain ⟨y, l, hyl⟩ := hpath
      have hlen : l.length = post.length + pre.length := by
        have := congrArg List.length hyl
        simp only [List.length_append, List.length_cons, List.length_nil] at this
        omega
      have hcyc : ∀ g ∈ polyEdges (w0 :: y :: l), g ∈ cycEdges (pre ++ w0 :: post) := by
        intro g hg
        apply (cycEdges_rotate_perm pre w0 post).subset
        have : w0 :: (post ++ pre) ++ [w0] = w0 :: y :: l := by
          rw [← hyl]
          simp
        rw [this]
        exact hg
      have hg0 : getI E i0 = .ok ⟨w0.idx, y.idx, w0.nextEdge⟩ := by
        obtain ⟨j, hj, hgj⟩ := hrep.entries _ hpR ⟨w0.idx, y.idx, w0.nextEdge⟩
          (hcyc _ (by rw [polyEdges_cons_cons]; exact List.mem_cons_self _ _))
        simp only [hw0k, hfind0] at hj
        cases hj
        exact hgj
      have hndyl : ((y :: l).map (fun v => v.idx)).Nodup := by
        rw [← hyl]
        refine (List.Perm.nodup_iff ?_).mpr hndp
        simp only [List.map_append, List.map_cons, List.map_nil]
        refine (@List.perm_append_comm _ (List.map (fun v => v.idx) post ++
          List.map (fun v => v.idx) pre) _).trans ?_
        simp only [List.singleton_append]
        refine (List.Perm.cons _ List.perm_append_comm).trans ?_
        exact List.perm_middle.symm
      have hlastv : (y :: l).getLast (by simp) = w0 := by
        have h1 : (y :: l).getLast? = some w0 := by
          rw [← hyl]
          simp
        have h2 := List.getLast?_eq_getLast (y :: l) (by simp)
        rw [h1] at h2
        exact (Option.some.inj h2).symm
      have hent : ∀ g ∈ polyEdges (y :: l),
          ∃ j, Map.find ((k0, i0) :: M0) g.first = some j ∧ getI E j = .ok g ∧ j ≠ i0 := by
        intro g hg
        obtain ⟨j, hj, hgj⟩ := hrep.entries _ hpR g
          (hcyc g (by rw [polyEdges_cons_cons]; exact List.mem_cons_of_mem _ hg))
        refine ⟨j, hj, hgj, fun hji => ?_⟩
        rw [hji, hg0] at hgj
        have hgf : g.first = w0.idx := by
          rw [← Except.ok.inj hgj]
        -- the `first` of an edge of the rest of the path is not the last vertex
        have hsub := firsts_polyEdges (((y :: l).dropLast)) w0
        have hyl2 : (y :: l).dropLast ++ [w0] = y :: l := by
          have := List.dropLast_append_getLast (l := y :: l) (by simp)
          rwa [hlastv] at this
        rw [hyl2] at hsub
        have hmem : g.first ∈ ((y :: l).dropLast).map (fun v => v.idx) := by
          rw [← hsub]
          exact List.mem_map_of_mem _ hg
        rw [← hyl2] at hndyl
        simp only [List.map_append, List.map_cons, List.map_nil] at hndyl
        have hd := List.disjoint_of_nodup_append hndyl
        exact hd hmem (by simp [hgf])
      have hwalk := walkPath E i0 Q l y w0 i0 ((k0, i0) :: M0) []
        (((R1 ++ R2).map List.length).sum + 1 + extra) hg0 hent
        (by rw [hlastv, hw0k]; exact hfind0) hndyl
      -- the loop has been walked: go on with the others
      have hrep1 : Rep E (eraseAll ((k0, i0) :: M0) ((y :: l).map (fun v => v.idx)))
          (R1 ++ R2) := by
        refine hrep.erase_loop _ (fun k => ?_)
        rw [← hyl]
        simp only [List.map_append, List.map_cons, List.map_nil, List.mem_append,
          List.mem_cons, List.mem_singleton, List.not_mem_nil, or_false]
        tauto
      have hlenR : (R1 ++ R2).length = n := by
        simp only [List.length_append, List.length_cons] at hR ⊢
        omega
      obtain ⟨Qn, hQn, P1, hP1, hF⟩ := ih (R1 ++ R2) hlenR _ i0
        (Q ++ [[] ++ (w0 :: (y :: l).dropLast).map toInf]) extra hrep1
      have hdrop : w0 :: (y :: l).dropLast = w0 :: (post ++ pre) := by
        rw [← hyl, List.dropLast_concat]
      refine ⟨((w0 :: (post ++ pre)).map toInf) :: Qn, ?_, (pre ++ w0 :: post) :: P1, ?_, ?_⟩
      · have hfuel : ((R1 ++ (pre ++ w0 :: post) :: R2).map List.length).sum + 1 + extra =
            (((R1 ++ R2).map List.length).sum + 1 + extra + l.length) + 1 := by
          rw [sum_length_middle]
          simp only [List.length_append, List.length_cons]
          omega
        rw [hfuel]
        have hstart : AssembleLoop E
            ((((R1 ++ R2).map List.length).sum + 1 + extra + l.length) + 1)
            ⟨(k0, i0) :: M0, st, st, Q⟩ =
            AssembleFrom E (((R1 ++ R2).map List.length).sum + 1 + extra + l.length)
              ⟨(k0, i0) :: M0, i0, i0, Q ++ [[]]⟩ := by
          simp [AssembleLoop, AssembleFrom]
        rw [hstart, hwalk, hQn, hdrop]
        simp
      · exact (hP1.cons _).trans List.perm_middle.symm
      · refine List.Forall₂.cons ⟨pre.length, ?_⟩ hF
        rw [List.rotate_append_length_eq]
        rfl

theorem mem_vertEntries (es : List EdgeVerts) (i : Int) (n : Nat) (hn : n < es.length) :
    (es[n].first, i + n) ∈ vertEntries es i := by
  induction es generalizing i n with
  | nil => simp at hn
  | cons e es ih =>
    cases n with
    | zero => simp [vertEntries]
    | succ n =>
      have := ih (i + 1) n (by simpa using hn)
      simp only [vertEntries, List.getElem_cons_succ, List.mem_cons]
      right
      have h2 : i + ((n + 1 : Nat) : Int) = i + 1 + (n : Int) := by push_cast; ring
      rw [h2]
      exact this

theorem mem_of_getI {α : Type} {v : List α} {i : Int} {a : α} (h : getI v i = .ok a) :
    a ∈ v := by
  unfold getI at h
  split_ifs at h
  cases hv : v[i.toNat]? with
  | none => simp [hv] at h
  | some b =>
    simp only [hv] at h
    cases h
    exact List.getElem?_mem hv

/-- The index that `Assemble` builds for the edges of `P` holds the edges of
the loops of `P`. -/
theorem Rep_init {P : Polygons} (hne : ∀ p ∈ P, p ≠ [])
    (hnd : (P.flatten.map (fun v => v.idx)).Nodup) {M : Map Int} (ho : M.Ordered)
    (hp : List.Perm M (vertEntries (P.flatMap cycEdges) 0)) :
    Rep (P.flatMap cycEdges) M P := by
  refine ⟨ho, fun p hpP g hg => ?_, fun kv hkv => ?_, hnd, hne⟩
  · have hgE : g ∈ P.flatMap cycEdges := List.mem_flatMap.mpr ⟨p, hpP, hg⟩
    obtain ⟨n, hn, hgn⟩ := List.getElem_of_mem hgE
    have hmem := mem_vertEntries (P.flatMap cycEdges) 0 n hn
    rw [hgn, zero_add] at hmem
    exact ⟨n, Map.find_of_mem ho.nodup (hp.symm.subset hmem), by rw [getI_of_lt hn, hgn]⟩
  · have hvalid := vertEntries_valid [] (P.flatMap cycEdges)
    simp only [List.length_nil, Nat.cast_zero, List.nil_append] at hvalid
    obtain ⟨e, he, hfirst⟩ := hvalid kv (hp.subset hkv)
    obtain ⟨p, hpP, hep⟩ := List.mem_flatMap.mp (mem_of_getI he)
    refine ⟨p, hpP, ?_⟩
    rw [← firsts_cycEdges p (hne p hpP), ← hfirst]
    exact List.mem_map_of_mem _ hep

theorem length_flatMap_cycEdges (P : Polygons) (hne : ∀ p ∈ P, p ≠ []) :
    (P.flatMap cycEdges).length = (P.map List.length).sum := by
  have h := congrArg List.length (firsts_flatMap_cycEdges P hne)
  simp only [firsts, List.length_map, List.length_flatten] at h
  exact h

/-- C9, as amended: for polygons with non-empty loops and pairwise distinct
vertex ids, `Assemble(Polygons2Edges(P))` succeeds and returns as many loops as
`P` has; the returned loops are, in some order, cyclic rotations of the loops
of `P`, vertex for vertex in `idx` and `nextEdge`, and every returned position
is the placeholder `glm::vec2(1.0f / 0.0f)`. -/
theorem Assemble_round_trip (P : Polygons) (hne : ∀ p ∈ P, p ≠ [])
    (hnd : (P.flatten.map (fun v => v.idx)).Nodup) :
    ∃ E Q, Polygons2Edges P = .ok E ∧ Assemble E = .ok Q ∧ Q.length = P.length ∧
      RoundTripUpTo P Q := by
  refine ⟨P.flatMap cycEdges, ?_⟩
  have hb := buildVertEdge_spec (P.flatMap cycEdges) 0 [] (by simp [Map.Ordered, Map.keys])
  simp only [Map.keys, List.map_nil, List.append_nil] at hb
  obtain ⟨M, hM, ho, hp⟩ := hb.2 (by rw [firsts_flatMap_cycEdges P hne]; exact hnd)
  have hrep := Rep_init hne hnd ho hp
  obtain ⟨Q, hQ, hrt⟩ := assembleLoops _ P.length P rfl M 0 [] 0 hrep
  refine ⟨Q, Polygons2Edges_eq P hne, ?_, ?_, hrt⟩
  · apply Assemble_eq_of_run
    simp only [AssembleRun, hM, length_flatMap_cycEdges P hne]
    simpa using hQ
  · obtain ⟨P1, hP1, hF⟩ := hrt
    rw [hF.length_eq, hP1.length_eq]

set_option maxRecDepth 100000 in
/-- C9, as amended, at the two disjoint triangles. -/
theorem Assemble_round_trip_witness :
    (∀ p ∈ twoTriangles, p ≠ []) ∧ (twoTriangles.flatten.map (fun v => v.idx)).Nodup ∧
      ∃ E Q, Polygons2Edges twoTriangles = .ok E ∧ Assemble E = .ok Q ∧
        Q.length = twoTriangles.length ∧ RoundTripUpTo twoTriangles Q :=
  ⟨by decide, by decide, Assemble_round_trip twoTriangles (by decide) (by decide)⟩

set_option maxRecDepth 100000 in
/-- C9 fails as stated: for the two disjoint triangles with identities
`5, 6, 7` and `1, 2, 3`, `Assemble` returns the loop `1, 2, 3` first and every
position is the placeholder, so the first returned loop is not a rotation of
the first loop of the input; it is not one even when positions are left out of
the comparison. -/
theorem Assemble_round_trip_counterexample :
    (∃ E, Polygons2Edges twoTriangles = .ok E ∧ Assemble E = .ok twoTrianglesAssembled) ∧
      ¬ RoundTrip twoTriangles twoTrianglesAssembled ∧
      ¬ List.Forall₂ (fun q p => ∃ k, q = (p.rotate k).map toInf)
        twoTrianglesAssembled twoTriangles := by
  refine ⟨⟨_, Polygons2Edges_eq twoTriangles (by decide), by decide!⟩, fun h => ?_, fun h => ?_⟩
  · unfold RoundTrip twoTriangles twoTrianglesAssembled at h
    rw [List.forall₂_cons] at h
    obtain ⟨⟨k, hk⟩, _⟩ := h
    have hmem : (⟨Vec2.inf, 1, -1⟩ : PolyVert) ∈
        (mkPoly 5 [(0, 0), (1, 0), (0, 1)]).rotate k := by
      rw [← hk]
      exact List.mem_cons_self _ _
    rw [List.mem_rotate] at hmem
    revert hmem
    decide
  · unfold twoTriangles twoTrianglesAssembled at h
    rw [List.forall₂_cons] at h
    obtain ⟨⟨k, hk⟩, _⟩ := h
    have hmem : (⟨Vec2.inf, 1, -1⟩ : PolyVert) ∈
        ((mkPoly 5 [(0, 0), (1, 0), (0, 1)]).rotate k).map toInf := by
      rw [← hk]
      exact List.mem_cons_self _ _
    rw [List.mem_map] at hmem
    obtain ⟨v, hv, hv1⟩ := hmem
    rw [List.mem_rotate] at hv
    have hidx : v.idx = 1 := by
      have := congrArg PolyVert.idx hv1
      simpa [toInf] using this
    have hall : ∀ u ∈ mkPoly 5 [(0, 0), (1, 0), (0, 1)], u.idx ≠ 1 := by decide
    exact hall v hv hidx

/-! ## Backup triangulator -/

theorem getI_vid {poly : SimplePolygon} {i : Nat} (h : i < poly.length) :
    ∃ v, getI poly (i : Int) = .ok v ∧ v.idx = vid poly i := by
  refine ⟨poly[i], getI_of_lt h, ?_⟩
  simp [vid, List.getElem?_eq_getElem h]

theorem Next_eq {i : Nat} {n : Nat} (h : i + 1 < n) : Next (i : Int) (n : Int) = ((i + 1 : Nat) : Int) := by
  unfold Next
  have : ¬ ((i : Int) + 1 ≥ (n : Int)) := by omega
  simp [this]

theorem Prev_eq {i : Nat} {n : Nat} (h : 1 ≤ i) : Prev (i : Int) (n : Int) = ((i - 1 : Nat) : Int) := by
  unfold Prev
  have : ¬ ((i : Int) - 1 < 0) := by omega
  simp only [this, if_false]
  omega

theorem edgePair_ok {poly : SimplePolygon} {i j : Nat} (hi : i < poly.length)
    (hj : j < poly.length) : ∃ p, edgePair poly (i : Int) (j : Int) = .ok p := by
  unfold edgePair
  rw [getI_of_lt hi, getI_of_lt hj]
  exact ⟨_, rfl⟩

/-- The shared-edge block of `BackupTriangulate`, when it stays inside the
polygon, hands the pending triangle over to the other cursor. -/
theorem BackupSwitch_corr {poly : SimplePolygon} {st st1 : BackupState} {s e : Nat}
    {T : List IVec3} (hc : Corr poly st s e T) (hgap : s + 2 ≤ e)
    (h : BackupSwitch poly st = .ok st1) :
    Corr poly st1 s e T ∧ st1.forward = !st.forward := by
  have hlow := hc.low
  have hhigh := hc.high
  unfold BackupSwitch at h
  cases hf : st.forward with
  | true =>
    obtain ⟨hs, he, ht⟩ := hc.fwd hf
    simp only [hf, if_true, hs, he] at h
    have h1 : Prev ((s : Int) + 1) (poly.length : Int) = (s : Int) := by
      have := Prev_eq (i := s + 1) (n := poly.length) (by omega)
      simpa using this
    have h2 : Prev (e : Int) (poly.length : Int) = ((e - 1 : Nat) : Int) := Prev_eq (by omega)
    rw [h1, h2] at h
    obtain ⟨c, hc1, hc2⟩ := @getI_vid poly (e - 1) (by omega)
    rw [hc1] at h
    simp only at h
    split at h
    · rename_i se ee hse hee
      cases h
      refine ⟨⟨hlow, hc.lt, hhigh, hc.triangles, fun hh => by simp at hh, fun _ => ?_⟩, by simp⟩
      refine ⟨rfl, by simp; omega, ?_⟩
      simp [ht, triF, triB, hc2]
    · cases h
  | false =>
    obtain ⟨hs, he, ht⟩ := hc.bwd hf
    simp only [hf, Bool.false_eq_true, if_false, hs, he] at h
    have h1 : Next (s : Int) (poly.length : Int) = ((s + 1 : Nat) : Int) := Next_eq (by omega)
    have h2 : Next ((e : Int) - 1) (poly.length : Int) = (e : Int) := by
      have := Next_eq (i := e - 1) (n := poly.length) (by omega)
      have h3 : ((e - 1 : Nat) : Int) = (e : Int) - 1 := by omega
      rw [h3] at this
      rw [this]
      omega
    rw [h1, h2] at h
    obtain ⟨c, hc1, hc2⟩ := @getI_vid poly (s + 1) (by omega)
    rw [hc1] at h
    simp only at h
    split at h
    · rename_i se ee hse hee
      cases h
      refine ⟨⟨hlow, hc.lt, hhigh, hc.triangles, fun _ => ?_, fun hh => by simp at hh⟩, by simp⟩
      refine ⟨by simp, rfl, ?_⟩
      simp [ht, triF, triB, hc2]
    · cases h

/-- The rest of the loop body of `BackupTriangulate` emits the pending triangle
and moves the other cursor. -/
theorem BackupAdvance_corr {poly : SimplePolygon} {st st2 : BackupState} {s e : Nat}
    {T : List IVec3} (hc : Corr poly st s e T) (hgap : s + 2 ≤ e)
    (h : BackupAdvance poly st = .ok st2) :
    (st.forward = true → Corr poly st2 (s + 1) e (T ++ [triF poly s e])) ∧
      (st.forward = false → Corr poly st2 s (e - 1) (T ++ [triB poly s e])) := by
  have hlow := hc.low
  have hhigh := hc.high
  unfold BackupAdvance at h
  cases hf : st.forward with
  | true =>
    obtain ⟨hs, he, ht⟩ := hc.fwd hf
    simp only [hf, Bool.not_true, Bool.false_eq_true, if_false, he] at h
    have h2 : Prev (e : Int) (poly.length : Int) = ((e - 1 : Nat) : Int) := Prev_eq (by omega)
    rw [h2] at h
    obtain ⟨c, hc1, hc2⟩ := @getI_vid poly (e - 1) (by omega)
    rw [hc1] at h
    split at h
    · rename_i ee c1 hee hc3
      cases hc3
      cases h
      refine ⟨fun _ => ⟨by omega, by omega, hhigh, by simp [hc.triangles, ht],
        fun hh => by simp at hh, fun _ => ?_⟩, fun hh => by simp at hh⟩
      refine ⟨by simp [hs], by simp; omega, ?_⟩
      simp [ht, triF, triB, hc2]
    · exact absurd h (by simp)
  | false =>
    obtain ⟨hs, he, ht⟩ := hc.bwd hf
    simp only [hf, Bool.not_false, if_true, hs] at h
    have h1 : Next (s : Int) (poly.length : Int) = ((s + 1 : Nat) : Int) := Next_eq (by omega)
    rw [h1] at h
    obtain ⟨c, hc1, hc2⟩ := @getI_vid poly (s + 1) (by omega)
    rw [hc1] at h
    split at h
    · rename_i se c1 hse hc3
      cases hc3
      cases h
      refine ⟨fun hh => by simp at hh, fun _ => ⟨hlow, by omega, by omega,
        by simp [hc.triangles, ht], fun _ => ?_, fun hh => by simp at hh⟩⟩
      refine ⟨by simp, by simp [he]; omega, ?_⟩
      simp [ht, triF, triB, hc2]
    · exact absurd h (by simp)

/-- Whenever the loop of `BackupTriangulate` returns, what it has added to the
output is a strip between the two cursors. -/
theorem BackupLoop_strip (K : Edge) (poly : SimplePolygon) :
    ∀ (fuel : Nat) (st : BackupState) (s e : Nat) (T T1 : List IVec3),
      Corr poly st s e T → BackupLoop K poly fuel st = some (.ok T1) →
      ∃ cs : List Bool, cs.length + s + 1 = e ∧ T1 = T ++ strip poly s e cs := by
  intro fuel
  induction fuel with
  | zero => intro st s e T T1 _ h; simp [BackupLoop] at h
  | succ fuel ih =>
    intro st s e T T1 hc h
    have hlt := hc.lt
    unfold BackupLoop at h
    by_cases hstop : st.start = st.stop
    · -- the cursors meet: the strip is complete
      simp only [hstop, if_true, Option.some.injEq, Except.ok.injEq] at h
      have hse : s + 1 = e := by
        cases hf : st.forward with
        | true =>
          obtain ⟨hs, he, _⟩ := hc.fwd hf
          rw [hs, he] at hstop
          omega
        | false =>
          obtain ⟨hs, he, _⟩ := hc.bwd hf
          rw [hs, he] at hstop
          omega
      exact ⟨[], by simpa using hse, by simp [strip, ← h, hc.triangles]⟩
    · simp only [hstop, if_false] at h
      have hgap : s + 2 ≤ e := by
        cases hf : st.forward with
        | true =>
          obtain ⟨hs, he, _⟩ := hc.fwd hf
          rw [hs, he] at hstop
          omega
        | false =>
          obtain ⟨hs, he, _⟩ := hc.bwd hf
          rw [hs, he] at hstop
          omega
      -- the state after the optional switch still matches the strip
      have hsw : ∀ st1, (if SharedEdge K st.startEdges st.endEdges then BackupSwitch poly st
          else .ok st) = .ok st1 → Corr poly st1 s e T := by
        intro st1 h1
        split_ifs at h1
        · exact (BackupSwitch_corr hc hgap h1).1
        · cases h1
          exact hc
      cases hs1 : (if SharedEdge K st.startEdges st.endEdges then BackupSwitch poly st
          else .ok st) with
      | error err => simp [hs1] at h
      | ok st1 =>
        have hc1 := hsw st1 hs1
        simp only [hs1] at h
        cases hs2 : BackupAdvance poly st1 with
        | error err => simp [hs2] at h
        | ok st2 =>
          simp only [hs2] at h
          have hadv := BackupAdvance_corr hc1 hgap hs2
          cases hf : st1.forward with
          | true =>
            obtain ⟨cs, hlen, hT⟩ := ih st2 (s + 1) e _ T1 (hadv.1 hf) h
            exact ⟨true :: cs, by simp; omega, by simp [strip, hT]⟩
          | false =>
            obtain ⟨cs, hlen, hT⟩ := ih st2 s (e - 1) _ T1 (hadv.2 hf) h
            exact ⟨false :: cs, by simp; omega, by simp [strip, hT]⟩

/-- The triangles that `BackupTriangulate` emits for one polygon, whenever it
returns: the corner triangle at position `0` and a strip between positions `1`
and `n − 1`. -/
theorem BackupPoly_strip (K : Edge) (poly : SimplePolygon) (h3 : 3 ≤ poly.length)
    (T0 T1 : List IVec3) (h : BackupPoly K poly T0 = some (.ok T1)) :
    ∃ cs : List Bool, cs.length + 3 = poly.length ∧
      T1 = T0 ++ ⟨vid poly (poly.length - 1), vid poly 0, vid poly 1⟩ ::
        strip poly 1 (poly.length - 1) cs := by
  unfold BackupPoly at h
  have hn : ¬ poly.length < 3 := by omega
  simp only [hn, if_false] at h
  have hstopc : ((poly.length : Int) - 1) = ((poly.length - 1 : Nat) : Int) := by omega
  have h1c : (1 : Int) = ((1 : Nat) : Int) := rfl
  have h0c : (0 : Int) = ((0 : Nat) : Int) := rfl
  obtain ⟨pe, hpe, hpe1⟩ := @getI_vid poly (poly.length - 1) (by omega)
  obtain ⟨p0, hp0, hp01⟩ := @getI_vid poly (0) (by omega)
  obtain ⟨p1, hp1, hp11⟩ := @getI_vid poly (1) (by omega)
  obtain ⟨p2, hp2, hp21⟩ := @getI_vid poly (2) (by omega)
  obtain ⟨se, hse⟩ := @edgePair_ok poly (0) (1) (by omega) (by omega)
  obtain ⟨ee, hee⟩ := @edgePair_ok poly (poly.length - 2)
    (poly.length - 1) (by omega) (by omega)
  have hee1 : edgePair poly ((poly.length : Int) - 1 - 1) ((poly.length : Int) - 1) = .ok ee := by
    have : ((poly.length : Int) - 1 - 1) = ((poly.length - 2 : Nat) : Int) := by omega
    rw [this, hstopc]
    exact hee
  have hse1 : edgePair poly ((1 : Int) - 1) 1 = .ok se := by
    have : ((1 : Int) - 1) = ((0 : Nat) : Int) := by omega
    rw [this, h1c]
    exact hse
  rw [hstopc] at h
  rw [hpe] at h
  rw [h0c, hp0, h1c, hp1, ← h1c, hse1, ← hstopc, hee1] at h
  simp only at h
  -- the first pass of the loop
  have hfuel : ∀ st, BackupLoop K poly poly.length st =
      BackupLoop K poly ((poly.length - 1) + 1) st := by
    intro st
    congr 1
    omega
  rw [hfuel] at h
  unfold BackupLoop at h
  have hne : ¬ ((1 : Int) = (poly.length : Int) - 1) := by omega
  simp only [hne, if_false] at h
  by_cases hsh : SharedEdge K se ee = true
  · -- switching at the first pass reads `poly[-1]`
    exfalso
    simp only [hsh, if_true] at h
    have hsw : BackupSwitch poly ⟨1, (poly.length : Int) - 1, ⟨pe.idx, p0.idx, p1.idx⟩, se, ee,
        false, T0⟩ = .error .undefined := by
      unfold BackupSwitch
      have hN1 : Next (1 : Int) (poly.length : Int) = ((2 : Nat) : Int) := by
        have := Next_eq (i := 1) (n := poly.length) (by omega)
        simpa using this
      have hN2 : Next ((poly.length : Int) - 1) (poly.length : Int) = 0 := by
        unfold Next
        simp
      simp only [Bool.false_eq_true, if_false, hN1, hN2, hp2]
      have hbad : edgePair poly ((0 : Int) - 1) 0 = .error .undefined := by
        simp [edgePair, getI]
      rw [hbad]
      split
      · rename_i h1 h2
        cases h2
      · rfl
    rw [hsw] at h
    simp at h
  · simp only [hsh, Bool.false_eq_true, if_false] at h
    cases hadv : BackupAdvance poly ⟨1, (poly.length : Int) - 1, ⟨pe.idx, p0.idx, p1.idx⟩, se, ee,
        false, T0⟩ with
    | error err => simp [hadv] at h
    | ok st1 =>
      simp only [hadv] at h
      have hc : Corr poly st1 1 (poly.length - 1)
          (T0 ++ [⟨vid poly (poly.length - 1), vid poly 0, vid poly 1⟩]) := by
        unfold BackupAdvance at hadv
        have hN1 : Next (1 : Int) (poly.length : Int) = ((2 : Nat) : Int) := by
          have := Next_eq (i := 1) (n := poly.length) (by omega)
          simpa using this
        simp only [Bool.not_false, if_true, hN1, hp2] at hadv
        split at hadv
        · rename_i se2 c2 hse2 hc2
          cases hc2
          cases hadv
          refine ⟨le_refl _, by omega, by omega, by simp [hpe1, hp01, hp11],
            fun _ => ⟨by simp, by simp; omega, ?_⟩, fun hh => by simp at hh⟩
          simp [triF, hpe1, hp11, hp21]
        · exact absurd hadv (by simp)
      obtain ⟨cs, hlen, hT⟩ := BackupLoop_strip K poly _ st1 1 (poly.length - 1) _ T1 hc h
      exact ⟨cs, by omega, by simp [hT]⟩

/-! ## Backup triangulator: the halfedges of a strip -/

theorem pathIdx_cons {s e : Nat} (h : s < e) : pathIdx s e = (s, s + 1) :: pathIdx (s + 1) e := by
  unfold pathIdx
  obtain ⟨k, hk⟩ : ∃ k, e - s = k + 1 := ⟨e - s - 1, by omega⟩
  have hk2 : e - (s + 1) = k := by omega
  rw [hk, hk2, List.range_succ_eq_map]
  simp only [List.map_cons, List.map_map, add_zero]
  congr 1
  apply List.map_congr_left
  intro i _
  simp only [Function.comp]
  congr 1 <;> omega

theorem pathIdx_snoc {s e : Nat} (h : s < e) :
    pathIdx s e = pathIdx s (e - 1) ++ [(e - 1, e)] := by
  unfold pathIdx
  obtain ⟨k, hk⟩ : ∃ k, e - s = k + 1 := ⟨e - s - 1, by omega⟩
  have hk2 : e - 1 - s = k := by omega
  rw [hk, hk2, List.range_succ]
  simp only [List.map_append, List.map_cons, List.map_nil]
  congr 2
  congr 1 <;> omega

theorem pathIdx_self (s : Nat) : pathIdx s s = [] := by
  simp [pathIdx]

/-- The halfedges of a strip with at least one triangle: the diagonal it starts
from, the boundary edges between its ends, and every inner diagonal in both
directions. -/
theorem hedges_strip :
    ∀ (cs : List Bool) (s e : Nat), s + 2 ≤ e → cs.length + s + 1 = e →
      List.Perm (hedgesIdx (stripIdx s e cs))
        ((e, s) :: pathIdx s e ++ fronts s e cs ++ (fronts s e cs).map Prod.swap) := by
  intro cs
  induction cs with
  | nil => intro s e h1 h2; simp at h2; omega
  | cons c cs ih =>
    intro s e h1 h2
    cases cs with
    | nil =>
      have he : e = s + 2 := by simp at h2; omega
      subst he
      have hp : pathIdx s (s + 2) = [(s, s + 1), (s + 1, s + 2)] := by
        rw [pathIdx_cons (by omega), pathIdx_cons (by omega), pathIdx_self]
      cases c with
      | true =>
        simp only [stripIdx, hedgesIdx, fronts, hp, List.map_nil, List.append_nil,
          List.cons_append, List.nil_append]
        exact List.Perm.refl _
      | false =>
        simp only [stripIdx, hedgesIdx, fronts, hp, List.map_nil, List.append_nil,
          List.cons_append, List.nil_append, Nat.add_sub_cancel]
        have h3 : s + 2 - 1 = s + 1 := by omega
        rw [h3]
        exact (List.Perm.swap _ _ _).trans ((List.Perm.swap _ _ _).cons _)
    | cons c1 cs =>
      simp only [List.length_cons] at h2
      cases c with
      | true =>
        have ih1 := ih (s + 1) e (by omega) (by simp only [List.length_cons]; omega)
        rw [List.perm_iff_count] at ih1 ⊢
        intro a
        have ih2 := ih1 a
        simp only [stripIdx, hedgesIdx, fronts, pathIdx_cons (show s < e by omega),
          List.map_cons, Prod.swap_prod_mk, List.cons_append, List.count_cons,
          List.count_append] at ih2 ⊢
        omega
      | false =>
        have ih1 := ih s (e - 1) (by omega) (by simp only [List.length_cons]; omega)
        rw [List.perm_iff_count] at ih1 ⊢
        intro a
        have ih2 := ih1 a
        simp only [stripIdx, hedgesIdx, fronts, pathIdx_snoc (show s < e by omega),
          List.map_cons, Prod.swap_prod_mk, List.cons_append, List.count_cons,
          List.count_append, List.count_nil] at ih2 ⊢
        omega

theorem fronts_bounds :
    ∀ (cs : List Bool) (s e : Nat), cs.length + s + 1 = e →
      ∀ x ∈ fronts s e cs, s ≤ x.2 ∧ x.2 + 2 ≤ x.1 ∧ x.1 ≤ e ∧ x.1 - x.2 < e - s := by
  intro cs
  induction cs with
  | nil => intro s e _ x hx; simp [fronts] at hx
  | cons c cs ih =>
    intro s e h x hx
    cases cs with
    | nil => simp [fronts] at hx
    | cons c1 cs =>
      simp only [List.length_cons] at h
      cases c with
      | true =>
        simp only [fronts, List.mem_cons] at hx
        rcases hx with rfl | hx
        · simp only; omega
        · have := ih (s + 1) e (by simp only [List.length_cons]; omega) x hx
          omega
      | false =>
        simp only [fronts, List.mem_cons] at hx
        rcases hx with rfl | hx
        · simp only; omega
        · have := ih s (e - 1) (by simp only [List.length_cons]; omega) x hx
          omega

theorem fronts_nodup :
    ∀ (cs : List Bool) (s e : Nat), cs.length + s + 1 = e → (fronts s e cs).Nodup := by
  intro cs
  induction cs with
  | nil => intro s e _; simp [fronts]
  | cons c cs ih =>
    intro s e h
    cases cs with
    | nil => simp [fronts]
    | cons c1 cs =>
      simp only [List.length_cons] at h
      cases c with
      | true =>
        simp only [fronts, List.nodup_cons]
        refine ⟨fun hx => ?_, ih (s + 1) e (by simp only [List.length_cons]; omega)⟩
        have := fronts_bounds _ (s + 1) e (by simp only [List.length_cons]; omega) _ hx
        simp only at this
        omega
      | false =>
        simp only [fronts, List.nodup_cons]
        refine ⟨fun hx => ?_, ih s (e - 1) (by simp only [List.length_cons]; omega)⟩
        have := fronts_bounds _ s (e - 1) (by simp only [List.length_cons]; omega) _ hx
        simp only at this
        omega

theorem mem_pathIdx {s e : Nat} {x : Nat × Nat} :
    x ∈ pathIdx s e ↔ s ≤ x.1 ∧ x.2 = x.1 + 1 ∧ x.2 ≤ e := by
  obtain ⟨a, b⟩ := x
  simp only [pathIdx, List.mem_map, List.mem_range, Prod.mk.injEq]
  constructor
  · rintro ⟨i, hi, rfl, rfl⟩; omega
  · rintro ⟨h1, h2, h3⟩; exact ⟨a - s, by omega, by omega, by omega⟩

theorem pathIdx_nodup (s e : Nat) : (pathIdx s e).Nodup := by
  unfold pathIdx
  refine List.Nodup.map ?_ (List.nodup_range _)
  intro i j h
  simp only [Prod.mk.injEq] at h
  omega

theorem pathIdx_shift (s e : Nat) :
    pathIdx (s + 1) (e + 1) = (pathIdx s e).map (fun x => (x.1 + 1, x.2 + 1)) := by
  unfold pathIdx
  have : e + 1 - (s + 1) = e - s := by omega
  rw [this, List.map_map]
  apply List.map_congr_left
  intro i _
  simp only [Function.comp, Prod.mk.injEq]
  omega

theorem vid_cons (a : PolyVert) (l : SimplePolygon) (i : Nat) :
    vid (a :: l) (i + 1) = vid l i := by
  simp [vid]

theorem vid_mem {poly : SimplePolygon} {i : Nat} (h : i < poly.length) :
    vid poly i ∈ poly.map (fun v => v.idx) := by
  simp only [vid, List.getElem?_eq_getElem h, List.mem_map]
  exact ⟨poly[i], List.getElem_mem h, rfl⟩

theorem vid_inj {poly : SimplePolygon} (hnd : (poly.map (fun v => v.idx)).Nodup) {i j : Nat}
    (hi : i < poly.length) (hj : j < poly.length) (h : vid poly i = vid poly j) : i = j := by
  simp only [vid, List.getElem?_eq_getElem hi, List.getElem?_eq_getElem hj] at h
  have h1 : (poly.map (fun v => v.idx))[i]? = (poly.map (fun v => v.idx))[j]? := by
    simp [List.getElem?_eq_getElem hi, List.getElem?_eq_getElem hj, h]
  have hi1 : i < (poly.map (fun v => v.idx)).length := by simpa using hi
  have hj1 : j < (poly.map (fun v => v.idx)).length := by simpa using hj
  rw [List.getElem?_eq_getElem hi1, List.getElem?_eq_getElem hj1, Option.some.injEq] at h1
  exact (List.Nodup.getElem_inj_iff hnd).mp h1

/-- The end points of the edges along a polygon, by position. -/
theorem ends_polyEdges (l : SimplePolygon) :
    (polyEdges l).map ends = (pathIdx 0 (l.length - 1)).map (vp l) := by
  induction l with
  | nil => simp [polyEdges, pathIdx]
  | cons a l ih =>
    cases l with
    | nil => simp [polyEdges, pathIdx]
    | cons b l =>
      rw [polyEdges_cons_cons, List.map_cons, ih]
      have h1 : (a :: b :: l).length - 1 = (b :: l).length - 1 + 1 := by simp
      rw [h1, pathIdx_cons (s := 0) (e := (b :: l).length - 1 + 1) (by omega), pathIdx_shift,
        List.map_cons, List.map_map]
      congr 1
      · simp [vp, vid, ends]
      · apply List.map_congr_left
        intro x _
        simp [vp, vid_cons]

/-- The boundary edges of a polygon of `n` vertices, as pairs of positions. -/
theorem ends_cycEdges (p : SimplePolygon) (hp : p ≠ []) :
    (cycEdges p).map ends = (pathIdx 0 (p.length - 1) ++ [(p.length - 1, 0)]).map (vp p) := by
  cases p with
  | nil => exact absurd rfl hp
  | cons a p =>
    have h1 : cycEdges (a :: p) = polyEdges ((a :: p) ++ [a]) := rfl
    rw [h1, ends_polyEdges]
    have h2 : ((a :: p) ++ [a]).length - 1 = (a :: p).length - 1 + 1 := by simp
    have h3 : (a :: p).length - 1 + 1 - 1 = (a :: p).length - 1 := by omega
    rw [h2, pathIdx_snoc (s := 0) (e := (a :: p).length - 1 + 1) (by omega), h3, List.map_append,
      List.map_append]
    congr 1
    · apply List.map_congr_left
      intro x hx
      have hx1 := mem_pathIdx.mp hx
      have hl : (a :: p).length = p.length + 1 := rfl
      simp only [vp, vid, Prod.mk.injEq]
      constructor
      · rw [List.getElem?_append_left (by omega)]
      · rw [List.getElem?_append_left (by omega)]
    · have hl : (a :: p).length = p.length + 1 := rfl
      simp only [List.map_cons, List.map_nil, vp, vid, List.cons.injEq, Prod.mk.injEq, and_true]
      constructor
      · rw [List.getElem?_append_left (by omega)]
      · rw [List.getElem?_append_right (by omega)]
        simp

theorem ends_strip (K : Edge) (poly : SimplePolygon) :
    ∀ (cs : List Bool) (s e : Nat),
      (Triangles2Edges K (strip poly s e cs)).map ends =
        (hedgesIdx (stripIdx s e cs)).map (vp poly) := by
  intro cs
  induction cs with
  | nil => intro s e; rfl
  | cons c cs ih =>
    intro s e
    cases c with
    | true =>
      simp only [strip, stripIdx, Triangles2Edges, hedgesIdx, List.map_cons, ih]
      rfl
    | false =>
      simp only [strip, stripIdx, Triangles2Edges, hedgesIdx, List.map_cons, ih]
      rfl

theorem Triangles2Edges_append (K : Edge) (A B : List IVec3) :
    Triangles2Edges K (A ++ B) = Triangles2Edges K A ++ Triangles2Edges K B := by
  induction A with
  | nil => rfl
  | cons t A ih => simp [Triangles2Edges, ih]

theorem hedges_fan (n : Nat) (cs : List Bool) (h3 : 3 ≤ n) (hcs : cs.length + 3 = n) :
    List.Perm (hedgesIdx ((n - 1, 0, 1) :: stripIdx 1 (n - 1) cs) ++ (bndIdx n).map Prod.swap)
      (meshIdx n cs) := by
  cases cs with
  | nil =>
    simp only [List.length_nil] at hcs
    have hn : n = 3 := by omega
    subst hn
    have hp : pathIdx 0 (3 - 1) = [(0, 1), (1, 2)] := by
      show pathIdx 0 2 = _
      rw [pathIdx_cons (by omega), pathIdx_cons (by omega), pathIdx_self]
    have h2 : 3 - 1 = 2 := rfl
    simp only [meshIdx, bndIdx, diagIdx, stripIdx, hedgesIdx, hp, h2, List.map_nil,
      List.append_nil, List.cons_append, List.nil_append, List.map_cons, Prod.swap_prod_mk]
    rw [List.perm_iff_count]
    intro a
    simp only [List.count_cons, List.count_append, List.count_nil]
    omega
  | cons c cs =>
    simp only [List.length_cons] at hcs
    have hs := hedges_strip (c :: cs) 1 (n - 1) (by omega) (by simp only [List.length_cons]; omega)
    rw [List.perm_iff_count] at hs ⊢
    intro a
    have hs1 := hs a
    simp only [meshIdx, bndIdx, diagIdx, hedgesIdx, pathIdx_cons (show 0 < n - 1 by omega),
      List.map_cons, List.map_append, Prod.swap_prod_mk, List.cons_append, List.count_cons,
      List.count_append, List.count_nil, List.map_nil, zero_add, List.nil_append] at hs1 ⊢
    omega

theorem mem_bndIdx {n : Nat} {x : Nat × Nat} :
    x ∈ bndIdx n ↔ (x.2 = x.1 + 1 ∧ x.2 ≤ n - 1) ∨ x = (n - 1, 0) := by
  simp only [bndIdx, List.mem_append, mem_pathIdx, List.mem_singleton]
  constructor
  · rintro (⟨_, h1, h2⟩ | h)
    · exact Or.inl ⟨h1, h2⟩
    · exact Or.inr h
  · rintro (⟨h1, h2⟩ | h)
    · exact Or.inl ⟨by omega, h1, h2⟩
    · exact Or.inr h

theorem bndIdx_nodup (n : Nat) : (bndIdx n).Nodup := by
  unfold bndIdx
  rw [List.nodup_append]
  refine ⟨pathIdx_nodup _ _, by simp, ?_⟩
  intro x hx hx2
  have := mem_pathIdx.mp hx
  simp only [List.mem_singleton] at hx2
  subst hx2
  simp only at this
  omega

theorem diagIdx_bounds {n : Nat} {cs : List Bool} (hcs : cs.length + 3 = n) :
    ∀ x ∈ diagIdx n cs, 1 ≤ x.2 ∧ x.2 + 2 ≤ x.1 ∧ x.1 ≤ n - 1 := by
  intro x hx
  cases cs with
  | nil => simp [diagIdx] at hx
  | cons c cs =>
    simp only [List.length_cons] at hcs
    simp only [diagIdx, List.mem_cons] at hx
    rcases hx with rfl | hx
    · simp only; omega
    · have := fronts_bounds (c :: cs) 1 (n - 1) (by simp only [List.length_cons]; omega) x hx
      omega

theorem diagIdx_nodup {n : Nat} {cs : List Bool} (hcs : cs.length + 3 = n) :
    (diagIdx n cs).Nodup := by
  cases cs with
  | nil => simp [diagIdx]
  | cons c cs =>
    simp only [List.length_cons] at hcs
    simp only [diagIdx, List.nodup_cons]
    refine ⟨fun hx => ?_, fronts_nodup _ _ _ (by simp only [List.length_cons]; omega)⟩
    have := fronts_bounds (c :: cs) 1 (n - 1) (by simp only [List.length_cons]; omega) _ hx
    simp only at this
    omega

theorem mem_map_swap {l : List (Nat × Nat)} {x : Nat × Nat} :
    x ∈ l.map Prod.swap ↔ x.swap ∈ l := by
  simp only [List.mem_map]
  constructor
  · rintro ⟨y, hy, rfl⟩; simpa using hy
  · intro h; exact ⟨x.swap, h, by simp⟩

theorem nodup_map_swap {l : List (Nat × Nat)} (h : l.Nodup) : (l.map Prod.swap).Nodup :=
  List.Nodup.map Prod.swap_injective h

/-- The position pairs of a triangulated polygon: all inside the polygon, none
a loop, no two equal, and closed under reversal. -/
theorem meshIdx_spec {n : Nat} {cs : List Bool} (h3 : 3 ≤ n) (hcs : cs.length + 3 = n) :
    (∀ x ∈ meshIdx n cs, x.1 < n ∧ x.2 < n ∧ x.1 ≠ x.2) ∧ (meshIdx n cs).Nodup ∧
      ∀ x ∈ meshIdx n cs, x.swap ∈ meshIdx n cs := by
  have hD := diagIdx_bounds hcs
  refine ⟨?_, ?_, ?_⟩
  · intro x hx
    simp only [meshIdx, List.mem_append, mem_map_swap, mem_bndIdx] at hx
    rcases hx with ((((⟨h1, h2⟩ | h) | h) | h) | (⟨h1, h2⟩ | h))
    · omega
    · subst h; simp only; omega
    · have := hD x h; omega
    · have := hD _ h; simp only [Prod.fst_swap, Prod.snd_swap] at this; omega
    · simp only [Prod.fst_swap, Prod.snd_swap] at h1 h2; omega
    · have h1 : x = (0, n - 1) := by
        have := congrArg Prod.swap h
        simpa using this
      subst h1; simp only; omega
  · simp only [meshIdx]
    rw [List.nodup_append, List.nodup_append, List.nodup_append]
    refine ⟨⟨⟨bndIdx_nodup n, diagIdx_nodup hcs, ?_⟩,
      nodup_map_swap (diagIdx_nodup hcs), ?_⟩, nodup_map_swap (bndIdx_nodup n), ?_⟩
    · intro x hx hx2
      have := hD x hx2
      rcases mem_bndIdx.mp hx with ⟨h1, h2⟩ | h
      · omega
      · subst h; simp only at this; omega
    · intro x hx hx2
      have h2 := hD _ (mem_map_swap.mp hx2)
      simp only [Prod.fst_swap, Prod.snd_swap] at h2
      rcases List.mem_append.mp hx with hx | hx
      · rcases mem_bndIdx.mp hx with ⟨h1, h3⟩ | h
        · omega
        · subst h; simp only at h2; omega
      · have := hD x hx; omega
    · intro x hx hx2
      have h2 := mem_bndIdx.mp (mem_map_swap.mp hx2)
      simp only [Prod.fst_swap, Prod.snd_swap] at h2
      have h2 : (x.1 = x.2 + 1 ∧ x.1 ≤ n - 1) ∨ (x.1 = 0 ∧ x.2 = n - 1) := by
        rcases h2 with h | h
        · exact Or.inl h
        · right
          have := congrArg Prod.swap h
          simp only [Prod.swap_swap, Prod.swap_prod_mk] at this
          rw [this]; exact ⟨rfl, rfl⟩
      simp only [List.mem_append, mem_map_swap, mem_bndIdx] at hx
      rcases hx with (((⟨h1, h4⟩ | h) | h) | h)
      · omega
      · subst h; simp only at h2; omega
      · have := hD x h; omega
      · have := hD _ h; simp only [Prod.fst_swap, Prod.snd_swap] at this; omega
  · intro x hx
    simp only [meshIdx, List.mem_append, mem_map_swap, Prod.swap_swap] at hx ⊢
    tauto

/-- A halfedge list whose end points are the images of position pairs under an
injective numbering is a 2-manifold edge set when the position pairs are. -/
theorem manifold2_of_idx {H : List EdgeVerts} {L : List (Nat × Nat)} {f : Nat → Int} {n : Nat}
    (hH : List.Perm (H.map ends) (L.map (fun x => (f x.1, f x.2))))
    (hinj : ∀ i j, i < n → j < n → f i = f j → i = j)
    (hb : ∀ x ∈ L, x.1 < n ∧ x.2 < n ∧ x.1 ≠ x.2) (hnd : L.Nodup)
    (hsw : ∀ x ∈ L, x.swap ∈ L) : Manifold2 H := by
  have hmem : ∀ e ∈ H, ∃ x ∈ L, f x.1 = e.first ∧ f x.2 = e.second := by
    intro e he
    have h1 : ends e ∈ H.map ends := List.mem_map_of_mem _ he
    rw [hH.mem_iff, List.mem_map] at h1
    obtain ⟨x, hx, hxe⟩ := h1
    simp only [ends, Prod.mk.injEq] at hxe
    exact ⟨x, hx, hxe.1, hxe.2⟩
  refine ⟨?_, ?_, ?_⟩
  · intro e he heq
    obtain ⟨x, hx, h1, h2⟩ := hmem e he
    obtain ⟨b1, b2, b3⟩ := hb x hx
    exact b3 (hinj _ _ b1 b2 (by rw [h1, h2, heq]))
  · rw [hH.nodup_iff]
    refine List.Nodup.map_on ?_ hnd
    intro x hx y hy hxy
    simp only [Prod.mk.injEq] at hxy
    obtain ⟨b1, b2, _⟩ := hb x hx
    obtain ⟨c1, c2, _⟩ := hb y hy
    exact Prod.ext (hinj _ _ b1 c1 hxy.1) (hinj _ _ b2 c2 hxy.2)
  · intro e he
    obtain ⟨x, hx, h1, h2⟩ := hmem e he
    rw [hH.mem_iff, List.mem_map]
    exact ⟨x.swap, hsw x hx, by simp [h1, h2]⟩

theorem ends_fanEdges (K : Edge) (p : SimplePolygon) (cs : List Bool) (hp : p ≠ []) :
    (fanEdges K p cs).map ends =
      (hedgesIdx ((p.length - 1, 0, 1) :: stripIdx 1 (p.length - 1) cs) ++
        (bndIdx p.length).map Prod.swap).map (vp p) := by
  simp only [fanEdges, fan, List.map_append, List.map_map]
  congr 1
  · simp only [Triangles2Edges, hedgesIdx, List.map_cons, ends_strip]
    rfl
  · have h := ends_cycEdges p hp
    have h1 : (cycEdges p).map (ends ∘ swapEnds) = ((cycEdges p).map ends).map Prod.swap := by
      rw [List.map_map]; rfl
    rw [h1, h, List.map_map]
    rfl

/-- The triangles of one polygon with pairwise distinct ids, together with its
reversed boundary, form a 2-manifold edge set whose vertices are the ids of
the polygon. -/
theorem fanEdges_manifold (K : Edge) (p : SimplePolygon) (cs : List Bool) (h3 : 3 ≤ p.length)
    (hcs : cs.length + 3 = p.length) (hnd : (p.map (fun v => v.idx)).Nodup) :
    Manifold2 (fanEdges K p cs) ∧
      ∀ e ∈ fanEdges K p cs, e.first ∈ p.map (fun v => v.idx) ∧
        e.second ∈ p.map (fun v => v.idx) := by
  have hp : p ≠ [] := by intro h; simp [h] at h3
  have hperm := hedges_fan p.length cs h3 hcs
  obtain ⟨hb, hnd1, hsw⟩ := meshIdx_spec h3 hcs
  have hE : List.Perm ((fanEdges K p cs).map ends)
      ((meshIdx p.length cs).map (fun x => (vid p x.1, vid p x.2))) := by
    rw [ends_fanEdges K p cs hp]
    exact hperm.map _
  refine ⟨manifold2_of_idx hE (fun i j hi hj h => vid_inj hnd hi hj h) hb hnd1 hsw, ?_⟩
  intro e he
  have h1 : ends e ∈ (fanEdges K p cs).map ends := List.mem_map_of_mem _ he
  rw [hE.mem_iff, List.mem_map] at h1
  obtain ⟨x, hx, hxe⟩ := h1
  simp only [ends, Prod.mk.injEq] at hxe
  obtain ⟨b1, b2, _⟩ := hb x hx
  exact ⟨hxe.1 ▸ vid_mem b1, hxe.2 ▸ vid_mem b2⟩

/-! ## Backup triangulator: several polygons -/

theorem Manifold2.perm {H H1 : List EdgeVerts} (hp : List.Perm H H1) (h : Manifold2 H) :
    Manifold2 H1 := by
  obtain ⟨h1, h2, h3⟩ := h
  exact ⟨fun e he => h1 e (hp.mem_iff.mpr he), (hp.map ends).nodup_iff.mp h2,
    fun e he => ((hp.map ends).mem_iff).mp (h3 e (hp.mem_iff.mpr he))⟩

theorem Manifold2.append {H1 H2 : List EdgeVerts} (h1 : Manifold2 H1) (h2 : Manifold2 H2)
    (hd : ∀ e1 ∈ H1, ∀ e2 ∈ H2, e1.first ≠ e2.first) : Manifold2 (H1 ++ H2) := by
  obtain ⟨a1, a2, a3⟩ := h1
  obtain ⟨b1, b2, b3⟩ := h2
  refine ⟨?_, ?_, ?_⟩
  · intro e he
    rcases List.mem_append.mp he with he | he
    · exact a1 e he
    · exact b1 e he
  · rw [List.map_append, List.nodup_append]
    refine ⟨a2, b2, ?_⟩
    intro x hx hx2
    obtain ⟨e1, he1, rfl⟩ := List.mem_map.mp hx
    obtain ⟨e2, he2, h⟩ := List.mem_map.mp hx2
    simp only [ends, Prod.mk.injEq] at h
    exact hd e1 he1 e2 he2 h.1.symm
  · intro e he
    rw [List.map_append, List.mem_append]
    rcases List.mem_append.mp he with he | he
    · exact Or.inl (a3 e he)
    · exact Or.inr (b3 e he)

theorem BackupRun_cons {K : Edge} {p : SimplePolygon} {P : Polygons} {T0 T : List IVec3}
    (h : BackupRun K (p :: P) T0 = some (.ok T)) :
    ∃ T1, BackupPoly K p T0 = some (.ok T1) ∧ BackupRun K P T1 = some (.ok T) := by
  unfold BackupRun at h
  cases hp : BackupPoly K p T0 with
  | none => simp [hp] at h
  | some r =>
    cases r with
    | error err => simp [hp] at h
    | ok T1 =>
      simp only [hp] at h
      exact ⟨T1, rfl, h⟩

/-- Whenever the loop over the polygons returns, what it has added to the
output is a triangle list whose halfedges, with the reversed boundary edges of
the polygons, form a 2-manifold edge set on the ids of the polygons. -/
theorem BackupRun_manifold (K : Edge) :
    ∀ (P : Polygons), (∀ p ∈ P, 3 ≤ p.length) → (P.flatten.map (fun v => v.idx)).Nodup →
      ∀ T0 T, BackupRun K P T0 = some (.ok T) →
        ∃ T1, T = T0 ++ T1 ∧
          Manifold2 (Triangles2Edges K T1 ++ (P.flatMap cycEdges).map swapEnds) ∧
          ∀ e ∈ Triangles2Edges K T1 ++ (P.flatMap cycEdges).map swapEnds,
            e.first ∈ P.flatten.map (fun v => v.idx) ∧
              e.second ∈ P.flatten.map (fun v => v.idx) := by
  intro P
  induction P with
  | nil =>
    intro _ _ T0 T h
    simp only [BackupRun, Option.some.injEq, Except.ok.injEq] at h
    refine ⟨[], by simp [h], ?_, ?_⟩
    · exact ⟨by simp [Triangles2Edges], by simp [Triangles2Edges], by simp [Triangles2Edges]⟩
    · simp [Triangles2Edges]
  | cons p P ih =>
    intro h3 hnd T0 T h
    obtain ⟨T1, hp, hrest⟩ := BackupRun_cons h
    have h3p := h3 p (List.mem_cons_self _ _)
    obtain ⟨cs, hcs, hT1⟩ := BackupPoly_strip K p h3p T0 T1 hp
    simp only [List.flatten_cons, List.map_append] at hnd
    rw [List.nodup_append] at hnd
    obtain ⟨hndp, hndP, hdisj⟩ := hnd
    obtain ⟨T2, hT, hM, hV⟩ := ih (fun q hq => h3 q (List.mem_cons_of_mem _ hq)) hndP T1 T hrest
    obtain ⟨hMp, hVp⟩ := fanEdges_manifold K p cs h3p hcs hndp
    have hperm : List.Perm
        (fanEdges K p cs ++ (Triangles2Edges K T2 ++ (P.flatMap cycEdges).map swapEnds))
        (Triangles2Edges K (fan p cs ++ T2) ++ ((p :: P).flatMap cycEdges).map swapEnds) := by
      rw [List.perm_iff_count]
      intro a
      simp only [fanEdges, Triangles2Edges_append, List.flatMap_cons, List.map_append,
        List.count_append]
      omega
    refine ⟨fan p cs ++ T2, ?_, ?_, ?_⟩
    · rw [hT, hT1, List.append_assoc]
      rfl
    · refine Manifold2.perm hperm (Manifold2.append hMp hM ?_)
      intro e1 he1 e2 he2 heq
      exact hdisj (hVp e1 he1).1 (heq ▸ (hV e2 he2).1)
    · intro e he
      rw [← hperm.mem_iff] at he
      simp only [List.flatten_cons, List.map_append, List.mem_append]
      rcases List.mem_append.mp he with he | he
      · exact ⟨Or.inl (hVp e he).1, Or.inl (hVp e he).2⟩
      · exact ⟨Or.inr (hV e he).1, Or.inr (hV e he).2⟩

/-! ## Backup triangulator: polygons without edge tags -/

theorem edgePair_noTags {K : Edge} {poly : SimplePolygon}
    (hk : ∀ v ∈ poly, v.nextEdge = K.kNoIdx) {i j : Int} {p : Int × Int}
    (h : edgePair poly i j = .ok p) : p = (K.kNoIdx, K.kNoIdx) := by
  unfold edgePair at h
  cases hi : getI poly i with
  | error err => simp [hi] at h
  | ok a =>
    cases hj : getI poly j with
    | error err => simp [hi, hj] at h
    | ok b =>
      simp only [hi, hj, Except.ok.injEq] at h
      rw [← h, hk a (mem_of_getI hi), hk b (mem_of_getI hj)]

theorem SharedEdge_noIdx (K : Edge) (x : Int × Int) :
    SharedEdge K (K.kNoIdx, K.kNoIdx) x = false := by
  simp [SharedEdge]

theorem BackupAdvance_noTags {K : Edge} {poly : SimplePolygon} {st : BackupState} {s e : Nat}
    {T : List IVec3} (hk : ∀ v ∈ poly, v.nextEdge = K.kNoIdx) (hc : Corr poly st s e T)
    (hgap : s + 2 ≤ e) (hs : st.startEdges = (K.kNoIdx, K.kNoIdx)) :
    ∃ st2, BackupAdvance poly st = .ok st2 ∧ st2.startEdges = (K.kNoIdx, K.kNoIdx) := by
  have hlow := hc.low
  have hhigh := hc.high
  unfold BackupAdvance
  cases hf : st.forward with
  | true =>
    obtain ⟨hs1, he, ht⟩ := hc.fwd hf
    have h2 : Prev (e : Int) (poly.length : Int) = ((e - 1 : Nat) : Int) := Prev_eq (by omega)
    have h3 : Prev ((e - 1 : Nat) : Int) (poly.length : Int) = ((e - 1 - 1 : Nat) : Int) :=
      Prev_eq (by omega)
    obtain ⟨c, hc1, _⟩ := @getI_vid poly (e - 1) (by omega)
    obtain ⟨ee, hee⟩ := @edgePair_ok poly (e - 1 - 1) (e - 1) (by omega) (by omega)
    simp only [Bool.not_true, Bool.false_eq_true, if_false, he, h2, h3, hee, hc1]
    exact ⟨_, rfl, hs⟩
  | false =>
    obtain ⟨hs1, he, ht⟩ := hc.bwd hf
    have h1 : Next (s : Int) (poly.length : Int) = ((s + 1 : Nat) : Int) := Next_eq (by omega)
    have h3 : Prev ((s + 1 : Nat) : Int) (poly.length : Int) = ((s + 1 - 1 : Nat) : Int) :=
      Prev_eq (by omega)
    obtain ⟨c, hc1, _⟩ := @getI_vid poly (s + 1) (by omega)
    obtain ⟨se, hse⟩ := @edgePair_ok poly (s + 1 - 1) (s + 1) (by omega) (by omega)
    simp only [Bool.not_false, if_true, hs1, h1, h3, hse, hc1]
    exact ⟨_, rfl, edgePair_noTags hk hse⟩

/-- Without edge tags the loop of `BackupTriangulate` never switches sides and
returns once the fuel covers the distance between the cursors. -/
theorem BackupLoop_noTags (K : Edge) (poly : SimplePolygon)
    (hk : ∀ v ∈ poly, v.nextEdge = K.kNoIdx) :
    ∀ (fuel : Nat) (st : BackupState) (s e : Nat) (T : List IVec3),
      Corr poly st s e T → st.startEdges = (K.kNoIdx, K.kNoIdx) → e ≤ s + fuel →
      ∃ T1, BackupLoop K poly fuel st = some (.ok T1) := by
  intro fuel
  induction fuel with
  | zero => intro st s e T hc _ h; have := hc.lt; omega
  | succ fuel ih =>
    intro st s e T hc hs hfuel
    unfold BackupLoop
    by_cases hstop : st.start = st.stop
    · exact ⟨st.triangles, by simp [hstop]⟩
    · have hgap : s + 2 ≤ e := by
        have hlt := hc.lt
        cases hf : st.forward with
        | true =>
          obtain ⟨hs1, he, _⟩ := hc.fwd hf
          rw [hs1, he] at hstop
          omega
        | false =>
          obtain ⟨hs1, he, _⟩ := hc.bwd hf
          rw [hs1, he] at hstop
          omega
      obtain ⟨st2, hadv, hs2⟩ := BackupAdvance_noTags hk hc hgap hs
      have hcorr := BackupAdvance_corr hc hgap hadv
      simp only [hstop, if_false, hs, SharedEdge_noIdx, Bool.false_eq_true, hadv]
      cases hf : st.forward with
      | true => exact ih st2 (s + 1) e _ (hcorr.1 hf) hs2 (by omega)
      | false => exact ih st2 s (e - 1) _ (hcorr.2 hf) hs2 (by omega)

theorem BackupPoly_noTags (K : Edge) (poly : SimplePolygon)
    (hk : ∀ v ∈ poly, v.nextEdge = K.kNoIdx) (T0 : List IVec3) :
    ∃ T1, BackupPoly K poly T0 = some (.ok T1) := by
  unfold BackupPoly
  by_cases hn : poly.length < 3
  · exact ⟨T0, by simp [hn]⟩
  simp only [hn, if_false]
  have hstopc : ((poly.length : Int) - 1) = ((poly.length - 1 : Nat) : Int) := by omega
  have h1c : (1 : Int) = ((1 : Nat) : Int) := rfl
  have h0c : (0 : Int) = ((0 : Nat) : Int) := rfl
  obtain ⟨pe, hpe, hpe1⟩ := @getI_vid poly (poly.length - 1) (by omega)
  obtain ⟨p0, hp0, hp01⟩ := @getI_vid poly (0) (by omega)
  obtain ⟨p1, hp1, hp11⟩ := @getI_vid poly (1) (by omega)
  obtain ⟨p2, hp2, hp21⟩ := @getI_vid poly (2) (by omega)
  obtain ⟨se, hse⟩ := @edgePair_ok poly (0) (1) (by omega) (by omega)
  obtain ⟨ee, hee⟩ := @edgePair_ok poly (poly.length - 2)
    (poly.length - 1) (by omega) (by omega)
  obtain ⟨se2, hse2⟩ := @edgePair_ok poly (1) (2) (by omega) (by omega)
  have hee1 : edgePair poly ((poly.length : Int) - 1 - 1) ((poly.length : Int) - 1) = .ok ee := by
    have : ((poly.length : Int) - 1 - 1) = ((poly.length - 2 : Nat) : Int) := by omega
    rw [this, hstopc]
    exact hee
  have hse1 : edgePair poly ((1 : Int) - 1) 1 = .ok se := by
    have : ((1 : Int) - 1) = ((0 : Nat) : Int) := by omega
    rw [this, h1c]
    exact hse
  have hsek := edgePair_noTags hk hse
  subst hsek
  have hse2k := edgePair_noTags hk hse2
  rw [hstopc, hpe, h0c, hp0, h1c, hp1, ← h1c, hse1, ← hstopc, hee1]
  simp only
  have hfuel : ∀ st, BackupLoop K poly poly.length st =
      BackupLoop K poly ((poly.length - 1) + 1) st := by
    intro st
    congr 1
    omega
  rw [hfuel]
  unfold BackupLoop
  have hne : ¬ ((1 : Int) = (poly.length : Int) - 1) := by omega
  have hN1 : Next (1 : Int) (poly.length : Int) = ((2 : Nat) : Int) := by
    have := Next_eq (i := 1) (n := poly.length) (by omega)
    simpa using this
  have hP2 : Prev ((2 : Nat) : Int) (poly.length : Int) = ((1 : Nat) : Int) := Prev_eq (by omega)
  have hadv : BackupAdvance poly ⟨1, (poly.length : Int) - 1, ⟨pe.idx, p0.idx, p1.idx⟩,
      (K.kNoIdx, K.kNoIdx), ee, false, T0⟩ = .ok ⟨((2 : Nat) : Int), (poly.length : Int) - 1, ⟨pe.idx, p1.idx, p2.idx⟩, se2,
      ee, true, T0 ++ [⟨pe.idx, p0.idx, p1.idx⟩]⟩ := by
    unfold BackupAdvance
    simp only [Bool.not_false, if_true, hN1, hP2, hse2, hp2]
  simp only [hne, if_false, SharedEdge_noIdx, Bool.false_eq_true, hadv]
  refine BackupLoop_noTags K poly hk (poly.length - 1)
    ⟨((2 : Nat) : Int), (poly.length : Int) - 1, ⟨pe.idx, p1.idx, p2.idx⟩, se2, ee, true,
      T0 ++ [⟨pe.idx, p0.idx, p1.idx⟩]⟩ 1 (poly.length - 1)
    (T0 ++ [⟨pe.idx, p0.idx, p1.idx⟩]) ?_ hse2k (by omega)
  refine ⟨le_refl _, by omega, by omega, rfl, fun _ => ⟨by simp, by simp; omega, ?_⟩,
    fun hh => by simp at hh⟩
  simp [triF, hpe1, hp11, hp21]

theorem BackupRun_noTags (K : Edge) :
    ∀ (P : Polygons), (∀ p ∈ P, ∀ v ∈ p, v.nextEdge = K.kNoIdx) →
      ∀ T0, ∃ T, BackupRun K P T0 = some (.ok T) := by
  intro P
  induction P with
  | nil => intro _ T0; exact ⟨T0, rfl⟩
  | cons p P ih =>
    intro hk T0
    obtain ⟨T1, h1⟩ := BackupPoly_noTags K p (hk p (List.mem_cons_self _ _)) T0
    obtain ⟨T, h2⟩ := ih (fun q hq => hk q (List.mem_cons_of_mem _ hq)) T1
    exact ⟨T, by simp only [BackupRun, h1, h2]⟩

/-! ## The interface check without edge tags -/

theorem boundaryTags_length {K : Edge} {H : List EdgeVerts} {a : Int}
    (h : OnBoundary K H a) : 2 ≤ (boundaryTags K H a).length := by
  have key : ∀ H : List EdgeVerts, (boundaryTags K H a).length =
      (H.filter (fun h => decide (h.edge ≠ K.kInterior ∧ h.first = a))).length +
        (H.filter (fun h => decide (h.edge ≠ K.kInterior ∧ h.second = a))).length := by
    intro H
    induction H with
    | nil => rfl
    | cons h H ih =>
      by_cases h1 : h.edge = K.kInterior
      · simp [boundaryTags, h1, ih]
      · by_cases h2 : h.first = a <;> by_cases h3 : h.second = a <;>
          simp [boundaryTags, h1, h2, h3, ih] <;> omega
  obtain ⟨⟨h1, hm1, ht1, hf1⟩, ⟨h2, hm2, ht2, hf2⟩⟩ := h
  have p1 := List.length_pos_of_mem
    (List.mem_filter.mpr ⟨hm1, by simp [ht1, hf1]⟩ :
      h1 ∈ H.filter (fun h => decide (h.edge ≠ K.kInterior ∧ h.first = a)))
  have p2 := List.length_pos_of_mem
    (List.mem_filter.mpr ⟨hm2, by simp [ht2, hf2]⟩ :
      h2 ∈ H.filter (fun h => decide (h.edge ≠ K.kInterior ∧ h.second = a)))
  rw [key]
  omega

theorem recordTags_const (K : Edge) (c : Int) :
    ∀ ts : List Int, (∀ t ∈ ts, t = c) → 2 ≤ ts.length → recordTags K none ts = some (c, c) := by
  have key : ∀ ts : List Int, (∀ t ∈ ts, t = c) →
      recordTags K (some (c, c)) ts = some (c, c) := by
    intro ts
    induction ts with
    | nil => intro _; rfl
    | cons t ts ih =>
      intro h
      have ht := h t (List.mem_cons_self _ _)
      subst ht
      simp only [recordTags]
      exact ih (fun u hu => h u (List.mem_cons_of_mem _ hu))
  intro ts h hlen
  match ts, h, hlen with
  | t1 :: t2 :: ts, h, _ =>
    have e1 := h t1 (by simp)
    have e2 := h t2 (by simp)
    subst e1
    subst e2
    simp only [recordTags]
    exact key ts (fun u hu => h u (by simp [hu]))

/-- The record that `CheckManifold` keeps for a vertex on the boundary when no
boundary halfedge carries a tag other than `kNoIdx`. -/
theorem find_noTags {K : Edge} {H : List EdgeVerts}
    (htag : ∀ h ∈ H, h.edge ≠ K.kInterior → h.edge = K.kNoIdx) {a : Int}
    (ha : OnBoundary K H a) :
    (buildVert2edges K H []).find a = some (K.kNoIdx, K.kNoIdx) := by
  have hord : Map.Ordered ([] : Map (Int × Int)) := by simp [Map.Ordered, Map.keys]
  rw [find_buildVert2edges K H [] hord a]
  have h0 : Map.find ([] : Map (Int × Int)) a = none := rfl
  rw [h0]
  refine recordTags_const K _ _ ?_ (boundaryTags_length ha)
  intro t ht
  obtain ⟨h, hm, h1, h2, _⟩ := (mem_boundaryTags_iff K H a t).mp ht
  rw [← h2]
  exact htag h hm h1

/-- The last loop of `CheckManifold` passes when no boundary halfedge carries a
tag other than `kNoIdx` and every vertex lies on the boundary. -/
theorem interface_noTags {K : Edge} {H : List EdgeVerts}
    (htag : ∀ h ∈ H, h.edge ≠ K.kInterior → h.edge = K.kNoIdx)
    (hinc : ∀ h ∈ H, OnBoundary K H h.first ∧ OnBoundary K H h.second)
    (hF : (fwdEdges H).length = H.length / 2) (hB : (bwdEdges H).length = H.length / 2) :
    forEach (interfaceBody K (sortEdges (fwdEdges H)) (sortEdges ((bwdEdges H).map swapEnds))
      (buildVert2edges K H [])) (List.range (H.length / 2)) = .ok () := by
  rw [forEach_ok_iff]
  intro i hi
  rw [List.mem_range] at hi
  have hFlen : i < (sortEdges (fwdEdges H)).length := by
    rw [(sortEdges_perm _).length_eq, hF]; exact hi
  have hBlen : i < (sortEdges ((bwdEdges H).map swapEnds)).length := by
    rw [(sortEdges_perm _).length_eq, List.length_map, hB]; exact hi
  have hmem : (sortEdges (fwdEdges H))[i] ∈ H := by
    have h1 : (sortEdges (fwdEdges H))[i] ∈ sortEdges (fwdEdges H) := List.getElem_mem hFlen
    rw [(sortEdges_perm _).mem_iff] at h1
    exact (List.mem_filter.mp h1).1
  obtain ⟨i1, i2⟩ := hinc _ hmem
  unfold interfaceBody
  rw [getI_of_lt hFlen, getI_of_lt hBlen]
  simp [find_noTags htag i1, find_noTags htag i2, SharedEdge_noIdx, ALWAYS_ASSERT]

theorem Triangles2Edges_edge (K : Edge) (T : List IVec3) :
    ∀ h ∈ Triangles2Edges K T, h.edge = K.kInterior := by
  induction T with
  | nil => intro h hh; simp [Triangles2Edges] at hh
  | cons t T ih =>
    intro h hh
    simp only [Triangles2Edges, List.mem_cons] at hh
    rcases hh with rfl | rfl | rfl | hh
    · rfl
    · rfl
    · rfl
    · exact ih h hh

theorem polyEdges_edge : ∀ (l : SimplePolygon), ∀ e ∈ polyEdges l, ∃ v ∈ l, e.edge = v.nextEdge := by
  intro l
  induction l with
  | nil => intro e he; simp [polyEdges] at he
  | cons a l ih =>
    cases l with
    | nil => intro e he; simp [polyEdges] at he
    | cons b l =>
      intro e he
      rw [polyEdges_cons_cons, List.mem_cons] at he
      rcases he with rfl | he
      · exact ⟨a, List.mem_cons_self _ _, rfl⟩
      · obtain ⟨v, hv, h⟩ := ih e he
        exact ⟨v, List.mem_cons_of_mem _ hv, h⟩

theorem cycEdges_edge (p : SimplePolygon) : ∀ e ∈ cycEdges p, ∃ v ∈ p, e.edge = v.nextEdge := by
  intro e he
  obtain ⟨v, hv, h⟩ := polyEdges_edge _ e he
  refine ⟨v, ?_, h⟩
  rcases List.mem_append.mp hv with hv | hv
  · exact hv
  · exact List.mem_of_mem_take hv

/-- Every vertex of a polygon is the first end of one of its boundary edges and
the second end of one. -/
theorem cycEdges_ends (p : SimplePolygon) {a : Int} (ha : a ∈ p.map (fun v => v.idx)) :
    (∃ e ∈ cycEdges p, e.first = a) ∧ ∃ e ∈ cycEdges p, e.second = a := by
  have hp : p ≠ [] := by intro h; simp [h] at ha
  obtain ⟨v, hv, rfl⟩ := List.mem_map.mp ha
  obtain ⟨i, hi, rfl⟩ := List.mem_iff_getElem.mp hv
  have hvid : vid p i = p[i].idx := by simp [vid, List.getElem?_eq_getElem hi]
  have hE := ends_cycEdges p hp
  have key : ∀ x ∈ bndIdx p.length, ∃ e ∈ cycEdges p, e.first = vid p x.1 ∧ e.second = vid p x.2 := by
    intro x hx
    have h1 : vp p x ∈ (cycEdges p).map ends := by
      rw [hE]
      exact List.mem_map_of_mem _ hx
    obtain ⟨e, he, h2⟩ := List.mem_map.mp h1
    simp only [ends, vp, Prod.mk.injEq] at h2
    exact ⟨e, he, h2.1, h2.2⟩
  constructor
  · by_cases hl : i + 1 < p.length
    · obtain ⟨e, he, h1, _⟩ := key (i, i + 1) (mem_bndIdx.mpr (Or.inl ⟨rfl, by simp only; omega⟩))
      exact ⟨e, he, h1.trans hvid⟩
    · have hi1 : i = p.length - 1 := by omega
      obtain ⟨e, he, h1, _⟩ := key (p.length - 1, 0) (mem_bndIdx.mpr (Or.inr rfl))
      exact ⟨e, he, by rw [h1]; simp only; rw [← hi1]; exact hvid⟩
  · by_cases h0 : i = 0
    · obtain ⟨e, he, _, h2⟩ := key (p.length - 1, 0) (mem_bndIdx.mpr (Or.inr rfl))
      exact ⟨e, he, by rw [h2]; simp only; rw [← hvid, h0]⟩
    · obtain ⟨e, he, _, h2⟩ := key (i - 1, i)
        (mem_bndIdx.mpr (Or.inl ⟨by simp only; omega, by simp only; omega⟩))
      exact ⟨e, he, h2.trans hvid⟩

/-- The triangles of the backup triangulator and the reversed boundary of
polygons without edge tags pass `CheckManifold`. -/
theorem CheckManifold_noTags (K : Edge) (P : Polygons) (T : List IVec3)
    (hk : ∀ p ∈ P, ∀ v ∈ p, v.nextEdge = K.kNoIdx) (hI : K.kNoIdx ≠ K.kInterior)
    (hM : Manifold2 (Triangles2Edges K T ++ (P.flatMap cycEdges).map swapEnds))
    (hV : ∀ e ∈ Triangles2Edges K T ++ (P.flatMap cycEdges).map swapEnds,
      e.first ∈ P.flatten.map (fun v => v.idx) ∧ e.second ∈ P.flatten.map (fun v => v.idx)) :
    CheckManifold K (Triangles2Edges K T ++ (P.flatMap cycEdges).map swapEnds) = .ok () := by
  obtain ⟨t1, t2, t3, t4⟩ := topology_of_manifold hM
  rw [CheckManifold_ok_iff]
  refine ⟨t1, t2, t3, t4, interface_noTags ?_ ?_ t2 t3⟩
  · intro h hh hne
    rcases List.mem_append.mp hh with hh | hh
    · exact absurd (Triangles2Edges_edge K T h hh) hne
    · obtain ⟨e, he, rfl⟩ := List.mem_map.mp hh
      obtain ⟨p, hp, he⟩ := List.mem_flatMap.mp he
      obtain ⟨v, hv, hev⟩ := cycEdges_edge p e he
      show e.edge = K.kNoIdx
      rw [hev]
      exact hk p hp v hv
  · have hon : ∀ a ∈ P.flatten.map (fun v => v.idx),
        OnBoundary K (Triangles2Edges K T ++ (P.flatMap cycEdges).map swapEnds) a := by
      intro a ha
      obtain ⟨v, hv, rfl⟩ := List.mem_map.mp ha
      obtain ⟨p, hp, hvp⟩ := List.mem_flatten.mp hv
      obtain ⟨⟨e1, he1, hf1⟩, ⟨e2, he2, hs2⟩⟩ :=
        cycEdges_ends p (List.mem_map_of_mem (fun v => v.idx) hvp)
      have htag : ∀ e ∈ cycEdges p, (swapEnds e).edge ≠ K.kInterior := by
        intro e he
        obtain ⟨w, hw, hew⟩ := cycEdges_edge p e he
        show e.edge ≠ K.kInterior
        rw [hew, hk p hp w hw]
        exact hI
      have hin : ∀ e ∈ cycEdges p,
          swapEnds e ∈ Triangles2Edges K T ++ (P.flatMap cycEdges).map swapEnds := by
        intro e he
        exact List.mem_append_right _
          (List.mem_map_of_mem _ (List.mem_flatMap.mpr ⟨p, hp, he⟩))
      exact ⟨⟨swapEnds e2, hin e2 he2, htag e2 he2, hs2⟩, ⟨swapEnds e1, hin e1 he1, htag e1 he1, hf1⟩⟩
    intro h hh
    exact ⟨hon _ (hV h hh).1, hon _ (hV h hh).2⟩

/-! ## The unassigned `onRight_` does not matter -/

theorem Triangulator.Agree.refl (t : Triangulator) : Triangulator.Agree t t :=
  ⟨rfl, rfl, rfl, Or.inl rfl⟩

theorem Triangulator.Agree.eq_of_onRight {t u : Triangulator} (h : Triangulator.Agree t u)
    (ho : t.onRight_ = u.onRight_) : t = u := by
  obtain ⟨h1, h2, h3, _⟩ := h
  cases t
  cases u
  simp only at h1 h2 h3 ho
  subst h1 h2 h3 ho
  rfl

/-- A triangulator that holds only its seed treats a vertex in the same way
whatever its unassigned `onRight_` holds. -/
theorem Triangulator.ProcessVert_fresh (m : List VertAdj) (o n : Int) (b : Bool) (v : Int)
    (T : List IVec3) :
    (∃ e, Triangulator.ProcessVert m ⟨[o], o, n, b⟩ v T = .error e ∧
        Triangulator.ProcessVert m ⟨[o], o, n, !b⟩ v T = .error e) ∨
      (Triangulator.ProcessVert m ⟨[o], o, n, b⟩ v T = .ok (false, ⟨[o], o, n, b⟩, T) ∧
        Triangulator.ProcessVert m ⟨[o], o, n, !b⟩ v T = .ok (false, ⟨[o], o, n, !b⟩, T)) ∨
      ∃ u, Triangulator.ProcessVert m ⟨[o], o, n, b⟩ v T = .ok (true, u, T) ∧
        Triangulator.ProcessVert m ⟨[o], o, n, !b⟩ v T = .ok (true, u, T) := by
  cases ho : getI m o with
  | error e =>
    left
    refine ⟨e, ?_, ?_⟩ <;>
      cases b <;>
      simp [Triangulator.ProcessVert, Triangulator.Attached, Triangulator.GetOther,
        Triangulator.GetTop, Triangulator.top, ho, bind, Except.bind]
  | ok vo =>
    by_cases hl : vo.left = v <;> by_cases hr : vo.right = v
    iterate 3
      · cases hv : getI m v with
        | error e =>
          left
          refine ⟨e, ?_, ?_⟩ <;> cases b <;>
          simp [Triangulator.ProcessVert, Triangulator.Attached, Triangulator.GetOther,
            Triangulator.GetTop, Triangulator.top, ho, hv, hl, hr, bind, Except.bind, pure,
            Except.pure]
        | ok vi =>
          right; right
          refine ⟨⟨[v, o], o, n, decide (vi.left = o)⟩, ?_, ?_⟩ <;> cases b <;>
          simp [Triangulator.ProcessVert, Triangulator.Attached, Triangulator.GetOther,
            Triangulator.GetTop, Triangulator.top, ho, hv, hl, hr, bind, Except.bind, pure,
            Except.pure]
    · right; left
      constructor <;> cases b <;>
        simp [Triangulator.ProcessVert, Triangulator.Attached, Triangulator.GetOther,
          Triangulator.GetTop, Triangulator.top, ho, hl, hr, bind, Except.bind, pure,
          Except.pure]

theorem Triangulator.ProcessVert_agree (m : List VertAdj) {t u : Triangulator}
    (h : Triangulator.Agree t u) (v : Int) (T : List IVec3) :
    (∃ e, Triangulator.ProcessVert m t v T = .error e ∧
        Triangulator.ProcessVert m u v T = .error e) ∨
      ∃ b t1 u1 T1, Triangulator.ProcessVert m t v T = .ok (b, t1, T1) ∧
        Triangulator.ProcessVert m u v T = .ok (b, u1, T1) ∧ Triangulator.Agree t1 u1 := by
  have hsame : ∀ t : Triangulator,
      (∃ e, Triangulator.ProcessVert m t v T = .error e ∧
        Triangulator.ProcessVert m t v T = .error e) ∨
      ∃ b t1 u1 T1, Triangulator.ProcessVert m t v T = .ok (b, t1, T1) ∧
        Triangulator.ProcessVert m t v T = .ok (b, u1, T1) ∧ Triangulator.Agree t1 u1 := by
    intro t
    cases hr : Triangulator.ProcessVert m t v T with
    | error e => exact Or.inl ⟨e, rfl, rfl⟩
    | ok r =>
      obtain ⟨b, t1, T1⟩ := r
      exact Or.inr ⟨b, t1, t1, T1, rfl, rfl, Triangulator.Agree.refl t1⟩
  by_cases ho : t.onRight_ = u.onRight_
  · have := h.eq_of_onRight ho
    subst this
    exact hsame t
  · obtain ⟨h1, h2, h3, h4⟩ := h
    have hf : t.reflex_chain_ = [t.other_side_] := h4.resolve_left ho
    obtain ⟨c, o, n, b⟩ := t
    obtain ⟨c1, o1, n1, b1⟩ := u
    simp only at h1 h2 h3 ho hf
    subst h1 h2 h3 hf
    have hb : b1 = !b := by
      cases b <;> cases b1 <;> simp_all
    subst hb
    rcases Triangulator.ProcessVert_fresh m o n b v T with ⟨e, e1, e2⟩ | ⟨e1, e2⟩ | ⟨w, e1, e2⟩
    · exact Or.inl ⟨e, e1, e2⟩
    · exact Or.inr ⟨false, _, _, T, e1, e2, rfl, rfl, rfl, Or.inr rfl⟩
    · exact Or.inr ⟨true, w, w, T, e1, e2, Triangulator.Agree.refl w⟩

theorem dispatch_agree (m : List VertAdj) (v : Int) :
    ∀ (ts us : List Triangulator), List.Forall₂ Triangulator.Agree ts us → ∀ T : List IVec3,
      (∃ e, dispatch m v ts T = .error e ∧ dispatch m v us T = .error e) ∨
      (dispatch m v ts T = .ok none ∧ dispatch m v us T = .ok none) ∨
      ∃ ts1 us1 T1, dispatch m v ts T = .ok (some (ts1, T1)) ∧
        dispatch m v us T = .ok (some (us1, T1)) ∧ List.Forall₂ Triangulator.Agree ts1 us1 := by
  intro ts us h
  induction h with
  | nil => intro T; exact Or.inr (Or.inl ⟨rfl, rfl⟩)
  | @cons t u ts us htu _ ih =>
    intro T
    rcases Triangulator.ProcessVert_agree m htu v T with ⟨e, e1, e2⟩ |
      ⟨b, t1, u1, T1, e1, e2, hag⟩
    · exact Or.inl ⟨e, by simp [dispatch, e1], by simp [dispatch, e2]⟩
    · cases b with
      | true =>
        refine Or.inr (Or.inr ⟨t1 :: ts, u1 :: us, T1, by simp [dispatch, e1],
          by simp [dispatch, e2], List.Forall₂.cons hag (by assumption)⟩)
      | false =>
        rcases ih T with ⟨e, d1, d2⟩ | ⟨d1, d2⟩ | ⟨ts1, us1, T2, d1, d2, hag2⟩
        · exact Or.inl ⟨e, by simp [dispatch, e1, d1], by simp [dispatch, e2, d2]⟩
        · exact Or.inr (Or.inl ⟨by simp [dispatch, e1, d1], by simp [dispatch, e2, d2]⟩)
        · exact Or.inr (Or.inr ⟨t :: ts1, u :: us1, T2, by simp [dispatch, e1, d1],
            by simp [dispatch, e2, d2], List.Forall₂.cons htu hag2⟩)

theorem triangulateSweep_agree (g1 g2 : Nat → Bool) (m : List VertAdj) :
    ∀ (sweep_line : List (Int × Int)) (ts us : List Triangulator),
      List.Forall₂ Triangulator.Agree ts us → ∀ T : List IVec3,
      (∃ e, triangulateSweep g1 m sweep_line ts T = .error e ∧
        triangulateSweep g2 m sweep_line us T = .error e) ∨
      ∃ ts1 us1 T1, triangulateSweep g1 m sweep_line ts T = .ok (ts1, T1) ∧
        triangulateSweep g2 m sweep_line us T = .ok (us1, T1) ∧
        List.Forall₂ Triangulator.Agree ts1 us1 := by
  intro sweep_line
  induction sweep_line with
  | nil => intro ts us h T; exact Or.inr ⟨ts, us, T, rfl, rfl, h⟩
  | cons p rest ih =>
    intro ts us h T
    obtain ⟨k, v⟩ := p
    rcases dispatch_agree m v ts us h T with ⟨e, d1, d2⟩ | ⟨d1, d2⟩ | ⟨ts1, us1, T2, d1, d2, hag⟩
    · exact Or.inl ⟨e, by simp [triangulateSweep, d1], by simp [triangulateSweep, d2]⟩
    · have hnew : List.Forall₂ Triangulator.Agree
          (ts ++ [Triangulator.new v (g1 ts.length)]) (us ++ [Triangulator.new v (g2 us.length)]) :=
        List.rel_append h (List.Forall₂.cons ⟨rfl, rfl, rfl, Or.inr rfl⟩ List.Forall₂.nil)
      simp only [triangulateSweep, d1, d2]
      exact ih _ _ hnew T
    · simp only [triangulateSweep, d1, d2]
      exact ih _ _ hag T2

theorem trianglesLeft_agree (m : List VertAdj) {ts us : List Triangulator}
    (h : List.Forall₂ Triangulator.Agree ts us) : trianglesLeft m ts = trianglesLeft m us := by
  unfold trianglesLeft
  generalize (m.length : Int) = n
  induction h generalizing n with
  | nil => rfl
  | @cons t u ts us htu _ ih =>
    simp only [List.foldl_cons, Triangulator.NumTriangles, htu.2.2.1]
    exact ih _

/-- What `TriangulateMonotones` does is the same whatever the unassigned
`onRight_` members hold. -/
theorem TriangulateMonotones_garbage (g1 g2 : Nat → Bool) (m : List VertAdj) (T : List IVec3) :
    TriangulateMonotones g1 m T = TriangulateMonotones g2 m T := by
  unfold TriangulateMonotones
  rcases triangulateSweep_agree g1 g2 m
    ((m.enum.map (fun iv => (iv.2.sweep_order, (iv.1 : Int)))).insertionSort
      (fun a b => tupleLtInt b a = false)) [] [] List.Forall₂.nil T with
    ⟨e, e1, e2⟩ | ⟨ts1, us1, T1, e1, e2, hag⟩
  · simp only [e1, e2, bind, Except.bind]
  · simp only [e1, e2, bind, Except.bind, trianglesLeft_agree m hag]

theorem PrimaryTriangulate_garbage (K : Edge) (g1 g2 : Nat → Bool) (P : Polygons) :
    PrimaryTriangulate K g1 P = PrimaryTriangulate K g2 P := by
  unfold PrimaryTriangulate
  cases Monotones.Monotones K P with
  | error e => rfl
  | ok m => simp only [bind, Except.bind, TriangulateMonotones_garbage g1 g2 m]

/-! ## Renumbering the vertices -/

@[simp] theorem VertAdj.relabel_pos (f : Int → Int) (v : VertAdj) : (v.relabel f).pos = v.pos := rfl
@[simp] theorem VertAdj.relabel_right (f : Int → Int) (v : VertAdj) : (v.relabel f).right = v.right := rfl
@[simp] theorem VertAdj.relabel_left (f : Int → Int) (v : VertAdj) : (v.relabel f).left = v.left := rfl
@[simp] theorem VertAdj.relabel_across (f : Int → Int) (v : VertAdj) : (v.relabel f).across = v.across := rfl
@[simp] theorem VertAdj.relabel_merge (f : Int → Int) (v : VertAdj) : (v.relabel f).merge = v.merge := rfl
@[simp] theorem VertAdj.relabel_sweep_order (f : Int → Int) (v : VertAdj) :
    (v.relabel f).sweep_order = v.sweep_order := rfl
@[simp] theorem VertAdj.relabel_mesh_idx (f : Int → Int) (v : VertAdj) :
    (v.relabel f).mesh_idx = f v.mesh_idx := rfl
@[simp] theorem VertAdj.relabel_Processed (f : Int → Int) (v : VertAdj) :
    (v.relabel f).Processed = v.Processed := rfl

theorem getI_map {α β : Type} (r : α → β) (m : List α) (i : Int) :
    getI (m.map r) i = r <$> getI m i := by
  unfold getI
  by_cases h : i < 0
  · simp only [h, if_true]
    rfl
  · simp only [h, if_false, List.getElem?_map]
    cases m[i.toNat]? with
    | none => rfl
    | some a => rfl

theorem modifyI_map {α : Type} (r : α → α) (g : α → α) (hg : ∀ a, g (r a) = r (g a))
    (m : List α) (i : Int) :
    modifyI (m.map r) i g = List.map r <$> modifyI m i g := by
  unfold modifyI
  rw [getI_map]
  cases getI m i with
  | error e => rfl
  | ok a =>
    show Except.ok _ = Except.ok _
    rw [List.map_set, hg]

theorem modifyI_relabel_across (f : Int → Int) (m : List VertAdj) (i x : Int) :
    modifyI (m.map (VertAdj.relabel f)) i (fun v => { v with across := x }) =
      List.map (VertAdj.relabel f) <$> modifyI m i (fun v => { v with across := x }) :=
  modifyI_map (VertAdj.relabel f) (fun v => { v with across := x }) (fun _ => rfl) m i

theorem modifyI_relabel_right (f : Int → Int) (m : List VertAdj) (i x : Int) :
    modifyI (m.map (VertAdj.relabel f)) i (fun v => { v with right := x }) =
      List.map (VertAdj.relabel f) <$> modifyI m i (fun v => { v with right := x }) :=
  modifyI_map (VertAdj.relabel f) (fun v => { v with right := x }) (fun _ => rfl) m i

theorem modifyI_relabel_left (f : Int → Int) (m : List VertAdj) (i x : Int) :
    modifyI (m.map (VertAdj.relabel f)) i (fun v => { v with left := x }) =
      List.map (VertAdj.relabel f) <$> modifyI m i (fun v => { v with left := x }) :=
  modifyI_map (VertAdj.relabel f) (fun v => { v with left := x }) (fun _ => rfl) m i

theorem modifyI_relabel_merge (f : Int → Int) (m : List VertAdj) (i : Int) (x : Bool) :
    modifyI (m.map (VertAdj.relabel f)) i (fun v => { v with merge := x }) =
      List.map (VertAdj.relabel f) <$> modifyI m i (fun v => { v with merge := x }) :=
  modifyI_map (VertAdj.relabel f) (fun v => { v with merge := x }) (fun _ => rfl) m i

theorem modifyI_relabel_sweep_order (f : Int → Int) (m : List VertAdj) (i x : Int) :
    modifyI (m.map (VertAdj.relabel f)) i (fun v => { v with sweep_order := x }) =
      List.map (VertAdj.relabel f) <$> modifyI m i (fun v => { v with sweep_order := x }) :=
  modifyI_map (VertAdj.relabel f) (fun v => { v with sweep_order := x }) (fun _ => rfl) m i

theorem map_append_singleton {α β : Type} (r : α → β) (m : List α) (v : α) :
    m.map r ++ [r v] = (m ++ [v]).map r := by
  simp

theorem map_ite_except {α β : Type} (g : α → β) (c : Prop) [Decidable c] (a b : Except Err α) :
    g <$> (if c then a else b) = if c then g <$> a else g <$> b := by
  split_ifs <;> rfl

theorem Monotones.Match_relabel (f : Int → Int) (m : Monotones.Verts) (a b : Int) :
    Monotones.Match (m.map (VertAdj.relabel f)) a b =
      List.map (VertAdj.relabel f) <$> Monotones.Match m a b := by
  simp only [Monotones.Match, modifyI_relabel_across, bind_map_left, map_bind]

theorem Monotones.Link_relabel (f : Int → Int) (m : Monotones.Verts) (a b : Int) :
    Monotones.Link (m.map (VertAdj.relabel f)) a b =
      List.map (VertAdj.relabel f) <$> Monotones.Link m a b := by
  simp only [Monotones.Link, modifyI_relabel_right, modifyI_relabel_left, bind_map_left, map_bind]

theorem Monotones.Helper_relabel (f : Int → Int) (m : Monotones.Verts) (a b : Int) :
    Monotones.Helper (m.map (VertAdj.relabel f)) a b = Monotones.Helper m a b := by
  simp only [Monotones.Helper, Monotones.Vert, getI_map, bind_map_left, VertAdj.relabel_across]

theorem Monotones.Duplicate_relabel (f : Int → Int) (m : Monotones.Verts) (a : Int) :
    Monotones.Duplicate (m.map (VertAdj.relabel f)) a =
      List.map (VertAdj.relabel f) <$> Monotones.Duplicate m a := by
  simp only [Monotones.Duplicate, Monotones.Vert, Monotones.Right, Monotones.Left,
    Monotones.Num_verts, getI_map, Monotones.Helper_relabel, Monotones.Match_relabel,
    Monotones.Link_relabel,
    modifyI_relabel_across, modifyI_relabel_merge, modifyI_relabel_left, modifyI_relabel_right,
    bind_map_left, map_bind, map_ite_except, VertAdj.relabel_across, VertAdj.relabel_Processed,
    VertAdj.relabel_right, VertAdj.relabel_left, List.length_map, map_append_singleton]

theorem Monotones.SplitVerts_relabel (f : Int → Int) (m : Monotones.Verts) (a b : Int) :
    Monotones.SplitVerts (m.map (VertAdj.relabel f)) a b =
      (fun p => (p.1.map (VertAdj.relabel f), p.2)) <$> Monotones.SplitVerts m a b := by
  simp only [Monotones.SplitVerts, Monotones.Vert, Monotones.Right, Monotones.Left, Monotones.Across,
    Monotones.Num_verts, getI_map, Monotones.Helper_relabel, Monotones.Match_relabel,
    Monotones.Link_relabel, Monotones.Duplicate_relabel, modifyI_relabel_across,
    modifyI_relabel_merge, modifyI_relabel_left, modifyI_relabel_right,
    modifyI_relabel_sweep_order, bind_map_left, map_bind, map_ite_except, map_pure, pure_bind,
    VertAdj.relabel_across, VertAdj.relabel_Processed, VertAdj.relabel_right,
    VertAdj.relabel_left, VertAdj.relabel_merge, VertAdj.relabel_pos, List.length_map,
    map_append_singleton]

theorem Monotones.PositiveExteriorStep_relabel (f : Int → Int) (m : Monotones.Verts) (v : Int)
    (acc : Monotones.HelperAcc) (i : Nat) :
    Monotones.PositiveExteriorStep (m.map (VertAdj.relabel f)) v acc i =
      Monotones.PositiveExteriorStep m v acc i := by
  simp only [Monotones.PositiveExteriorStep, Monotones.Vert, Monotones.Right, Monotones.Left, Monotones.Across,
    Monotones.Num_verts, getI_map, Monotones.Helper_relabel, Monotones.Match_relabel,
    Monotones.Link_relabel, Monotones.Duplicate_relabel, modifyI_relabel_across,
    modifyI_relabel_merge, modifyI_relabel_left, modifyI_relabel_right,
    modifyI_relabel_sweep_order, bind_map_left, map_bind, map_ite_except, map_pure, pure_bind,
    VertAdj.relabel_across, VertAdj.relabel_Processed, VertAdj.relabel_right,
    VertAdj.relabel_left, VertAdj.relabel_merge, VertAdj.relabel_pos, List.length_map,
    map_append_singleton]

theorem Monotones.PositiveExteriorLoop_relabel (f : Int → Int) (m : Monotones.Verts) (v : Int) :
    ∀ (l : List Nat) (acc : Monotones.HelperAcc),
      Monotones.PositiveExteriorLoop (m.map (VertAdj.relabel f)) v l acc =
        Monotones.PositiveExteriorLoop m v l acc := by
  intro l
  induction l with
  | nil => intro acc; rfl
  | cons i l ih =>
    intro acc
    simp only [Monotones.PositiveExteriorLoop, Monotones.PositiveExteriorStep_relabel]
    cases Monotones.PositiveExteriorStep m v acc i with
    | error e => rfl
    | ok acc1 => exact ih acc1

theorem Monotones.PositiveExteriorHelper_relabel (f : Int → Int) (m : Monotones.Verts) (v : Int) :
    Monotones.PositiveExteriorHelper (m.map (VertAdj.relabel f)) v =
      Monotones.PositiveExteriorHelper m v := by
  simp only [Monotones.PositiveExteriorHelper, Monotones.PositiveExteriorLoop_relabel,
    List.length_map]

theorem Monotones.MatchRightAcross_relabel (f : Int → Int) (m : Monotones.Verts) (a : Int) :
    Monotones.MatchRightAcross (m.map (VertAdj.relabel f)) a =
      List.map (VertAdj.relabel f) <$> Monotones.MatchRightAcross m a := by
  simp only [Monotones.MatchRightAcross, Monotones.Vert, Monotones.Right, Monotones.Left, Monotones.Across,
    Monotones.Num_verts, getI_map, Monotones.Helper_relabel, Monotones.Match_relabel,
    Monotones.Link_relabel, Monotones.Duplicate_relabel, modifyI_relabel_across,
    modifyI_relabel_merge, modifyI_relabel_left, modifyI_relabel_right,
    modifyI_relabel_sweep_order, bind_map_left, map_bind, map_ite_except, map_pure, pure_bind,
    VertAdj.relabel_across, VertAdj.relabel_Processed, VertAdj.relabel_right,
    VertAdj.relabel_left, VertAdj.relabel_merge, VertAdj.relabel_pos, List.length_map,
    map_append_singleton]

theorem Monotones.MatchAcrossOf_relabel (f : Int → Int) (m : Monotones.Verts) (a b : Int) :
    Monotones.MatchAcrossOf (m.map (VertAdj.relabel f)) a b =
      List.map (VertAdj.relabel f) <$> Monotones.MatchAcrossOf m a b := by
  simp only [Monotones.MatchAcrossOf, Monotones.Vert, Monotones.Right, Monotones.Left, Monotones.Across,
    Monotones.Num_verts, getI_map, Monotones.Helper_relabel, Monotones.Match_relabel,
    Monotones.Link_relabel, Monotones.Duplicate_relabel, modifyI_relabel_across,
    modifyI_relabel_merge, modifyI_relabel_left, modifyI_relabel_right,
    modifyI_relabel_sweep_order, bind_map_left, map_bind, map_ite_except, map_pure, pure_bind,
    VertAdj.relabel_across, VertAdj.relabel_Processed, VertAdj.relabel_right,
    VertAdj.relabel_left, VertAdj.relabel_merge, VertAdj.relabel_pos, List.length_map,
    map_append_singleton]

theorem Monotones.ProcessMerge_relabel (f : Int → Int) (m : Monotones.Verts) (a : Int) :
    Monotones.ProcessMerge (m.map (VertAdj.relabel f)) a =
      List.map (VertAdj.relabel f) <$> Monotones.ProcessMerge m a := by
  simp only [Monotones.ProcessMerge, Monotones.SplitVerts_relabel,
    Monotones.MatchRightAcross_relabel, Monotones.MatchAcrossOf_relabel, Monotones.Vert, Monotones.Right, Monotones.Left, Monotones.Across,
    Monotones.Num_verts, getI_map, Monotones.Helper_relabel, Monotones.Match_relabel,
    Monotones.Link_relabel, Monotones.Duplicate_relabel, modifyI_relabel_across,
    modifyI_relabel_merge, modifyI_relabel_left, modifyI_relabel_right,
    modifyI_relabel_sweep_order, bind_map_left, map_bind, map_ite_except, map_pure, pure_bind,
    VertAdj.relabel_across, VertAdj.relabel_Processed, VertAdj.relabel_right,
    VertAdj.relabel_left, VertAdj.relabel_merge, VertAdj.relabel_pos, List.length_map,
    map_append_singleton]

theorem Monotones.ProcessSplit_relabel (f : Int → Int) (m : Monotones.Verts) (a b : Int) :
    Monotones.ProcessSplit (m.map (VertAdj.relabel f)) a b =
      List.map (VertAdj.relabel f) <$> Monotones.ProcessSplit m a b := by
  simp only [Monotones.ProcessSplit, Monotones.SplitVerts_relabel,
    Monotones.MatchRightAcross_relabel, Monotones.MatchAcrossOf_relabel, Monotones.Vert, Monotones.Right, Monotones.Left, Monotones.Across,
    Monotones.Num_verts, getI_map, Monotones.Helper_relabel, Monotones.Match_relabel,
    Monotones.Link_relabel, Monotones.Duplicate_relabel, modifyI_relabel_across,
    modifyI_relabel_merge, modifyI_relabel_left, modifyI_relabel_right,
    modifyI_relabel_sweep_order, bind_map_left, map_bind, map_ite_except, map_pure, pure_bind,
    VertAdj.relabel_across, VertAdj.relabel_Processed, VertAdj.relabel_right,
    VertAdj.relabel_left, VertAdj.relabel_merge, VertAdj.relabel_pos, List.length_map,
    map_append_singleton]

theorem Monotones.ProcessVert_relabel (f : Int → Int) (m : Monotones.Verts) (a : Int) :
    Monotones.ProcessVert (m.map (VertAdj.relabel f)) a =
      (fun p => (p.1.map (VertAdj.relabel f), p.2)) <$> Monotones.ProcessVert m a := by
  simp only [Monotones.ProcessVert, Monotones.SplitVerts_relabel,
    Monotones.MatchRightAcross_relabel, Monotones.MatchAcrossOf_relabel,
    Monotones.ProcessMerge_relabel, Monotones.ProcessSplit_relabel,
    Monotones.PositiveExteriorHelper_relabel, Monotones.Vert, Monotones.Right, Monotones.Left, Monotones.Across,
    Monotones.Num_verts, getI_map, Monotones.Helper_relabel, Monotones.Match_relabel,
    Monotones.Link_relabel, Monotones.Duplicate_relabel, modifyI_relabel_across,
    modifyI_relabel_merge, modifyI_relabel_left, modifyI_relabel_right,
    modifyI_relabel_sweep_order, bind_map_left, map_bind, map_ite_except, map_pure, pure_bind,
    VertAdj.relabel_across, VertAdj.relabel_Processed, VertAdj.relabel_right,
    VertAdj.relabel_left, VertAdj.relabel_merge, VertAdj.relabel_pos, List.length_map,
    map_append_singleton]

theorem enum_map_snd {α β : Type} (r : α → β) (m : List α) :
    (m.map r).enum = m.enum.map (fun p => (p.1, r p.2)) := by
  rw [List.enum_map]
  rfl

theorem Monotones.initSweepLine_relabel (f : Int → Int) (m : Monotones.Verts) :
    Monotones.initSweepLine (m.map (VertAdj.relabel f)) = Monotones.initSweepLine m := by
  simp only [Monotones.initSweepLine, enum_map_snd, List.map_map]
  rfl

theorem Monotones.CheckEdges_relabel (K : Edge) (f : Int → Int) (m : Monotones.Verts) :
    Monotones.CheckEdges K (m.map (VertAdj.relabel f)) = Monotones.CheckEdges K m := by
  simp only [Monotones.CheckEdges, enum_map_snd, List.map_map]
  rfl

theorem Monotones.CheckBody_relabel (f : Int → Int) (m : Monotones.Verts) (i : Nat) :
    Monotones.CheckBody (m.map (VertAdj.relabel f)) i = Monotones.CheckBody m i := by
  simp only [Monotones.CheckBody, Monotones.Vert, Monotones.Right, Monotones.Left, Monotones.Across,
    Monotones.Num_verts, getI_map, Monotones.Helper_relabel, Monotones.Match_relabel,
    Monotones.Link_relabel, Monotones.Duplicate_relabel, modifyI_relabel_across,
    modifyI_relabel_merge, modifyI_relabel_left, modifyI_relabel_right,
    modifyI_relabel_sweep_order, bind_map_left, map_bind, map_ite_except, map_pure, pure_bind,
    VertAdj.relabel_across, VertAdj.relabel_Processed, VertAdj.relabel_right,
    VertAdj.relabel_left, VertAdj.relabel_merge, VertAdj.relabel_pos, List.length_map,
    map_append_singleton]

theorem Monotones.Check_relabel (K : Edge) (f : Int → Int) (m : Monotones.Verts) :
    Monotones.Check K (m.map (VertAdj.relabel f)) = Monotones.Check K m := by
  have h : Monotones.CheckBody (m.map (VertAdj.relabel f)) = Monotones.CheckBody m :=
    funext (Monotones.CheckBody_relabel f m)
  simp only [Monotones.Check, Monotones.CheckEdges_relabel, h, List.length_map]

theorem Monotones.CheckEdges_firsts (K : Edge) (m : Monotones.Verts) :
    firsts (Monotones.CheckEdges K m) = m.enum.map (fun iv => (iv.1 : Int)) ∧
      seconds (Monotones.CheckEdges K m) = m.map (fun v => v.right) := by
  constructor
  · simp only [firsts, Monotones.CheckEdges, List.map_map]
    rfl
  · simp only [seconds, Monotones.CheckEdges, List.map_map]
    have : ((fun e : EdgeVerts => e.second) ∘ fun iv : Nat × VertAdj =>
        (⟨iv.1, iv.2.right, K.kNoIdx⟩ : EdgeVerts)) = (fun v => v.right) ∘ Prod.snd := rfl
    rw [this, ← List.map_map, List.enum_map_snd]

/-- Whether `Assemble` succeeds, and the error it raises, does not depend on
the tags of the edges. -/
theorem Assemble_tags {E E1 : List EdgeVerts} (hf : firsts E = firsts E1)
    (hs : seconds E = seconds E1) :
    (Assemble E >>= fun _ => (pure () : Except Err Unit)) =
      (Assemble E1 >>= fun _ => (pure () : Except Err Unit)) := by
  rcases AssembleRun_cases E with ⟨h1, _, h3⟩ | ⟨h1, h2, P, h3⟩ | ⟨h1, h2, h3⟩ <;>
    rcases AssembleRun_cases E1 with ⟨k1, _, k3⟩ | ⟨k1, k2, Q, k3⟩ | ⟨k1, k2, k3⟩ <;>
    rw [hf] at h1 <;>
    first
    | exact absurd k1 h1
    | exact absurd h1 k1
    | (rw [hf, hs] at h2; first | exact absurd h2 k2 | exact absurd k2 h2 |
        (rw [Assemble_eq_of_run h3, Assemble_eq_of_run k3]; rfl))
    | (rw [Assemble_eq_of_run h3, Assemble_eq_of_run k3])

theorem Monotones.Check_tags (K K1 : Edge) (m : Monotones.Verts) :
    Monotones.Check K m = Monotones.Check K1 m := by
  have h := Assemble_tags
    (((Monotones.CheckEdges_firsts K m).1).trans ((Monotones.CheckEdges_firsts K1 m).1).symm)
    (((Monotones.CheckEdges_firsts K m).2).trans ((Monotones.CheckEdges_firsts K1 m).2).symm)
  simp only [Monotones.Check]
  rw [h]

theorem Monotones.sweep_relabel (f : Int → Int) :
    ∀ (l : List (F32 × Int)) (i : Int) (m : Monotones.Verts) (vt : VertType),
      Monotones.sweep l i (m.map (VertAdj.relabel f)) vt =
        (fun p => (p.1.map (VertAdj.relabel f), p.2)) <$> Monotones.sweep l i m vt := by
  intro l
  induction l with
  | nil => intro i m vt; rfl
  | cons p l ih =>
    intro i m vt
    obtain ⟨y, idx⟩ := p
    simp only [Monotones.sweep, modifyI_relabel_sweep_order]
    cases modifyI m idx (fun v => { v with sweep_order := i }) with
    | error e => rfl
    | ok m1 =>
      simp only [map_pure, Except.map, Functor.map, Monotones.ProcessVert_relabel]
      cases Monotones.ProcessVert m1 idx with
      | error e => rfl
      | ok r =>
        obtain ⟨m2, vt2⟩ := r
        exact ih (i + 1) m2 vt2

theorem Monotones.initPoly_relabel (f g : Int → Int) (poly : SimplePolygon) (start : Int) :
    Monotones.initPoly (poly.map (PolyVert.relabel f g)) start =
      (Monotones.initPoly poly start).map (VertAdj.relabel f) := by
  simp only [Monotones.initPoly, enum_map_snd, List.map_map, List.length_map]
  rfl

theorem Monotones.initVerts_relabel (f g : Int → Int) :
    ∀ (P : Polygons) (m : Monotones.Verts),
      Monotones.initVerts (P.map (List.map (PolyVert.relabel f g))) (m.map (VertAdj.relabel f)) =
        (Monotones.initVerts P m).map (VertAdj.relabel f) := by
  intro P
  induction P with
  | nil => intro m; rfl
  | cons p P ih =>
    intro m
    simp only [List.map_cons, Monotones.initVerts, Monotones.initPoly_relabel,
      Monotones.Num_verts, List.length_map, ← List.map_append]
    exact ih _

/-- The monotone decomposer only copies the identities of the vertices and
never reads the edge tags or the sentinels. -/
theorem Monotones.Monotones_relabel (K K1 : Edge) (f g : Int → Int) (P : Polygons) :
    Monotones.Monotones K1 (P.map (List.map (PolyVert.relabel f g))) =
      List.map (VertAdj.relabel f) <$> Monotones.Monotones K P := by
  have h0 := Monotones.initVerts_relabel f g P []
  simp only [List.map_nil] at h0
  simp only [Monotones.Monotones, h0, Monotones.initSweepLine_relabel, Monotones.sweep_relabel,
    bind_map_left, map_bind, Monotones.Check_relabel, Monotones.Check_tags K1 K, map_pure]

theorem Triangulator.AddTriangle_relabel (f : Int → Int) (b : Bool) (x y z : Int) :
    Triangulator.AddTriangle b (f x) (f y) (f z) =
      IVec3.relabel f (Triangulator.AddTriangle b x y z) := by
  cases b <;> rfl

theorem Triangulator.Attached_relabel (f : Int → Int) (m : List VertAdj) (t : Triangulator)
    (v : Int) :
    Triangulator.Attached (m.map (VertAdj.relabel f)) t v = Triangulator.Attached m t v := by
  simp only [Triangulator.Attached, Triangulator.GetOther, Triangulator.GetTop, getI_map,
    bind_map_left, bind_assoc, VertAdj.relabel_left, VertAdj.relabel_right]

theorem Triangulator.sameChain_relabel (f : Int → Int) (m : List VertAdj) (vi : VertAdj)
    (onRight : Bool) :
    ∀ (chain : List Int) (v_top_idx : Int) (v_top vj : VertAdj) (T : List IVec3) (n : Int),
      Triangulator.sameChain (m.map (VertAdj.relabel f)) (vi.relabel f) onRight chain v_top_idx
          (v_top.relabel f) (vj.relabel f) (T.map (IVec3.relabel f)) n =
        (fun s => (⟨s.chain, s.v_top_idx, s.triangles.map (IVec3.relabel f),
          s.triangles_output⟩ : Triangulator.ChainState)) <$>
          Triangulator.sameChain m vi onRight chain v_top_idx v_top vj T n := by
  intro chain
  induction chain with
  | nil => intro v_top_idx v_top vj T n; rfl
  | cons vj_idx rest ih =>
    intro v_top_idx v_top vj T n
    unfold Triangulator.sameChain
    simp only [VertAdj.relabel_pos, VertAdj.relabel_mesh_idx, Triangulator.AddTriangle_relabel]
    by_cases hc : (CCW vi.pos vj.pos v_top.pos != (if onRight then -1 else 1)) = true
    · simp only [hc, if_true]
      cases rest with
      | nil =>
        show Except.ok _ = Except.ok _
        simp only [List.map_append, List.map_cons, List.map_nil]
      | cons vj_idx1 rest1 =>
        simp only [getI_map]
        cases getI m vj_idx1 with
        | error e => rfl
        | ok vj1 =>
          have := ih vj_idx vj vj1 (T ++ [Triangulator.AddTriangle onRight vi.mesh_idx
            vj.mesh_idx v_top.mesh_idx]) (n + 1)
          simp only [List.map_append, List.map_cons, List.map_nil] at this
          exact this
    · simp only [hc, Bool.false_eq_true, if_false]
      rfl

theorem Triangulator.otherChain_relabel (f : Int → Int) (m : List VertAdj) (vi : VertAdj)
    (onRight : Bool) :
    ∀ (chain : List Int) (v_last : VertAdj) (T : List IVec3) (n : Int),
      Triangulator.otherChain (m.map (VertAdj.relabel f)) (vi.relabel f) onRight chain
          (v_last.relabel f) (T.map (IVec3.relabel f)) n =
        (fun p => (p.1.map (IVec3.relabel f), p.2)) <$>
          Triangulator.otherChain m vi onRight chain v_last T n := by
  intro chain
  induction chain with
  | nil => intro v_last T n; rfl
  | cons j rest ih =>
    intro v_last T n
    unfold Triangulator.otherChain
    simp only [getI_map]
    cases getI m j with
    | error e => rfl
    | ok vj =>
      have := ih vj (T ++ [Triangulator.AddTriangle onRight vi.mesh_idx v_last.mesh_idx
        vj.mesh_idx]) (n + 1)
      simp only [List.map_append, List.map_cons, List.map_nil,
        ← Triangulator.AddTriangle_relabel] at this
      exact this

theorem Triangulator.ProcessVert_relabel_triangles (f : Int → Int) (m : List VertAdj) (t : Triangulator)
    (v : Int) (T : List IVec3) :
    Triangulator.ProcessVert (m.map (VertAdj.relabel f)) t v (T.map (IVec3.relabel f)) =
      (fun p => (p.1, p.2.1, p.2.2.map (IVec3.relabel f))) <$>
        Triangulator.ProcessVert m t v T := by
  simp only [Triangulator.ProcessVert, Triangulator.Attached_relabel, getI_map, bind_map_left,
    map_bind, map_ite_except, map_pure, pure_bind, bind_assoc, VertAdj.relabel_left,
    Triangulator.sameChain_relabel, Triangulator.otherChain_relabel]

theorem dispatch_relabel (f : Int → Int) (m : List VertAdj) (v : Int) :
    ∀ (ts : List Triangulator) (T : List IVec3),
      dispatch (m.map (VertAdj.relabel f)) v ts (T.map (IVec3.relabel f)) =
        Option.map (fun p => (p.1, p.2.map (IVec3.relabel f))) <$> dispatch m v ts T := by
  intro ts
  induction ts with
  | nil => intro T; rfl
  | cons t ts ih =>
    intro T
    simp only [dispatch, Triangulator.ProcessVert_relabel_triangles, ih]
    cases Triangulator.ProcessVert m t v T with
    | error e => rfl
    | ok r =>
      obtain ⟨b, t1, T1⟩ := r
      cases b with
      | true => rfl
      | false =>
        simp only [Functor.map, Except.map]
        cases dispatch m v ts T with
        | error e => rfl
        | ok o =>
          cases o with
          | none => rfl
          | some p => rfl

theorem triangulateSweep_relabel (f : Int → Int) (g : Nat → Bool) (m : List VertAdj) :
    ∀ (sweep_line : List (Int × Int)) (ts : List Triangulator) (T : List IVec3),
      triangulateSweep g (m.map (VertAdj.relabel f)) sweep_line ts (T.map (IVec3.relabel f)) =
        (fun p => (p.1, p.2.map (IVec3.relabel f))) <$> triangulateSweep g m sweep_line ts T := by
  intro sweep_line
  induction sweep_line with
  | nil => intro ts T; rfl
  | cons p rest ih =>
    intro ts T
    obtain ⟨k, v⟩ := p
    simp only [triangulateSweep, dispatch_relabel]
    cases dispatch m v ts T with
    | error e => rfl
    | ok o =>
      cases o with
      | none => exact ih _ T
      | some q => exact ih q.1 q.2

/-- The monotone triangulator only copies the identities of the vertices. -/
theorem TriangulateMonotones_relabel (f : Int → Int) (g : Nat → Bool) (m : List VertAdj)
    (T : List IVec3) :
    TriangulateMonotones g (m.map (VertAdj.relabel f)) (T.map (IVec3.relabel f)) =
      List.map (IVec3.relabel f) <$> TriangulateMonotones g m T := by
  have hs : ((m.map (VertAdj.relabel f)).enum.map (fun iv => (iv.2.sweep_order, (iv.1 : Int)))) =
      (m.enum.map (fun iv => (iv.2.sweep_order, (iv.1 : Int)))) := by
    simp only [enum_map_snd, List.map_map]
    rfl
  have hl : ∀ ts, trianglesLeft (m.map (VertAdj.relabel f)) ts = trianglesLeft m ts := by
    intro ts
    simp only [trianglesLeft, List.length_map]
  simp only [TriangulateMonotones, hs, triangulateSweep_relabel, hl, bind_map_left, map_bind,
    map_pure]

/-- The primary triangulator on renumbered polygons: it only copies the
identities of the vertices and never reads the edge tags or the sentinels, so
its triangles are those of the original polygons, renumbered. -/
theorem PrimaryTriangulate_relabel (K K1 : Edge) (f h : Int → Int) (g : Nat → Bool)
    (P : Polygons) :
    PrimaryTriangulate K1 g (P.map (List.map (PolyVert.relabel f h))) =
      List.map (IVec3.relabel f) <$> PrimaryTriangulate K g P := by
  have h0 : ∀ m, TriangulateMonotones g (m.map (VertAdj.relabel f)) [] =
      List.map (IVec3.relabel f) <$> TriangulateMonotones g m [] := fun m =>
    TriangulateMonotones_relabel f g m []
  simp only [PrimaryTriangulate, Monotones.Monotones_relabel K K1 f h P, bind_map_left, map_bind,
    h0]

/-! ## The square with a square hole -/

set_option maxRecDepth 100000 in
theorem holeSquare_primary_natIds :
    PrimaryTriangulate sampleTags garbageFalse (holeSquare sampleTags natIds) =
      .ok (holeTriangles natIds) := by
  decide!

theorem holeSquare_relabel (K : Edge) (a : Nat → Int) :
    holeSquare K a = (holeSquare sampleTags natIds).map
      (List.map (PolyVert.relabel (fun z => a z.toNat) (fun _ => K.kNoIdx))) := rfl

theorem holeTriangles_relabel (a : Nat → Int) :
    holeTriangles a = (holeTriangles natIds).map (IVec3.relabel (fun z => a z.toNat)) := rfl

/-- The primary triangulator on the square with a square hole, for any
identities, sentinels and unassigned `onRight_`. -/
theorem holeSquare_primary (K : Edge) (g : Nat → Bool) (a : Nat → Int) :
    PrimaryTriangulate K g (holeSquare K a) = .ok (holeTriangles a) := by
  rw [holeSquare_relabel, PrimaryTriangulate_relabel sampleTags K,
    PrimaryTriangulate_garbage sampleTags g garbageFalse, holeSquare_primary_natIds,
    holeTriangles_relabel]
  rfl

theorem ends_Triangles2Edges_idx (K : Edge) (a : Nat → Int) (ts : List (Nat × Nat × Nat)) :
    (Triangles2Edges K (ts.map (fun t => ⟨a t.1, a t.2.1, a t.2.2⟩))).map ends =
      (hedgesIdx ts).map (fun x => (a x.1, a x.2)) := by
  induction ts with
  | nil => rfl
  | cons t ts ih =>
    simp only [List.map_cons, Triangles2Edges, hedgesIdx, ih]
    rfl

theorem holeSquare_ends (K : Edge) (a : Nat → Int) :
    ((Triangles2Edges K (holeTriangles a) ++
        ((holeSquare K a).flatMap cycEdges).map swapEnds).map ends) =
      (hedgesIdx holeIdx ++ holeBoundaryIdx).map (fun x => (a x.1, a x.2)) := by
  rw [List.map_append, List.map_append, holeTriangles, ends_Triangles2Edges_idx]
  rfl

theorem holeSquare_inj {K : Edge} {a : Nat → Int}
    (hnd : ((holeSquare K a).flatten.map (fun v => v.idx)).Nodup) :
    ∀ i j, i < 8 → j < 8 → a i = a j → i = j := by
  have h1 : (holeSquare K a).flatten.map (fun v => v.idx) = (List.range 8).map a := rfl
  rw [h1] at hnd
  intro i j hi hj h
  exact List.inj_on_of_nodup_map hnd (List.mem_range.mpr hi) (List.mem_range.mpr hj) h

/-- The triangles of the square with a square hole and its reversed boundary
form a 2-manifold edge set on the identities of its vertices. -/
theorem holeSquare_manifold (K : Edge) (a : Nat → Int)
    (hnd : ((holeSquare K a).flatten.map (fun v => v.idx)).Nodup) :
    Manifold2 (Triangles2Edges K (holeTriangles a) ++
        ((holeSquare K a).flatMap cycEdges).map swapEnds) ∧
      ∀ e ∈ Triangles2Edges K (holeTriangles a) ++
          ((holeSquare K a).flatMap cycEdges).map swapEnds,
        e.first ∈ (holeSquare K a).flatten.map (fun v => v.idx) ∧
          e.second ∈ (holeSquare K a).flatten.map (fun v => v.idx) := by
  have hE := holeSquare_ends K a
  have hb : ∀ x ∈ hedgesIdx holeIdx ++ holeBoundaryIdx, x.1 < 8 ∧ x.2 < 8 ∧ x.1 ≠ x.2 := by
    decide
  refine ⟨manifold2_of_idx (hE ▸ List.Perm.refl _) (holeSquare_inj hnd) hb (by decide)
    (by decide), ?_⟩
  intro e he
  have h1 : ends e ∈ (hedgesIdx holeIdx ++ holeBoundaryIdx).map (fun x => (a x.1, a x.2)) := by
    rw [← hE]
    exact List.mem_map_of_mem _ he
  obtain ⟨x, hx, hxe⟩ := List.mem_map.mp h1
  simp only [ends, Prod.mk.injEq] at hxe
  obtain ⟨b1, b2, _⟩ := hb x hx
  have hid : (holeSquare K a).flatten.map (fun v => v.idx) = (List.range 8).map a := rfl
  rw [hid, ← hxe.1, ← hxe.2]
  exact ⟨List.mem_map_of_mem _ (List.mem_range.mpr b1),
    List.mem_map_of_mem _ (List.mem_range.mpr b2)⟩

theorem strip_length (poly : SimplePolygon) :
    ∀ (cs : List Bool) (s e : Nat), (strip poly s e cs).length = cs.length := by
  intro cs
  induction cs with
  | nil => intro s e; rfl
  | cons c cs ih =>
    intro s e
    cases c <;> simp [strip, ih]

/-- Whenever the loop over the polygons returns, it has added `n − 2` triangles
for every polygon of `n ≥ 3` vertices. -/
theorem BackupRun_length (K : Edge) :
    ∀ (P : Polygons), (∀ p ∈ P, 3 ≤ p.length) → ∀ T0 T, BackupRun K P T0 = some (.ok T) →
      T.length + 2 * P.length = T0.length + (P.map List.length).sum := by
  intro P
  induction P with
  | nil =>
    intro _ T0 T h
    simp only [BackupRun, Option.some.injEq, Except.ok.injEq] at h
    simp [h]
  | cons p P ih =>
    intro h3 T0 T h
    obtain ⟨T1, hp, hrest⟩ := BackupRun_cons h
    have h3p := h3 p (List.mem_cons_self _ _)
    obtain ⟨cs, hcs, hT1⟩ := BackupPoly_strip K p h3p T0 T1 hp
    have := ih (fun q hq => h3 q (List.mem_cons_of_mem _ hq)) T1 T hrest
    have hl : T1.length = T0.length + 1 + cs.length := by
      rw [hT1]
      simp [strip_length]
      omega
    simp only [List.length_cons, List.map_cons, List.sum_cons]
    omega

/-- Counting the halfedges with given ends, by the places of the ends. -/
theorem filter_ends_idx {a : Nat → Int} {n : Nat}
    (hinj : ∀ i j, i < n → j < n → a i = a j → i = j) (y : Nat × Nat) (hy : y.1 < n ∧ y.2 < n) :
    ∀ (L : List (Nat × Nat)) (H : List EdgeVerts), (∀ x ∈ L, x.1 < n ∧ x.2 < n) →
      H.map ends = L.map (fun x => (a x.1, a x.2)) →
      (H.filter (fun h => decide (h.first = a y.1 ∧ h.second = a y.2))).length =
        (L.filter (fun x => decide (x = y))).length := by
  intro L
  induction L with
  | nil =>
    intro H _ hH
    simp only [List.map_nil, List.map_eq_nil_iff] at hH
    subst hH
    rfl
  | cons x L ih =>
    intro H hL hH
    cases H with
    | nil => simp at hH
    | cons h H =>
      simp only [List.map_cons, List.cons.injEq, ends, Prod.mk.injEq] at hH
      obtain ⟨⟨h1, h2⟩, hrest⟩ := hH
      have hx := hL x (List.mem_cons_self _ _)
      have ih1 := ih H (fun z hz => hL z (List.mem_cons_of_mem _ hz)) hrest
      have hiff : (h.first = a y.1 ∧ h.second = a y.2) ↔ x = y := by
        rw [h1, h2]
        constructor
        · rintro ⟨e1, e2⟩
          exact Prod.ext (hinj _ _ hx.1 hy.1 e1) (hinj _ _ hx.2 hy.2 e2)
        · rintro rfl
          exact ⟨rfl, rfl⟩
      by_cases hxy : x = y
      · simp only [List.filter_cons, hiff.mpr hxy, hxy, and_self, decide_True, if_true,
          List.length_cons, ih1]
      · have hn : ¬ (h.first = a y.1 ∧ h.second = a y.2) := fun hh => hxy (hiff.mp hh)
        simp only [List.filter_cons, hn, hxy, decide_False, Bool.false_eq_true, if_false, ih1]

/-- C4: for the square with a square hole (outer loop counter-clockwise, inner
loop clockwise, pairwise distinct vertex identities `a 0, …, a 7`, no edge
tags), for any sentinels with `kNoIdx ≠ kInterior` and whatever the unassigned
`onRight_` members hold: `Triangulate` returns exactly 8 triangles; they come
from the primary path, which succeeds; the backup triangulator would give 4;
`CheckManifold` passes on the result; and each of the 4 outer and 4 inner
boundary edges has exactly one triangle halfedge with the same ends. -/
theorem Triangulate_holeSquare (K : Edge) (garbage : Nat → Bool) (a : Nat → Int)
    (hI : K.kNoIdx ≠ K.kInterior)
    (hnd : ((holeSquare K a).flatten.map (fun v => v.idx)).Nodup) :
    Triangulate K garbage (holeSquare K a) = .ok (holeTriangles a) ∧
      (holeTriangles a).length = 8 ∧
      TriangulatePrimary K garbage (holeSquare K a) = .ok (holeTriangles a) ∧
      (∃ B, BackupTriangulate K (holeSquare K a) = .ok B ∧ B.length = 4) ∧
      CheckManifoldTP K (holeTriangles a) (holeSquare K a) = .ok () ∧
      ∃ E, Polygons2Edges (holeSquare K a) = .ok E ∧
        E.map ends = [(a 0, a 1), (a 1, a 2), (a 2, a 3), (a 3, a 0),
          (a 4, a 5), (a 5, a 6), (a 6, a 7), (a 7, a 4)] ∧
        ∀ e ∈ E, ((Triangles2Edges K (holeTriangles a)).filter
          (fun h => decide (h.first = e.first ∧ h.second = e.second))).length = 1 := by
  have hk : ∀ p ∈ holeSquare K a, ∀ v ∈ p, v.nextEdge = K.kNoIdx := by
    intro p hp v hv
    simp only [holeSquare, List.mem_cons, List.mem_singleton, List.not_mem_nil, or_false] at hp
    rcases hp with rfl | rfl <;>
      simp only [List.mem_cons, List.mem_singleton, List.not_mem_nil, or_false] at hv <;>
      rcases hv with rfl | rfl | rfl | rfl <;> rfl
  have hE : Polygons2Edges (holeSquare K a) = .ok ((holeSquare K a).flatMap cycEdges) := rfl
  obtain ⟨hM, hV⟩ := holeSquare_manifold K a hnd
  have hcheck : CheckManifoldTP K (holeTriangles a) (holeSquare K a) = .ok () := by
    unfold CheckManifoldTP
    rw [hE]
    exact CheckManifold_noTags K _ _ hk hI hM hV
  have hprim : TriangulatePrimary K garbage (holeSquare K a) = .ok (holeTriangles a) := by
    simp only [TriangulatePrimary, holeSquare_primary, hcheck]
  refine ⟨by simp only [Triangulate, hprim], rfl, hprim, ?_, hcheck, _, hE, rfl, ?_⟩
  · obtain ⟨B, hB⟩ := BackupRun_noTags K (holeSquare K a) hk []
    have h3 : ∀ p ∈ holeSquare K a, 3 ≤ p.length := by
      intro p hp
      simp only [holeSquare, List.mem_cons, List.mem_singleton, List.not_mem_nil, or_false] at hp
      rcases hp with rfl | rfl <;> simp
    have hlen := BackupRun_length K (holeSquare K a) h3 [] B hB
    simp only [holeSquare, List.length_cons, List.length_nil, List.map_cons, List.map_nil,
      List.sum_cons, List.sum_nil] at hlen
    exact ⟨B, by simp only [BackupTriangulate, hB], by omega⟩
  · intro e he
    have hEi : ((holeSquare K a).flatMap cycEdges).map ends =
        (holeBoundaryIdx.map Prod.swap).map (fun x => (a x.1, a x.2)) := rfl
    have h1 : ends e ∈ (holeBoundaryIdx.map Prod.swap).map (fun x => (a x.1, a x.2)) := by
      rw [← hEi]
      exact List.mem_map_of_mem _ he
    obtain ⟨y, hy, hye⟩ := List.mem_map.mp h1
    simp only [ends, Prod.mk.injEq] at hye
    rw [← hye.1, ← hye.2]
    have hall : ∀ y ∈ holeBoundaryIdx.map Prod.swap, (y.1 < 8 ∧ y.2 < 8) ∧
        ((hedgesIdx holeIdx).filter (fun x => decide (x = y))).length = 1 := by
      decide
    obtain ⟨hyb, hone⟩ := hall y hy
    rw [filter_ends_idx (holeSquare_inj hnd) y hyb (hedgesIdx holeIdx)
      (Triangles2Edges K (holeTriangles a)) (by decide)
      (ends_Triangles2Edges_idx K a holeIdx), hone]

set_option maxRecDepth 100000 in
/-- C4 at the identities `0, …, 7`. -/
theorem Triangulate_holeSquare_witness :
    sampleTags.kNoIdx ≠ sampleTags.kInterior ∧
      ((holeSquare sampleTags natIds).flatten.map (fun v => v.idx)).Nodup ∧
      Triangulate sampleTags garbageFalse (holeSquare sampleTags natIds) =
        .ok (holeTriangles natIds) ∧
      (holeTriangles natIds).length = 8 :=
  ⟨by decide, by decide,
    (Triangulate_holeSquare sampleTags garbageFalse natIds (by decide) (by decide)).1,
    (Triangulate_holeSquare sampleTags garbageFalse natIds (by decide) (by decide)).2.1⟩

/-! ## Orientation predicate: symmetry and the collinear spike -/

theorem ccwDet_swap (x0 y0 x1 y1 x2 y2 : ℚ) :
    ccwDet x0 y0 x2 y2 x1 y1 = -ccwDet x0 y0 x1 y1 x2 y2 := by
  unfold ccwDet
  ring

theorem ccwNorm_swap (x0 y0 x1 y1 x2 y2 : ℚ) :
    ccwNorm x0 y0 x2 y2 x1 y1 = ccwNorm x0 y0 x1 y1 x2 y2 := by
  unfold ccwNorm
  ring

/-- Without rounding, for points with finite coordinates,
`CCW(p0, p1, p2) = −CCW(p0, p2, p1)`: the determinant changes sign and the scale
`N` is the same sum. -/
theorem CCW_antisymm (x0 y0 x1 y1 x2 y2 : ℚ) :
    CCW (Vec2.ofRat x0 y0) (Vec2.ofRat x1 y1) (Vec2.ofRat x2 y2) =
      -CCW (Vec2.ofRat x0 y0) (Vec2.ofRat x2 y2) (Vec2.ofRat x1 y1) := by
  rw [CCW_finite, CCW_finite, ccwDet_swap x0 y0 x1 y1 x2 y2, ccwNorm_swap x0 y0 x1 y1 x2 y2,
    abs_neg]
  have hN : 0 ≤ ccwNorm x0 y0 x1 y1 x2 y2 := by
    unfold ccwNorm; positivity
  by_cases h : |ccwDet x0 y0 x1 y1 x2 y2| * 100000 ≤ ccwNorm x0 y0 x1 y1 x2 y2
  · simp [h]
  · have hne : ccwDet x0 y0 x1 y1 x2 y2 ≠ 0 := by
      intro h0
      apply h
      simp [h0, hN]
    rcases lt_or_gt_of_ne hne with hlt | hgt
    · have h1 : ¬ (0 < ccwDet x0 y0 x1 y1 x2 y2) := not_lt.mpr hlt.le
      simp [h, h1, hlt]
    · have h1 : ¬ (ccwDet x0 y0 x1 y1 x2 y2 < 0) := not_lt.mpr hgt.le
      simp [h, h1, hgt]

set_option maxRecDepth 100000 in
/-- C16, as amended: on each of the four triples of cyclically consecutive
corners of the collinear-spike polygon `CCW` returns `+1`: the determinant is
`0.000002` and the scale `N` is `0.000002` or `0`, so `|r|·1e5 = 0.2 > N`. -/
theorem CCW_spike : spikeTriples.map (fun t => CCW t.1 t.2.1 t.2.2) = [1, 1, 1, 1] := by
  decide!

set_option maxRecDepth 100000 in
/-- C16 fails as stated: `CCW` is not `0` on the first triple of the
collinear-spike polygon (nor on any other). -/
theorem CCW_spike_counterexample :
    CCW (Vec2.ofRat 0 0) (Vec2.ofRat 2 0) (Vec2.ofRat 2 (1 / 1000000)) ≠ 0 ∧
      0 ∉ spikeTriples.map (fun t => CCW t.1 t.2.1 t.2.2) := by
  decide!

/-! ## Errors on the primary path -/

/-- C15, as amended: the handler around the primary path takes every
exception, a logic error of the monotone decomposer or of the monotone
triangulator as much as a `CheckManifold` failure: whenever
`PrimaryTriangulate` raises a logic error, `Triangulate` is the backup path
(the backup triangles when they pass `CheckManifold`, otherwise the error raised
on the backup path). -/
theorem Triangulate_logic_error (K : Edge) (garbage : Nat → Bool) (polys : Polygons) (e : Err)
    (h : PrimaryTriangulate K garbage polys = .error e) (hl : e.isLogic = true) :
    Triangulate K garbage polys = TriangulateBackup K polys := by
  unfold Triangulate TriangulatePrimary
  rw [h]
  cases e <;> first | rfl | exact absurd hl (by decide)

set_option maxRecDepth 100000 in
/-- C15, as amended, at a polygon of two vertices: the primary path raises the
two-edge logic error and `Triangulate` returns the (empty) backup result. -/
theorem Triangulate_logic_error_witness :
    PrimaryTriangulate sampleTags garbageFalse twoGon = .error .twoEdgeMonotone ∧
      Triangulate sampleTags garbageFalse twoGon = TriangulateBackup sampleTags twoGon ∧
      TriangulateBackup sampleTags twoGon = .ok [] :=
  ⟨by decide!,
    Triangulate_logic_error sampleTags garbageFalse twoGon .twoEdgeMonotone (by decide!)
      (by decide),
    by decide!⟩

set_option maxRecDepth 100000 in
/-- C15 fails as stated: on the empty polygon set the decomposer raises the
logic error "did not finish with an END", and `Triangulate` does not fail with
it: it returns the backup triangulation (no triangle). -/
theorem Triangulate_logic_error_counterexample :
    PrimaryTriangulate sampleTags garbageFalse [] = .error .didNotFinishWithEnd ∧
      Err.isLogic .didNotFinishWithEnd = true ∧
      Triangulate sampleTags garbageFalse [] = .ok [] := by
  decide!

/-! ## Backup triangulator: the shared-edge branch on the first pass -/

set_option maxRecDepth 100000 in
/-- C17 fails on the code: for the triangle whose edges carry the tags
`0, 1, 2`, the first pass of the loop finds a shared tag (`poly[1].nextEdge` is
in both `startEdges` and `endEdges`), the shared-edge branch moves `end` to
`Next(2, 3) = 0`, and `endEdges` is read from `poly[end - 1] = poly[-1]`, an
index outside `0..2`. -/
theorem BackupTriangulate_reads_outside :
    SharedEdge sampleTags (0, 1) (1, 2) = true ∧
      edgePair [⟨Vec2.ofRat 0 0, 0, 0⟩, ⟨Vec2.ofRat 1 0, 1, 1⟩, ⟨Vec2.ofRat 0 1, 2, 2⟩]
        (1 - 1) 1 = .ok (0, 1) ∧
      edgePair [⟨Vec2.ofRat 0 0, 0, 0⟩, ⟨Vec2.ofRat 1 0, 1, 1⟩, ⟨Vec2.ofRat 0 1, 2, 2⟩]
        (2 - 1) 2 = .ok (1, 2) ∧
      Next 2 3 = 0 ∧
      getI [(⟨Vec2.ofRat 0 0, 0, 0⟩ : PolyVert), ⟨Vec2.ofRat 1 0, 1, 1⟩, ⟨Vec2.ofRat 0 1, 2, 2⟩]
        (Next 2 3 - 1) = .error .undefined ∧
      BackupTriangulate sampleTags taggedTriangle = .error .undefined := by
  decide!

/-! ## Monotone triangulator: the triangle count -/

theorem Triangulator.sameChain_count (m : List VertAdj) (vi : VertAdj) (onRight : Bool) :
    ∀ (chain : List Int) (v_top_idx : Int) (v_top vj : VertAdj) (T : List IVec3) (n : Int)
      (s : Triangulator.ChainState),
      Triangulator.sameChain m vi onRight chain v_top_idx v_top vj T n = .ok s →
      ∃ A, s.triangles = T ++ A ∧ (A.length : Int) = s.triangles_output - n := by
  intro chain
  induction chain with
  | nil =>
    intro v_top_idx v_top vj T n s h
    simp only [Triangulator.sameChain, Except.ok.injEq] at h
    subst h
    exact ⟨[], by simp, by simp⟩
  | cons vj_idx rest ih =>
    intro v_top_idx v_top vj T n s h
    unfold Triangulator.sameChain at h
    by_cases hc : (CCW vi.pos vj.pos v_top.pos != (if onRight then -1 else 1)) = true
    · simp only [hc, if_true] at h
      cases rest with
      | nil =>
        simp only [Except.ok.injEq] at h
        subst h
        exact ⟨[_], rfl, by simp⟩
      | cons vj_idx1 rest1 =>
        simp only at h
        cases hg : getI m vj_idx1 with
        | error e => simp [hg] at h
        | ok vj1 =>
          simp only [hg] at h
          obtain ⟨A, hA, hlen⟩ := ih _ _ _ _ _ _ h
          refine ⟨Triangulator.AddTriangle onRight vi.mesh_idx vj.mesh_idx v_top.mesh_idx :: A,
            by rw [hA]; simp, ?_⟩
          simp only [List.length_cons, Nat.cast_add, Nat.cast_one, hlen]
          ring
    · simp only [hc, Bool.false_eq_true, if_false, Except.ok.injEq] at h
      subst h
      exact ⟨[], by simp, by simp⟩

theorem Triangulator.otherChain_count (m : List VertAdj) (vi : VertAdj) (onRight : Bool) :
    ∀ (chain : List Int) (v_last : VertAdj) (T : List IVec3) (n : Int) (r : List IVec3 × Int),
      Triangulator.otherChain m vi onRight chain v_last T n = .ok r →
      ∃ A, r.1 = T ++ A ∧ (A.length : Int) = r.2 - n := by
  intro chain
  induction chain with
  | nil =>
    intro v_last T n r h
    simp only [Triangulator.otherChain, Except.ok.injEq] at h
    subst h
    exact ⟨[], by simp, by simp⟩
  | cons j rest ih =>
    intro v_last T n r h
    unfold Triangulator.otherChain at h
    cases hg : getI m j with
    | error e => simp [hg] at h
    | ok vj =>
      simp only [hg] at h
      obtain ⟨A, hA, hlen⟩ := ih _ _ _ _ h
      refine ⟨Triangulator.AddTriangle onRight vi.mesh_idx v_last.mesh_idx vj.mesh_idx :: A,
        by rw [hA]; simp, ?_⟩
      simp only [List.length_cons, Nat.cast_add, Nat.cast_one, hlen]
      ring

theorem bind_eq_ok {α β : Type} {x : Except Err α} {f : α → Except Err β} {b : β}
    (h : x >>= f = .ok b) : ∃ a, x = .ok a ∧ f a = .ok b := by
  cases x with
  | error e => cases h
  | ok a => exact ⟨a, rfl, h⟩

/-- Every triangle that `ProcessVert` appends is counted in
`triangles_output`. -/
theorem Triangulator.ProcessVert_count (m : List VertAdj) (t : Triangulator) (v : Int)
    (T : List IVec3) (b : Bool) (t1 : Triangulator) (T1 : List IVec3)
    (h : Triangulator.ProcessVert m t v T = .ok (b, t1, T1)) :
    ∃ A, T1 = T ++ A ∧ (A.length : Int) = t1.triangles_output - t.triangles_output := by
  unfold Triangulator.ProcessVert at h
  obtain ⟨attached, _, h1⟩ := bind_eq_ok h
  by_cases h0 : attached = 0
  · simp only [h0, if_true, pure, Except.pure, Except.ok.injEq, Prod.mk.injEq] at h1
    obtain ⟨_, rfl, rfl⟩ := h1
    exact ⟨[], by simp, by simp⟩
  · simp only [h0, if_false] at h1
    obtain ⟨vi, _, h2⟩ := bind_eq_ok h1
    obtain ⟨v_top_idx, _, h3⟩ := bind_eq_ok h2
    obtain ⟨v_top, _, h4⟩ := bind_eq_ok h3
    by_cases hlen : t.reflex_chain_.length < 2
    · simp only [hlen, if_true, pure, Except.pure, Except.ok.injEq, Prod.mk.injEq] at h4
      obtain ⟨_, rfl, rfl⟩ := h4
      exact ⟨[], by simp, by simp⟩
    · simp only [hlen, if_false] at h4
      obtain ⟨vj_idx, _, h5⟩ := bind_eq_ok h4
      obtain ⟨vj, _, h6⟩ := bind_eq_ok h5
      by_cases ha : attached = 1
      · simp only [ha, if_true] at h6
        obtain ⟨r, hr, h7⟩ := bind_eq_ok h6
        simp only [pure, Except.pure, Except.ok.injEq, Prod.mk.injEq] at h7
        obtain ⟨_, rfl, rfl⟩ := h7
        exact Triangulator.sameChain_count m vi _ _ _ _ _ _ _ r hr
      · simp only [ha, if_false] at h6
        obtain ⟨r, hr, h7⟩ := bind_eq_ok h6
        obtain ⟨T2, n⟩ := r
        simp only [pure, Except.pure, Except.ok.injEq, Prod.mk.injEq] at h7
        obtain ⟨_, rfl, rfl⟩ := h7
        exact Triangulator.otherChain_count m vi _ _ _ _ _ _ hr

theorem dispatch_count (m : List VertAdj) (v : Int) :
    ∀ (ts : List Triangulator) (T : List IVec3) (ts1 : List Triangulator) (T1 : List IVec3),
      dispatch m v ts T = .ok (some (ts1, T1)) →
      ts1.length = ts.length ∧
        ∃ A, T1 = T ++ A ∧ (A.length : Int) = outputSum ts1 - outputSum ts := by
  intro ts
  induction ts with
  | nil => intro T ts1 T1 h; simp [dispatch] at h
  | cons t ts ih =>
    intro T ts1 T1 h
    unfold dispatch at h
    cases hp : Triangulator.ProcessVert m t v T with
    | error e => simp [hp] at h
    | ok r =>
      obtain ⟨b, t1, T2⟩ := r
      cases b with
      | true =>
        simp only [hp, Except.ok.injEq, Option.some.injEq, Prod.mk.injEq] at h
        obtain ⟨rfl, rfl⟩ := h
        obtain ⟨A, hA, hlen⟩ := Triangulator.ProcessVert_count m t v T _ _ _ hp
        refine ⟨by simp, A, hA, ?_⟩
        simp only [outputSum, List.map_cons, List.sum_cons, hlen]
        ring
      | false =>
        simp only [hp] at h
        cases hd : dispatch m v ts T with
        | error e => simp [hd] at h
        | ok o =>
          cases o with
          | none => simp [hd] at h
          | some q =>
            obtain ⟨rest1, T3⟩ := q
            simp only [hd, Except.ok.injEq, Option.some.injEq, Prod.mk.injEq] at h
            obtain ⟨rfl, rfl⟩ := h
            obtain ⟨hl, A, hA, hlen⟩ := ih T rest1 _ hd
            refine ⟨by simp [hl], A, hA, ?_⟩
            simp only [outputSum, List.map_cons, List.sum_cons] at hlen ⊢
            rw [hlen]
            ring

theorem triangulateSweep_count (g : Nat → Bool) (m : List VertAdj) :
    ∀ (sl : List (Int × Int)) (ts : List Triangulator) (T : List IVec3)
      (ts1 : List Triangulator) (T1 : List IVec3),
      triangulateSweep g m sl ts T = .ok (ts1, T1) →
      ∃ A, T1 = T ++ A ∧ (A.length : Int) = outputSum ts1 - outputSum ts := by
  intro sl
  induction sl with
  | nil =>
    intro ts T ts1 T1 h
    simp only [triangulateSweep, Except.ok.injEq, Prod.mk.injEq] at h
    obtain ⟨rfl, rfl⟩ := h
    exact ⟨[], by simp, by simp⟩
  | cons p rest ih =>
    intro ts T ts1 T1 h
    obtain ⟨k, v⟩ := p
    unfold triangulateSweep at h
    cases hd : dispatch m v ts T with
    | error e => simp [hd] at h
    | ok o =>
      cases o with
      | none =>
        simp only [hd] at h
        obtain ⟨A, hA, hlen⟩ := ih _ _ _ _ h
        refine ⟨A, hA, ?_⟩
        rw [hlen]
        simp [outputSum, Triangulator.new]
      | some q =>
        obtain ⟨ts2, T2⟩ := q
        simp only [hd] at h
        obtain ⟨_, A, hA, hlen⟩ := dispatch_count m v ts T ts2 T2 hd
        obtain ⟨B, hB, hlenB⟩ := ih _ _ _ _ h
        refine ⟨A ++ B, by rw [hB, hA, List.append_assoc], ?_⟩
        simp only [List.length_append, Nat.cast_add, hlen, hlenB]
        ring

theorem trianglesLeft_eq (m : List VertAdj) (ts : List Triangulator) :
    trianglesLeft m ts = (m.length : Int) - 2 * ts.length - outputSum ts := by
  unfold trianglesLeft
  generalize (m.length : Int) = n
  induction ts generalizing n with
  | nil => simp [outputSum]
  | cons t ts ih =>
    rw [List.foldl_cons, ih]
    simp only [Triangulator.NumTriangles, outputSum, List.map_cons, List.sum_cons,
      List.length_cons, Nat.cast_add, Nat.cast_one]
    ring

theorem TriangulateMonotones_eq (g : Nat → Bool) (m : List VertAdj) (T : List IVec3) :
    TriangulateMonotones g m T =
      match triangulateSweep g m (sweepLine m) [] T with
      | .error e => .error e
      | .ok (ts, T1) =>
        if trianglesLeft m ts = 0 then .ok T1 else .error .wrongTriangleCount := by
  have h : TriangulateMonotones g m T =
      (triangulateSweep g m (sweepLine m) [] T >>= fun r =>
        ALWAYS_ASSERT (trianglesLeft m r.1 == 0) .wrongTriangleCount >>= fun _ => pure r.2) := rfl
  rw [h]
  cases triangulateSweep g m (sweepLine m) [] T with
  | error e => rfl
  | ok r =>
    obtain ⟨ts, T1⟩ := r
    simp only [bind, Except.bind, ALWAYS_ASSERT, beq_iff_eq]
    split_ifs <;> rfl

/-- C12: whenever `TriangulateMonotones` completes without error on a buffer of
`V` sweep vertices, the triangles it has appended number `V − 2K`, `K` being the
number of triangulators it has spawned (the length of the vector
`triangulators` after the sweep, which grows by one at every spawn and never
shrinks); when the sweep completes with any other count, it fails with the
wrong-triangle-count error. Hence whenever `PrimaryTriangulate` succeeds,
`|triangles| + 2K = |sweep_verts|`. -/
theorem TriangulateMonotones_count (g : Nat → Bool) (m : List VertAdj) (T : List IVec3)
    (K : Edge) (P : Polygons) :
    (∀ T1, TriangulateMonotones g m T = .ok T1 →
      ∃ ts A, triangulateSweep g m (sweepLine m) [] T = .ok (ts, T1) ∧ T1 = T ++ A ∧
        (A.length : Int) = m.length - 2 * ts.length) ∧
    (∀ ts T1, triangulateSweep g m (sweepLine m) [] T = .ok (ts, T1) →
      ∃ A, T1 = T ++ A ∧
        ((A.length : Int) ≠ m.length - 2 * ts.length →
          TriangulateMonotones g m T = .error .wrongTriangleCount)) ∧
    (∀ T1, PrimaryTriangulate K g P = .ok T1 →
      ∃ mv ts, Monotones.Monotones K P = .ok mv ∧
        triangulateSweep g mv (sweepLine mv) [] [] = .ok (ts, T1) ∧
        T1.length + 2 * ts.length = mv.length) := by
  have key : ∀ (m : List VertAdj) (T : List IVec3) ts T1,
      triangulateSweep g m (sweepLine m) [] T = .ok (ts, T1) →
      ∃ A, T1 = T ++ A ∧
        (trianglesLeft m ts = 0 ↔ (A.length : Int) = m.length - 2 * ts.length) := by
    intro m T ts T1 h
    obtain ⟨A, hA, hlen⟩ := triangulateSweep_count g m _ _ _ _ _ h
    refine ⟨A, hA, ?_⟩
    rw [trianglesLeft_eq, hlen]
    simp only [outputSum, List.map_nil, List.sum_nil, sub_zero]
    constructor <;> intro h1 <;> linarith
  have ok : ∀ (m : List VertAdj) (T T1 : List IVec3), TriangulateMonotones g m T = .ok T1 →
      ∃ ts A, triangulateSweep g m (sweepLine m) [] T = .ok (ts, T1) ∧ T1 = T ++ A ∧
        (A.length : Int) = m.length - 2 * ts.length := by
    intro m T T1 h
    rw [TriangulateMonotones_eq] at h
    cases hs : triangulateSweep g m (sweepLine m) [] T with
    | error e => simp [hs] at h
    | ok r =>
      obtain ⟨ts, T2⟩ := r
      simp only [hs] at h
      obtain ⟨A, hA, hiff⟩ := key m T ts T2 hs
      split_ifs at h with h0
      · cases h
        exact ⟨ts, A, rfl, hA, hiff.mp h0⟩
  refine ⟨ok m T, ?_, ?_⟩
  · intro ts T1 hs
    obtain ⟨A, hA, hiff⟩ := key m T ts T1 hs
    refine ⟨A, hA, fun hne => ?_⟩
    have h0 : ¬ trianglesLeft m ts = 0 := fun h0 => hne (hiff.mp h0)
    rw [TriangulateMonotones_eq, hs]
    simp only [h0, if_false]
  · intro T1 h
    unfold PrimaryTriangulate at h
    obtain ⟨mv, hm, h1⟩ := bind_eq_ok h
    obtain ⟨ts, A, hs, hA, hlen⟩ := ok mv [] T1 h1
    refine ⟨mv, ts, hm, hs, ?_⟩
    simp only [List.nil_append] at hA
    subst hA
    omega

/-- C12 at the square with a square hole: two triangulators, twelve sweep
vertices and eight triangles. -/
theorem TriangulateMonotones_count_witness :
    ∃ mv ts, Monotones.Monotones sampleTags (holeSquare sampleTags natIds) = .ok mv ∧
      triangulateSweep garbageFalse mv (sweepLine mv) [] [] = .ok (ts, holeTriangles natIds) ∧
      (holeTriangles natIds).length + 2 * ts.length = mv.length :=
  (TriangulateMonotones_count garbageFalse [] [] sampleTags (holeSquare sampleTags natIds)).2.2
    _ holeSquare_primary_natIds

/-! ## Monotone decomposer: the doubly-linked invariant -/

theorem getI_ok {α : Type} {v : List α} {i : Int} {a : α} (h : getI v i = .ok a) :
    0 ≤ i ∧ i.toNat < v.length ∧ v[i.toNat]? = some a := by
  unfold getI at h
  split_ifs at h with h0
  cases hv : v[i.toNat]? with
  | none => simp [hv] at h
  | some b =>
    simp only [hv, Except.ok.injEq] at h
    subst h
    exact ⟨by omega, (List.getElem?_eq_some_iff.mp hv).1, rfl⟩

theorem getI_of_getElem? {α : Type} {v : List α} {i : Int} {a : α} (h0 : 0 ≤ i)
    (h : v[i.toNat]? = some a) : getI v i = .ok a := by
  unfold getI
  have : ¬ i < 0 := by omega
  simp [this, h]

theorem modifyI_ok {α : Type} {v v1 : List α} {i : Int} {f : α → α}
    (h : modifyI v i f = .ok v1) :
    ∃ a, getI v i = .ok a ∧ v1 = v.set i.toNat (f a) := by
  unfold modifyI at h
  cases hg : getI v i with
  | error e => simp [hg] at h
  | ok a =>
    simp only [hg, Except.ok.injEq] at h
    exact ⟨a, rfl, h.symm⟩

theorem rightOf_set (m : List VertAdj) (k : Nat) (w : VertAdj) (hk : k < m.length) :
    rightOf (m.set k w) = Function.update (rightOf m) k w.right := by
  funext j
  by_cases hj : j = k
  · subst hj
    simp [rightOf, Function.update, hk]
  · simp [rightOf, Function.update, hj, List.getElem?_set_ne (Ne.symm hj)]

theorem leftOf_set (m : List VertAdj) (k : Nat) (w : VertAdj) (hk : k < m.length) :
    leftOf (m.set k w) = Function.update (leftOf m) k w.left := by
  funext j
  by_cases hj : j = k
  · subst hj
    simp [leftOf, Function.update, hk]
  · simp [leftOf, Function.update, hj, List.getElem?_set_ne (Ne.symm hj)]

theorem acrossOf_set (m : List VertAdj) (k : Nat) (w : VertAdj) (hk : k < m.length) :
    acrossOf (m.set k w) = Function.update (acrossOf m) k w.across := by
  funext j
  by_cases hj : j = k
  · subst hj
    simp [acrossOf, Function.update, hk]
  · simp [acrossOf, Function.update, hj, List.getElem?_set_ne (Ne.symm hj)]

theorem rightOf_append (m : List VertAdj) (w : VertAdj) :
    rightOf (m ++ [w]) = Function.update (rightOf m) m.length w.right := by
  funext j
  rcases Nat.lt_trichotomy j m.length with h | h | h
  · simp [rightOf, Function.update, List.getElem?_append_left h, Nat.ne_of_lt h]
  · subst h
    simp [rightOf, Function.update]
  · have h1 : (m ++ [w])[j]? = none := by
      apply List.getElem?_eq_none
      simp; omega
    have h2 : m[j]? = none := List.getElem?_eq_none (by omega)
    simp [rightOf, Function.update, h1, h2, Nat.ne_of_gt h]

theorem leftOf_append (m : List VertAdj) (w : VertAdj) :
    leftOf (m ++ [w]) = Function.update (leftOf m) m.length w.left := by
  funext j
  rcases Nat.lt_trichotomy j m.length with h | h | h
  · simp [leftOf, Function.update, List.getElem?_append_left h, Nat.ne_of_lt h]
  · subst h
    simp [leftOf, Function.update]
  · have h1 : (m ++ [w])[j]? = none := by
      apply List.getElem?_eq_none
      simp; omega
    have h2 : m[j]? = none := List.getElem?_eq_none (by omega)
    simp [leftOf, Function.update, h1, h2, Nat.ne_of_gt h]

theorem acrossOf_append (m : List VertAdj) (w : VertAdj) :
    acrossOf (m ++ [w]) = Function.update (acrossOf m) m.length w.across := by
  funext j
  rcases Nat.lt_trichotomy j m.length with h | h | h
  · simp [acrossOf, Function.update, List.getElem?_append_left h, Nat.ne_of_lt h]
  · subst h
    simp [acrossOf, Function.update]
  · have h1 : (m ++ [w])[j]? = none := by
      apply List.getElem?_eq_none
      simp; omega
    have h2 : m[j]? = none := List.getElem?_eq_none (by omega)
    simp [acrossOf, Function.update, h1, h2, Nat.ne_of_gt h]

theorem rightOf_of_getI {m : List VertAdj} {i : Int} {a : VertAdj} (h : getI m i = .ok a) :
    rightOf m i.toNat = a.right ∧ leftOf m i.toNat = a.left ∧ acrossOf m i.toNat = a.across := by
  obtain ⟨_, _, h1⟩ := getI_ok h
  simp [rightOf, leftOf, acrossOf, h1]

/-- What an assignment to one element of the buffer does to the three pointer
tables. -/
theorem modifyI_effect {m m1 : List VertAdj} {i : Int} {f : VertAdj → VertAdj}
    (h : modifyI m i f = .ok m1) :
    ∃ a, getI m i = .ok a ∧ 0 ≤ i ∧ i.toNat < m.length ∧ m1.length = m.length ∧
      rightOf m1 = Function.update (rightOf m) i.toNat (f a).right ∧
      leftOf m1 = Function.update (leftOf m) i.toNat (f a).left ∧
      acrossOf m1 = Function.update (acrossOf m) i.toNat (f a).across := by
  obtain ⟨a, ha, rfl⟩ := modifyI_ok h
  obtain ⟨h0, h1, _⟩ := getI_ok ha
  exact ⟨a, ha, h0, h1, by simp, rightOf_set m _ _ h1, leftOf_set m _ _ h1,
    acrossOf_set m _ _ h1⟩

theorem SameLinks.same (m : List VertAdj) : SameLinks m m := ⟨rfl, rfl, rfl⟩

theorem SameLinks.trans {m m1 m2 : List VertAdj} (h1 : SameLinks m m1) (h2 : SameLinks m1 m2) :
    SameLinks m m2 :=
  ⟨h2.1.trans h1.1, h2.2.1.trans h1.2.1, h2.2.2.trans h1.2.2⟩

theorem Linked.of_sameLinks {m m1 : List VertAdj} (h : SameLinks m m1) (hl : Linked m) :
    Linked m1 := by
  intro i hi
  rw [h.1] at hi ⊢
  rw [h.2.1, h.2.2]
  exact hl i hi

/-- An assignment that changes neither `right` nor `left` keeps the links. -/
theorem modifyI_sameLinks {m m1 : List VertAdj} {i : Int} {f : VertAdj → VertAdj}
    (h : modifyI m i f = .ok m1) (hf : ∀ a, (f a).right = a.right ∧ (f a).left = a.left) :
    SameLinks m m1 := by
  obtain ⟨a, ha, _, _, hlen, hr, hl, _⟩ := modifyI_effect h
  obtain ⟨r1, l1, _⟩ := rightOf_of_getI ha
  refine ⟨hlen, ?_, ?_⟩
  · rw [hr, (hf a).1, ← r1, Function.update_eq_self]
  · rw [hl, (hf a).2, ← l1, Function.update_eq_self]

theorem Monotones.Match_sameLinks {m m1 : Monotones.Verts} {a b : Int}
    (h : Monotones.Match m a b = .ok m1) : SameLinks m m1 := by
  unfold Monotones.Match at h
  obtain ⟨m2, h1, h2⟩ := bind_eq_ok h
  exact (modifyI_sameLinks h1 (fun _ => ⟨rfl, rfl⟩)).trans
    (modifyI_sameLinks h2 (fun _ => ⟨rfl, rfl⟩))

/-- The effect of `Link(a, b)` on the links: `right[a] = b`, then
`left[b] = a`. -/
theorem Monotones.Link_effect {m m1 : Monotones.Verts} {a b : Int}
    (h : Monotones.Link m a b = .ok m1) :
    0 ≤ a ∧ a.toNat < m.length ∧ 0 ≤ b ∧ b.toNat < m.length ∧ m1.length = m.length ∧
      rightOf m1 = Function.update (rightOf m) a.toNat b ∧
      leftOf m1 = Function.update (leftOf m) b.toNat a ∧ acrossOf m1 = acrossOf m := by
  unfold Monotones.Link at h
  obtain ⟨m2, h1, h2⟩ := bind_eq_ok h
  obtain ⟨v1, hv1, a0, a1, len1, r1, l1, c1⟩ := modifyI_effect h1
  obtain ⟨v2, hv2, b0, b1, len2, r2, l2, c2⟩ := modifyI_effect h2
  obtain ⟨_, q1, q2⟩ := rightOf_of_getI hv1
  obtain ⟨p1, _, p2⟩ := rightOf_of_getI hv2
  simp only at r1 l1 c1 r2 l2 c2
  refine ⟨a0, a1, b0, len1 ▸ b1, len2.trans len1, ?_, ?_, ?_⟩
  · rw [r2, ← p1, Function.update_eq_self, r1]
  · rw [l2, l1, ← q1, Function.update_eq_self]
  · rw [c2, ← p2, Function.update_eq_self, c1, ← q2, Function.update_eq_self]

theorem Linked_iff (m : List VertAdj) :
    Linked m ↔ LinkedFn (rightOf m) (leftOf m) m.length := by
  constructor
  · intro h
    refine ⟨fun i hi => ⟨(h i hi).1, (h i hi).2.1, (h i hi).2.2.1, (h i hi).2.2.2.1⟩, ?_⟩
    intro i j hi hj
    obtain ⟨a1, a2, _, _, a5, _⟩ := h i hi
    obtain ⟨_, _, b3, b4, _, b6⟩ := h j hj
    constructor
    · intro e
      have : (rightOf m i).toNat = j := by omega
      rw [this] at a5
      exact a5
    · intro e
      have : (leftOf m j).toNat = i := by omega
      rw [this] at b6
      exact b6
  · intro h i hi
    obtain ⟨a1, a2, a3, a4⟩ := h.1 i hi
    refine ⟨a1, a2, a3, a4, ?_, ?_⟩
    · exact (h.2 i (rightOf m i).toNat hi (by omega)).mp (by omega)
    · exact (h.2 (leftOf m i).toNat i (by omega) hi).mpr (by omega)

/-- Inserting a new vertex `N` after `v` in the ring keeps the invariant: this
is what `Duplicate` does to the links. -/
theorem LinkedFn.insert {R L : Nat → Int} {N v : Nat} (h : LinkedFn R L N) (hv : v < N) :
    LinkedFn (Function.update (Function.update R N (R v)) v N)
      (Function.update (Function.update (Function.update L N (L v)) (R v).toNat N) N v)
      (N + 1) := by
  obtain ⟨hr, ha⟩ := h
  have hvr := hr v hv
  have hrv : (R v).toNat < N := by omega
  have hLrv : L (R v).toNat = v := (ha v (R v).toNat hv hrv).mp (by omega)
  constructor
  · intro i hi
    simp only [Function.update_apply]
    have h2 := hr (R v).toNat hrv
    by_cases hiN : i = N
    · have h1 : ¬ (i = v) := by omega
      simp only [hiN, h1, if_true, if_false]
      split_ifs <;> omega
    · have h3 := hr i (by omega)
      simp only [hiN, if_false]
      split_ifs <;> omega
  · intro i j hi hj
    simp only [Function.update_apply]
    by_cases hiN : i = N
    · subst hiN
      have h1 : ¬ (i = v) := by omega
      by_cases hjN : j = i
      · subst hjN
        simp only [h1, if_false, if_true, eq_self_iff_true, iff_true, iff_false]
        omega
      · simp only [h1, hjN, if_false, if_true, eq_self_iff_true, iff_true, iff_false]
        by_cases hjr : j = (R v).toNat
        · subst hjr
          simp only [hjN, if_false, if_true, eq_self_iff_true, iff_true, iff_false]
          omega
        · simp only [hjr, if_false]
          have := hr j (by omega)
          omega
    · by_cases hiv : i = v
      · subst hiv
        by_cases hjN : j = N
        · subst hjN
          simp
        · simp only [hjN, if_false, if_true, eq_self_iff_true, iff_true, iff_false]
          by_cases hjr : j = (R i).toNat
          · subst hjr
            simp only [hjN, if_false, if_true, eq_self_iff_true, iff_true, iff_false]
            omega
          · simp only [hjr, if_false]
            have := ha i j hv (by omega)
            omega
      · simp only [hiN, hiv, if_false]
        have hiN1 : i < N := by omega
        by_cases hjN : j = N
        · subst hjN
          simp only [if_true, eq_self_iff_true, iff_true, iff_false]
          have := hr i hiN1
          omega
        · simp only [hjN, if_false]
          by_cases hjr : j = (R v).toNat
          · subst hjr
            simp only [if_true, eq_self_iff_true, iff_true, iff_false]
            have := ha i (R v).toNat hiN1 hrv
            omega
          · simp only [hjr, if_false]
            exact ha i j hiN1 (by omega)

/-- Cutting the ring between `L v` and `v` and between `ld` and `R ld`, and
joining `ld` to `v` and `L v` to `R ld` through a new vertex `N`, keeps the
invariant: this is what `SplitVerts` does to the links. When `ld = L v` the new
vertex becomes a ring of its own. -/
theorem LinkedFn.split {R L : Nat → Int} {N v ld : Nat} (h : LinkedFn R L N) (hv : v < N)
    (hld : ld < N) (x : Int) (hx : x = if ld = (L v).toNat then (N : Int) else R ld) :
    LinkedFn
      (Function.update (Function.update (Function.update (Function.update R N (R v))
        (L v).toNat N) N x) ld v)
      (Function.update (Function.update (Function.update L N (L v)) x.toNat N) v ld)
      (N + 1) := by
  obtain ⟨hr, ha⟩ := h
  have hvr := hr v hv
  have hldr := hr ld hld
  have hvl : (L v).toNat < N := by omega
  have hRvl : R (L v).toNat = v := (ha (L v).toNat v hvl hv).mpr (by omega)
  have hvN : ¬ v = N := by omega
  have hldN : ¬ ld = N := by omega
  have hvlN : ¬ (L v).toNat = N := by omega
  by_cases hc : ld = (L v).toNat
  · -- the new vertex is a ring of its own
    subst hc
    simp only [if_true] at hx
    subst hx
    have hxN : (N : Int).toNat = N := by omega
    rw [hxN]
    constructor
    · intro i hi
      simp only [Function.update_apply]
      by_cases hiN : i = N
      · subst hiN
        simp only [hvlN, Ne.symm hvN, if_false, if_true, eq_self_iff_true, iff_true, iff_false, true_iff, false_iff]
        omega
      · have := hr i (by omega)
        simp only [hiN, if_false]
        split_ifs <;> omega
    · intro i j hi hj
      simp only [Function.update_apply]
      by_cases hiN : i = N
      · subst hiN
        by_cases hjN : j = i
        · subst hjN
          simp only [hvlN, Ne.symm hvlN, Ne.symm hvN, if_false, if_true, eq_self_iff_true]
        · have := hr j (by omega)
          simp only [hvlN, hjN, if_false, if_true, eq_self_iff_true, iff_true, iff_false, true_iff, false_iff]
          split_ifs <;> omega
      · have hi1 := hr i (by omega)
        by_cases hjN : j = N
        · subst hjN
          simp only [hiN, hvN, Ne.symm hvN, if_false, if_true, eq_self_iff_true, iff_true, iff_false, true_iff, false_iff]
          split_ifs <;> omega
        · have h1 := ha i j (by omega) (by omega)
          have h2 := ha i v (by omega) hv
          have h3 := ha (L v).toNat j hvl (by omega)
          simp only [hiN, hjN, if_false]
          by_cases hil : i = (L v).toNat
          · subst hil
            simp only [if_true, eq_self_iff_true, iff_true, iff_false, true_iff, false_iff]
            split_ifs <;> omega
          · simp only [hil, if_false]
            split_ifs <;> omega
  · -- the general case
    simp only [hc, if_false] at hx
    subst hx
    have hldrN : (R ld).toNat < N := by omega
    have hLldr : L (R ld).toNat = ld := (ha ld (R ld).toNat hld hldrN).mp (by omega)
    have hne : ¬ (R ld).toNat = v := by
      intro e
      have := (ha ld v hld hv).mp (by omega)
      omega
    have hldrNe : ¬ (R ld).toNat = N := by omega
    constructor
    · intro i hi
      simp only [Function.update_apply]
      by_cases hiN : i = N
      · subst hiN
        simp only [hvlN, hldrNe, Ne.symm hldN, Ne.symm hvN, if_false, if_true, eq_self_iff_true, iff_true, iff_false, true_iff, false_iff]
        split_ifs <;> omega
      · have := hr i (by omega)
        simp only [hiN, if_false]
        split_ifs <;> omega
    · intro i j hi hj
      simp only [Function.update_apply]
      by_cases hiN : i = N
      · subst hiN
        simp only [Ne.symm hldN, if_false, if_true, eq_self_iff_true, iff_true, iff_false, true_iff, false_iff]
        by_cases hjN : j = i
        · subst hjN
          simp only [Ne.symm hvN, hldrNe, if_false, if_true, eq_self_iff_true, iff_true, iff_false, true_iff, false_iff]
          omega
        · have := hr j (by omega)
          simp only [hjN, if_false]
          by_cases hjv : j = v
          · subst hjv
            simp only [if_true, eq_self_iff_true, iff_true, iff_false, true_iff, false_iff]
            omega
          · simp only [hjv, if_false]
            by_cases hjr : j = (R ld).toNat
            · subst hjr
              simp only [if_true, eq_self_iff_true, iff_true, iff_false, true_iff, false_iff]
              omega
            · simp only [hjr, if_false]
              omega
      · have hi1 := hr i (by omega)
        simp only [hiN, if_false]
        by_cases hjN : j = N
        · subst hjN
          simp only [Ne.symm hvN, Ne.symm hldrNe, hldrNe, if_false, if_true, eq_self_iff_true, iff_true, iff_false, true_iff, false_iff]
          by_cases hil : i = ld
          · subst hil
            simp only [if_true, eq_self_iff_true, iff_true, iff_false, true_iff, false_iff]
            omega
          · simp only [hil, if_false]
            by_cases hiv : i = (L v).toNat
            · subst hiv
              simp only [if_true, eq_self_iff_true, iff_true, iff_false, true_iff, false_iff]
              omega
            · simp only [hiv, if_false]
              omega
        · have h1 := ha i j (by omega) (by omega)
          have h2 := ha i v (by omega) hv
          have h3 := ha i (R ld).toNat (by omega) hldrN
          have h4 := ha ld j hld (by omega)
          have h5 := ha (L v).toNat j hvl (by omega)
          simp only [hjN, if_false]
          by_cases hil : i = ld
          · subst hil
            simp only [if_true, eq_self_iff_true, iff_true, iff_false, true_iff, false_iff]
            by_cases hjv : j = v
            · subst hjv
              simp only [if_true, eq_self_iff_true, iff_true, iff_false, true_iff, false_iff]
            · simp only [hjv, if_false]
              split_ifs <;> omega
          · simp only [hil, if_false]
            by_cases hiv : i = (L v).toNat
            · subst hiv
              simp only [if_true, eq_self_iff_true, iff_true, iff_false, true_iff, false_iff]
              by_cases hjv : j = v
              · subst hjv
                simp only [if_true, eq_self_iff_true, iff_true, iff_false, true_iff, false_iff]
                omega
              · simp only [hjv, if_false]
                split_ifs <;> omega
            · simp only [hiv, if_false]
              by_cases hjv : j = v
              · subst hjv
                simp only [if_true, eq_self_iff_true, iff_true, iff_false, true_iff, false_iff]
                omega
              · simp only [hjv, if_false]
                by_cases hjr : j = (R ld).toNat
                · subst hjr
                  simp only [if_true, eq_self_iff_true, iff_true, iff_false, true_iff, false_iff]
                  omega
                · simp only [hjr, if_false]
                  exact h1

theorem modifyI_left_effect {m m1 : List VertAdj} {i x : Int}
    (h : modifyI m i (fun v => { v with left := x }) = .ok m1) :
    0 ≤ i ∧ i.toNat < m.length ∧ m1.length = m.length ∧ rightOf m1 = rightOf m ∧
      leftOf m1 = Function.update (leftOf m) i.toNat x ∧ acrossOf m1 = acrossOf m := by
  obtain ⟨a, ha, h0, h1, hlen, hr, hl, hc⟩ := modifyI_effect h
  obtain ⟨r1, _, c1⟩ := rightOf_of_getI ha
  simp only at hr hl hc
  exact ⟨h0, h1, hlen, by rw [hr, ← r1, Function.update_eq_self], hl,
    by rw [hc, ← c1, Function.update_eq_self]⟩

theorem modifyI_right_effect {m m1 : List VertAdj} {i x : Int}
    (h : modifyI m i (fun v => { v with right := x }) = .ok m1) :
    0 ≤ i ∧ i.toNat < m.length ∧ m1.length = m.length ∧
      rightOf m1 = Function.update (rightOf m) i.toNat x ∧ leftOf m1 = leftOf m ∧
      acrossOf m1 = acrossOf m := by
  obtain ⟨a, ha, h0, h1, hlen, hr, hl, hc⟩ := modifyI_effect h
  obtain ⟨_, l1, c1⟩ := rightOf_of_getI ha
  simp only at hr hl hc
  exact ⟨h0, h1, hlen, hr, by rw [hl, ← l1, Function.update_eq_self],
    by rw [hc, ← c1, Function.update_eq_self]⟩

/-- The effect of `Duplicate(v)` on the links: the copy, at index `N`, is
inserted after `v`. -/
theorem Monotones.Duplicate_links {m m1 : Monotones.Verts} {v : Int}
    (h : Monotones.Duplicate m v = .ok m1) :
    0 ≤ v ∧ v.toNat < m.length ∧ m1.length = m.length + 1 ∧
      rightOf m1 = Function.update (Function.update (rightOf m) m.length (rightOf m v.toNat))
        v.toNat m.length ∧
      leftOf m1 = Function.update (Function.update (Function.update (leftOf m) m.length
        (leftOf m v.toNat)) (rightOf m v.toNat).toNat m.length) m.length v := by
  unfold Monotones.Duplicate at h
  obtain ⟨m2, h1, h⟩ := bind_eq_ok h
  obtain ⟨v1, hv1, h⟩ := bind_eq_ok h
  obtain ⟨m3, h3, h⟩ := bind_eq_ok h
  obtain ⟨v2, hv2, h⟩ := bind_eq_ok h
  have s1 := modifyI_sameLinks h1 (fun _ => ⟨rfl, rfl⟩)
  obtain ⟨_, _, hv0, hvlt, _⟩ := modifyI_effect h1
  obtain ⟨r1, l1, _⟩ := rightOf_of_getI hv1
  obtain ⟨_, _, len3, r3, l3, _⟩ := modifyI_left_effect h3
  have e2 : m2.length = m.length := s1.1
  -- whatever the branch, the links change no more until the final `Link`
  have close : ∀ m4, SameLinks m3 m4 → Monotones.Link m4 v (Monotones.Num_verts m2) = .ok m1 →
      0 ≤ v ∧ v.toNat < m.length ∧ m1.length = m.length + 1 ∧
      rightOf m1 = Function.update (Function.update (rightOf m) m.length (rightOf m v.toNat))
        v.toNat m.length ∧
      leftOf m1 = Function.update (Function.update (Function.update (leftOf m) m.length
        (leftOf m v.toNat)) (rightOf m v.toNat).toNat m.length) m.length v := by
    intro m4 s4 h5
    obtain ⟨_, _, _, _, len5, r5, l5, _⟩ := Monotones.Link_effect h5
    have len4 := s4.1
    simp only [Monotones.Num_verts, List.length_append, List.length_singleton] at *
    refine ⟨hv0, hvlt, by omega, ?_, ?_⟩
    · rw [r5, s4.2.1, r3, rightOf_append, s1.2.1, e2, ← r1, s1.2.1]
    · rw [l5, s4.2.2, l3, leftOf_append, s1.2.2, e2, ← l1, ← r1, s1.2.1, s1.2.2]
      simp
  simp only at h
  by_cases hp : v2.Processed = true
  · simp only [hp, if_true] at h
    obtain ⟨r, _, h⟩ := bind_eq_ok h
    by_cases hq : r.Processed = true
    · simp only [hq, if_true] at h
      obtain ⟨m5, h5, h⟩ := bind_eq_ok h
      obtain ⟨m6, h6, h⟩ := bind_eq_ok h
      exact close m6 ((Monotones.Match_sameLinks h5).trans (Monotones.Match_sameLinks h6)) h
    · simp only [hq, if_false] at h
      obtain ⟨m5, h5, h⟩ := bind_eq_ok h
      exact close m5 (Monotones.Match_sameLinks h5) h
  · simp only [hp, if_false] at h
    obtain ⟨l, _, h⟩ := bind_eq_ok h
    have rest : ∀ m5, SameLinks m3 m5 →
        (do
          let v_1 ← Monotones.Vert m5 v
          let r ← Monotones.Right m5 v_1
          if r.Processed = true then do
              let hh ← Monotones.Helper m5 v v_1.right
              let y ← Monotones.Match m5 (Monotones.Num_verts m2) hh
              Monotones.Link y v (Monotones.Num_verts m2)
            else do
              let y ← modifyI m5 (Monotones.Num_verts m2)
                (fun w => { w with across := Monotones.Num_verts m2 })
              Monotones.Link y v (Monotones.Num_verts m2)) = .ok m1 →
        0 ≤ v ∧ v.toNat < m.length ∧ m1.length = m.length + 1 ∧
        rightOf m1 = Function.update (Function.update (rightOf m) m.length (rightOf m v.toNat))
          v.toNat m.length ∧
        leftOf m1 = Function.update (Function.update (Function.update (leftOf m) m.length
          (leftOf m v.toNat)) (rightOf m v.toNat).toNat m.length) m.length v := by
      intro m5 s5 h
      obtain ⟨v3, _, h⟩ := bind_eq_ok h
      obtain ⟨r, _, h⟩ := bind_eq_ok h
      by_cases hq : r.Processed = true
      · simp only [hq, if_true] at h
        obtain ⟨hh, _, h⟩ := bind_eq_ok h
        obtain ⟨m6, h6, h⟩ := bind_eq_ok h
        exact close m6 (s5.trans (Monotones.Match_sameLinks h6)) h
      · simp only [hq, if_false] at h
        obtain ⟨m6, h6, h⟩ := bind_eq_ok h
        exact close m6 (s5.trans (modifyI_sameLinks h6 (fun _ => ⟨rfl, rfl⟩))) h
    by_cases hq : l.Processed = true
    · simp only [hq, if_true] at h
      obtain ⟨hh, _, h⟩ := bind_eq_ok h
      obtain ⟨m5, h5, h⟩ := bind_eq_ok h
      exact rest m5 (Monotones.Match_sameLinks h5) h
    · simp only [hq, if_false] at h
      obtain ⟨m5, h5, h⟩ := bind_eq_ok h
      exact rest m5 (modifyI_sameLinks h5 (fun _ => ⟨rfl, rfl⟩)) h

/-- The effect of `SplitVerts(v, left_dupe)` on the links: the copy of `v`, at
index `N`, takes over the left neighbour of `v` and is linked to the vertex
`x` that was to the right of `left_dupe`, and `left_dupe` is linked to `v`. -/
theorem Monotones.SplitVerts_links {m m1 : Monotones.Verts} {v ld nv : Int}
    (h : Monotones.SplitVerts m v ld = .ok (m1, nv)) :
    0 ≤ v ∧ v.toNat < m.length ∧ 0 ≤ ld ∧ ld.toNat < m.length ∧ nv = m.length ∧
      m1.length = m.length + 1 ∧
      ∃ x : Int, x = (if ld.toNat = (leftOf m v.toNat).toNat then (m.length : Int)
          else rightOf m ld.toNat) ∧
        rightOf m1 = Function.update (Function.update (Function.update (Function.update
          (rightOf m) m.length (rightOf m v.toNat)) (leftOf m v.toNat).toNat m.length)
          m.length x) ld.toNat v ∧
        leftOf m1 = Function.update (Function.update (Function.update (leftOf m) m.length
          (leftOf m v.toNat)) x.toNat m.length) v.toNat ld := by
  unfold Monotones.SplitVerts at h
  obtain ⟨m2, h1, h⟩ := bind_eq_ok h
  obtain ⟨d, hd, h⟩ := bind_eq_ok h
  obtain ⟨m3, h3, h⟩ := bind_eq_ok h
  obtain ⟨w, hw, h⟩ := bind_eq_ok h
  obtain ⟨n, hn, h⟩ := bind_eq_ok h
  obtain ⟨m4, h4, h⟩ := bind_eq_ok h
  obtain ⟨d2, hd2, h⟩ := bind_eq_ok h
  obtain ⟨m5, h5, h⟩ := bind_eq_ok h
  obtain ⟨m6, h6, h⟩ := bind_eq_ok h
  simp only [pure, Except.pure, Except.ok.injEq, Prod.mk.injEq] at h
  obtain ⟨rfl, rfl⟩ := h
  have s1 := modifyI_sameLinks h1 (fun _ => ⟨rfl, rfl⟩)
  have s3 := s1.trans (modifyI_sameLinks h3 (fun _ => ⟨rfl, rfl⟩))
  obtain ⟨_, _, hld0, hldlt, _⟩ := modifyI_effect h1
  obtain ⟨hv0, hvlt, _⟩ := getI_ok hw
  obtain ⟨rw1, lw1, _⟩ := rightOf_of_getI hw
  have hN : (Monotones.Num_verts m3).toNat = m3.length := by simp [Monotones.Num_verts]
  have hn2 : n = w := by
    obtain ⟨_, _, e⟩ := getI_ok hn
    rw [hN] at e
    simpa using e.symm
  obtain ⟨_, _, len4, r4, l4, _⟩ := modifyI_right_effect h4
  obtain ⟨rd, _, _⟩ := rightOf_of_getI hd2
  obtain ⟨_, _, _, _, len5, r5, l5, _⟩ := Monotones.Link_effect h5
  obtain ⟨_, _, _, _, len6, r6, l6, _⟩ := Monotones.Link_effect h6
  have e3 : m3.length = m.length := s3.1
  rw [e3] at hvlt
  have hNv : Monotones.Num_verts m3 = (m.length : Int) := by simp [Monotones.Num_verts, e3]
  have rn : n.right = rightOf m v.toNat := by rw [hn2, ← rw1, s3.2.1]
  have ln : n.left = leftOf m v.toNat := by rw [hn2, ← lw1, s3.2.2]
  simp only [hNv, Int.toNat_ofNat, rn, ln, rightOf_append, leftOf_append, s3.2.1, s3.2.2, e3,
    hn2] at r4 l4 r5 l5 r6 l6 rd
  simp only [← hn2, rn, ln] at r4 l4 r5 l5 r6 l6 rd
  refine ⟨hv0, hvlt, hld0, hldlt, hNv, ?_, d2.right, ?_, ?_, ?_⟩
  · simp only [List.length_append, List.length_singleton] at len4
    omega
  · rw [← rd, r4]
    have : ld.toNat ≠ m.length := by omega
    simp only [Function.update_apply]
    split_ifs <;> rfl
  · rw [r6, r5, r4]
  · rw [l6, l5, l4]

theorem Monotones.Duplicate_linked {m m1 : Monotones.Verts} {v : Int} (hl : Linked m)
    (h : Monotones.Duplicate m v = .ok m1) : Linked m1 := by
  obtain ⟨hv0, hvlt, len, r, l⟩ := Monotones.Duplicate_links h
  rw [Linked_iff] at hl ⊢
  rw [len, r, l]
  have key := LinkedFn.insert hl hvlt
  rwa [Int.toNat_of_nonneg hv0] at key

theorem Monotones.SplitVerts_linked {m m1 : Monotones.Verts} {v ld nv : Int} (hl : Linked m)
    (h : Monotones.SplitVerts m v ld = .ok (m1, nv)) : Linked m1 := by
  obtain ⟨hv0, hvlt, hd0, hdlt, _, len, x, hx, r, l⟩ := Monotones.SplitVerts_links h
  rw [Linked_iff] at hl ⊢
  rw [len, r, l]
  have key := LinkedFn.split hl hvlt hdlt x hx
  rwa [Int.toNat_of_nonneg hv0, Int.toNat_of_nonneg hd0] at key

/-- Whatever `Match`, the marking of a start vertex, `Duplicate` and
`SplitVerts` preserve is preserved by `ProcessVert`: these are its only
assignments to the buffer. -/
theorem Monotones.ProcessVert_preserves (P : Monotones.Verts → Prop)
    (hM : ∀ m a b m1, Monotones.Match m a b = .ok m1 → P m → P m1)
    (hA : ∀ m a m1, modifyI m a (fun v => { v with across := a }) = .ok m1 → P m → P m1)
    (hD : ∀ m a m1, Monotones.Duplicate m a = .ok m1 → P m → P m1)
    (hS : ∀ m a b m1 n, Monotones.SplitVerts m a b = .ok (m1, n) → P m → P m1)
    {m m1 : Monotones.Verts} {idx : Int} {vt : VertType}
    (h : Monotones.ProcessVert m idx = .ok (m1, vt)) (hp : P m) : P m1 := by
  have hRA : ∀ m a m1, Monotones.MatchRightAcross m a = .ok m1 → P m → P m1 := by
    intro m a m1 h hp
    unfold Monotones.MatchRightAcross at h
    obtain ⟨_, _, h⟩ := bind_eq_ok h
    obtain ⟨_, _, h⟩ := bind_eq_ok h
    exact hM _ _ _ _ h hp
  have hAO : ∀ m a b m1, Monotones.MatchAcrossOf m a b = .ok m1 → P m → P m1 := by
    intro m a b m1 h hp
    unfold Monotones.MatchAcrossOf at h
    obtain ⟨_, _, h⟩ := bind_eq_ok h
    exact hM _ _ _ _ h hp
  have hPM : ∀ m a m1, Monotones.ProcessMerge m a = .ok m1 → P m → P m1 := by
    intro m a m1 h hp
    unfold Monotones.ProcessMerge at h
    obtain ⟨m2, h2, h⟩ := bind_eq_ok h
    obtain ⟨v, _, h⟩ := bind_eq_ok h
    obtain ⟨ac, _, h⟩ := bind_eq_ok h
    have p2 := hD _ _ _ h2 hp
    have rest : ∀ m3, P m3 →
        (do
          let v ← Monotones.Vert m3 a
          let r ← Monotones.Right m3 v
          let a ← Monotones.Across m3 r
          if a.merge = true then do
              let (m, newVert_idx) ← Monotones.SplitVerts m3 v.right r.across
              Monotones.MatchRightAcross m newVert_idx
            else pure m3) = .ok m1 → P m1 := by
      intro m3 p3 h
      obtain ⟨v, _, h⟩ := bind_eq_ok h
      obtain ⟨r, _, h⟩ := bind_eq_ok h
      obtain ⟨ac, _, h⟩ := bind_eq_ok h
      by_cases hc : ac.merge = true
      · simp only [hc, if_true, ↓reduceIte] at h
        obtain ⟨⟨m4, n⟩, h4, h⟩ := bind_eq_ok h
        exact hRA _ _ _ h (hS _ _ _ _ _ h4 p3)
      · simp only [hc, if_false, Bool.false_eq_true, ↓reduceIte, pure, Except.pure, Except.ok.injEq] at h
        exact h ▸ p3
    simp only at h
    by_cases hc : ac.merge = true
    · simp only [hc, if_true, ↓reduceIte] at h
      obtain ⟨⟨m4, n⟩, h4, h⟩ := bind_eq_ok h
      obtain ⟨m5, h5, h⟩ := bind_eq_ok h
      exact rest m5 (hAO _ _ _ _ h5 (hS _ _ _ _ _ h4 p2)) h
    · simp only [hc, if_false, Bool.false_eq_true, ↓reduceIte, pure_bind] at h
      exact rest m2 p2 h
  have hPS : ∀ m a b m1, Monotones.ProcessSplit m a b = .ok m1 → P m → P m1 := by
    intro m a b m1 h hp
    unfold Monotones.ProcessSplit at h
    obtain ⟨hh, _, h⟩ := bind_eq_ok h
    obtain ⟨ac, _, h⟩ := bind_eq_ok h
    obtain ⟨h2, _, h⟩ := bind_eq_ok h
    have rest : ∀ m3 b, P m3 →
        (do
          let (m, newVert_idx) ← Monotones.SplitVerts m3 a b
          let m ← Monotones.MatchRightAcross m newVert_idx
          Monotones.MatchAcrossOf m a b) = .ok m1 → P m1 := by
      intro m3 b p3 h
      obtain ⟨⟨m4, n⟩, h4, h⟩ := bind_eq_ok h
      obtain ⟨m5, h5, h⟩ := bind_eq_ok h
      exact hAO _ _ _ _ h (hRA _ _ _ h5 (hS _ _ _ _ _ h4 p3))
    simp only at h
    by_cases hc : (!h2.merge) = true
    · simp only [hc, if_true, ↓reduceIte] at h
      obtain ⟨m3, h3, h⟩ := bind_eq_ok h
      exact rest m3 _ (hD _ _ _ h3 hp) h
    · simp only [hc, if_false, Bool.false_eq_true, ↓reduceIte, pure_bind] at h
      exact rest m _ hp h
  unfold Monotones.ProcessVert at h
  obtain ⟨vert, _, h⟩ := bind_eq_ok h
  obtain ⟨right, _, h⟩ := bind_eq_ok h
  by_cases c1 : right.Processed = true
  · simp only [c1, if_true, ↓reduceIte] at h
    obtain ⟨left, _, h⟩ := bind_eq_ok h
    by_cases c2 : left.Processed = true
    · simp only [c2, if_true, ↓reduceIte] at h
      by_cases c3 : right.across = vert.left
      · simp only [c3, if_true, ↓reduceIte, pure, Except.pure, Except.ok.injEq, Prod.mk.injEq] at h
        exact h.1 ▸ hp
      · simp only [c3, if_false, Bool.false_eq_true, ↓reduceIte] at h
        obtain ⟨ac, _, h⟩ := bind_eq_ok h
        by_cases c4 : (ac.right = left.across && ac.merge) = true
        · simp only [c4, if_true, ↓reduceIte] at h
          obtain ⟨⟨m4, n⟩, h4, h⟩ := bind_eq_ok h
          simp only [pure, Except.pure, Except.ok.injEq, Prod.mk.injEq] at h
          exact h.1 ▸ hS _ _ _ _ _ h4 hp
        · simp only [c4, if_false, Bool.false_eq_true, ↓reduceIte] at h
          obtain ⟨m4, h4, h⟩ := bind_eq_ok h
          simp only [pure, Except.pure, Except.ok.injEq, Prod.mk.injEq] at h
          exact h.1 ▸ hPM _ _ _ h4 hp
    · simp only [c2, if_false, Bool.false_eq_true, ↓reduceIte] at h
      obtain ⟨hi, _, h⟩ := bind_eq_ok h
      obtain ⟨hv, _, h⟩ := bind_eq_ok h
      by_cases c3 : hv.merge = true
      · simp only [c3, if_true, ↓reduceIte] at h
        obtain ⟨⟨m4, n⟩, h4, h⟩ := bind_eq_ok h
        obtain ⟨m5, h5, h⟩ := bind_eq_ok h
        simp only [pure, Except.pure, Except.ok.injEq, Prod.mk.injEq] at h
        exact h.1 ▸ hRA _ _ _ h5 (hS _ _ _ _ _ h4 hp)
      · simp only [c3, if_false, Bool.false_eq_true, ↓reduceIte] at h
        obtain ⟨m4, h4, h⟩ := bind_eq_ok h
        simp only [pure, Except.pure, Except.ok.injEq, Prod.mk.injEq] at h
        exact h.1 ▸ hM _ _ _ _ h4 hp
  · simp only [c1, if_false, Bool.false_eq_true, ↓reduceIte] at h
    obtain ⟨left, _, h⟩ := bind_eq_ok h
    by_cases c2 : left.Processed = true
    · simp only [c2, if_true, ↓reduceIte] at h
      obtain ⟨hi, _, h⟩ := bind_eq_ok h
      obtain ⟨hv, _, h⟩ := bind_eq_ok h
      by_cases c3 : hv.merge = true
      · simp only [c3, if_true, ↓reduceIte] at h
        obtain ⟨⟨m4, n⟩, h4, h⟩ := bind_eq_ok h
        obtain ⟨m5, h5, h⟩ := bind_eq_ok h
        simp only [pure, Except.pure, Except.ok.injEq, Prod.mk.injEq] at h
        exact h.1 ▸ hAO _ _ _ _ h5 (hS _ _ _ _ _ h4 hp)
      · simp only [c3, if_false, Bool.false_eq_true, ↓reduceIte] at h
        obtain ⟨m4, h4, h⟩ := bind_eq_ok h
        simp only [pure, Except.pure, Except.ok.injEq, Prod.mk.injEq] at h
        exact h.1 ▸ hM _ _ _ _ h4 hp
    · simp only [c2, if_false, Bool.false_eq_true, ↓reduceIte] at h
      by_cases c3 : CCW vert.pos right.pos left.pos > 0
      · simp only [c3, if_true, ↓reduceIte] at h
        obtain ⟨m4, h4, h⟩ := bind_eq_ok h
        simp only [pure, Except.pure, Except.ok.injEq, Prod.mk.injEq] at h
        exact h.1 ▸ hA _ _ _ h4 hp
      · simp only [c3, if_false, Bool.false_eq_true, ↓reduceIte] at h
        obtain ⟨hi, _, h⟩ := bind_eq_ok h
        by_cases c4 : hi ≥ 0
        · simp only [c4, if_true, ↓reduceIte] at h
          obtain ⟨m4, h4, h⟩ := bind_eq_ok h
          simp only [pure, Except.pure, Except.ok.injEq, Prod.mk.injEq] at h
          exact h.1 ▸ hPS _ _ _ _ h4 hp
        · simp only [c4, if_false, Bool.false_eq_true, ↓reduceIte] at h
          obtain ⟨m4, h4, h⟩ := bind_eq_ok h
          simp only [pure, Except.pure, Except.ok.injEq, Prod.mk.injEq] at h
          exact h.1 ▸ hA _ _ _ h4 hp

theorem Monotones.ProcessVert_linked {m m1 : Monotones.Verts} {idx : Int} {vt : VertType}
    (hl : Linked m) (h : Monotones.ProcessVert m idx = .ok (m1, vt)) : Linked m1 :=
  Monotones.ProcessVert_preserves Linked
    (fun _ _ _ _ h hp => Linked.of_sameLinks (Monotones.Match_sameLinks h) hp)
    (fun _ _ _ h hp => Linked.of_sameLinks (modifyI_sameLinks h (fun _ => ⟨rfl, rfl⟩)) hp)
    (fun _ _ _ h hp => Monotones.Duplicate_linked hp h)
    (fun _ _ _ _ _ h hp => Monotones.SplitVerts_linked hp h) h hl

/-- Whatever the assignment of `sweep_order` and `ProcessVert` preserve holds
after the sweep loop. -/
theorem Monotones.sweep_preserves (P : Monotones.Verts → Prop)
    (hO : ∀ m a i m1, modifyI m a (fun v => { v with sweep_order := i }) = .ok m1 → P m → P m1)
    (hV : ∀ m a m1 vt, Monotones.ProcessVert m a = .ok (m1, vt) → P m → P m1) :
    ∀ (sl : List (F32 × Int)) (i : Int) (m : Monotones.Verts) (vt : VertType)
      (m1 : Monotones.Verts) (vt1 : VertType),
      Monotones.sweep sl i m vt = .ok (m1, vt1) → P m → P m1 := by
  intro sl
  induction sl with
  | nil =>
    intro i m vt m1 vt1 h hp
    simp only [Monotones.sweep, Except.ok.injEq, Prod.mk.injEq] at h
    exact h.1 ▸ hp
  | cons a rest ih =>
    intro i m vt m1 vt1 h hp
    obtain ⟨y, idx⟩ := a
    simp only [Monotones.sweep] at h
    cases h2 : modifyI m idx (fun v => { v with sweep_order := i }) with
    | error e => simp [h2] at h
    | ok m2 =>
      simp only [h2] at h
      cases h3 : Monotones.ProcessVert m2 idx with
      | error e => simp [h3] at h
      | ok r =>
        obtain ⟨m3, vt3⟩ := r
        simp only [h3] at h
        exact ih _ _ _ _ _ h (hV _ _ _ _ h3 (hO _ _ _ _ h2 hp))

theorem Monotones.sweep_linked {sl : List (F32 × Int)} {i : Int} {m m1 : Monotones.Verts}
    {vt vt1 : VertType} (hl : Linked m) (h : Monotones.sweep sl i m vt = .ok (m1, vt1)) :
    Linked m1 :=
  Monotones.sweep_preserves Linked
    (fun _ _ _ _ h hp => Linked.of_sameLinks (modifyI_sameLinks h (fun _ => ⟨rfl, rfl⟩)) hp)
    (fun _ _ _ _ h hp => Monotones.ProcessVert_linked hp h) sl i m vt m1 vt1 h hl

theorem rightOf_append_left (m l : List VertAdj) {i : Nat} (h : i < m.length) :
    rightOf (m ++ l) i = rightOf m i ∧ leftOf (m ++ l) i = leftOf m i := by
  simp [rightOf, leftOf, List.getElem?_append_left h]

theorem rightOf_append_right (m l : List VertAdj) (k : Nat) :
    rightOf (m ++ l) (m.length + k) = rightOf l k ∧
      leftOf (m ++ l) (m.length + k) = leftOf l k := by
  simp [rightOf, leftOf, List.getElem?_append_right]

theorem Monotones.initPoly_links (poly : SimplePolygon) (start : Int) {k : Nat}
    (hk : k < poly.length) :
    rightOf (Monotones.initPoly poly start) k = Next k poly.length + start ∧
      leftOf (Monotones.initPoly poly start) k = Prev k poly.length + start := by
  have h : poly[k]? = some (poly[k]) := List.getElem?_eq_getElem hk
  simp [rightOf, leftOf, Monotones.initPoly, List.getElem?_enum, h]

theorem Monotones.initPoly_length (poly : SimplePolygon) (start : Int) :
    (Monotones.initPoly poly start).length = poly.length := by
  simp [Monotones.initPoly]

/-- Appending the ring of one polygon keeps the invariant. -/
theorem Monotones.initPoly_linked {m : Monotones.Verts} (poly : SimplePolygon) (hl : Linked m) :
    Linked (m ++ Monotones.initPoly poly (Monotones.Num_verts m)) := by
  intro i hi
  rw [List.length_append, Monotones.initPoly_length] at hi ⊢
  by_cases him : i < m.length
  · obtain ⟨a1, a2, a3, a4, a5, a6⟩ := hl i him
    obtain ⟨r, l⟩ := rightOf_append_left m (Monotones.initPoly poly (Monotones.Num_verts m)) him
    have hr : (rightOf m i).toNat < m.length := by omega
    have hl2 : (leftOf m i).toNat < m.length := by omega
    rw [r, l, (rightOf_append_left m _ hr).2, (rightOf_append_left m _ hl2).1]
    exact ⟨a1, by omega, a3, by omega, a5, a6⟩
  · obtain ⟨k, rfl⟩ : ∃ k, i = m.length + k := ⟨i - m.length, by omega⟩
    have hk : k < poly.length := by omega
    obtain ⟨r, l⟩ := rightOf_append_right m (Monotones.initPoly poly (Monotones.Num_verts m)) k
    obtain ⟨r1, l1⟩ := Monotones.initPoly_links poly (Monotones.Num_verts m) hk
    rw [r, l, r1, l1]
    have hn : ∃ a : Nat, a < poly.length ∧
        Next k poly.length + Monotones.Num_verts m = ((m.length + a : Nat) : Int) ∧
        Prev a poly.length = k := by
      by_cases c : (k : Int) + 1 ≥ poly.length
      · refine ⟨0, by omega, by simp [Next, c, Monotones.Num_verts], ?_⟩
        simp only [Prev]
        split_ifs <;> omega
      · refine ⟨k + 1, by omega, ?_, ?_⟩
        · simp only [Next, c, if_false, Monotones.Num_verts]
          push_cast
          ring
        · simp only [Prev]
          split_ifs <;> omega
    have hp : ∃ a : Nat, a < poly.length ∧
        Prev k poly.length + Monotones.Num_verts m = ((m.length + a : Nat) : Int) ∧
        Next a poly.length = k := by
      by_cases c : (k : Int) - 1 < 0
      · refine ⟨poly.length - 1, by omega, ?_, ?_⟩
        · simp only [Prev, c, if_true, Monotones.Num_verts]
          omega
        · simp only [Next]
          split_ifs <;> omega
      · refine ⟨k - 1, by omega, ?_, ?_⟩
        · simp only [Prev, c, if_false, Monotones.Num_verts]
          omega
        · simp only [Next]
          split_ifs <;> omega
    obtain ⟨a, ha, ea, pa⟩ := hn
    obtain ⟨b, hb, eb, nb⟩ := hp
    rw [ea, eb, Int.toNat_ofNat, Int.toNat_ofNat,
      (rightOf_append_right m _ a).2, (rightOf_append_right m _ b).1,
      (Monotones.initPoly_links poly _ ha).2, (Monotones.initPoly_links poly _ hb).1, pa, nb]
    simp only [Monotones.Num_verts]
    omega

theorem Monotones.initVerts_linked (polys : Polygons) :
    ∀ m : Monotones.Verts, Linked m → Linked (Monotones.initVerts polys m) := by
  induction polys with
  | nil => exact fun m h => h
  | cons poly rest ih => exact fun m h => ih _ (Monotones.initPoly_linked poly h)

theorem Linked.nil : Linked [] := fun i hi => absurd hi (by simp)

/-! ## Monotone decomposer: the sweep raises no exception -/

theorem Undef.bind {α β : Type} {x : Except Err α} {f : α → Except Err β} (hx : Undef x)
    (hf : ∀ a, Undef (f a)) : Undef (x >>= f) := by
  constructor
  intro e h
  cases x with
  | error e1 => exact hx.out e (by simpa [Bind.bind, Except.bind] using h)
  | ok a => exact (hf a).out e h

theorem Undef.ok {α : Type} (a : α) : Undef (Except.ok a : Except Err α) := by
  constructor
  intro e h
  cases h

theorem Undef.pure {α : Type} (a : α) : Undef (Pure.pure a : Except Err α) := Undef.ok a

theorem Undef.undefined {α : Type} : Undef (Except.error Err.undefined : Except Err α) := by
  constructor
  intro e h
  cases h
  rfl

theorem getI_undef {α : Type} (v : List α) (i : Int) : Undef (getI v i) := by
  unfold getI
  split_ifs
  · exact Undef.undefined
  · split
    · exact Undef.ok _
    · exact Undef.undefined

theorem modifyI_undef {α : Type} (v : List α) (i : Int) (f : α → α) : Undef (modifyI v i f) := by
  unfold modifyI
  constructor
  intro e h
  cases hg : getI v i with
  | error e1 =>
    simp only [hg, Except.error.injEq] at h
    exact h ▸ (getI_undef v i).out e1 hg
  | ok a => simp [hg] at h

theorem Monotones.Match_undef (m : Monotones.Verts) (a b : Int) :
    Undef (Monotones.Match m a b) := by
  unfold Monotones.Match
  exact Undef.bind (modifyI_undef _ _ _) (fun _ => modifyI_undef _ _ _)

theorem Monotones.Link_undef (m : Monotones.Verts) (a b : Int) :
    Undef (Monotones.Link m a b) := by
  unfold Monotones.Link
  exact Undef.bind (modifyI_undef _ _ _) (fun _ => modifyI_undef _ _ _)

theorem Monotones.Helper_undef (m : Monotones.Verts) (a b : Int) :
    Undef (Monotones.Helper m a b) := by
  unfold Monotones.Helper
  exact Undef.bind (getI_undef _ _) (fun _ => Undef.pure _)

theorem Monotones.Duplicate_undef (m : Monotones.Verts) (a : Int) :
    Undef (Monotones.Duplicate m a) := by
  unfold Monotones.Duplicate
  simp only [Monotones.Vert, Monotones.Right, Monotones.Left]
  repeat first
    | exact modifyI_undef _ _ _
    | exact getI_undef _ _
    | exact Monotones.Match_undef _ _ _
    | exact Monotones.Link_undef _ _ _
    | exact Monotones.Helper_undef _ _ _
    | exact Undef.pure _
    | apply Undef.bind
    | intro _
    | split

theorem Monotones.SplitVerts_undef (m : Monotones.Verts) (a b : Int) :
    Undef (Monotones.SplitVerts m a b) := by
  unfold Monotones.SplitVerts
  simp only [Monotones.Vert, Monotones.Right, Monotones.Left]
  repeat first
    | exact modifyI_undef _ _ _
    | exact getI_undef _ _
    | exact Monotones.Link_undef _ _ _
    | exact Undef.pure _
    | apply Undef.bind
    | intro _
    | split

theorem Monotones.PositiveExteriorStep_undef (m : Monotones.Verts) (a : Int)
    (acc : Monotones.HelperAcc) (i : Nat) : Undef (Monotones.PositiveExteriorStep m a acc i) := by
  unfold Monotones.PositiveExteriorStep
  simp only [Monotones.Vert, Monotones.Right, Monotones.Left]
  repeat first
    | exact getI_undef _ _
    | exact Undef.pure _
    | apply Undef.bind
    | intro _
    | split

theorem Monotones.PositiveExteriorLoop_undef (m : Monotones.Verts) (a : Int) (l : List Nat) :
    ∀ acc, Undef (Monotones.PositiveExteriorLoop m a l acc) := by
  induction l with
  | nil => exact fun acc => Undef.ok _
  | cons i rest ih =>
    intro acc
    simp only [Monotones.PositiveExteriorLoop]
    cases h : Monotones.PositiveExteriorStep m a acc i with
    | error e =>
      have := (Monotones.PositiveExteriorStep_undef m a acc i).out e h
      subst this
      exact Undef.undefined
    | ok acc1 => exact ih acc1

theorem Monotones.PositiveExteriorHelper_undef (m : Monotones.Verts) (a : Int) :
    Undef (Monotones.PositiveExteriorHelper m a) := by
  unfold Monotones.PositiveExteriorHelper
  exact Undef.bind (Monotones.PositiveExteriorLoop_undef _ _ _ _) (fun _ => Undef.pure _)

theorem Monotones.MatchRightAcross_undef (m : Monotones.Verts) (a : Int) :
    Undef (Monotones.MatchRightAcross m a) := by
  unfold Monotones.MatchRightAcross
  exact Undef.bind (getI_undef _ _) (fun _ => Undef.bind (getI_undef _ _)
    (fun _ => Monotones.Match_undef _ _ _))

theorem Monotones.MatchAcrossOf_undef (m : Monotones.Verts) (a b : Int) :
    Undef (Monotones.MatchAcrossOf m a b) := by
  unfold Monotones.MatchAcrossOf
  exact Undef.bind (getI_undef _ _) (fun _ => Monotones.Match_undef _ _ _)

theorem Monotones.ProcessMerge_undef (m : Monotones.Verts) (a : Int) :
    Undef (Monotones.ProcessMerge m a) := by
  unfold Monotones.ProcessMerge
  simp only [Monotones.Vert, Monotones.Right, Monotones.Left, Monotones.Across]
  repeat first
    | exact getI_undef _ _
    | exact Monotones.Duplicate_undef _ _
    | exact Monotones.SplitVerts_undef _ _ _
    | exact Monotones.MatchRightAcross_undef _ _
    | exact Monotones.MatchAcrossOf_undef _ _ _
    | exact Undef.pure _
    | apply Undef.bind
    | intro _
    | split

theorem Monotones.ProcessSplit_undef (m : Monotones.Verts) (a b : Int) :
    Undef (Monotones.ProcessSplit m a b) := by
  unfold Monotones.ProcessSplit
  simp only [Monotones.Vert, Monotones.Right, Monotones.Left, Monotones.Across]
  repeat first
    | exact getI_undef _ _
    | exact Monotones.Duplicate_undef _ _
    | exact Monotones.SplitVerts_undef _ _ _
    | exact Monotones.MatchRightAcross_undef _ _
    | exact Monotones.MatchAcrossOf_undef _ _ _
    | exact Undef.pure _
    | apply Undef.bind
    | intro _
    | split

theorem Monotones.ProcessVert_undef (m : Monotones.Verts) (a : Int) :
    Undef (Monotones.ProcessVert m a) := by
  unfold Monotones.ProcessVert
  simp only [Monotones.Vert, Monotones.Right, Monotones.Left, Monotones.Across]
  repeat first
    | exact getI_undef _ _
    | exact modifyI_undef _ _ _
    | exact Monotones.Match_undef _ _ _
    | exact Monotones.Helper_undef _ _ _
    | exact Monotones.PositiveExteriorHelper_undef _ _
    | exact Monotones.SplitVerts_undef _ _ _
    | exact Monotones.ProcessMerge_undef _ _
    | exact Monotones.ProcessSplit_undef _ _ _
    | exact Monotones.MatchRightAcross_undef _ _
    | exact Monotones.MatchAcrossOf_undef _ _ _
    | exact Undef.pure _
    | apply Undef.bind
    | intro _
    | split

/-- The sweep loop raises no exception. -/
theorem Monotones.sweep_undef (sl : List (F32 × Int)) :
    ∀ (i : Int) (m : Monotones.Verts) (vt : VertType), Undef (Monotones.sweep sl i m vt) := by
  induction sl with
  | nil => exact fun _ _ _ => Undef.ok _
  | cons a rest ih =>
    intro i m vt
    obtain ⟨y, idx⟩ := a
    simp only [Monotones.sweep]
    cases h2 : modifyI m idx (fun v => { v with sweep_order := i }) with
    | error e =>
      have := (modifyI_undef _ _ _).out e h2
      subst this
      exact Undef.undefined
    | ok m2 =>
      simp only []
      cases h3 : Monotones.ProcessVert m2 idx with
      | error e =>
        have := (Monotones.ProcessVert_undef _ _).out e h3
        subst this
        exact Undef.undefined
      | ok r => exact ih _ _ _

/-! ## Monotone decomposer: `Check` on a doubly-linked buffer -/

theorem getI_links {m : List VertAdj} {j : Int} (h0 : 0 ≤ j) (h1 : j.toNat < m.length) :
    ∃ v, getI m j = .ok v ∧ v.right = rightOf m j.toNat ∧ v.left = leftOf m j.toNat := by
  have h : m[j.toNat]? = some (m[j.toNat]) := List.getElem?_eq_getElem h1
  exact ⟨m[j.toNat], getI_of_getElem? h0 h, by simp [rightOf, h], by simp [leftOf, h]⟩

/-- On a buffer with the invariant the body of the loop of `Check` reads inside
the buffer and its second assertion holds. -/
theorem Monotones.CheckBody_linked {m : Monotones.Verts} (hl : Linked m) {i : Nat}
    (hi : i < m.length) :
    Monotones.CheckBody m i = .ok () ∨ Monotones.CheckBody m i = .error .twoEdgeMonotone := by
  obtain ⟨a1, a2, _, _, a5, _⟩ := hl i hi
  obtain ⟨v, hv, vr, _⟩ := @getI_links m (i : Int) (by omega) (by simpa using hi)
  simp only [Int.toNat_ofNat] at vr
  obtain ⟨r, hr, _, rl⟩ := @getI_links m v.right (by omega) (by rw [vr]; omega)
  rw [vr, a5] at rl
  simp only [Monotones.CheckBody, hv, hr, bind, Except.bind, rl, beq_self_eq_true, ALWAYS_ASSERT,
    if_true]
  by_cases c : (r.right != (i : Int)) = true
  · left
    simp [c]
  · right
    simp [c]

theorem forEach_cases {α : Type} (f : α → Except Err Unit) (E : Err) (l : List α)
    (h : ∀ a ∈ l, f a = .ok () ∨ f a = .error E) :
    forEach f l = .ok () ∨ forEach f l = .error E := by
  induction l with
  | nil => exact Or.inl rfl
  | cons a rest ih =>
    rcases h a (List.mem_cons_self _ _) with h1 | h1
    · simp only [forEach, h1]
      exact ih (fun b hb => h b (List.mem_cons_of_mem _ hb))
    · right
      simp only [forEach, h1]

theorem firsts_CheckEdges (K : Edge) (m : Monotones.Verts) :
    firsts (Monotones.CheckEdges K m) = (List.range m.length).map (fun i : Nat => (i : Int)) := by
  rw [(Monotones.CheckEdges_firsts K m).1, ← List.enum_map_fst, List.map_map]
  rfl

theorem seconds_CheckEdges (K : Edge) (m : Monotones.Verts) :
    seconds (Monotones.CheckEdges K m) = (List.range m.length).map (rightOf m) := by
  rw [(Monotones.CheckEdges_firsts K m).2]
  apply List.ext_getElem
  · simp
  · intro i h1 h2
    simp only [List.length_map] at h1
    simp [rightOf, List.getElem?_eq_getElem h1]

/-- On a buffer with the invariant the `right` pointers are a permutation of the
indices. -/
theorem Linked.perm_right {m : List VertAdj} (hl : Linked m) :
    List.Perm ((List.range m.length).map (rightOf m))
      ((List.range m.length).map (fun i : Nat => (i : Int))) := by
  have hnd : ((List.range m.length).map (rightOf m)).Nodup := by
    refine List.Nodup.map_on ?_ (List.nodup_range _)
    intro i hi j hj e
    rw [List.mem_range] at hi hj
    have hi5 := (hl i hi).2.2.2.2.1
    have hj5 := (hl j hj).2.2.2.2.1
    rw [e] at hi5
    have : (i : Int) = j := hi5.symm.trans hj5
    omega
  have hsub : (List.range m.length).map (rightOf m) ⊆
      (List.range m.length).map (fun i : Nat => (i : Int)) := by
    intro x hx
    obtain ⟨i, hi, rfl⟩ := List.mem_map.mp hx
    rw [List.mem_range] at hi
    obtain ⟨a1, a2, _⟩ := hl i hi
    exact List.mem_map.mpr ⟨(rightOf m i).toNat, List.mem_range.mpr (by omega), by omega⟩
  exact (List.subperm_of_subset hnd hsub).perm_of_length_le (by simp)

/-- On a buffer with the invariant `Check` passes or reports a two-edge
monotone: it reads inside the buffer, its second assertion holds and
`Assemble` succeeds. -/
theorem Monotones.Check_linked (K : Edge) {m : Monotones.Verts} (hl : Linked m) :
    Monotones.Check K m = .ok () ∨ Monotones.Check K m = .error .twoEdgeMonotone := by
  have hA : ∃ P, Assemble (Monotones.CheckEdges K m) = .ok P := by
    have hnd : (firsts (Monotones.CheckEdges K m)).Nodup := by
      rw [firsts_CheckEdges]
      exact List.Nodup.map (fun a b h => by simpa using h) (List.nodup_range _)
    have hp : List.Perm (seconds (Monotones.CheckEdges K m))
        (firsts (Monotones.CheckEdges K m)) := by
      rw [firsts_CheckEdges, seconds_CheckEdges]
      exact hl.perm_right
    rcases AssembleRun_cases (Monotones.CheckEdges K m) with ⟨h, _⟩ | ⟨_, _, P, h⟩ | ⟨_, h, _⟩
    · exact absurd hnd h
    · exact ⟨P, by simp [Assemble, h]⟩
    · exact absurd hp h
  obtain ⟨P, hP⟩ := hA
  rcases forEach_cases (Monotones.CheckBody m) .twoEdgeMonotone (List.range m.length)
    (fun i hi => Monotones.CheckBody_linked hl (List.mem_range.mp hi)) with h | h
  · left
    simp [Monotones.Check, h, hP, bind, Except.bind, pure, Except.pure]
  · right
    simp [Monotones.Check, h, bind, Except.bind]

/-! ## Monotone decomposer: the outcomes of the constructor -/

/-- The event that the sweep loop ends with is the one that `ProcessVert`
returned for the last vertex of the sweep line, or the initial one when the
sweep line is empty. -/
theorem Monotones.sweep_last (sl : List (F32 × Int)) :
    ∀ (i : Int) (m : Monotones.Verts) (vt : VertType) (m1 : Monotones.Verts) (vt1 : VertType),
      Monotones.sweep sl i m vt = .ok (m1, vt1) →
      (sl = [] ∧ m1 = m ∧ vt1 = vt) ∨
        ∃ y idx m2, sl.getLast? = some (y, idx) ∧
          Monotones.ProcessVert m2 idx = .ok (m1, vt1) := by
  induction sl with
  | nil =>
    intro i m vt m1 vt1 h
    simp only [Monotones.sweep, Except.ok.injEq, Prod.mk.injEq] at h
    exact Or.inl ⟨rfl, h.1.symm, h.2.symm⟩
  | cons a rest ih =>
    intro i m vt m1 vt1 h
    obtain ⟨y, idx⟩ := a
    simp only [Monotones.sweep] at h
    cases h2 : modifyI m idx (fun v => { v with sweep_order := i }) with
    | error e => simp [h2] at h
    | ok m2 =>
      simp only [h2] at h
      cases h3 : Monotones.ProcessVert m2 idx with
      | error e => simp [h3] at h
      | ok r =>
        obtain ⟨m3, vt3⟩ := r
        simp only [h3] at h
        right
        rcases ih _ _ _ _ _ h with ⟨e1, e2, e3⟩ | ⟨y1, idx1, m4, hl, hp⟩
        · subst e1 e2 e3
          exact ⟨y, idx, m2, rfl, h3⟩
        · refine ⟨y1, idx1, m4, ?_, hp⟩
          cases rest with
          | nil => simp at hl
          | cons b rest2 => simpa [List.getLast?_cons_cons] using hl

/-- The outcomes of the constructor: the sweep reads or writes outside the
buffer; or it returns a buffer with the invariant, on which `Check` reports a
two-edge monotone or passes, and then the last event decides. -/
theorem Monotones.Monotones_cases (K : Edge) (polys : Polygons) :
    (Monotones.sweep ((Monotones.initSweepLine (Monotones.initVerts polys [])).insertionSort
        (fun a b => Monotones.tupleLt b a = false)) 0 (Monotones.initVerts polys []) .START =
          .error .undefined ∧
      Monotones.Monotones K polys = .error .undefined) ∨
    ∃ m vt, Monotones.sweep ((Monotones.initSweepLine (Monotones.initVerts polys [])).insertionSort
        (fun a b => Monotones.tupleLt b a = false)) 0 (Monotones.initVerts polys []) .START =
          .ok (m, vt) ∧ Linked m ∧
      ((Monotones.Check K m = .error .twoEdgeMonotone ∧
          Monotones.Monotones K polys = .error .twoEdgeMonotone) ∨
        (Monotones.Check K m = .ok () ∧ vt ≠ .END ∧
          Monotones.Monotones K polys = .error .didNotFinishWithEnd) ∨
        (Monotones.Check K m = .ok () ∧ vt = .END ∧ Monotones.Monotones K polys = .ok m)) := by
  cases hs : Monotones.sweep ((Monotones.initSweepLine (Monotones.initVerts polys [])).insertionSort
      (fun a b => Monotones.tupleLt b a = false)) 0 (Monotones.initVerts polys []) .START with
  | error e =>
    have := (Monotones.sweep_undef _ _ _ _).out e hs
    subst this
    left
    exact ⟨rfl, by simp [Monotones.Monotones, hs, bind, Except.bind]⟩
  | ok r =>
    obtain ⟨m, vt⟩ := r
    right
    have hl : Linked m :=
      Monotones.sweep_linked (Monotones.initVerts_linked polys [] Linked.nil) hs
    refine ⟨m, vt, rfl, hl, ?_⟩
    rcases Monotones.Check_linked K hl with hc | hc
    · right
      by_cases hv : vt = .END
      · right
        refine ⟨hc, hv, ?_⟩
        simp [Monotones.Monotones, hs, hc, hv, bind, Except.bind, ALWAYS_ASSERT, pure,
          Except.pure]
      · left
        refine ⟨hc, hv, ?_⟩
        simp [Monotones.Monotones, hs, hc, hv, bind, Except.bind, ALWAYS_ASSERT]
    · left
      exact ⟨hc, by simp [Monotones.Monotones, hs, hc, bind, Except.bind]⟩

theorem Monotones.Link_pair {m m1 : Monotones.Verts} {a b : Int}
    (h : Monotones.Link m a b = .ok m1) :
    rightOf m1 a.toNat = b ∧ leftOf m1 b.toNat = a := by
  obtain ⟨_, _, _, _, _, r, l, _⟩ := Monotones.Link_effect h
  rw [r, l]
  simp

/-- C18: the sweep-vertex buffer is doubly linked, `left[right[v]] = v` and
`right[left[v]] = v` with all pointers in range, as soon as it is built; every
`Duplicate`, `SplitVerts` and `ProcessVert` that returns keeps it so, each
`Link` writing the two directions of one link; it holds after every step of the
sweep; and the constructor never fails with the error of the assertion
"monotone vert neighbors don't agree". -/
theorem Monotones_linked (K : Edge) (polys : Polygons) :
    Linked (Monotones.initVerts polys []) ∧
      (∀ m a b m1, Monotones.Link m a b = .ok m1 →
        rightOf m1 a.toNat = b ∧ leftOf m1 b.toNat = a) ∧
      (∀ m a m1, Linked m → Monotones.Duplicate m a = .ok m1 → Linked m1) ∧
      (∀ m a b m1 n, Linked m → Monotones.SplitVerts m a b = .ok (m1, n) → Linked m1) ∧
      (∀ m idx m1 vt, Linked m → Monotones.ProcessVert m idx = .ok (m1, vt) → Linked m1) ∧
      (∀ sl i vt m1 vt1,
        Monotones.sweep sl i (Monotones.initVerts polys []) vt = .ok (m1, vt1) → Linked m1) ∧
      (∀ m, Linked m → Monotones.Check K m ≠ .error .neighborsDisagree) ∧
      Monotones.Monotones K polys ≠ .error .neighborsDisagree := by
  have h0 := Monotones.initVerts_linked polys [] Linked.nil
  refine ⟨h0, fun _ _ _ _ h => Monotones.Link_pair h,
    fun _ _ _ hl h => Monotones.Duplicate_linked hl h,
    fun _ _ _ _ _ hl h => Monotones.SplitVerts_linked hl h,
    fun _ _ _ _ hl h => Monotones.ProcessVert_linked hl h,
    fun _ _ _ _ _ h => Monotones.sweep_linked h0 h, ?_, ?_⟩
  · intro m hl hc
    rcases Monotones.Check_linked K hl with h | h <;> rw [h] at hc <;> cases hc
  · intro hc
    rcases Monotones.Monotones_cases K polys with ⟨_, h⟩ | ⟨_, _, _, _, ⟨_, h⟩ | ⟨_, _, h⟩ |
      ⟨_, _, h⟩⟩ <;> rw [h] at hc <;> cases hc

/-! ## Monotone decomposer: which events mark a vertex -/

theorem Monotones.Link_preserves {P : List VertAdj → Prop}
    (hW : ∀ m i f m1, modifyI m i f = .ok m1 → (∀ a : VertAdj, (f a).across = a.across) →
      P m → P m1)
    {m m1 : Monotones.Verts} {a b : Int} (h : Monotones.Link m a b = .ok m1) (hp : P m) :
    P m1 := by
  unfold Monotones.Link at h
  obtain ⟨m2, h1, h2⟩ := bind_eq_ok h
  exact hW _ _ _ _ h2 (fun _ => rfl) (hW _ _ _ _ h1 (fun _ => rfl) hp)

theorem Monotones.SplitVerts_preserves {P : List VertAdj → Prop}
    (hW : ∀ m i f m1, modifyI m i f = .ok m1 → (∀ a : VertAdj, (f a).across = a.across) →
      P m → P m1)
    (hP : ∀ m v, P m → P (m ++ [v]))
    {m m1 : Monotones.Verts} {v ld nv : Int}
    (h : Monotones.SplitVerts m v ld = .ok (m1, nv)) (hp : P m) : P m1 := by
  unfold Monotones.SplitVerts at h
  obtain ⟨m2, h1, h⟩ := bind_eq_ok h
  obtain ⟨d, hd, h⟩ := bind_eq_ok h
  obtain ⟨m3, h3, h⟩ := bind_eq_ok h
  obtain ⟨w, hw, h⟩ := bind_eq_ok h
  obtain ⟨n, hn, h⟩ := bind_eq_ok h
  obtain ⟨m4, h4, h⟩ := bind_eq_ok h
  obtain ⟨d2, hd2, h⟩ := bind_eq_ok h
  obtain ⟨m5, h5, h⟩ := bind_eq_ok h
  obtain ⟨m6, h6, h⟩ := bind_eq_ok h
  simp only [pure, Except.pure, Except.ok.injEq, Prod.mk.injEq] at h
  obtain ⟨rfl, rfl⟩ := h
  exact Monotones.Link_preserves hW h6 (Monotones.Link_preserves hW h5
    (hW _ _ _ _ h4 (fun _ => rfl) (hP _ _ (hW _ _ _ _ h3 (fun _ => rfl)
      (hW _ _ _ _ h1 (fun _ => rfl) hp)))))

theorem Monotones.Duplicate_preserves {P : List VertAdj → Prop} (hI : AcrossInv P)
    {m m1 : Monotones.Verts} {v : Int} (h : Monotones.Duplicate m v = .ok m1) (hp : P m) :
    P m1 := by
  unfold Monotones.Duplicate at h
  obtain ⟨m2, h1, h⟩ := bind_eq_ok h
  obtain ⟨v1, hv1, h⟩ := bind_eq_ok h
  obtain ⟨m3, h3, h⟩ := bind_eq_ok h
  obtain ⟨v2, hv2, h⟩ := bind_eq_ok h
  have p3 : P m3 := hI.write _ _ _ _ h3 (fun _ => rfl) (hI.push _ _
    (hI.write _ _ _ _ h1 (fun _ => rfl) hp))
  have close : ∀ m4, P m4 → Monotones.Link m4 v (Monotones.Num_verts m2) = .ok m1 → P m1 :=
    fun m4 p4 h5 => Monotones.Link_preserves hI.write h5 p4
  simp only at h
  by_cases hp : v2.Processed = true
  · simp only [hp, if_true] at h
    obtain ⟨r, _, h⟩ := bind_eq_ok h
    by_cases hq : r.Processed = true
    · simp only [hq, if_true] at h
      obtain ⟨m5, h5, h⟩ := bind_eq_ok h
      obtain ⟨m6, h6, h⟩ := bind_eq_ok h
      exact close m6 (hI.mtch _ _ _ _ h6 (hI.mtch _ _ _ _ h5 p3)) h
    · simp only [hq, if_false] at h
      obtain ⟨m5, h5, h⟩ := bind_eq_ok h
      exact close m5 (hI.mtch _ _ _ _ h5 p3) h
  · simp only [hp, if_false] at h
    obtain ⟨l, _, h⟩ := bind_eq_ok h
    have rest : ∀ m5, P m5 →
        (do
          let v_1 ← Monotones.Vert m5 v
          let r ← Monotones.Right m5 v_1
          if r.Processed = true then do
              let hh ← Monotones.Helper m5 v v_1.right
              let y ← Monotones.Match m5 (Monotones.Num_verts m2) hh
              Monotones.Link y v (Monotones.Num_verts m2)
            else do
              let y ← modifyI m5 (Monotones.Num_verts m2)
                (fun w => { w with across := Monotones.Num_verts m2 })
              Monotones.Link y v (Monotones.Num_verts m2)) = .ok m1 → P m1 := by
      intro m5 p5 h
      obtain ⟨v3, _, h⟩ := bind_eq_ok h
      obtain ⟨r, _, h⟩ := bind_eq_ok h
      by_cases hq : r.Processed = true
      · simp only [hq, if_true] at h
        obtain ⟨hh, _, h⟩ := bind_eq_ok h
        obtain ⟨m6, h6, h⟩ := bind_eq_ok h
        exact close m6 (hI.mtch _ _ _ _ h6 p5) h
      · simp only [hq, if_false] at h
        obtain ⟨m6, h6, h⟩ := bind_eq_ok h
        exact close m6 (hI.mark _ _ _ h6 p5) h
    by_cases hq : l.Processed = true
    · simp only [hq, if_true] at h
      obtain ⟨hh, _, h⟩ := bind_eq_ok h
      obtain ⟨m5, h5, h⟩ := bind_eq_ok h
      exact rest m5 (hI.mtch _ _ _ _ h5 p3) h
    · simp only [hq, if_false] at h
      obtain ⟨m5, h5, h⟩ := bind_eq_ok h
      exact rest m5 (hI.mark _ _ _ h5 p3) h

/-- The effect of `Match(a, b)`: `across[a] = b`, then `across[b] = a`. -/
theorem Monotones.Match_effect {m m1 : Monotones.Verts} {a b : Int}
    (h : Monotones.Match m a b = .ok m1) :
    0 ≤ a ∧ a.toNat < m.length ∧ 0 ≤ b ∧ b.toNat < m.length ∧ m1.length = m.length ∧
      acrossOf m1 = Function.update (Function.update (acrossOf m) a.toNat b) b.toNat a := by
  unfold Monotones.Match at h
  obtain ⟨m2, h1, h2⟩ := bind_eq_ok h
  obtain ⟨_, _, a0, a1, len1, _, _, c1⟩ := modifyI_effect h1
  obtain ⟨_, _, b0, b1, len2, _, _, c2⟩ := modifyI_effect h2
  simp only at c1 c2
  exact ⟨a0, a1, b0, len1 ▸ b1, len2.trans len1, by rw [c2, c1]⟩

theorem Marked.inv (j : Nat) : AcrossInv (Marked j) := by
  constructor
  · intro m i f m1 h hf hp
    obtain ⟨a, ha, _, _, len, _, _, c⟩ := modifyI_effect h
    obtain ⟨_, _, c1⟩ := rightOf_of_getI ha
    rw [hf a, ← c1, Function.update_eq_self] at c
    exact ⟨len ▸ hp.1, c ▸ hp.2⟩
  · intro m v hp
    refine ⟨by simp only [List.length_append, List.length_singleton]; have := hp.1; omega, ?_⟩
    rw [acrossOf_append, Function.update_apply, if_neg (Nat.ne_of_lt hp.1)]
    exact hp.2
  · intro m a b m1 h hp
    obtain ⟨a0, _, b0, _, len, c⟩ := Monotones.Match_effect h
    refine ⟨len ▸ hp.1, ?_⟩
    rw [c]
    simp only [Function.update_apply]
    have := hp.2
    split_ifs <;> assumption
  · intro m a m1 h hp
    obtain ⟨_, _, a0, _, len, _, _, c⟩ := modifyI_effect h
    simp only at c
    refine ⟨len ▸ hp.1, ?_⟩
    rw [c]
    simp only [Function.update_apply]
    have := hp.2
    split_ifs <;> assumption

theorem Monotones.Match_marks {m m1 : Monotones.Verts} {a b : Int}
    (h : Monotones.Match m a b = .ok m1) : Marked a.toNat m1 := by
  obtain ⟨a0, a1, b0, _, len, c⟩ := Monotones.Match_effect h
  refine ⟨len ▸ a1, ?_⟩
  rw [c]
  simp only [Function.update_apply]
  split_ifs <;> simp [a0, b0]

theorem Monotones.mark_marks {m m1 : Monotones.Verts} {a : Int}
    (h : modifyI m a (fun v => { v with across := a }) = .ok m1) : Marked a.toNat m1 := by
  obtain ⟨_, _, a0, a1, len, _, _, c⟩ := modifyI_effect h
  simp only at c
  refine ⟨len ▸ a1, ?_⟩
  rw [c]
  simp [a0]

theorem Monotones.MatchAcrossOf_marks {m m1 : Monotones.Verts} {a b : Int}
    (h : Monotones.MatchAcrossOf m a b = .ok m1) : Marked a.toNat m1 := by
  unfold Monotones.MatchAcrossOf at h
  obtain ⟨_, _, h⟩ := bind_eq_ok h
  exact Monotones.Match_marks h

/-- After `Duplicate(v)` the vertex `v` is processed. -/
theorem Monotones.Duplicate_marks {m m1 : Monotones.Verts} {v : Int}
    (h : Monotones.Duplicate m v = .ok m1) : Marked v.toNat m1 := by
  have hI := Marked.inv v.toNat
  unfold Monotones.Duplicate at h
  obtain ⟨m2, h1, h⟩ := bind_eq_ok h
  obtain ⟨v1, hv1, h⟩ := bind_eq_ok h
  obtain ⟨m3, h3, h⟩ := bind_eq_ok h
  obtain ⟨v2, hv2, h⟩ := bind_eq_ok h
  have close : ∀ m4, Marked v.toNat m4 →
      Monotones.Link m4 v (Monotones.Num_verts m2) = .ok m1 → Marked v.toNat m1 :=
    fun m4 p4 h5 => Monotones.Link_preserves hI.write h5 p4
  simp only at h
  by_cases hp : v2.Processed = true
  · have p3 : Marked v.toNat m3 := by
      obtain ⟨_, l3, e3⟩ := getI_ok hv2
      obtain ⟨_, _, c3⟩ := rightOf_of_getI hv2
      refine ⟨l3, ?_⟩
      rw [c3]
      simpa [VertAdj.Processed] using hp
    simp only [hp, if_true] at h
    obtain ⟨r, _, h⟩ := bind_eq_ok h
    by_cases hq : r.Processed = true
    · simp only [hq, if_true] at h
      obtain ⟨m5, h5, h⟩ := bind_eq_ok h
      obtain ⟨m6, h6, h⟩ := bind_eq_ok h
      exact close m6 (hI.mtch _ _ _ _ h6 (hI.mtch _ _ _ _ h5 p3)) h
    · simp only [hq, if_false] at h
      obtain ⟨m5, h5, h⟩ := bind_eq_ok h
      exact close m5 (hI.mtch _ _ _ _ h5 p3) h
  · simp only [hp, if_false] at h
    obtain ⟨l, _, h⟩ := bind_eq_ok h
    have rest : ∀ m5, Marked v.toNat m5 →
        (do
          let v_1 ← Monotones.Vert m5 v
          let r ← Monotones.Right m5 v_1
          if r.Processed = true then do
              let hh ← Monotones.Helper m5 v v_1.right
              let y ← Monotones.Match m5 (Monotones.Num_verts m2) hh
              Monotones.Link y v (Monotones.Num_verts m2)
            else do
              let y ← modifyI m5 (Monotones.Num_verts m2)
                (fun w => { w with across := Monotones.Num_verts m2 })
              Monotones.Link y v (Monotones.Num_verts m2)) = .ok m1 → Marked v.toNat m1 := by
      intro m5 p5 h
      obtain ⟨v3, _, h⟩ := bind_eq_ok h
      obtain ⟨r, _, h⟩ := bind_eq_ok h
      by_cases hq : r.Processed = true
      · simp only [hq, if_true] at h
        obtain ⟨hh, _, h⟩ := bind_eq_ok h
        obtain ⟨m6, h6, h⟩ := bind_eq_ok h
        exact close m6 (hI.mtch _ _ _ _ h6 p5) h
      · simp only [hq, if_false] at h
        obtain ⟨m6, h6, h⟩ := bind_eq_ok h
        exact close m6 (hI.mark _ _ _ h6 p5) h
    by_cases hq : l.Processed = true
    · simp only [hq, if_true] at h
      obtain ⟨hh, _, h⟩ := bind_eq_ok h
      obtain ⟨m5, h5, h⟩ := bind_eq_ok h
      exact rest m5 (Monotones.Match_marks h5) h
    · simp only [hq, if_false] at h
      obtain ⟨m5, h5, h⟩ := bind_eq_ok h
      exact rest m5 (Monotones.mark_marks h5) h

/-- After the `Merge` branch the vertex is processed: `Duplicate` marks it and
nothing unmarks it. -/
theorem Monotones.ProcessMerge_marks {m m1 : Monotones.Verts} {a : Int}
    (h : Monotones.ProcessMerge m a = .ok m1) : Marked a.toNat m1 := by
  have hI := Marked.inv a.toNat
  have hM := hI.mtch
  have hS : ∀ m x y m1 n, Monotones.SplitVerts m x y = .ok (m1, n) →
      Marked a.toNat m → Marked a.toNat m1 :=
    fun _ _ _ _ _ h hp => Monotones.SplitVerts_preserves hI.write hI.push h hp
  have hRA : ∀ m x m1, Monotones.MatchRightAcross m x = .ok m1 →
      Marked a.toNat m → Marked a.toNat m1 := by
    intro m x m1 h hp
    unfold Monotones.MatchRightAcross at h
    obtain ⟨_, _, h⟩ := bind_eq_ok h
    obtain ⟨_, _, h⟩ := bind_eq_ok h
    exact hM _ _ _ _ h hp
  have hAO : ∀ m x y m1, Monotones.MatchAcrossOf m x y = .ok m1 →
      Marked a.toNat m → Marked a.toNat m1 := by
    intro m x y m1 h hp
    unfold Monotones.MatchAcrossOf at h
    obtain ⟨_, _, h⟩ := bind_eq_ok h
    exact hM _ _ _ _ h hp
  unfold Monotones.ProcessMerge at h
  obtain ⟨m2, h2, h⟩ := bind_eq_ok h
  obtain ⟨v, _, h⟩ := bind_eq_ok h
  obtain ⟨ac, _, h⟩ := bind_eq_ok h
  have p2 := Monotones.Duplicate_marks h2
  have rest : ∀ m3, Marked a.toNat m3 →
      (do
        let v ← Monotones.Vert m3 a
        let r ← Monotones.Right m3 v
        let a ← Monotones.Across m3 r
        if a.merge = true then do
            let (m, newVert_idx) ← Monotones.SplitVerts m3 v.right r.across
            Monotones.MatchRightAcross m newVert_idx
          else pure m3) = .ok m1 → Marked a.toNat m1 := by
    intro m3 p3 h
    obtain ⟨v, _, h⟩ := bind_eq_ok h
    obtain ⟨r, _, h⟩ := bind_eq_ok h
    obtain ⟨ac, _, h⟩ := bind_eq_ok h
    by_cases hc : ac.merge = true
    · simp only [hc, if_true, ↓reduceIte] at h
      obtain ⟨⟨m4, n⟩, h4, h⟩ := bind_eq_ok h
      exact hRA _ _ _ h (hS _ _ _ _ _ h4 p3)
    · simp only [hc, if_false, Bool.false_eq_true, ↓reduceIte, pure, Except.pure,
        Except.ok.injEq] at h
      exact h ▸ p3
  simp only at h
  by_cases hc : ac.merge = true
  · simp only [hc, if_true, ↓reduceIte] at h
    obtain ⟨⟨m4, n⟩, h4, h⟩ := bind_eq_ok h
    obtain ⟨m5, h5, h⟩ := bind_eq_ok h
    exact rest m5 (hAO _ _ _ _ h5 (hS _ _ _ _ _ h4 p2)) h
  · simp only [hc, if_false, Bool.false_eq_true, ↓reduceIte, pure_bind] at h
    exact rest m2 p2 h

/-- After the `Split` branch the vertex is processed: the last statement
matches it. -/
theorem Monotones.ProcessSplit_marks {m m1 : Monotones.Verts} {a b : Int}
    (h : Monotones.ProcessSplit m a b = .ok m1) : Marked a.toNat m1 := by
  unfold Monotones.ProcessSplit at h
  obtain ⟨hh, _, h⟩ := bind_eq_ok h
  obtain ⟨ac, _, h⟩ := bind_eq_ok h
  obtain ⟨h2, _, h⟩ := bind_eq_ok h
  have rest : ∀ m3 b,
      (do
        let (m, newVert_idx) ← Monotones.SplitVerts m3 a b
        let m ← Monotones.MatchRightAcross m newVert_idx
        Monotones.MatchAcrossOf m a b) = .ok m1 → Marked a.toNat m1 := by
    intro m3 b h
    obtain ⟨⟨m4, n⟩, h4, h⟩ := bind_eq_ok h
    obtain ⟨m5, h5, h⟩ := bind_eq_ok h
    exact Monotones.MatchAcrossOf_marks h
  simp only at h
  by_cases hc : (!h2.merge) = true
  · simp only [hc, if_true, ↓reduceIte] at h
    obtain ⟨m3, h3, h⟩ := bind_eq_ok h
    exact rest m3 _ h
  · simp only [hc, if_false, Bool.false_eq_true, ↓reduceIte, pure_bind] at h
    exact rest m _ h

/-- The events that mark the vertex: after `ProcessVert(idx)` returns `START`,
`REV_START`, `RIGHTWARDS`, `MERGE` or `SPLIT`, the vertex `idx` is processed. -/
theorem Monotones.ProcessVert_marks {m m1 : Monotones.Verts} {idx : Int} {vt : VertType}
    (h : Monotones.ProcessVert m idx = .ok (m1, vt)) (h1 : vt ≠ .END) (h2 : vt ≠ .LEFTWARDS) :
    Marked idx.toNat m1 := by
  unfold Monotones.ProcessVert at h
  obtain ⟨vert, _, h⟩ := bind_eq_ok h
  obtain ⟨right, _, h⟩ := bind_eq_ok h
  by_cases c1 : right.Processed = true
  · simp only [c1, if_true, ↓reduceIte] at h
    obtain ⟨left, _, h⟩ := bind_eq_ok h
    by_cases c2 : left.Processed = true
    · simp only [c2, if_true, ↓reduceIte] at h
      by_cases c3 : right.across = vert.left
      · simp only [c3, if_true, ↓reduceIte, pure, Except.pure, Except.ok.injEq,
          Prod.mk.injEq] at h
        exact absurd h.2.symm h1
      · simp only [c3, if_false, Bool.false_eq_true, ↓reduceIte] at h
        obtain ⟨ac, _, h⟩ := bind_eq_ok h
        by_cases c4 : (ac.right = left.across && ac.merge) = true
        · simp only [c4, if_true, ↓reduceIte] at h
          obtain ⟨⟨m4, n⟩, h4, h⟩ := bind_eq_ok h
          simp only [pure, Except.pure, Except.ok.injEq, Prod.mk.injEq] at h
          exact absurd h.2.symm h1
        · simp only [c4, if_false, Bool.false_eq_true, ↓reduceIte] at h
          obtain ⟨m4, h4, h⟩ := bind_eq_ok h
          simp only [pure, Except.pure, Except.ok.injEq, Prod.mk.injEq] at h
          exact h.1 ▸ Monotones.ProcessMerge_marks h4
    · simp only [c2, if_false, Bool.false_eq_true, ↓reduceIte] at h
      obtain ⟨hi, _, h⟩ := bind_eq_ok h
      obtain ⟨hv, _, h⟩ := bind_eq_ok h
      by_cases c3 : hv.merge = true
      · simp only [c3, if_true, ↓reduceIte] at h
        obtain ⟨⟨m4, n⟩, h4, h⟩ := bind_eq_ok h
        obtain ⟨m5, h5, h⟩ := bind_eq_ok h
        simp only [pure, Except.pure, Except.ok.injEq, Prod.mk.injEq] at h
        exact absurd h.2.symm h2
      · simp only [c3, if_false, Bool.false_eq_true, ↓reduceIte] at h
        obtain ⟨m4, h4, h⟩ := bind_eq_ok h
        simp only [pure, Except.pure, Except.ok.injEq, Prod.mk.injEq] at h
        exact absurd h.2.symm h2
  · simp only [c1, if_false, Bool.false_eq_true, ↓reduceIte] at h
    obtain ⟨left, _, h⟩ := bind_eq_ok h
    by_cases c2 : left.Processed = true
    · simp only [c2, if_true, ↓reduceIte] at h
      obtain ⟨hi, _, h⟩ := bind_eq_ok h
      obtain ⟨hv, _, h⟩ := bind_eq_ok h
      by_cases c3 : hv.merge = true
      · simp only [c3, if_true, ↓reduceIte] at h
        obtain ⟨⟨m4, n⟩, h4, h⟩ := bind_eq_ok h
        obtain ⟨m5, h5, h⟩ := bind_eq_ok h
        simp only [pure, Except.pure, Except.ok.injEq, Prod.mk.injEq] at h
        exact h.1 ▸ Monotones.MatchAcrossOf_marks h5
      · simp only [c3, if_false, Bool.false_eq_true, ↓reduceIte] at h
        obtain ⟨m4, h4, h⟩ := bind_eq_ok h
        simp only [pure, Except.pure, Except.ok.injEq, Prod.mk.injEq] at h
        exact h.1 ▸ Monotones.Match_marks h4
    · simp only [c2, if_false, Bool.false_eq_true, ↓reduceIte] at h
      by_cases c3 : CCW vert.pos right.pos left.pos > 0
      · simp only [c3, if_true, ↓reduceIte] at h
        obtain ⟨m4, h4, h⟩ := bind_eq_ok h
        simp only [pure, Except.pure, Except.ok.injEq, Prod.mk.injEq] at h
        exact h.1 ▸ Monotones.mark_marks h4
      · simp only [c3, if_false, Bool.false_eq_true, ↓reduceIte] at h
        obtain ⟨hi, _, h⟩ := bind_eq_ok h
        by_cases c4 : hi ≥ 0
        · simp only [c4, if_true, ↓reduceIte] at h
          obtain ⟨m4, h4, h⟩ := bind_eq_ok h
          simp only [pure, Except.pure, Except.ok.injEq, Prod.mk.injEq] at h
          exact h.1 ▸ Monotones.ProcessSplit_marks h4
        · simp only [c4, if_false, Bool.false_eq_true, ↓reduceIte] at h
          obtain ⟨m4, h4, h⟩ := bind_eq_ok h
          simp only [pure, Except.pure, Except.ok.injEq, Prod.mk.injEq] at h
          exact h.1 ▸ Monotones.mark_marks h4

/-- The event `END` assigns no `across`: the buffer is unchanged or split, and
`SplitVerts` copies the member. -/
theorem Monotones.ProcessVert_END {m m1 : Monotones.Verts} {idx : Int}
    (h : Monotones.ProcessVert m idx = .ok (m1, .END)) :
    m.length ≤ m1.length ∧ ∀ j, j < m.length → acrossOf m1 j = acrossOf m j := by
  have hW : ∀ (m2 : List VertAdj) i f m3, modifyI m2 i f = .ok m3 →
      (∀ a : VertAdj, (f a).across = a.across) →
      (m.length ≤ m2.length ∧ ∀ j, j < m.length → acrossOf m2 j = acrossOf m j) →
      (m.length ≤ m3.length ∧ ∀ j, j < m.length → acrossOf m3 j = acrossOf m j) := by
    intro m2 i f m3 h hf hp
    obtain ⟨a, ha, _, _, len, _, _, c⟩ := modifyI_effect h
    obtain ⟨_, _, c1⟩ := rightOf_of_getI ha
    rw [hf a, ← c1, Function.update_eq_self] at c
    exact ⟨len ▸ hp.1, c ▸ hp.2⟩
  have hP : ∀ (m2 : List VertAdj) v,
      (m.length ≤ m2.length ∧ ∀ j, j < m.length → acrossOf m2 j = acrossOf m j) →
      (m.length ≤ (m2 ++ [v]).length ∧
        ∀ j, j < m.length → acrossOf (m2 ++ [v]) j = acrossOf m j) := by
    intro m2 v hp
    refine ⟨by simp only [List.length_append, List.length_singleton]; have := hp.1; omega, ?_⟩
    intro j hj
    rw [acrossOf_append, Function.update_apply, if_neg (by have := hp.1; omega)]
    exact hp.2 j hj
  unfold Monotones.ProcessVert at h
  obtain ⟨vert, _, h⟩ := bind_eq_ok h
  obtain ⟨right, _, h⟩ := bind_eq_ok h
  by_cases c1 : right.Processed = true
  · simp only [c1, if_true, ↓reduceIte] at h
    obtain ⟨left, _, h⟩ := bind_eq_ok h
    by_cases c2 : left.Processed = true
    · simp only [c2, if_true, ↓reduceIte] at h
      by_cases c3 : right.across = vert.left
      · simp only [c3, if_true, ↓reduceIte, pure, Except.pure, Except.ok.injEq,
          Prod.mk.injEq] at h
        exact h.1 ▸ ⟨le_refl _, fun _ _ => rfl⟩
      · simp only [c3, if_false, Bool.false_eq_true, ↓reduceIte] at h
        obtain ⟨ac, _, h⟩ := bind_eq_ok h
        by_cases c4 : (ac.right = left.across && ac.merge) = true
        · simp only [c4, if_true, ↓reduceIte] at h
          obtain ⟨⟨m4, n⟩, h4, h⟩ := bind_eq_ok h
          simp only [pure, Except.pure, Except.ok.injEq, Prod.mk.injEq] at h
          exact h.1 ▸ Monotones.SplitVerts_preserves hW hP h4 ⟨le_refl _, fun _ _ => rfl⟩
        · simp only [c4, if_false, Bool.false_eq_true, ↓reduceIte] at h
          obtain ⟨m4, h4, h⟩ := bind_eq_ok h
          simp only [pure, Except.pure, Except.ok.injEq, Prod.mk.injEq] at h
          exact absurd h.2 (by decide)
    · simp only [c2, if_false, Bool.false_eq_true, ↓reduceIte] at h
      obtain ⟨hi, _, h⟩ := bind_eq_ok h
      obtain ⟨hv, _, h⟩ := bind_eq_ok h
      by_cases c3 : hv.merge = true
      · simp only [c3, if_true, ↓reduceIte] at h
        obtain ⟨⟨m4, n⟩, h4, h⟩ := bind_eq_ok h
        obtain ⟨m5, h5, h⟩ := bind_eq_ok h
        simp only [pure, Except.pure, Except.ok.injEq, Prod.mk.injEq] at h
        exact absurd h.2 (by decide)
      · simp only [c3, if_false, Bool.false_eq_true, ↓reduceIte] at h
        obtain ⟨m4, h4, h⟩ := bind_eq_ok h
        simp only [pure, Except.pure, Except.ok.injEq, Prod.mk.injEq] at h
        exact absurd h.2 (by decide)
  · simp only [c1, if_false, Bool.false_eq_true, ↓reduceIte] at h
    obtain ⟨left, _, h⟩ := bind_eq_ok h
    by_cases c2 : left.Processed = true
    · simp only [c2, if_true, ↓reduceIte] at h
      obtain ⟨hi, _, h⟩ := bind_eq_ok h
      obtain ⟨hv, _, h⟩ := bind_eq_ok h
      by_cases c3 : hv.merge = true
      · simp only [c3, if_true, ↓reduceIte] at h
        obtain ⟨⟨m4, n⟩, h4, h⟩ := bind_eq_ok h
        obtain ⟨m5, h5, h⟩ := bind_eq_ok h
        simp only [pure, Except.pure, Except.ok.injEq, Prod.mk.injEq] at h
        exact absurd h.2 (by decide)
      · simp only [c3, if_false, Bool.false_eq_true, ↓reduceIte] at h
        obtain ⟨m4, h4, h⟩ := bind_eq_ok h
        simp only [pure, Except.pure, Except.ok.injEq, Prod.mk.injEq] at h
        exact absurd h.2 (by decide)
    · simp only [c2, if_false, Bool.false_eq_true, ↓reduceIte] at h
      by_cases c3 : CCW vert.pos right.pos left.pos > 0
      · simp only [c3, if_true, ↓reduceIte] at h
        obtain ⟨m4, h4, h⟩ := bind_eq_ok h
        simp only [pure, Except.pure, Except.ok.injEq, Prod.mk.injEq] at h
        exact absurd h.2 (by decide)
      · simp only [c3, if_false, Bool.false_eq_true, ↓reduceIte] at h
        obtain ⟨hi, _, h⟩ := bind_eq_ok h
        by_cases c4 : hi ≥ 0
        · simp only [c4, if_true, ↓reduceIte] at h
          obtain ⟨m4, h4, h⟩ := bind_eq_ok h
          simp only [pure, Except.pure, Except.ok.injEq, Prod.mk.injEq] at h
          exact absurd h.2 (by decide)
        · simp only [c4, if_false, Bool.false_eq_true, ↓reduceIte] at h
          obtain ⟨m4, h4, h⟩ := bind_eq_ok h
          simp only [pure, Except.pure, Except.ok.injEq, Prod.mk.injEq] at h
          exact absurd h.2 (by decide)

theorem Monotones.ProcessVert_marked {m m1 : Monotones.Verts} {idx : Int} {vt : VertType}
    (j : Nat) (h : Monotones.ProcessVert m idx = .ok (m1, vt)) (hp : Marked j m) :
    Marked j m1 :=
  Monotones.ProcessVert_preserves (Marked j) (Marked.inv j).mtch (Marked.inv j).mark
    (fun _ _ _ h hp => Monotones.Duplicate_preserves (Marked.inv j) h hp)
    (fun _ _ _ _ _ h hp =>
      Monotones.SplitVerts_preserves (Marked.inv j).write (Marked.inv j).push h hp) h hp

/-- The sweep loop returns the buffer of `sweepEvents` and the last of its
events. -/
theorem Monotones.sweep_events (sl : List (F32 × Int)) :
    ∀ (i : Int) (m : Monotones.Verts) (vt : VertType) (m1 : Monotones.Verts) (vt1 : VertType),
      Monotones.sweep sl i m vt = .ok (m1, vt1) →
      ∃ evs, Monotones.sweepEvents sl i m = .ok (m1, evs) ∧ evs.length = sl.length ∧
        (vt :: evs).getLast? = some vt1 := by
  induction sl with
  | nil =>
    intro i m vt m1 vt1 h
    simp only [Monotones.sweep, Except.ok.injEq, Prod.mk.injEq] at h
    exact ⟨[], by simp [Monotones.sweepEvents, h.1], rfl, by simp [h.2]⟩
  | cons a rest ih =>
    intro i m vt m1 vt1 h
    obtain ⟨y, idx⟩ := a
    simp only [Monotones.sweep] at h
    cases h2 : modifyI m idx (fun v => { v with sweep_order := i }) with
    | error e => simp [h2] at h
    | ok m2 =>
      simp only [h2] at h
      cases h3 : Monotones.ProcessVert m2 idx with
      | error e => simp [h3] at h
      | ok r =>
        obtain ⟨m3, vt3⟩ := r
        simp only [h3] at h
        obtain ⟨evs, he, hl, hlast⟩ := ih _ _ _ _ _ h
        refine ⟨vt3 :: evs, by simp [Monotones.sweepEvents, h2, h3, he], by simp [hl], ?_⟩
        rw [List.getLast?_cons_cons]
        exact hlast

/-- A vertex that is processed stays so to the end of the sweep. -/
theorem Monotones.sweepEvents_marked (j : Nat) (sl : List (F32 × Int)) :
    ∀ (i : Int) (m m1 : Monotones.Verts) (evs : List VertType),
      Monotones.sweepEvents sl i m = .ok (m1, evs) → Marked j m → Marked j m1 := by
  induction sl with
  | nil =>
    intro i m m1 evs h hp
    simp only [Monotones.sweepEvents, Except.ok.injEq, Prod.mk.injEq] at h
    exact h.1 ▸ hp
  | cons a rest ih =>
    intro i m m1 evs h hp
    obtain ⟨y, idx⟩ := a
    simp only [Monotones.sweepEvents] at h
    cases h2 : modifyI m idx (fun v => { v with sweep_order := i }) with
    | error e => simp [h2] at h
    | ok m2 =>
      simp only [h2] at h
      cases h3 : Monotones.ProcessVert m2 idx with
      | error e => simp [h3] at h
      | ok r =>
        obtain ⟨m3, vt3⟩ := r
        simp only [h3] at h
        cases h4 : Monotones.sweepEvents rest (i + 1) m3 with
        | error e => simp [h4] at h
        | ok r2 =>
          obtain ⟨m4, l⟩ := r2
          simp only [h4, Except.ok.injEq, Prod.mk.injEq] at h
          exact h.1 ▸ ih _ _ _ _ h4 (Monotones.ProcessVert_marked j h3
            ((Marked.inv j).write _ _ _ _ h2 (fun _ => rfl) hp))

/-- Every vertex of the sweep line for which `ProcessVert` returned an event
other than `END` and `LEFTWARDS` is processed at the end of the sweep. -/
theorem Monotones.sweepEvents_marks (sl : List (F32 × Int)) :
    ∀ (i : Int) (m m1 : Monotones.Verts) (evs : List VertType),
      Monotones.sweepEvents sl i m = .ok (m1, evs) →
      ∀ (k : Nat) (y : F32) (idx : Int) (vt : VertType), sl[k]? = some (y, idx) →
        evs[k]? = some vt → vt ≠ .END → vt ≠ .LEFTWARDS → Marked idx.toNat m1 := by
  induction sl with
  | nil =>
    intro i m m1 evs h k y idx vt hk
    simp at hk
  | cons a rest ih =>
    intro i m m1 evs h k y idx vt hk he h1 h2
    obtain ⟨y0, idx0⟩ := a
    simp only [Monotones.sweepEvents] at h
    cases e2 : modifyI m idx0 (fun v => { v with sweep_order := i }) with
    | error e => simp [e2] at h
    | ok m2 =>
      simp only [e2] at h
      cases e3 : Monotones.ProcessVert m2 idx0 with
      | error e => simp [e3] at h
      | ok r =>
        obtain ⟨m3, vt3⟩ := r
        simp only [e3] at h
        cases e4 : Monotones.sweepEvents rest (i + 1) m3 with
        | error e => simp [e4] at h
        | ok r2 =>
          obtain ⟨m4, l⟩ := r2
          simp only [e4, Except.ok.injEq, Prod.mk.injEq] at h
          obtain ⟨rfl, rfl⟩ := h
          cases k with
          | zero =>
            simp only [List.getElem?_cons_zero, Option.some.injEq, Prod.mk.injEq] at hk he
            obtain ⟨_, rfl⟩ := hk
            subst he
            exact Monotones.sweepEvents_marked _ _ _ _ _ _ e4
              (Monotones.ProcessVert_marks e3 h1 h2)
          | succ k =>
            simp only [List.getElem?_cons_succ] at hk he
            exact ih _ _ _ _ e4 k y idx vt hk he h1 h2

/-- What the events do to `Processed()`: after the constructor completes, every
vertex of the sweep line for which `ProcessVert` returned `START`, `REV_START`,
`RIGHTWARDS`, `MERGE` or `SPLIT` is processed, `across ≥ 0`; the last event is
`END`, and `END` assigns no `across`. -/
theorem Monotones_processed (K : Edge) (polys : Polygons) (m : Monotones.Verts)
    (h : Monotones.Monotones K polys = .ok m) :
    ∃ evs,
      Monotones.sweepEvents ((Monotones.initSweepLine (Monotones.initVerts polys [])).insertionSort
        (fun a b => Monotones.tupleLt b a = false)) 0 (Monotones.initVerts polys []) =
          .ok (m, evs) ∧
      evs.length = (Monotones.initVerts polys []).length ∧
      (∀ (k : Nat) (y : F32) (idx : Int) (vt : VertType),
        ((Monotones.initSweepLine (Monotones.initVerts polys [])).insertionSort
          (fun a b => Monotones.tupleLt b a = false))[k]? = some (y, idx) →
        evs[k]? = some vt → vt ≠ .END → vt ≠ .LEFTWARDS →
        idx.toNat < m.length ∧ 0 ≤ acrossOf m idx.toNat) ∧
      evs.getLast? = some .END ∧
      ∀ (m2 : Monotones.Verts) (idx : Int) (m3 : Monotones.Verts),
        Monotones.ProcessVert m2 idx = .ok (m3, .END) →
        ∀ j, j < m2.length → acrossOf m3 j = acrossOf m2 j := by
  rcases Monotones.Monotones_cases K polys with ⟨_, e⟩ | ⟨m1, vt, hs, _, ⟨_, e⟩ | ⟨_, _, e⟩ |
      ⟨_, hv, e⟩⟩
  · rw [e] at h
    cases h
  · rw [e] at h
    cases h
  · rw [e] at h
    cases h
  · rw [e] at h
    cases h
    subst hv
    obtain ⟨evs, he, hl, hlast⟩ := Monotones.sweep_events _ _ _ _ _ _ hs
    refine ⟨evs, he, ?_, fun k y idx vt hk hev h1 h2 =>
      Monotones.sweepEvents_marks _ _ _ _ _ he k y idx vt hk hev h1 h2, ?_,
      fun m2 idx m3 h3 => (Monotones.ProcessVert_END h3).2⟩
    · rw [hl, List.length_insertionSort]
      simp [Monotones.initSweepLine]
    · cases evs with
      | nil => simp at hlast
      | cons a l =>
        rw [List.getLast?_cons_cons] at hlast
        exact hlast

set_option maxRecDepth 100000 in
theorem Monotones_processed_witness :
    Monotones.Monotones sampleTags unitSquare = .ok unitSquareMonotones ∧
      ∃ evs,
        Monotones.sweepEvents
          ((Monotones.initSweepLine (Monotones.initVerts unitSquare [])).insertionSort
            (fun a b => Monotones.tupleLt b a = false)) 0 (Monotones.initVerts unitSquare []) =
              .ok (unitSquareMonotones, evs) ∧
        evs.length = (Monotones.initVerts unitSquare []).length ∧
        (∀ (k : Nat) (y : F32) (idx : Int) (vt : VertType),
          ((Monotones.initSweepLine (Monotones.initVerts unitSquare [])).insertionSort
            (fun a b => Monotones.tupleLt b a = false))[k]? = some (y, idx) →
          evs[k]? = some vt → vt ≠ .END → vt ≠ .LEFTWARDS →
          idx.toNat < unitSquareMonotones.length ∧ 0 ≤ acrossOf unitSquareMonotones idx.toNat) ∧
        evs.getLast? = some .END ∧
        ∀ (m2 : Monotones.Verts) (idx : Int) (m3 : Monotones.Verts),
          Monotones.ProcessVert m2 idx = .ok (m3, .END) →
          ∀ j, j < m2.length → acrossOf m3 j = acrossOf m2 j :=
  ⟨by decide!, Monotones_processed sampleTags unitSquare unitSquareMonotones (by decide!)⟩

set_option maxRecDepth 100000 in
/-- C19: on the unit square the constructor completes and the vertex that got
`END`, the last in sweep order, is left unprocessed: the `across` members are
`2, 0, 0, -1`. No `END` ever assigns an `across`. -/
theorem Monotones_END_unprocessed :
    Monotones.Monotones sampleTags unitSquare = .ok unitSquareMonotones ∧
      unitSquareMonotones.map (fun v => v.across) = [2, 0, 0, -1] ∧
      (¬ ∀ v ∈ unitSquareMonotones, 0 ≤ v.across) ∧
      ∀ (m : Monotones.Verts) (idx : Int) (m1 : Monotones.Verts),
        Monotones.ProcessVert m idx = .ok (m1, .END) →
        ∀ j, j < m.length → acrossOf m1 j = acrossOf m j := by
  refine ⟨by decide!, rfl, ?_, fun m idx m1 h => (Monotones.ProcessVert_END h).2⟩
  intro h
  exact absurd (h ⟨Vec2.ofRat 0 1, 3, 0, 2, -1, false, 3⟩ (by simp [unitSquareMonotones]))
    (by decide)

/-! ## Orientation and folding: the notched hexagon -/

set_option maxRecDepth 100000 in
theorem notched_decomposer :
    Monotones.Monotones sampleTags notched = .error .didNotFinishWithEnd := by decide!

set_option maxRecDepth 100000 in
theorem notched_backup : TriangulateBackup sampleTags notched = .ok notchedTriangles := by
  decide!

theorem notched_Triangulate (garbage : Nat → Bool) :
    Triangulate sampleTags garbage notched = .ok notchedTriangles := by
  have hp : TriangulatePrimary sampleTags garbage notched = .error .didNotFinishWithEnd := by
    simp [TriangulatePrimary, PrimaryTriangulate, notched_decomposer, bind, Except.bind]
  simp [Triangulate, hp, notched_backup]

set_option maxRecDepth 100000 in
/-- C13: the notched hexagon is simple and counter-clockwise; the decomposer
fails on it with "did not finish with an END", `Triangulate` returns the
triangles of the backup triangulator, and the second of them, `(5, 1, 2)`, is
clockwise: its `CCW` is `-1`. -/
theorem Triangulate_clockwise (garbage : Nat → Bool) :
    simplePolygon notchedPts = true ∧ 0 < area2 notchedPts ∧
      Monotones.Monotones sampleTags notched = .error .didNotFinishWithEnd ∧
      Triangulate sampleTags garbage notched = .ok notchedTriangles ∧
      notchedTriangles.map
        (fun t => CCW (posOf notched t.x) (posOf notched t.y) (posOf notched t.z)) =
          [1, -1, 0, 1] :=
  ⟨by decide!, by decide!, notched_decomposer, notched_Triangulate garbage, by decide!⟩

set_option maxRecDepth 100000 in
/-- C14: on the notched hexagon, which is simple, `Triangulate` returns
triangles on which `CheckFolded` fails with "Triangulation is folded!". -/
theorem CheckFolded_notched (garbage : Nat → Bool) :
    simplePolygon notchedPts = true ∧
      Triangulate sampleTags garbage notched = .ok notchedTriangles ∧
      CheckFolded notchedTriangles notched = .error .folded :=
  ⟨by decide!, notched_Triangulate garbage, by decide!⟩

set_option maxRecDepth 100000 in
/-- The defect behind the failure on the notched hexagon. After the events of
the vertices 3, 1 and 2 the triangle 3, 1, 2 is closed, yet at vertex 5 the
search for the edge to the left returns the helper 3 on that triangle, because
vertex 2 got `END` and is not processed; with vertex 2 marked it returns the
copy 7 of vertex 1, which lies on the edge towards `(1,6)`. -/
theorem notched_helper :
    Monotones.sweepEvents
        (((Monotones.initSweepLine (Monotones.initVerts notched [])).insertionSort
          (fun a b => Monotones.tupleLt b a = false)).take 3) 0
        (Monotones.initVerts notched []) = .ok (notchedSwept, [.START, .SPLIT, .END]) ∧
      Monotones.PositiveExteriorHelper notchedSwept 5 = .ok 3 ∧
      (modifyI notchedSwept 2 (fun v => { v with across := 2 }) >>=
        fun m => Monotones.PositiveExteriorHelper m 5) = .ok 7 := by
  decide!

set_option maxRecDepth 100000 in
theorem tied_primary : TriangulatePrimary sampleTags garbageFalse tied = .ok tiedTriangles := by
  decide!

set_option maxRecDepth 100000 in
/-- A second way to a clockwise triangle, on the primary path itself. The
hexagon `tied` is simple and counter-clockwise and has three corners at the
same height; the primary triangulator succeeds on it and its third triangle,
`(4, 5, 2)`, is clockwise. -/
theorem tied_primary_clockwise (garbage : Nat → Bool) :
    simplePolygon tiedPts = true ∧ 0 < area2 tiedPts ∧
      Triangulate sampleTags garbage tied = .ok tiedTriangles ∧
      tiedTriangles.map (fun t => CCW (posOf tied t.x) (posOf tied t.y) (posOf tied t.z)) =
        [0, 1, -1, 1] := by
  refine ⟨by decide!, by decide!, ?_, by decide!⟩
  have h : TriangulatePrimary sampleTags garbage tied = .ok tiedTriangles := by
    have := tied_primary
    simp only [TriangulatePrimary] at this ⊢
    rw [PrimaryTriangulate_garbage sampleTags garbage garbageFalse tied]
    exact this
  simp [Triangulate, h]

/-! ## Monotone decomposer: the last event -/
/-- The sweep loop returns what `sweepEvents` returns, with the last of the
events, or with the initial value of `v_type` when there is none. -/
theorem Monotones.sweep_of_events (sl : List (F32 × Int)) :
    ∀ (i : Int) (m : Monotones.Verts) (vt : VertType) (m1 : Monotones.Verts)
      (evs : List VertType),
      Monotones.sweepEvents sl i m = .ok (m1, evs) →
      ∃ vt1, Monotones.sweep sl i m vt = .ok (m1, vt1) ∧ (vt :: evs).getLast? = some vt1 := by
  induction sl with
  | nil =>
    intro i m vt m1 evs h
    simp only [Monotones.sweepEvents, Except.ok.injEq, Prod.mk.injEq] at h
    obtain ⟨rfl, rfl⟩ := h
    exact ⟨vt, rfl, rfl⟩
  | cons a rest ih =>
    intro i m vt m1 evs h
    obtain ⟨y, idx⟩ := a
    simp only [Monotones.sweepEvents] at h
    cases h2 : modifyI m idx (fun v => { v with sweep_order := i }) with
    | error e => simp [h2] at h
    | ok m2 =>
      simp only [h2] at h
      cases h3 : Monotones.ProcessVert m2 idx with
      | error e => simp [h3] at h
      | ok r =>
        obtain ⟨m3, vt3⟩ := r
        simp only [h3] at h
        cases h4 : Monotones.sweepEvents rest (i + 1) m3 with
        | error e => simp [h4] at h
        | ok r2 =>
          obtain ⟨m4, l⟩ := r2
          simp only [h4, Except.ok.injEq, Prod.mk.injEq] at h
          obtain ⟨rfl, rfl⟩ := h
          obtain ⟨vt1, hs, hl⟩ := ih (i + 1) m3 vt3 _ _ h4
          refine ⟨vt1, by simp [Monotones.sweep, h2, h3, hs], ?_⟩
          rw [List.getLast?_cons_cons]
          exact hl

/-- C20: the constructor returns a buffer only if the events of the sweep end
with `END`, which `ProcessVert` returned for the last vertex of the sweep line;
when the sweep returns and its events do not end with `END` (there may be
none), the constructor fails with a logic error, and so it does on the empty
polygon set, where no vertex is processed. -/
theorem Monotones_finish_END (K : Edge) (polys : Polygons) :
    (∀ m, Monotones.Monotones K polys = .ok m →
      (∃ evs,
        Monotones.sweepEvents
          ((Monotones.initSweepLine (Monotones.initVerts polys [])).insertionSort
            (fun a b => Monotones.tupleLt b a = false)) 0 (Monotones.initVerts polys []) =
              .ok (m, evs) ∧
        evs.getLast? = some .END) ∧
      ∃ y idx m2,
        ((Monotones.initSweepLine (Monotones.initVerts polys [])).insertionSort
          (fun a b => Monotones.tupleLt b a = false)).getLast? = some (y, idx) ∧
        Monotones.ProcessVert m2 idx = .ok (m, .END)) ∧
      (∀ m evs,
        Monotones.sweepEvents
          ((Monotones.initSweepLine (Monotones.initVerts polys [])).insertionSort
            (fun a b => Monotones.tupleLt b a = false)) 0 (Monotones.initVerts polys []) =
              .ok (m, evs) →
        evs.getLast? ≠ some .END →
        ∃ e, e.isLogic = true ∧ Monotones.Monotones K polys = .error e) ∧
      Monotones.Monotones K [] = .error .didNotFinishWithEnd := by
  refine ⟨?_, ?_, rfl⟩
  · intro m hm
    rcases Monotones.Monotones_cases K polys with ⟨_, h⟩ | ⟨m1, vt, hs, _, ⟨_, h⟩ | ⟨_, _, h⟩ |
      ⟨_, hv, h⟩⟩
    · rw [h] at hm
      cases hm
    · rw [h] at hm
      cases hm
    · rw [h] at hm
      cases hm
    · rw [h] at hm
      cases hm
      subst hv
      constructor
      · obtain ⟨evs, he, _, hlast⟩ := Monotones.sweep_events _ _ _ _ _ _ hs
        refine ⟨evs, he, ?_⟩
        cases evs with
        | nil => simp at hlast
        | cons a l =>
          rw [List.getLast?_cons_cons] at hlast
          exact hlast
      · rcases Monotones.sweep_last _ _ _ _ _ _ hs with ⟨_, _, e⟩ | h
        · cases e
        · exact h
  · intro m evs he hv
    obtain ⟨vt, hs, hl⟩ := Monotones.sweep_of_events _ 0 _ .START _ _ he
    have hvt : vt ≠ .END := by
      intro e
      subst e
      cases evs with
      | nil => simp at hl
      | cons a l =>
        rw [List.getLast?_cons_cons] at hl
        exact hv hl
    rcases Monotones.Monotones_cases K polys with ⟨h, _⟩ | ⟨m1, vt1, hs1, _, ⟨_, h⟩ | ⟨_, _, h⟩ |
      ⟨_, hv1, _⟩⟩
    · rw [h] at hs
      cases hs
    · exact ⟨.twoEdgeMonotone, rfl, h⟩
    · exact ⟨.didNotFinishWithEnd, rfl, h⟩
    · rw [hs1] at hs
      cases hs
      exact absurd hv1 hvt

/-! ## The two-peaks polygon -/

set_option maxRecDepth 100000 in
theorem twoPeaks_primary :
    TriangulatePrimary sampleTags garbageFalse twoPeaks = .ok twoPeaksTriangles := by
  decide!

set_option maxRecDepth 100000 in
/-- C23: on the two-peaks polygon the sweep visits the vertices in the order
`0, 1, 3, 5, 2, 4, 6` and classifies both `(3,2)` (vertex 3) and `(1,2)`
(vertex 5) as `SPLIT`; each is resolved by `Duplicate` of its helper (vertex 0,
then vertex 3) followed by `SplitVerts`, which leaves the copies `7, 8, 9, 10`
of the vertices `0, 3, 3, 5`. The construction succeeds and the triangulation,
five triangles, passes `CheckManifold`. -/
theorem twoPeaks_split (garbage : Nat → Bool) :
    ((Monotones.initSweepLine (Monotones.initVerts twoPeaks [])).insertionSort
        (fun a b => Monotones.tupleLt b a = false)).map Prod.snd = [0, 1, 3, 5, 2, 4, 6] ∧
      (Prod.snd <$> Monotones.sweepEvents
        ((Monotones.initSweepLine (Monotones.initVerts twoPeaks [])).insertionSort
          (fun a b => Monotones.tupleLt b a = false)) 0 (Monotones.initVerts twoPeaks [])) =
        .ok [.START, .RIGHTWARDS, .SPLIT, .SPLIT, .END, .END, .END] ∧
      (Monotones.sweepEvents
          (((Monotones.initSweepLine (Monotones.initVerts twoPeaks [])).insertionSort
            (fun a b => Monotones.tupleLt b a = false)).take 2) 0
          (Monotones.initVerts twoPeaks []) >>= fun r =>
        modifyI r.1 3 (fun v => { v with sweep_order := 2 }) >>= fun m =>
        pure (decide (Monotones.ProcessVert m 3 = splitByDuplicate m 3 0))) = .ok true ∧
      (Monotones.sweepEvents
          (((Monotones.initSweepLine (Monotones.initVerts twoPeaks [])).insertionSort
            (fun a b => Monotones.tupleLt b a = false)).take 3) 0
          (Monotones.initVerts twoPeaks []) >>= fun r =>
        modifyI r.1 5 (fun v => { v with sweep_order := 3 }) >>= fun m =>
        pure (decide (Monotones.ProcessVert m 5 = splitByDuplicate m 5 3))) = .ok true ∧
      ((fun m => (m.drop 7).map (fun v => v.mesh_idx)) <$>
        Monotones.Monotones sampleTags twoPeaks) = .ok [0, 3, 3, 5] ∧
      Triangulate sampleTags garbage twoPeaks = .ok twoPeaksTriangles ∧
      CheckManifoldTP sampleTags twoPeaksTriangles twoPeaks = .ok () := by
  refine ⟨by decide!, by decide!, by decide!, by decide!, by decide!, ?_, by decide!⟩
  have h : TriangulatePrimary sampleTags garbage twoPeaks = .ok twoPeaksTriangles := by
    have := twoPeaks_primary
    simp only [TriangulatePrimary] at this ⊢
    rw [PrimaryTriangulate_garbage sampleTags garbage garbageFalse twoPeaks]
    exact this
  simp [Triangulate, h]

set_option maxRecDepth 100000 in
theorem twoPeaks_split_counterexample :
    (Prod.snd <$> Monotones.sweepEvents
        ((Monotones.initSweepLine (Monotones.initVerts twoPeaks [])).insertionSort
          (fun a b => Monotones.tupleLt b a = false)) 0 (Monotones.initVerts twoPeaks [])) =
        .ok [.START, .RIGHTWARDS, .SPLIT, .SPLIT, .END, .END, .END] ∧
      VertType.MERGE ∉
        [VertType.START, .RIGHTWARDS, .SPLIT, .SPLIT, .END, .END, .END] := by
  refine ⟨by decide!, by decide⟩

/-! ## Monotone triangulator: a triangulator that holds only its seed -/

/-- C28: a triangulator that holds only its seed `o`, which is in the buffer,
does the same for both values of its unassigned `onRight_`: it rejects `v`,
staying as it is, when `v` is neither the left nor the right neighbour of the
seed; otherwise it accepts `v`, pushes it, emits no triangle and sets
`onRight_` to `left[v] == o`. Hence `TriangulateMonotones` does not depend on
the values that the unassigned members hold. -/
theorem Triangulator.ProcessVert_seed (m : List VertAdj) (o : Int) (so : VertAdj)
    (ho : getI m o = .ok so) (v : Int) (T : List IVec3) :
    (∀ b : Bool, so.left ≠ v → so.right ≠ v →
        Triangulator.ProcessVert m (Triangulator.new o b) v T =
          .ok (false, Triangulator.new o b, T)) ∧
      (∀ (b : Bool) (sv : VertAdj), so.left = v ∨ so.right = v → getI m v = .ok sv →
        Triangulator.ProcessVert m (Triangulator.new o b) v T =
          .ok (true, ⟨[v, o], o, 0, decide (sv.left = o)⟩, T)) ∧
      (∀ (b : Bool) (e : Err), so.left = v ∨ so.right = v → getI m v = .error e →
        Triangulator.ProcessVert m (Triangulator.new o b) v T = .error e) ∧
      ∀ (g1 g2 : Nat → Bool) (T0 : List IVec3),
        TriangulateMonotones g1 m T0 = TriangulateMonotones g2 m T0 := by
  refine ⟨?_, ?_, ?_, fun g1 g2 T0 => TriangulateMonotones_garbage g1 g2 m T0⟩
  · intro b hl hr
    cases b <;>
      simp [Triangulator.ProcessVert, Triangulator.new, Triangulator.Attached,
        Triangulator.GetOther, Triangulator.GetTop, Triangulator.top, ho, hl, hr, bind,
        Except.bind, pure, Except.pure]
  · intro b sv h hv
    by_cases hl : so.left = v <;> by_cases hr : so.right = v
    · cases b <;>
        simp [Triangulator.ProcessVert, Triangulator.new, Triangulator.Attached,
          Triangulator.GetOther, Triangulator.GetTop, Triangulator.top, ho, hv, hl, hr, bind,
          Except.bind, pure, Except.pure]
    · cases b <;>
        simp [Triangulator.ProcessVert, Triangulator.new, Triangulator.Attached,
          Triangulator.GetOther, Triangulator.GetTop, Triangulator.top, ho, hv, hl, hr, bind,
          Except.bind, pure, Except.pure]
    · cases b <;>
        simp [Triangulator.ProcessVert, Triangulator.new, Triangulator.Attached,
          Triangulator.GetOther, Triangulator.GetTop, Triangulator.top, ho, hv, hl, hr, bind,
          Except.bind, pure, Except.pure]
    · rcases h with h | h
      · exact absurd h hl
      · exact absurd h hr
  · intro b e h hv
    by_cases hl : so.left = v <;> by_cases hr : so.right = v
    · cases b <;>
        simp [Triangulator.ProcessVert, Triangulator.new, Triangulator.Attached,
          Triangulator.GetOther, Triangulator.GetTop, Triangulator.top, ho, hv, hl, hr, bind,
          Except.bind, pure, Except.pure]
    · cases b <;>
        simp [Triangulator.ProcessVert, Triangulator.new, Triangulator.Attached,
          Triangulator.GetOther, Triangulator.GetTop, Triangulator.top, ho, hv, hl, hr, bind,
          Except.bind, pure, Except.pure]
    · cases b <;>
        simp [Triangulator.ProcessVert, Triangulator.new, Triangulator.Attached,
          Triangulator.GetOther, Triangulator.GetTop, Triangulator.top, ho, hv, hl, hr, bind,
          Except.bind, pure, Except.pure]
    · rcases h with h | h
      · exact absurd h hl
      · exact absurd h hr

/-- C28 at the buffer of the unit square, the seed being vertex 0 and the
vertex offered its right neighbour 1. -/
theorem Triangulator.ProcessVert_seed_witness :
    getI unitSquareMonotones 0 = .ok ⟨Vec2.ofRat 0 0, 0, 1, 3, 2, false, 0⟩ ∧
      (∀ b : Bool, (3 : Int) ≠ 1 → (1 : Int) ≠ 1 →
        Triangulator.ProcessVert unitSquareMonotones (Triangulator.new 0 b) 1 [] =
          .ok (false, Triangulator.new 0 b, [])) ∧
      (∀ (b : Bool) (sv : VertAdj), (3 : Int) = 1 ∨ (1 : Int) = 1 →
        getI unitSquareMonotones 1 = .ok sv →
        Triangulator.ProcessVert unitSquareMonotones (Triangulator.new 0 b) 1 [] =
          .ok (true, ⟨[1, 0], 0, 0, decide (sv.left = 0)⟩, [])) ∧
      (∀ (b : Bool) (e : Err), (3 : Int) = 1 ∨ (1 : Int) = 1 →
        getI unitSquareMonotones 1 = .error e →
        Triangulator.ProcessVert unitSquareMonotones (Triangulator.new 0 b) 1 [] = .error e) ∧
      ∀ (g1 g2 : Nat → Bool) (T0 : List IVec3),
        TriangulateMonotones g1 unitSquareMonotones T0 =
          TriangulateMonotones g2 unitSquareMonotones T0 :=
  ⟨rfl, Triangulator.ProcessVert_seed unitSquareMonotones 0 _ rfl 1 []⟩

/-! ## Monotone triangulator: the same-chain loop -/

theorem Vec2.isFinite_iff (p : Vec2) : p.isFinite = true ↔ ∃ x y, p = Vec2.ofRat x y := by
  rcases p with ⟨x, y⟩
  cases x <;> cases y <;> simp [Vec2.isFinite, Vec2.ofRat]

theorem CCW_range (p0 p1 p2 : Vec2) : CCW p0 p1 p2 = -1 ∨ CCW p0 p1 p2 = 0 ∨ CCW p0 p1 p2 = 1 := by
  simp only [CCW]
  split_ifs <;> simp

theorem Triangulator.sameChain_spec (m : List VertAdj) (vi : VertAdj) (onRight : Bool) :
    ∀ (vs : List VertAdj) (chain : List Int) (v_top_idx : Int) (v_top : VertAdj)
      (T : List IVec3) (n : Int),
      List.Forall₂ (fun j v => getI m j = .ok v) chain vs →
      ∃ r, Triangulator.sameChain m vi onRight chain v_top_idx v_top (vs.headD vi) T n = .ok r ∧
        r.v_top_idx :: r.chain =
          (v_top_idx :: chain).drop (sameChainEmitted onRight vi v_top vs).length ∧
        r.triangles = T ++ (sameChainEmitted onRight vi v_top vs).map
            (fun p => meshTriangle (emittedOrder onRight vi p)) ∧
        r.triangles_output = n + (sameChainEmitted onRight vi v_top vs).length := by
  intro vs
  induction vs with
  | nil =>
    intro chain v_top_idx v_top T n h
    cases h
    simp [Triangulator.sameChain, sameChainEmitted, chainPairs]
  | cons vj vs ih =>
    intro chain v_top_idx v_top T n h
    cases h with
    | cons hj hrest =>
      rename_i vj_idx rest
      have hE : sameChainEmitted onRight vi v_top (vj :: vs) =
          if emitWhile onRight vi vj v_top then (vj, v_top) :: sameChainEmitted onRight vi vj vs
          else [] := by
        simp [sameChainEmitted, chainPairs, List.takeWhile_cons]
      obtain ⟨r, hr, h1, h2, h3⟩ := ih rest vj_idx vj
        (T ++ [Triangulator.AddTriangle onRight vi.mesh_idx vj.mesh_idx v_top.mesh_idx]) (n + 1)
        hrest
      unfold Triangulator.sameChain
      rw [hE]
      by_cases ht : emitWhile onRight vi vj v_top = true
      · have ht1 : (CCW vi.pos vj.pos v_top.pos != (if onRight then -1 else 1)) = true := ht
        simp only [List.headD_cons, ht1, if_true, ht]
        have hT : Triangulator.AddTriangle onRight vi.mesh_idx vj.mesh_idx v_top.mesh_idx =
            meshTriangle (emittedOrder onRight vi (vj, v_top)) := by
          cases onRight <;> simp [Triangulator.AddTriangle, meshTriangle, emittedOrder]
        have hfin : r.v_top_idx :: r.chain =
              (v_top_idx :: vj_idx :: rest).drop
                ((vj, v_top) :: sameChainEmitted onRight vi vj vs).length ∧
            r.triangles = T ++ ((vj, v_top) :: sameChainEmitted onRight vi vj vs).map
              (fun p => meshTriangle (emittedOrder onRight vi p)) ∧
            r.triangles_output =
              n + (((vj, v_top) :: sameChainEmitted onRight vi vj vs).length : Int) := by
          refine ⟨?_, ?_, ?_⟩
          · rw [h1]; simp
          · rw [h2, hT]; simp
          · rw [h3]; simp [add_assoc, add_comm]
        cases hrest with
        | nil =>
          simp only [Triangulator.sameChain, List.headD_nil, Except.ok.injEq] at hr
          exact ⟨r, by rw [← hr], hfin⟩
        | cons hj1 hrest1 =>
          simp only [hj1]
          simp only [List.headD_cons] at hr
          exact ⟨r, hr, hfin⟩
      · have ht0 : emitWhile onRight vi vj v_top = false := by simpa using ht
        have ht1 : (CCW vi.pos vj.pos v_top.pos != (if onRight then -1 else 1)) = false := ht0
        simp [ht1, ht0]

/-- On the right chain the test of the loop is the orientation of the emitted
triangle; on the left chain it is so for finite positions. -/
theorem emitWhile_orientation (onRight : Bool) (vi vj v_top : VertAdj)
    (h : emitWhile onRight vi vj v_top = true)
    (hf : onRight = true ∨
      (vi.pos.isFinite = true ∧ vj.pos.isFinite = true ∧ v_top.pos.isFinite = true)) :
    0 ≤ CCW (emittedOrder onRight vi (vj, v_top)).1.pos
      (emittedOrder onRight vi (vj, v_top)).2.1.pos
      (emittedOrder onRight vi (vj, v_top)).2.2.pos := by
  cases onRight with
  | true =>
    simp only [emitWhile, if_true, bne_iff_ne, ne_eq] at h
    simp only [emittedOrder, if_true]
    rcases CCW_range vi.pos vj.pos v_top.pos with h1 | h1 | h1
    · exact absurd h1 h
    · omega
    · omega
  | false =>
    rcases hf with hf | ⟨h0, h1, h2⟩
    · exact absurd hf (by decide)
    · obtain ⟨x0, y0, e0⟩ := (Vec2.isFinite_iff _).1 h0
      obtain ⟨x1, y1, e1⟩ := (Vec2.isFinite_iff _).1 h1
      obtain ⟨x2, y2, e2⟩ := (Vec2.isFinite_iff _).1 h2
      simp only [emitWhile, Bool.false_eq_true, if_false, bne_iff_ne, ne_eq] at h
      simp only [emittedOrder, Bool.false_eq_true, if_false]
      rw [e0, e1, e2] at h ⊢
      have ha := CCW_antisymm x0 y0 x2 y2 x1 y1
      rcases CCW_range (Vec2.ofRat x0 y0) (Vec2.ofRat x1 y1) (Vec2.ofRat x2 y2) with h3 | h3 | h3
      · omega
      · omega
      · exact absurd h3 h

/-- The result of the same-chain case of `ProcessVert`, on a reflex chain whose
entries can be read. -/
theorem Triangulator.ProcessVert_sameChain_eq (m : List VertAdj) (t : Triangulator)
    (vi_idx : Int) (T : List IVec3) (vi v_top : VertAdj) (v_top_idx : Int) (chain : List Int)
    (vs : List VertAdj)
    (hA : Triangulator.Attached m t vi_idx = .ok 1)
    (hi : getI m vi_idx = .ok vi)
    (hc : t.reflex_chain_ = v_top_idx :: chain) (hne : chain ≠ [])
    (htop : getI m v_top_idx = .ok v_top)
    (hvs : List.Forall₂ (fun j v => getI m j = .ok v) chain vs) :
    Triangulator.ProcessVert m t vi_idx T =
      .ok (true,
        { t with
          reflex_chain_ :=
            vi_idx :: (v_top_idx :: chain).drop (sameChainEmitted t.onRight_ vi v_top vs).length
          triangles_output :=
            t.triangles_output + (sameChainEmitted t.onRight_ vi v_top vs).length },
        T ++ (sameChainEmitted t.onRight_ vi v_top vs).map
          (fun p => meshTriangle (emittedOrder t.onRight_ vi p))) := by
  obtain ⟨r, hr, h1, h2, h3⟩ := Triangulator.sameChain_spec m vi t.onRight_ vs chain v_top_idx
    v_top T t.triangles_output hvs
  cases hvs with
  | nil => exact absurd rfl hne
  | cons hj hrest =>
    rename_i vj_idx vj rest vs1
    simp only [List.headD_cons] at hr
    simp [Triangulator.ProcessVert, hA, hi, Triangulator.top, hc, htop, hj, hr, bind, Except.bind,
      pure, Except.pure, h1, h2, h3]

theorem sameChainEmitted_mem (onRight : Bool) (vi v_top : VertAdj) (vs : List VertAdj)
    (p : VertAdj × VertAdj) (h : p ∈ sameChainEmitted onRight vi v_top vs) :
    emitWhile onRight vi p.1 p.2 = true ∧ p.1 ∈ vs ∧ p.2 ∈ v_top :: vs := by
  have h1 := List.mem_takeWhile_imp h
  have h2 : p ∈ chainPairs v_top vs := (List.takeWhile_sublist _).subset h
  have h3 := List.of_mem_zip (show (p.1, p.2) ∈ vs.zip (v_top :: vs) from h2)
  exact ⟨h1, h3.1, h3.2⟩

/-! ## Monotone triangulator: the same-chain case -/

/-- Without rounding: the result of the same-chain case of
`Triangulator::ProcessVert`, and `CCW ≥ 0` in emitted order on the right chain
and, for finite positions, on the left chain. -/
theorem Triangulator.ProcessVert_sameChain_exact (m : List VertAdj) (t : Triangulator)
    (vi_idx : Int) (T : List IVec3) (vi v_top : VertAdj) (v_top_idx : Int) (chain : List Int)
    (vs : List VertAdj)
    (hA : Triangulator.Attached m t vi_idx = .ok 1)
    (hi : getI m vi_idx = .ok vi)
    (hc : t.reflex_chain_ = v_top_idx :: chain) (hne : chain ≠ [])
    (htop : getI m v_top_idx = .ok v_top)
    (hvs : List.Forall₂ (fun j v => getI m j = .ok v) chain vs) :
    Triangulator.ProcessVert m t vi_idx T =
        .ok (true,
          { t with
            reflex_chain_ :=
              vi_idx ::
                (v_top_idx :: chain).drop (sameChainEmitted t.onRight_ vi v_top vs).length
            triangles_output :=
              t.triangles_output + (sameChainEmitted t.onRight_ vi v_top vs).length },
          T ++ (sameChainEmitted t.onRight_ vi v_top vs).map
            (fun p => meshTriangle (emittedOrder t.onRight_ vi p))) ∧
      ((t.onRight_ = true ∨
          (vi.pos.isFinite = true ∧ ∀ v ∈ v_top :: vs, v.pos.isFinite = true)) →
        ∀ p ∈ sameChainEmitted t.onRight_ vi v_top vs,
          0 ≤ CCW (emittedOrder t.onRight_ vi p).1.pos (emittedOrder t.onRight_ vi p).2.1.pos
            (emittedOrder t.onRight_ vi p).2.2.pos) := by
  refine ⟨Triangulator.ProcessVert_sameChain_eq m t vi_idx T vi v_top v_top_idx chain vs hA hi hc
    hne htop hvs, ?_⟩
  intro hf p hp
  obtain ⟨h1, h2, h3⟩ := sameChainEmitted_mem _ _ _ _ _ hp
  refine emitWhile_orientation t.onRight_ vi p.1 p.2 h1 ?_
  rcases hf with hf | ⟨h0, hall⟩
  · exact Or.inl hf
  · exact Or.inr ⟨h0, hall _ (List.mem_cons_of_mem _ h2), hall _ h3⟩

/-! ## Backup triangulator: termination and the number of passes -/

/-- A pass of the loop of `BackupTriangulate` between the cursors stays inside
the polygon: the advance reads positions between them. -/
theorem BackupAdvance_ok {poly : SimplePolygon} {st : BackupState} {s e : Nat}
    {T : List IVec3} (hc : Corr poly st s e T) (hgap : s + 2 ≤ e) :
    ∃ st2, BackupAdvance poly st = .ok st2 := by
  have hlow := hc.low
  have hhigh := hc.high
  unfold BackupAdvance
  cases hf : st.forward with
  | true =>
    obtain ⟨hs1, he, ht⟩ := hc.fwd hf
    have h2 : Prev (e : Int) (poly.length : Int) = ((e - 1 : Nat) : Int) := Prev_eq (by omega)
    have h3 : Prev ((e - 1 : Nat) : Int) (poly.length : Int) = ((e - 1 - 1 : Nat) : Int) :=
      Prev_eq (by omega)
    obtain ⟨c, hc1, _⟩ := @getI_vid poly (e - 1) (by omega)
    obtain ⟨ee, hee⟩ := @edgePair_ok poly (e - 1 - 1) (e - 1) (by omega) (by omega)
    simp only [Bool.not_true, Bool.false_eq_true, if_false, he, h2, h3, hee, hc1]
    exact ⟨_, rfl⟩
  | false =>
    obtain ⟨hs1, he, ht⟩ := hc.bwd hf
    have h1 : Next (s : Int) (poly.length : Int) = ((s + 1 : Nat) : Int) := Next_eq (by omega)
    have h3 : Prev ((s + 1 : Nat) : Int) (poly.length : Int) = ((s + 1 - 1 : Nat) : Int) :=
      Prev_eq (by omega)
    obtain ⟨c, hc1, _⟩ := @getI_vid poly (s + 1) (by omega)
    obtain ⟨se, hse⟩ := @edgePair_ok poly (s + 1 - 1) (s + 1) (by omega) (by omega)
    simp only [Bool.not_false, if_true, hs1, h1, h3, hse, hc1]
    exact ⟨_, rfl⟩

/-- The shared-edge block between the cursors stays inside the polygon. -/
theorem BackupSwitch_ok {poly : SimplePolygon} {st : BackupState} {s e : Nat}
    {T : List IVec3} (hc : Corr poly st s e T) (hgap : s + 2 ≤ e) :
    ∃ st1, BackupSwitch poly st = .ok st1 := by
  have hlow := hc.low
  have hhigh := hc.high
  unfold BackupSwitch
  cases hf : st.forward with
  | true =>
    obtain ⟨hs1, he, ht⟩ := hc.fwd hf
    have h1 : Prev ((s : Int) + 1) (poly.length : Int) = ((s : Nat) : Int) := by
      have := Prev_eq (i := s + 1) (n := poly.length) (by omega)
      simpa using this
    have h2 : Prev (e : Int) (poly.length : Int) = ((e - 1 : Nat) : Int) := Prev_eq (by omega)
    obtain ⟨c, hc1, _⟩ := @getI_vid poly (e - 1) (by omega)
    obtain ⟨se, hse⟩ := @edgePair_ok poly (s - 1) s (by omega) (by omega)
    obtain ⟨ee, hee⟩ := @edgePair_ok poly (e - 1 - 1) (e - 1) (by omega) (by omega)
    have hs2 : ((s : Int) - 1) = ((s - 1 : Nat) : Int) := by omega
    have he2 : (((e - 1 : Nat) : Int) - 1) = ((e - 1 - 1 : Nat) : Int) := by omega
    simp only [if_true, hs1, he, h1, h2, hc1, hs2, he2, hse, hee]
    exact ⟨_, rfl⟩
  | false =>
    obtain ⟨hs1, he, ht⟩ := hc.bwd hf
    have h1 : Next (s : Int) (poly.length : Int) = ((s + 1 : Nat) : Int) := Next_eq (by omega)
    have h2 : Next ((e : Int) - 1) (poly.length : Int) = ((e : Nat) : Int) := by
      have := Next_eq (i := e - 1) (n := poly.length) (by omega)
      have h3 : (((e - 1 : Nat) : Int)) = (e : Int) - 1 := by omega
      rw [h3] at this
      rw [this]
      omega
    obtain ⟨c, hc1, _⟩ := @getI_vid poly (s + 1) (by omega)
    obtain ⟨se, hse⟩ := @edgePair_ok poly s (s + 1) (by omega) (by omega)
    obtain ⟨ee, hee⟩ := @edgePair_ok poly (e - 1) e (by omega) (by omega)
    have hs2 : (((s + 1 : Nat) : Int) - 1) = ((s : Nat) : Int) := by omega
    have he2 : ((e : Int) - 1) = ((e - 1 : Nat) : Int) := by omega
    simp only [Bool.false_eq_true, if_false, hs1, he, h1, h2, hc1, hs2, hse]
    rw [he2, hee]
    exact ⟨_, rfl⟩

/-- The loop of `BackupTriangulate` returns, with any edge tags, once the fuel
covers the distance between the cursors: every pass stays inside the polygon
and moves one cursor towards the other. -/
theorem BackupLoop_ok (K : Edge) (poly : SimplePolygon) :
    ∀ (fuel : Nat) (st : BackupState) (s e : Nat) (T : List IVec3),
      Corr poly st s e T → e ≤ s + fuel → ∃ T1, BackupLoop K poly fuel st = some (.ok T1) := by
  intro fuel
  induction fuel with
  | zero => intro st s e T hc h; have := hc.lt; omega
  | succ fuel ih =>
    intro st s e T hc hfuel
    unfold BackupLoop
    by_cases hstop : st.start = st.stop
    · exact ⟨st.triangles, by simp [hstop]⟩
    · have hgap : s + 2 ≤ e := by
        have hlt := hc.lt
        cases hf : st.forward with
        | true =>
          obtain ⟨hs1, he, _⟩ := hc.fwd hf
          rw [hs1, he] at hstop
          omega
        | false =>
          obtain ⟨hs1, he, _⟩ := hc.bwd hf
          rw [hs1, he] at hstop
          omega
      simp only [hstop, if_false]
      have hsw : ∃ st1, (if SharedEdge K st.startEdges st.endEdges then BackupSwitch poly st
          else .ok st) = .ok st1 ∧ Corr poly st1 s e T := by
        split_ifs
        · obtain ⟨st1, h1⟩ := BackupSwitch_ok hc hgap
          exact ⟨st1, h1, (BackupSwitch_corr hc hgap h1).1⟩
        · exact ⟨st, rfl, hc⟩
      obtain ⟨st1, hs1, hc1⟩ := hsw
      obtain ⟨st2, hs2⟩ := BackupAdvance_ok hc1 hgap
      simp only [hs1, hs2]
      have hadv := BackupAdvance_corr hc1 hgap hs2
      cases hf : st1.forward with
      | true => exact ih st2 (s + 1) e _ (hadv.1 hf) (by omega)
      | false => exact ih st2 s (e - 1) _ (hadv.2 hf) (by omega)

/-- The body of the loop over the polygons, on a polygon of three or more
vertices: when the first pass finds a shared edge it switches sides and reads
`poly[-1]`; otherwise it returns. -/
theorem BackupPoly_first (K : Edge) (poly : SimplePolygon) (h3 : 3 ≤ poly.length)
    (T0 : List IVec3) :
    (firstShared K poly = true → BackupPoly K poly T0 = some (.error .undefined)) ∧
      (firstShared K poly = false → ∃ T1, BackupPoly K poly T0 = some (.ok T1)) := by
  unfold BackupPoly firstShared
  have hn : ¬ poly.length < 3 := by omega
  simp only [hn, if_false]
  have hstopc : ((poly.length : Int) - 1) = ((poly.length - 1 : Nat) : Int) := by omega
  have h1c : (1 : Int) = ((1 : Nat) : Int) := rfl
  have h0c : (0 : Int) = ((0 : Nat) : Int) := rfl
  obtain ⟨pe, hpe, hpe1⟩ := @getI_vid poly (poly.length - 1) (by omega)
  obtain ⟨p0, hp0, hp01⟩ := @getI_vid poly (0) (by omega)
  obtain ⟨p1, hp1, hp11⟩ := @getI_vid poly (1) (by omega)
  obtain ⟨p2, hp2, hp21⟩ := @getI_vid poly (2) (by omega)
  obtain ⟨se, hse⟩ := @edgePair_ok poly (0) (1) (by omega) (by omega)
  obtain ⟨ee, hee⟩ := @edgePair_ok poly (poly.length - 2)
    (poly.length - 1) (by omega) (by omega)
  have hee1 : edgePair poly ((poly.length : Int) - 1 - 1) ((poly.length : Int) - 1) = .ok ee := by
    have : ((poly.length : Int) - 1 - 1) = ((poly.length - 2 : Nat) : Int) := by omega
    rw [this, hstopc]
    exact hee
  have hee2 : edgePair poly ((poly.length : Int) - 2) ((poly.length : Int) - 1) = .ok ee := by
    have : ((poly.length : Int) - 2) = ((poly.length - 2 : Nat) : Int) := by omega
    rw [this, hstopc]
    exact hee
  have hse1 : edgePair poly ((1 : Int) - 1) 1 = .ok se := by
    have : ((1 : Int) - 1) = ((0 : Nat) : Int) := by omega
    rw [this, h1c]
    exact hse
  have hse2 : edgePair poly 0 1 = .ok se := hse1
  rw [hse2, hee2, hstopc, hpe, h0c, hp0, h1c, hp1, ← h1c, hse1, ← hstopc, hee1]
  simp only
  have hfuel : ∀ st, BackupLoop K poly poly.length st =
      BackupLoop K poly ((poly.length - 1) + 1) st := by
    intro st
    congr 1
    omega
  rw [hfuel]
  unfold BackupLoop
  have hne : ¬ ((1 : Int) = (poly.length : Int) - 1) := by omega
  simp only [hne, if_false]
  constructor
  · intro hsh
    have hsw : BackupSwitch poly ⟨1, (poly.length : Int) - 1, ⟨pe.idx, p0.idx, p1.idx⟩, se,
        ee, false, T0⟩ = .error .undefined := by
      unfold BackupSwitch
      have hN1 : Next (1 : Int) (poly.length : Int) = ((2 : Nat) : Int) := by
        have := Next_eq (i := 1) (n := poly.length) (by omega)
        simpa using this
      have hN2 : Next ((poly.length : Int) - 1) (poly.length : Int) = 0 := by
        unfold Next
        simp
      simp only [Bool.false_eq_true, if_false, hN1, hN2, hp2]
      have hbad : edgePair poly ((0 : Int) - 1) 0 = .error .undefined := by
        simp [edgePair, getI]
      rw [hbad]
      split
      · rename_i h1 h2
        cases h2
      · rfl
    simp only [hsh, if_true, hsw]
  · intro hsh
    simp only [hsh, Bool.false_eq_true, if_false]
    obtain ⟨se2, hse2⟩ := @edgePair_ok poly (1) (2) (by omega) (by omega)
    have hN1 : Next (1 : Int) (poly.length : Int) = ((2 : Nat) : Int) := by
      have := Next_eq (i := 1) (n := poly.length) (by omega)
      simpa using this
    have hP2 : Prev ((2 : Nat) : Int) (poly.length : Int) = ((1 : Nat) : Int) :=
      Prev_eq (by omega)
    have hadv : BackupAdvance poly ⟨1, (poly.length : Int) - 1, ⟨pe.idx, p0.idx, p1.idx⟩,
        se, ee, false, T0⟩ = .ok ⟨((2 : Nat) : Int), (poly.length : Int) - 1,
        ⟨pe.idx, p1.idx, p2.idx⟩, se2, ee, true, T0 ++ [⟨pe.idx, p0.idx, p1.idx⟩]⟩ := by
      unfold BackupAdvance
      simp only [Bool.not_false, if_true, hN1, hP2, hse2, hp2]
    simp only [hadv]
    refine BackupLoop_ok K poly (poly.length - 1)
      ⟨((2 : Nat) : Int), (poly.length : Int) - 1, ⟨pe.idx, p1.idx, p2.idx⟩, se2, ee, true,
        T0 ++ [⟨pe.idx, p0.idx, p1.idx⟩]⟩ 1 (poly.length - 1)
      (T0 ++ [⟨pe.idx, p0.idx, p1.idx⟩]) ?_ (by omega)
    refine ⟨le_refl _, by omega, by omega, rfl, fun _ => ⟨by simp, by simp; omega, ?_⟩,
      fun hh => by simp at hh⟩
    simp [triF, hpe1, hp11, hp21]

/-- The loop over the polygons ends for every polygon set, and it returns when
no polygon of three or more vertices begins with a shared edge. -/
theorem BackupRun_returns (K : Edge) :
    ∀ (P : Polygons) (T0 : List IVec3),
      ((∀ p ∈ P, 3 ≤ p.length → firstShared K p = false) →
        ∃ T, BackupRun K P T0 = some (.ok T)) ∧
      (¬ (∀ p ∈ P, 3 ≤ p.length → firstShared K p = false) →
        BackupRun K P T0 = some (.error .undefined)) := by
  intro P
  induction P with
  | nil =>
    intro T0
    exact ⟨fun _ => ⟨T0, rfl⟩, fun h => absurd (fun p hp => absurd hp (List.not_mem_nil p)) h⟩
  | cons p P ih =>
    intro T0
    unfold BackupRun
    by_cases h3 : 3 ≤ p.length
    · cases hf : firstShared K p with
      | true =>
        have hp := (BackupPoly_first K p h3 T0).1 hf
        rw [hp]
        refine ⟨fun h => ?_, fun _ => rfl⟩
        have := h p (List.mem_cons_self _ _) h3
        rw [hf] at this
        cases this
      | false =>
        obtain ⟨T1, hp⟩ := (BackupPoly_first K p h3 T0).2 hf
        rw [hp]
        simp only
        refine ⟨fun h => (ih T1).1 (fun q hq => h q (List.mem_cons_of_mem _ hq)),
          fun h => (ih T1).2 (fun h1 => h ?_)⟩
        intro q hq
        rcases List.mem_cons.1 hq with rfl | hq
        · exact fun _ => hf
        · exact h1 q hq
    · have hp : BackupPoly K p T0 = some (.ok T0) := by
        have hlt : p.length < 3 := by omega
        simp [BackupPoly, hlt]
      rw [hp]
      simp only
      refine ⟨fun h => (ih T0).1 (fun q hq => h q (List.mem_cons_of_mem _ hq)),
        fun h => (ih T0).2 (fun h1 => h ?_)⟩
      intro q hq
      rcases List.mem_cons.1 hq with rfl | hq
      · exact fun hh => absurd hh h3
      · exact h1 q hq

/-- Whenever the loop over the polygons returns, its output is what it started
with followed by one run of triangles for each polygon, in polygon order: of
`n − 2` triangles for a polygon of `n ≥ 3` vertices and of none otherwise. -/
theorem BackupRun_parts (K : Edge) :
    ∀ (P : Polygons) (T0 T : List IVec3), BackupRun K P T0 = some (.ok T) →
      ∃ parts : List (List IVec3), T = T0 ++ parts.flatten ∧
        List.Forall₂ (fun (poly : SimplePolygon) (part : List IVec3) =>
          part.length = if 3 ≤ poly.length then poly.length - 2 else 0) P parts := by
  intro P
  induction P with
  | nil =>
    intro T0 T h
    simp only [BackupRun, Option.some.injEq, Except.ok.injEq] at h
    exact ⟨[], by simp [h], .nil⟩
  | cons p P ih =>
    intro T0 T h
    obtain ⟨T1, hp, hrest⟩ := BackupRun_cons h
    obtain ⟨parts, hT, hF⟩ := ih T1 T hrest
    by_cases h3 : 3 ≤ p.length
    · obtain ⟨cs, hcs, hT1⟩ := BackupPoly_strip K p h3 T0 T1 hp
      refine ⟨(⟨vid p (p.length - 1), vid p 0, vid p 1⟩ :: strip p 1 (p.length - 1) cs) :: parts,
        ?_, .cons ?_ hF⟩
      · rw [hT, hT1]
        simp
      · simp only [List.length_cons, strip_length, h3, if_true]
        omega
    · have hlt : p.length < 3 := by omega
      have hT1 : T1 = T0 := by
        simp only [BackupPoly, hlt, if_true, Option.some.injEq, Except.ok.injEq] at hp
        exact hp.symm
      refine ⟨[] :: parts, ?_, .cons ?_ hF⟩
      · rw [hT, hT1]
        simp
      · simp [h3]

/-! ## No new identity -/

theorem Monotones.Match_keeps {P : List VertAdj → Prop} (hI : CopyInv P)
    {m m1 : Monotones.Verts} {a b : Int} (h : Monotones.Match m a b = .ok m1) (hp : P m) :
    P m1 := by
  unfold Monotones.Match at h
  obtain ⟨m2, h1, h2⟩ := bind_eq_ok h
  exact hI.write _ _ _ _ h2 (fun _ => rfl) (hI.write _ _ _ _ h1 (fun _ => rfl) hp)

theorem Monotones.Link_keeps {P : List VertAdj → Prop} (hI : CopyInv P)
    {m m1 : Monotones.Verts} {a b : Int} (h : Monotones.Link m a b = .ok m1) (hp : P m) :
    P m1 := by
  unfold Monotones.Link at h
  obtain ⟨m2, h1, h2⟩ := bind_eq_ok h
  exact hI.write _ _ _ _ h2 (fun _ => rfl) (hI.write _ _ _ _ h1 (fun _ => rfl) hp)

theorem Monotones.SplitVerts_keeps {P : List VertAdj → Prop} (hI : CopyInv P)
    {m m1 : Monotones.Verts} {v ld nv : Int}
    (h : Monotones.SplitVerts m v ld = .ok (m1, nv)) (hp : P m) : P m1 := by
  unfold Monotones.SplitVerts at h
  obtain ⟨m2, h1, h⟩ := bind_eq_ok h
  obtain ⟨d, hd, h⟩ := bind_eq_ok h
  obtain ⟨m3, h3, h⟩ := bind_eq_ok h
  obtain ⟨w, hw, h⟩ := bind_eq_ok h
  obtain ⟨n, hn, h⟩ := bind_eq_ok h
  obtain ⟨m4, h4, h⟩ := bind_eq_ok h
  obtain ⟨d2, hd2, h⟩ := bind_eq_ok h
  obtain ⟨m5, h5, h⟩ := bind_eq_ok h
  obtain ⟨m6, h6, h⟩ := bind_eq_ok h
  simp only [pure, Except.pure, Except.ok.injEq, Prod.mk.injEq] at h
  obtain ⟨rfl, rfl⟩ := h
  exact Monotones.Link_keeps hI h6 (Monotones.Link_keeps hI h5
    (hI.write _ _ _ _ h4 (fun _ => rfl) (hI.push _ _ _ hw (hI.write _ _ _ _ h3 (fun _ => rfl)
      (hI.write _ _ _ _ h1 (fun _ => rfl) hp)))))

theorem Monotones.Duplicate_keeps {P : List VertAdj → Prop} (hI : CopyInv P)
    {m m1 : Monotones.Verts} {v : Int} (h : Monotones.Duplicate m v = .ok m1) (hp : P m) :
    P m1 := by
  unfold Monotones.Duplicate at h
  obtain ⟨m2, h1, h⟩ := bind_eq_ok h
  obtain ⟨v1, hv1, h⟩ := bind_eq_ok h
  obtain ⟨m3, h3, h⟩ := bind_eq_ok h
  obtain ⟨v2, hv2, h⟩ := bind_eq_ok h
  have p3 : P m3 := hI.write _ _ _ _ h3 (fun _ => rfl) (hI.push _ _ _ hv1
    (hI.write _ _ _ _ h1 (fun _ => rfl) hp))
  have close : ∀ m4, P m4 → Monotones.Link m4 v (Monotones.Num_verts m2) = .ok m1 → P m1 :=
    fun m4 p4 h5 => Monotones.Link_keeps hI h5 p4
  simp only at h
  by_cases hp : v2.Processed = true
  · simp only [hp, if_true] at h
    obtain ⟨r, _, h⟩ := bind_eq_ok h
    by_cases hq : r.Processed = true
    · simp only [hq, if_true] at h
      obtain ⟨m5, h5, h⟩ := bind_eq_ok h
      obtain ⟨m6, h6, h⟩ := bind_eq_ok h
      exact close m6 (Monotones.Match_keeps hI h6 (Monotones.Match_keeps hI h5 p3)) h
    · simp only [hq, if_false] at h
      obtain ⟨m5, h5, h⟩ := bind_eq_ok h
      exact close m5 (Monotones.Match_keeps hI h5 p3) h
  · simp only [hp, if_false] at h
    obtain ⟨l, _, h⟩ := bind_eq_ok h
    have rest : ∀ m5, P m5 →
        (do
          let v_1 ← Monotones.Vert m5 v
          let r ← Monotones.Right m5 v_1
          if r.Processed = true then do
              let hh ← Monotones.Helper m5 v v_1.right
              let y ← Monotones.Match m5 (Monotones.Num_verts m2) hh
              Monotones.Link y v (Monotones.Num_verts m2)
            else do
              let y ← modifyI m5 (Monotones.Num_verts m2)
                (fun w => { w with across := Monotones.Num_verts m2 })
              Monotones.Link y v (Monotones.Num_verts m2)) = .ok m1 → P m1 := by
      intro m5 p5 h
      obtain ⟨v3, _, h⟩ := bind_eq_ok h
      obtain ⟨r, _, h⟩ := bind_eq_ok h
      by_cases hq : r.Processed = true
      · simp only [hq, if_true] at h
        obtain ⟨hh, _, h⟩ := bind_eq_ok h
        obtain ⟨m6, h6, h⟩ := bind_eq_ok h
        exact close m6 (Monotones.Match_keeps hI h6 p5) h
      · simp only [hq, if_false] at h
        obtain ⟨m6, h6, h⟩ := bind_eq_ok h
        exact close m6 (hI.write _ _ _ _ h6 (fun _ => rfl) p5) h
    by_cases hq : l.Processed = true
    · simp only [hq, if_true] at h
      obtain ⟨hh, _, h⟩ := bind_eq_ok h
      obtain ⟨m5, h5, h⟩ := bind_eq_ok h
      exact rest m5 (Monotones.Match_keeps hI h5 p3) h
    · simp only [hq, if_false] at h
      obtain ⟨m5, h5, h⟩ := bind_eq_ok h
      exact rest m5 (hI.write _ _ _ _ h5 (fun _ => rfl) p3) h

theorem Monotones.ProcessVert_keeps {P : List VertAdj → Prop} (hI : CopyInv P)
    {m m1 : Monotones.Verts} {idx : Int} {vt : VertType}
    (h : Monotones.ProcessVert m idx = .ok (m1, vt)) (hp : P m) : P m1 :=
  Monotones.ProcessVert_preserves P (fun _ _ _ _ h hp => Monotones.Match_keeps hI h hp)
    (fun _ _ _ h hp => hI.write _ _ _ _ h (fun _ => rfl) hp)
    (fun _ _ _ h hp => Monotones.Duplicate_keeps hI h hp)
    (fun _ _ _ _ _ h hp => Monotones.SplitVerts_keeps hI h hp) h hp

theorem Monotones.initPoly_keys (poly : SimplePolygon) (start : Int) :
    (Monotones.initPoly poly start).map VertAdj.key = poly.map (fun w => (w.pos, w.idx)) := by
  unfold Monotones.initPoly
  rw [List.map_map]
  have : (VertAdj.key ∘ fun (ip : Nat × PolyVert) =>
      (⟨ip.2.pos, ip.2.idx, Next ip.1 poly.length + start, Prev ip.1 poly.length + start,
        -1, false, -1⟩ : VertAdj)) = (fun w => (w.pos, w.idx)) ∘ Prod.snd := by
    funext ip
    rfl
  rw [this, ← List.map_map, List.enum_map_snd]

theorem Monotones.initVerts_keys :
    ∀ (polys : Polygons) (m : Monotones.Verts),
      (Monotones.initVerts polys m).map VertAdj.key = m.map VertAdj.key ++ inputKeys polys := by
  intro polys
  induction polys with
  | nil => intro m; simp [Monotones.initVerts, inputKeys]
  | cons p rest ih =>
    intro m
    simp only [Monotones.initVerts, ih, List.map_append, Monotones.initPoly_keys, inputKeys,
      List.flatten_cons, List.append_assoc]

theorem polyEdges_walk :
    ∀ (es : List EdgeVerts) (x : PolyVert), Joined es →
      (∀ l, es.getLast? = some l → l.second = x.idx) →
      polyEdges (es.map vertOf ++ [x]) = es := by
  intro es
  induction es with
  | nil => intro x _ _; simp [polyEdges]
  | cons g es ih =>
    intro x hj hl
    cases es with
    | nil =>
      have := hl g rfl
      simp [polyEdges, vertOf, ← this]
    | cons h rest =>
      have hj2 : Joined (h :: rest) := (List.chain'_cons.1 hj).2
      have hgh : g.second = h.first := (List.chain'_cons.1 hj).1
      have := ih x hj2 (fun l hl1 => hl l (by simpa [List.getLast?_cons_cons] using hl1))
      simp only [List.map_cons, List.cons_append] at this ⊢
      rw [polyEdges_cons_cons, this]
      simp [vertOf, ← hgh]

theorem cycEdges_walk {es : List EdgeVerts} (h : ClosedWalk es) :
    cycEdges (es.map vertOf) = es := by
  obtain ⟨hj, l, hl, hs⟩ := h
  cases es with
  | nil => simp at hl
  | cons g rest =>
    have := polyEdges_walk (g :: rest) (vertOf g) hj (fun l1 hl1 => by
      rw [hl] at hl1
      cases hl1
      simpa [headFirst, vertOf] using hs)
    simpa [cycEdges] using this

theorem edgeAt_eq {E : List EdgeVerts} {j : Int} {e : EdgeVerts} (h : getI E j = .ok e) :
    edgeAt E j = e := by
  simp [edgeAt, h]

theorem indexed_erase {E : List EdgeVerts} {M : Map Int} {k j : Int} {e : EdgeVerts}
    (hf : M.find k = some j) (he : getI E j = .ok e) :
    List.Perm (indexed E M) (e :: indexed E (M.erase k)) := by
  have := (Map.erase_perm hf).map (fun kv => edgeAt E kv.2)
  simpa [indexed, edgeAt_eq he] using this

theorem headFirst_append (w : List EdgeVerts) (hw : w ≠ []) (l : List EdgeVerts) :
    headFirst (w ++ l) = headFirst w := by
  cases w with
  | nil => exact absurd rfl hw
  | cons a w => rfl

theorem Map.ne_of_mem_erase {β : Type} {m : Map β} (ho : m.Ordered) {k : Int} {kv : Int × β}
    (h : kv ∈ Map.erase m k) : kv.1 ≠ k := by
  intro heq
  have := Map.not_mem_keys_erase ho.nodup k
  apply this
  have h1 : kv.1 ∈ (Map.erase m k).keys := List.mem_map_of_mem Prod.fst h
  rwa [heq] at h1

/-- At the top of the loop with edges left, the body starts a new walk at the
edge with the smallest `first` id. -/
theorem TopInv.begin {E : List EdgeVerts} {M : Map Int} {G : List (List EdgeVerts)}
    (h : TopInv E M G) {k0 idx : Int} {rest : Map Int} (hM : M = (k0, idx) :: rest) :
    ∃ e, MidInv E M idx idx G [] e := by
  obtain ⟨e, he, hfirst⟩ := h.index.valid (k0, idx) (by simp [hM])
  simp only at he hfirst
  refine ⟨e, h.index, he, ⟨e, rfl, he, by simp [hM, hfirst]⟩, ?_, ?_, h.closed, h.small,
    h.sorted, ?_, ?_, ?_⟩
  · simp [Joined]
  · simpa using h.perm
  · intro g hg
    simp at hg
  · intro kv hkv
    simp only [List.nil_append, headFirst, hfirst]
    have ho := h.index.ordered
    rw [hM] at hkv ho
    rcases List.mem_cons.1 hkv with rfl | hkv
    · exact le_refl _
    · simp only [Map.Ordered, Map.keys, List.map_cons, List.pairwise_cons] at ho
      exact le_of_lt (ho.1 kv.1 (List.mem_map_of_mem Prod.fst hkv))
  · intro es hes
    simp only [List.nil_append, headFirst, hfirst]
    exact h.below es hes (k0, idx) (by simp [hM])

/-- One pass of the loop body of `Assemble`: the current edge joins the walk,
which is complete when the edge found next is the one it started with. -/
theorem MidInv.step {E : List EdgeVerts} {M : Map Int} {start this : Int}
    {G : List (List EdgeVerts)} {pre : List EdgeVerts} {e : EdgeVerts}
    (h : MidInv E M start this G pre e) {j : Int} (hf : M.find e.second = some j) :
    (j = start ∧ TopInv E (M.erase e.second) (G ++ [pre ++ [e]])) ∨
      (j ≠ start ∧ ∃ e1, MidInv E (M.erase e.second) start j G (pre ++ [e]) e1) := by
  have hmem : (e.second, j) ∈ M := Map.mem_of_find hf
  obtain ⟨e1, he1, hfirst1⟩ := h.index.valid _ hmem
  simp only at he1 hfirst1
  obtain ⟨e0, hhead, hstart, hstartM⟩ := h.start
  have hne : pre ++ [e] ≠ [] := by simp
  have hhf : headFirst (pre ++ [e]) = e0.first := by
    cases hw : pre ++ [e] with
    | nil => exact absurd hw hne
    | cons a w =>
      rw [hw] at hhead
      simp only [List.head?_cons, Option.some.injEq] at hhead
      simp [headFirst, hhead]
  have hwt : pre ++ [e] = e0 :: (pre ++ [e]).tail := by
    cases hw : pre ++ [e] with
    | nil => exact absurd hw hne
    | cons a w =>
      rw [hw] at hhead
      simp only [List.head?_cons, Option.some.injEq] at hhead
      simp [hhead]
  have hind := indexed_erase hf he1
  by_cases hj : j = start
  · left
    refine ⟨hj, h.index.erase _, ?_, ?_, ?_, ?_, ?_⟩
    · -- the edges
      have he10 : e1 = e0 := by
        rw [hj] at he1
        rw [hstart] at he1
        exact (Except.ok.inj he1).symm
      have hfl : (G ++ [pre ++ [e]]).flatten = G.flatten ++ (pre ++ [e]) := by simp
      rw [hfl]
      have h1 : List.Perm ((pre ++ [e]).tail ++ indexed E M)
          ((pre ++ [e]).tail ++ e0 :: indexed E (M.erase e.second)) :=
        List.Perm.append_left _ (he10 ▸ hind)
      have h2 : List.Perm ((pre ++ [e]).tail ++ e0 :: indexed E (M.erase e.second))
          (e0 :: ((pre ++ [e]).tail ++ indexed E (M.erase e.second))) := List.perm_middle
      have h3 : e0 :: ((pre ++ [e]).tail ++ indexed E (M.erase e.second)) =
          (pre ++ [e]) ++ indexed E (M.erase e.second) := by
        conv_rhs => rw [hwt]
        simp
      have key : List.Perm ((pre ++ [e]) ++ indexed E (M.erase e.second))
          ((pre ++ [e]).tail ++ indexed E M) := by
        rw [← h3]
        exact (h1.trans h2).symm
      have h4 := List.Perm.append_left G.flatten key
      have h5 := h.perm
      rw [List.append_assoc] at h5
      rw [List.append_assoc]
      exact h4.trans h5
    · intro es hes
      rcases List.mem_append.1 hes with hes | hes
      · exact h.closed es hes
      · simp only [List.mem_singleton] at hes
        subst hes
        refine ⟨h.joined, e, by simp, ?_⟩
        rw [hhf]
        have he10 : e1 = e0 := by
          rw [hj] at he1
          rw [hstart] at he1
          exact (Except.ok.inj he1).symm
        rw [← he10, hfirst1]
    · intro es hes
      rcases List.mem_append.1 hes with hes | hes
      · exact h.small es hes
      · simp only [List.mem_singleton] at hes
        subst hes
        exact h.smallest
    · rw [List.map_append, List.pairwise_append]
      refine ⟨h.sorted, by simp, ?_⟩
      intro a ha b hb
      simp only [List.map_cons, List.map_nil, List.mem_singleton] at hb
      subst hb
      obtain ⟨es, hes, rfl⟩ := List.mem_map.1 ha
      exact h.below es hes
    · intro es hes kv hkv
      have hkvM : kv ∈ M := (Map.erase_sublist M e.second).subset hkv
      have hlow : headFirst (pre ++ [e]) < kv.1 := by
        have h1 := h.least kv hkvM
        have h2 := Map.ne_of_mem_erase h.index.ordered hkv
        have he10 : e1 = e0 := by
          rw [hj] at he1
          rw [hstart] at he1
          exact (Except.ok.inj he1).symm
        have h3 : headFirst (pre ++ [e]) = e.second := by rw [hhf, ← he10, hfirst1]
        rw [h3] at h1 ⊢
        omega
      rcases List.mem_append.1 hes with hes | hes
      · exact lt_trans (h.below es hes) hlow
      · simp only [List.mem_singleton] at hes
        subst hes
        exact hlow
  · right
    have hkne : e0.first ≠ e.second := by
      intro heq
      rw [heq] at hstartM
      have := Map.find_of_mem h.index.ordered.nodup hstartM
      rw [hf] at this
      exact hj (Option.some.inj this)
    refine ⟨hj, e1, h.index.erase _, he1, ⟨e0, ?_, hstart, Map.mem_erase_of_ne hkne hstartM⟩,
      ?_, ?_, h.closed, h.small, h.sorted, ?_, ?_, ?_⟩
    · rw [List.head?_append_of_ne_nil _ hne]
      exact hhead
    · -- the walk stays joined
      unfold Joined
      rw [List.chain'_append]
      refine ⟨h.joined, by simp, ?_⟩
      intro x hx y hy
      have hx1 : x = e := by
        have : (pre ++ [e]).getLast? = some e := by simp
        rw [this] at hx
        exact (Option.some.inj hx).symm
      simp only [List.head?_cons, Option.mem_def, Option.some.injEq] at hy
      subst hx1 hy
      exact hfirst1.symm
    · have htail : (pre ++ [e] ++ [e1]).tail = (pre ++ [e]).tail ++ [e1] := by
        conv_lhs => rw [hwt]
        simp
      rw [htail]
      have h5 := h.perm
      rw [List.append_assoc] at h5
      rw [List.append_assoc, List.append_assoc]
      refine List.Perm.trans (List.Perm.append_left _ (List.Perm.append_left _ ?_)) h5
      simpa using hind.symm
    · intro g hg
      have htail : (pre ++ [e] ++ [e1]).tail = (pre ++ [e]).tail ++ [e1] := by
        conv_lhs => rw [hwt]
        simp
      rw [htail] at hg
      rw [headFirst_append _ hne]
      rcases List.mem_append.1 hg with hg | hg
      · exact h.smallest g hg
      · simp only [List.mem_singleton] at hg
        subst hg
        have h1 := h.least _ hmem
        simp only at h1
        rw [hhf] at h1 ⊢
        rw [hfirst1]
        omega
    · intro kv hkv
      rw [headFirst_append _ hne]
      exact h.least kv ((Map.erase_sublist M e.second).subset hkv)
    · intro es hes
      rw [headFirst_append _ hne]
      exact h.below es hes

theorem vertEntries_edges (pre es : List EdgeVerts) :
    (vertEntries es pre.length).map (fun kv => edgeAt (pre ++ es) kv.2) = es := by
  induction es generalizing pre with
  | nil => rfl
  | cons e es ih =>
    have h1 := ih (pre ++ [e])
    simp only [List.length_append, List.length_singleton, Nat.cast_add, Nat.cast_one,
      List.append_assoc, List.singleton_append] at h1
    have h0 : edgeAt (pre ++ e :: es) (pre.length : Int) = e := by
      simp [edgeAt, getI_natCast]
    simp only [vertEntries, List.map_cons, h0, h1]

/-- Whenever the loop of `Assemble` returns, what it returns are the vertices
of complete walks that together hold every edge once. -/
theorem AssembleLoop_walks (E : List EdgeVerts) :
    ∀ (fuel : Nat),
      (∀ (M : Map Int) (st : Int) (G : List (List EdgeVerts)) (Q : Polygons), TopInv E M G →
        AssembleLoop E fuel ⟨M, st, st, G.map (List.map vertOf)⟩ = some (.ok Q) →
        ∃ G1, Q = G1.map (List.map vertOf) ∧ TopInv E [] G1) ∧
      (∀ (M : Map Int) (start this : Int) (G : List (List EdgeVerts)) (pre : List EdgeVerts)
        (e : EdgeVerts) (Q : Polygons), MidInv E M start this G pre e →
        AssembleFrom E fuel ⟨M, start, this, G.map (List.map vertOf) ++ [pre.map vertOf]⟩ =
          some (.ok Q) →
        ∃ G1, Q = G1.map (List.map vertOf) ∧ TopInv E [] G1) := by
  intro fuel
  induction fuel with
  | zero =>
    refine ⟨fun M st G Q _ h => by simp [AssembleLoop] at h, ?_⟩
    intro M start this G pre e Q hm h
    cases hf : M.find e.second with
    | none => simp [AssembleFrom, AssembleBody, hm.this, pushToBack_append, hf] at h
    | some j =>
      rw [AssembleFrom_step E _ M start this j _ _ e hm.this hf] at h
      simp [AssembleLoop] at h
  | succ fuel ih =>
    have top : ∀ (M : Map Int) (st : Int) (G : List (List EdgeVerts)) (Q : Polygons),
        TopInv E M G →
        AssembleLoop E (fuel + 1) ⟨M, st, st, G.map (List.map vertOf)⟩ = some (.ok Q) →
        ∃ G1, Q = G1.map (List.map vertOf) ∧ TopInv E [] G1 := by
      intro M st G Q ht h
      cases hM : M with
      | nil =>
        subst hM
        simp only [AssembleLoop, if_true, Option.some.injEq, Except.ok.injEq] at h
        exact ⟨G, h.symm, ht⟩
      | cons kv rest =>
        obtain ⟨k0, idx⟩ := kv
        obtain ⟨e, hmid⟩ := ht.begin hM
        have hloop : AssembleLoop E (fuel + 1) ⟨M, st, st, G.map (List.map vertOf)⟩ =
            AssembleFrom E fuel
              ⟨M, idx, idx, G.map (List.map vertOf) ++ [([] : List EdgeVerts).map vertOf]⟩ := by
          simp [AssembleLoop, AssembleFrom, hM]
        rw [hloop] at h
        exact ih.2 M idx idx G [] e Q hmid h
    refine ⟨top, ?_⟩
    intro M start this G pre e Q hm h
    cases hf : M.find e.second with
    | none => simp [AssembleFrom, AssembleBody, hm.this, pushToBack_append, hf] at h
    | some j =>
      rw [AssembleFrom_step E _ M start this j _ _ e hm.this hf] at h
      have hpolys : G.map (List.map vertOf) ++ [pre.map vertOf ++ [⟨Vec2.inf, e.first, e.edge⟩]] =
          G.map (List.map vertOf) ++ [(pre ++ [e]).map vertOf] := by
        simp [vertOf]
      rw [hpolys] at h
      rcases hm.step hf with ⟨hj, ht⟩ | ⟨hj, e1, hm1⟩
      · subst hj
        have hq : G.map (List.map vertOf) ++ [(pre ++ [e]).map vertOf] =
            (G ++ [pre ++ [e]]).map (List.map vertOf) := by simp
        rw [hq] at h
        exact top _ _ _ Q ht h
      · rw [AssembleLoop_eq_from E fuel _ hj] at h
        exact ih.2 _ start j G (pre ++ [e]) e1 Q hm1 h

theorem headFirst_vertOf (es : List EdgeVerts) :
    ((es.map vertOf).map (fun v => v.idx)).headD 0 = headFirst es := by
  cases es <;> rfl

/-- C26: for every edge list `E` on which `Assemble` succeeds,
`Polygons2Edges(Assemble(E))` is a permutation of `E` as
`(first, second, edge)` triples (every input edge is consumed exactly once),
the total vertex count of the returned loops is `|E|`, each loop starts at its
smallest vertex id, and the loops are in the order of increasing smallest
id. -/
theorem Assemble_edges (E : List EdgeVerts) (Q : Polygons) (h : Assemble E = .ok Q) :
    (∃ E1, Polygons2Edges Q = .ok E1 ∧ List.Perm E1 E) ∧
      (Q.map List.length).sum = E.length ∧
      (∀ p ∈ Q, ∃ v rest, p = v :: rest ∧ ∀ w ∈ rest, v.idx < w.idx) ∧
      (Q.map (fun p => (p.map (fun v => v.idx)).headD 0)).Pairwise (· < ·) := by
  have hrun : AssembleRun E = some (.ok Q) := by
    unfold Assemble at h
    cases hr : AssembleRun E with
    | none => rw [hr] at h; cases h
    | some r => rw [hr] at h; simp only at h; rw [h]
  have hb := buildVertEdge_spec E 0 [] (by simp [Map.Ordered, Map.keys])
  simp only [Map.keys, List.map_nil, List.append_nil] at hb
  by_cases hnd : (firsts E).Nodup
  · obtain ⟨M, hM, ho, hp⟩ := hb.2 hnd
    obtain ⟨hinv, hlen, _⟩ := Assemble_init ho hp
    simp only [AssembleRun, hM] at hrun
    have hedges := vertEntries_edges [] E
    simp only [List.length_nil, Nat.cast_zero, List.nil_append] at hedges
    have ht : TopInv E M [] := by
      refine ⟨hinv.index, ?_, by simp, by simp, by simp, by simp⟩
      simp only [List.flatten_nil, List.nil_append, indexed]
      have h1 := hp.map (fun kv => edgeAt E kv.2)
      rwa [hedges] at h1
    obtain ⟨G, hQ, hG⟩ := (AssembleLoop_walks E (E.length + 1)).1 M 0 [] Q ht
      (by simpa using hrun)
    have hperm : List.Perm G.flatten E := by simpa [indexed] using hG.perm
    have hne : ∀ p ∈ Q, p ≠ [] := by
      intro p hpQ
      rw [hQ] at hpQ
      obtain ⟨es, hes, rfl⟩ := List.mem_map.1 hpQ
      obtain ⟨_, l, hl, _⟩ := hG.closed es hes
      cases es with
      | nil => simp at hl
      | cons a es => simp
    have hcyc : Q.flatMap cycEdges = G.flatten := by
      rw [hQ, List.flatMap_def, List.map_map]
      congr 1
      have h1 : G.map (cycEdges ∘ List.map vertOf) = G.map id :=
        List.map_congr_left (fun es hes => cycEdges_walk (hG.closed es hes))
      rw [h1, List.map_id]
    refine ⟨⟨Q.flatMap cycEdges, Polygons2Edges_eq Q hne, by rw [hcyc]; exact hperm⟩, ?_, ?_, ?_⟩
    · rw [← hperm.length_eq, hQ, List.length_flatten, List.map_map]
      congr 1
      apply List.map_congr_left
      intro es _
      simp
    · intro p hpQ
      rw [hQ] at hpQ
      obtain ⟨es, hes, rfl⟩ := List.mem_map.1 hpQ
      obtain ⟨_, l, hl, _⟩ := hG.closed es hes
      have hs := hG.small es hes
      cases es with
      | nil => simp at hl
      | cons a es =>
        refine ⟨vertOf a, es.map vertOf, rfl, ?_⟩
        intro w hw
        obtain ⟨g, hg, rfl⟩ := List.mem_map.1 hw
        exact hs g hg
    · have hs := hG.sorted
      rw [hQ, List.map_map]
      have : ((fun p : SimplePolygon => (p.map (fun v => v.idx)).headD 0) ∘ List.map vertOf) =
          headFirst := by
        funext es
        exact headFirst_vertOf es
      rw [this]
      exact hs
  · simp [AssembleRun, hb.1 hnd] at hrun

set_option maxRecDepth 100000 in
/-- C26 at the edges of two disjoint triangles, `5, 6, 7` given first and
`1, 2, 3` second: `Assemble` returns the loop `1, 2, 3` and then the loop
`5, 6, 7`. -/
theorem Assemble_edges_witness :
    Assemble [⟨5, 6, -1⟩, ⟨6, 7, -1⟩, ⟨7, 5, -1⟩, ⟨1, 2, -1⟩, ⟨2, 3, -1⟩, ⟨3, 1, -1⟩] =
        .ok twoTrianglesAssembled ∧
      (∃ E1, Polygons2Edges twoTrianglesAssembled = .ok E1 ∧
        List.Perm E1 [⟨5, 6, -1⟩, ⟨6, 7, -1⟩, ⟨7, 5, -1⟩, ⟨1, 2, -1⟩, ⟨2, 3, -1⟩, ⟨3, 1, -1⟩]) ∧
      (twoTrianglesAssembled.map List.length).sum =
        ([⟨5, 6, -1⟩, ⟨6, 7, -1⟩, ⟨7, 5, -1⟩, ⟨1, 2, -1⟩, ⟨2, 3, -1⟩, ⟨3, 1, -1⟩] :
          List EdgeVerts).length ∧
      (∀ p ∈ twoTrianglesAssembled, ∃ v rest, p = v :: rest ∧ ∀ w ∈ rest, v.idx < w.idx) ∧
      (twoTrianglesAssembled.map (fun p => (p.map (fun v => v.idx)).headD 0)).Pairwise
        (· < ·) :=
  ⟨by decide!,
    Assemble_edges [⟨5, 6, -1⟩, ⟨6, 7, -1⟩, ⟨7, 5, -1⟩, ⟨1, 2, -1⟩, ⟨2, 3, -1⟩, ⟨3, 1, -1⟩]
      twoTrianglesAssembled (by decide!)⟩

/-! ## Monotone decomposer: ranks -/

theorem modifyI_tags {m m1 : List VertAdj} {i : Int} {f : VertAdj → VertAdj}
    (h : modifyI m i f = .ok m1) (hf : ∀ a : VertAdj, (f a).tag = a.tag) :
    m1.map VertAdj.tag = m.map VertAdj.tag := by
  obtain ⟨a, ha, rfl⟩ := modifyI_ok h
  obtain ⟨_, hlt, hget⟩ := getI_ok ha
  rw [List.map_set, hf a]
  apply List.ext_getElem?
  intro n
  by_cases hn : i.toNat = n
  · subst hn
    have hg : m[i.toNat] = a := by
      have := List.getElem?_eq_getElem hlt
      rw [hget] at this
      exact (Option.some.inj this).symm
    simp [List.getElem?_set, hlt, hg]
  · simp [List.getElem?_set, hn]

theorem Ext.self (m : List VertAdj) : Ext m m := ⟨[], by simp⟩

theorem Ext.chain {m m1 m2 : List VertAdj} (h1 : Ext m m1) (h2 : Ext m1 m2) : Ext m m2 := by
  obtain ⟨l1, e1⟩ := h1
  obtain ⟨l2, e2⟩ := h2
  exact ⟨l1 ++ l2, by rw [e2, e1, List.append_assoc]⟩

theorem Ext.copies (m0 : List VertAdj) : CopyInv (Ext m0) := by
  refine ⟨?_, ?_⟩
  · rintro m i f m1 h hf ⟨l, hl⟩
    exact ⟨l, by rw [modifyI_tags h hf, hl]⟩
  · rintro m i v _ ⟨l, hl⟩
    exact ⟨l ++ [v.tag], by simp [hl]⟩

theorem Ext.ofWrite {m m1 : List VertAdj} {i : Int} {f : VertAdj → VertAdj}
    (h : modifyI m i f = .ok m1) (hf : ∀ a : VertAdj, (f a).tag = a.tag) : Ext m m1 :=
  ⟨[], by rw [modifyI_tags h hf, List.append_nil]⟩

theorem getI_map_tag {m : List VertAdj} {j : Int} {v : VertAdj} (h : getI m j = .ok v) :
    getI (m.map VertAdj.tag) j = .ok v.tag := by
  obtain ⟨h0, hlt, hget⟩ := getI_ok h
  exact getI_of_getElem? h0 (by simp [hget])

theorem getI_of_map_tag {m : List VertAdj} {j : Int} {t : Vec2 × Int × Int}
    (h : getI (m.map VertAdj.tag) j = .ok t) : ∃ v, getI m j = .ok v ∧ v.tag = t := by
  obtain ⟨h0, hlt, hget⟩ := getI_ok h
  rw [List.getElem?_map] at hget
  cases hv : m[j.toNat]? with
  | none => simp [hv] at hget
  | some v =>
    simp only [hv, Option.map_some', Option.some.injEq] at hget
    exact ⟨v, getI_of_getElem? h0 hv, hget⟩

theorem Ext.getI {m m1 : List VertAdj} (he : Ext m m1) {j : Int} {v : VertAdj}
    (h : getI m j = .ok v) : ∃ v1, getI m1 j = .ok v1 ∧ v1.tag = v.tag := by
  obtain ⟨l, hl⟩ := he
  apply getI_of_map_tag
  rw [hl]
  obtain ⟨h0, hlt, hget⟩ := getI_ok (getI_map_tag h)
  exact getI_of_getElem? h0 (by rw [List.getElem?_append_left hlt]; exact hget)

theorem RankedI.extend {m m1 : List VertAdj} (he : Ext m m1) {j : Int} (h : RankedI m j) :
    RankedI m1 j := by
  obtain ⟨v, hv, h0⟩ := h
  obtain ⟨v1, hv1, ht⟩ := he.getI hv
  refine ⟨v1, hv1, ?_⟩
  have : v1.sweep_order = v.sweep_order := by
    simp only [VertAdj.tag, Prod.mk.injEq] at ht
    exact ht.2.2
  rw [this]
  exact h0

theorem modifyI_mem {m m1 : List VertAdj} {i : Int} {f : VertAdj → VertAdj}
    (h : modifyI m i f = .ok m1) {x : VertAdj} (hx : x ∈ m1) :
    x ∈ m ∨ ∃ a, getI m i = .ok a ∧ x = f a := by
  obtain ⟨a, ha, rfl⟩ := modifyI_ok h
  rcases List.mem_or_eq_of_mem_set hx with h1 | h1
  · exact Or.inl h1
  · exact Or.inr ⟨a, ha, h1⟩

theorem RankInv.write {N : Nat} {m m1 : List VertAdj} {i : Int} {f : VertAdj → VertAdj}
    (h : modifyI m i f = .ok m1)
    (hf : ∀ a : VertAdj, (f a).tag = a.tag ∧ (f a).across = a.across) (hq : RankInv N m) :
    RankInv N m1 := by
  have he : Ext m m1 := Ext.ofWrite h (fun a => (hf a).1)
  refine ⟨?_, by rw [modifyI_tags h (fun a => (hf a).1)]; exact hq.copies⟩
  intro x hx hx0
  rcases modifyI_mem h hx with h1 | ⟨a, ha, rfl⟩
  · obtain ⟨h2, h3⟩ := hq.across x h1 hx0
    exact ⟨h2, h3.extend he⟩
  · rw [(hf a).2] at hx0 ⊢
    obtain ⟨h2, h3⟩ := hq.across a (mem_of_getI ha) hx0
    have : (f a).sweep_order = a.sweep_order := by
      have := (hf a).1
      simp only [VertAdj.tag, Prod.mk.injEq] at this
      exact this.2.2
    rw [this]
    exact ⟨h2, h3.extend he⟩

/-- The assignment `across[a] = b`, both vertices having a rank. -/
theorem RankInv.setAcross {N : Nat} {m m1 : List VertAdj} {a b : Int}
    (h : modifyI m a (fun v => { v with across := b }) = .ok m1) (hq : RankInv N m)
    (ha : RankedI m a) (hb : 0 ≤ b → RankedI m b) : RankInv N m1 := by
  have he : Ext m m1 := Ext.ofWrite h (fun _ => rfl)
  refine ⟨?_, by rw [modifyI_tags h (fun _ => rfl)]; exact hq.copies⟩
  intro x hx hx0
  rcases modifyI_mem h hx with h1 | ⟨v, hv, rfl⟩
  · obtain ⟨h2, h3⟩ := hq.across x h1 hx0
    exact ⟨h2, h3.extend he⟩
  · obtain ⟨v1, hv1, h0⟩ := ha
    rw [hv] at hv1
    cases hv1
    exact ⟨h0, (hb hx0).extend he⟩

theorem Monotones.Match_nonneg {m m1 : Monotones.Verts} {a b : Int}
    (h : Monotones.Match m a b = .ok m1) : 0 ≤ a ∧ 0 ≤ b := by
  unfold Monotones.Match at h
  obtain ⟨m2, h1, h2⟩ := bind_eq_ok h
  obtain ⟨_, g1, _⟩ := modifyI_ok h1
  obtain ⟨_, g2, _⟩ := modifyI_ok h2
  exact ⟨(getI_ok g1).1, (getI_ok g2).1⟩

theorem Monotones.Match_rk {N : Nat} {m m1 : Monotones.Verts} {a b : Int}
    (h : Monotones.Match m a b = .ok m1) (hq : RankInv N m)
    (ha : RankedI m a) (hb : 0 ≤ b → RankedI m b) : RankInv N m1 := by
  have hb0 := (Monotones.Match_nonneg h).2
  unfold Monotones.Match at h
  obtain ⟨m2, h1, h2⟩ := bind_eq_ok h
  have he : Ext m m2 := Ext.ofWrite h1 (fun _ => rfl)
  exact RankInv.setAcross h2 (RankInv.setAcross h1 hq ha hb) ((hb hb0).extend he)
    (fun _ => ha.extend he)

theorem Monotones.Link_rk {N : Nat} {m m1 : Monotones.Verts} {a b : Int}
    (h : Monotones.Link m a b = .ok m1) (hq : RankInv N m) : RankInv N m1 := by
  unfold Monotones.Link at h
  obtain ⟨m2, h1, h2⟩ := bind_eq_ok h
  exact RankInv.write h2 (fun _ => ⟨rfl, rfl⟩) (RankInv.write h1 (fun _ => ⟨rfl, rfl⟩) hq)

/-- The `push_back` of a vertex of the buffer that has a rank. -/
theorem RankInv.push {N : Nat} {m : List VertAdj} {i : Int} {v : VertAdj}
    (h : getI m i = .ok v) (h0 : 0 ≤ v.sweep_order) (hq : RankInv N m) :
    RankInv N (m ++ [v]) := by
  have he : Ext m (m ++ [v]) := ⟨[v.tag], by simp⟩
  obtain ⟨hN, hc⟩ := hq.copies
  refine ⟨?_, ?_, ?_⟩
  · intro x hx hx0
    have hxm : x ∈ m := by
      rcases List.mem_append.1 hx with h1 | h1
      · exact h1
      · simp only [List.mem_singleton] at h1
        subst h1
        exact mem_of_getI h
    obtain ⟨h2, h3⟩ := hq.across x hxm hx0
    exact ⟨h2, h3.extend he⟩
  · simp only [List.map_append, List.length_append]
    omega
  · intro t ht
    simp only [List.map_append, List.map_cons, List.map_nil] at ht ⊢
    rw [List.drop_append_of_le_length hN] at ht
    rw [List.take_append_of_le_length hN]
    rcases List.mem_append.1 ht with h1 | h1
    · exact hc t h1
    · simp only [List.mem_singleton] at h1
      subst h1
      refine ⟨h0, ?_⟩
      have hv : v.tag ∈ m.map VertAdj.tag := List.mem_map_of_mem _ (mem_of_getI h)
      rw [← List.take_append_drop N (m.map VertAdj.tag)] at hv
      rcases List.mem_append.1 hv with h2 | h2
      · exact h2
      · exact (hc _ h2).2

theorem RankInv.read {N : Nat} {m : List VertAdj} (hq : RankInv N m) {j : Int} {x : VertAdj}
    (h : getI m j = .ok x) (h0 : 0 ≤ x.across) : RankedI m j ∧ RankedI m x.across :=
  ⟨⟨x, h, (hq.across x (mem_of_getI h) h0).1⟩, (hq.across x (mem_of_getI h) h0).2⟩

theorem Monotones.Helper_rk {N : Nat} {m : Monotones.Verts} (hq : RankInv N m) {v n hh : Int}
    {x : VertAdj} (hx : getI m n = .ok x) (hp : x.Processed = true)
    (h : Monotones.Helper m v n = .ok hh) : RankedI m hh := by
  have h0 : 0 ≤ x.across := by simpa [VertAdj.Processed] using hp
  obtain ⟨r1, r2⟩ := hq.read hx h0
  unfold Monotones.Helper at h
  obtain ⟨y, hy, h⟩ := bind_eq_ok h
  have hyx : y = x := by
    unfold Monotones.Vert at hy
    rw [hx] at hy
    exact (Except.ok.inj hy).symm
  subst hyx
  simp only [pure, Except.pure, Except.ok.injEq] at h
  split_ifs at h
  · exact h ▸ r1
  · exact h ▸ r2

theorem RankedI.value {m : List VertAdj} {j : Int} (h : RankedI m j) {v : VertAdj}
    (hv : getI m j = .ok v) : 0 ≤ v.sweep_order := by
  obtain ⟨v1, hv1, h0⟩ := h
  rw [hv] at hv1
  cases hv1
  exact h0

theorem getI_append_length {m : List VertAdj} {w n : VertAdj}
    (h : getI (m ++ [w]) (Monotones.Num_verts m) = .ok n) : n = w := by
  obtain ⟨_, _, hget⟩ := getI_ok h
  simp only [Monotones.Num_verts, Int.toNat_ofNat] at hget
  rw [List.getElem?_append_right (le_refl _)] at hget
  simpa using hget.symm

theorem Monotones.SplitVerts_rk {N : Nat} {m m1 : Monotones.Verts} {v ld nv : Int}
    (h : Monotones.SplitVerts m v ld = .ok (m1, nv)) (hq : RankInv N m) (hv : RankedI m v) :
    RankInv N m1 ∧ RankedI m1 nv := by
  unfold Monotones.SplitVerts at h
  obtain ⟨m2, h1, h⟩ := bind_eq_ok h
  obtain ⟨d, hd, h⟩ := bind_eq_ok h
  obtain ⟨m3, h3, h⟩ := bind_eq_ok h
  obtain ⟨w, hw, h⟩ := bind_eq_ok h
  obtain ⟨n, hn, h⟩ := bind_eq_ok h
  obtain ⟨m4, h4, h⟩ := bind_eq_ok h
  obtain ⟨d2, hd2, h⟩ := bind_eq_ok h
  obtain ⟨m5, h5, h⟩ := bind_eq_ok h
  obtain ⟨m6, h6, h⟩ := bind_eq_ok h
  simp only [pure, Except.pure, Except.ok.injEq, Prod.mk.injEq] at h
  obtain ⟨rfl, rfl⟩ := h
  have e3 : Ext m m3 := (Ext.ofWrite h1 (fun _ => rfl)).chain (Ext.ofWrite h3 (fun _ => rfl))
  have hw0 : 0 ≤ w.sweep_order := (hv.extend e3).value hw
  have q3 : RankInv N m3 :=
    RankInv.write h3 (fun _ => ⟨rfl, rfl⟩) (RankInv.write h1 (fun _ => ⟨rfl, rfl⟩) hq)
  have q6 : RankInv N m6 :=
    Monotones.Link_rk h6 (Monotones.Link_rk h5
      (RankInv.write h4 (fun _ => ⟨rfl, rfl⟩) (RankInv.push hw hw0 q3)))
  have hnw := getI_append_length hn
  subst hnw
  have e6 : Ext (m3 ++ [n]) m6 :=
    (Ext.ofWrite h4 (fun _ => rfl)).chain
      ((Monotones.Link_keeps (Ext.copies _) h5 (Ext.self _)).chain
        (Monotones.Link_keeps (Ext.copies _) h6 (Ext.self _)))
  exact ⟨q6, RankedI.extend e6 ⟨n, hn, hw0⟩⟩

theorem Monotones.MatchRightAcross_rk {N : Nat} {m m1 : Monotones.Verts} {a : Int}
    (h : Monotones.MatchRightAcross m a = .ok m1) (hq : RankInv N m) (ha : RankedI m a) :
    RankInv N m1 := by
  unfold Monotones.MatchRightAcross at h
  obtain ⟨v, _, h⟩ := bind_eq_ok h
  obtain ⟨r, hr, h⟩ := bind_eq_ok h
  exact Monotones.Match_rk h hq ha (fun h0 => (hq.read hr h0).2)

theorem Monotones.MatchAcrossOf_rk {N : Nat} {m m1 : Monotones.Verts} {a b : Int}
    (h : Monotones.MatchAcrossOf m a b = .ok m1) (hq : RankInv N m) (ha : RankedI m a) :
    RankInv N m1 := by
  unfold Monotones.MatchAcrossOf at h
  obtain ⟨v, hv, h⟩ := bind_eq_ok h
  exact Monotones.Match_rk h hq ha (fun h0 => (hq.read hv h0).2)

theorem Monotones.Duplicate_rk {N : Nat} {m m1 : Monotones.Verts} {v : Int}
    (h : Monotones.Duplicate m v = .ok m1) (hq : RankInv N m) (hv : RankedI m v) :
    RankInv N m1 := by
  unfold Monotones.Duplicate at h
  obtain ⟨m2, h1, h⟩ := bind_eq_ok h
  obtain ⟨v1, hv1, h⟩ := bind_eq_ok h
  obtain ⟨m3, h3, h⟩ := bind_eq_ok h
  obtain ⟨v2, hv2, h⟩ := bind_eq_ok h
  have e2 : Ext m m2 := Ext.ofWrite h1 (fun _ => rfl)
  have hv10 : 0 ≤ v1.sweep_order := (hv.extend e2).value hv1
  have e22 : Ext m2 (m2 ++ [v1]) := ⟨[v1.tag], by simp⟩
  have e23 : Ext m2 m3 := Ext.chain e22 (Ext.ofWrite h3 (fun _ => rfl))
  have q3 : RankInv N m3 :=
    RankInv.write h3 (fun _ => ⟨rfl, rfl⟩)
      (RankInv.push hv1 hv10 (RankInv.write h1 (fun _ => ⟨rfl, rfl⟩) hq))
  have rv3 : RankedI m3 v := hv.extend (e2.chain e23)
  have rc3 : RankedI m3 (Monotones.Num_verts m2) := by
    have hc : getI (m2 ++ [v1]) (Monotones.Num_verts m2) = .ok v1 := by
      refine getI_of_getElem? (by simp [Monotones.Num_verts]) ?_
      simp only [Monotones.Num_verts, Int.toNat_ofNat]
      rw [List.getElem?_append_right (le_refl _)]
      simp
    exact RankedI.extend (Ext.ofWrite h3 (fun _ => rfl)) ⟨v1, hc, hv10⟩
  have close : ∀ m4, RankInv N m4 →
      Monotones.Link m4 v (Monotones.Num_verts m2) = .ok m1 → RankInv N m1 :=
    fun m4 p4 h5 => Monotones.Link_rk h5 p4
  simp only at h
  by_cases hp : v2.Processed = true
  · simp only [hp, if_true] at h
    have hv20 : 0 ≤ v2.across := by simpa [VertAdj.Processed] using hp
    obtain ⟨r, _, h⟩ := bind_eq_ok h
    by_cases hq1 : r.Processed = true
    · simp only [hq1, if_true] at h
      obtain ⟨m5, h5, h⟩ := bind_eq_ok h
      obtain ⟨m6, h6, h⟩ := bind_eq_ok h
      have e5 : Ext m3 m5 := Monotones.Match_keeps (Ext.copies _) h5 (Ext.self _)
      have q5 := Monotones.Match_rk h5 q3 rc3 (fun _ => (q3.read hv2 hv20).2)
      exact close m6 (Monotones.Match_rk h6 q5 (rv3.extend e5) (fun _ => rv3.extend e5)) h
    · simp only [hq1, if_false] at h
      obtain ⟨m5, h5, h⟩ := bind_eq_ok h
      exact close m5 (Monotones.Match_rk h5 q3 rc3 (fun _ => rc3)) h
  · simp only [hp, if_false] at h
    obtain ⟨l, hl, h⟩ := bind_eq_ok h
    have rest : ∀ m5, RankInv N m5 → Ext m3 m5 →
        (do
          let v_1 ← Monotones.Vert m5 v
          let r ← Monotones.Right m5 v_1
          if r.Processed = true then do
              let hh ← Monotones.Helper m5 v v_1.right
              let y ← Monotones.Match m5 (Monotones.Num_verts m2) hh
              Monotones.Link y v (Monotones.Num_verts m2)
            else do
              let y ← modifyI m5 (Monotones.Num_verts m2)
                (fun w => { w with across := Monotones.Num_verts m2 })
              Monotones.Link y v (Monotones.Num_verts m2)) = .ok m1 → RankInv N m1 := by
      intro m5 p5 e5 h
      obtain ⟨v3, _, h⟩ := bind_eq_ok h
      obtain ⟨r, hr, h⟩ := bind_eq_ok h
      by_cases hq1 : r.Processed = true
      · simp only [hq1, if_true] at h
        obtain ⟨hh, hhh, h⟩ := bind_eq_ok h
        obtain ⟨m6, h6, h⟩ := bind_eq_ok h
        have rh := Monotones.Helper_rk p5 hr hq1 hhh
        exact close m6 (Monotones.Match_rk h6 p5 (rc3.extend e5) (fun _ => rh)) h
      · simp only [hq1, if_false] at h
        obtain ⟨m6, h6, h⟩ := bind_eq_ok h
        exact close m6 (RankInv.setAcross h6 p5 (rc3.extend e5) (fun _ => rc3.extend e5)) h
    by_cases hq1 : l.Processed = true
    · simp only [hq1, if_true] at h
      obtain ⟨hh, hhh, h⟩ := bind_eq_ok h
      obtain ⟨m5, h5, h⟩ := bind_eq_ok h
      have rh := Monotones.Helper_rk q3 hl hq1 hhh
      exact rest m5 (Monotones.Match_rk h5 q3 rv3 (fun _ => rh))
        (Monotones.Match_keeps (Ext.copies _) h5 (Ext.self _)) h
    · simp only [hq1, if_false] at h
      obtain ⟨m5, h5, h⟩ := bind_eq_ok h
      exact rest m5 (RankInv.setAcross h5 q3 rv3 (fun _ => rv3)) (Ext.ofWrite h5 (fun _ => rfl)) h

theorem Monotones.ProcessMerge_rk {N : Nat} {m m1 : Monotones.Verts} {a : Int}
    (h : Monotones.ProcessMerge m a = .ok m1) (hq : RankInv N m) (ha : RankedI m a) :
    RankInv N m1 := by
  unfold Monotones.ProcessMerge at h
  obtain ⟨m2, h2, h⟩ := bind_eq_ok h
  obtain ⟨v, _, h⟩ := bind_eq_ok h
  obtain ⟨ac, _, h⟩ := bind_eq_ok h
  have p2 := Monotones.Duplicate_rk h2 hq ha
  have e2 : Ext m m2 := Monotones.Duplicate_keeps (Ext.copies _) h2 (Ext.self _)
  have rest : ∀ m3, RankInv N m3 →
      (do
        let v ← Monotones.Vert m3 a
        let r ← Monotones.Right m3 v
        let a ← Monotones.Across m3 r
        if a.merge = true then do
            let (m, newVert_idx) ← Monotones.SplitVerts m3 v.right r.across
            Monotones.MatchRightAcross m newVert_idx
          else pure m3) = .ok m1 → RankInv N m1 := by
    intro m3 p3 h
    obtain ⟨v, _, h⟩ := bind_eq_ok h
    obtain ⟨r, hr, h⟩ := bind_eq_ok h
    obtain ⟨ac, hac, h⟩ := bind_eq_ok h
    by_cases hc : ac.merge = true
    · simp only [hc, if_true, ↓reduceIte] at h
      obtain ⟨⟨m4, n⟩, h4, h⟩ := bind_eq_ok h
      have hr0 : 0 ≤ r.across := (getI_ok hac).1
      obtain ⟨q4, rn⟩ := Monotones.SplitVerts_rk h4 p3 (p3.read hr hr0).1
      exact Monotones.MatchRightAcross_rk h q4 rn
    · simp only [hc, if_false, Bool.false_eq_true, ↓reduceIte, pure, Except.pure,
        Except.ok.injEq] at h
      exact h ▸ p3
  simp only at h
  by_cases hc : ac.merge = true
  · simp only [hc, if_true, ↓reduceIte] at h
    obtain ⟨⟨m4, n⟩, h4, h⟩ := bind_eq_ok h
    obtain ⟨m5, h5, h⟩ := bind_eq_ok h
    obtain ⟨q4, _⟩ := Monotones.SplitVerts_rk h4 p2 (ha.extend e2)
    have e4 : Ext m2 m4 := Monotones.SplitVerts_keeps (Ext.copies _) h4 (Ext.self _)
    exact rest m5 (Monotones.MatchAcrossOf_rk h5 q4 ((ha.extend e2).extend e4)) h
  · simp only [hc, if_false, Bool.false_eq_true, ↓reduceIte, pure_bind] at h
    exact rest m2 p2 h

theorem Monotones.ProcessSplit_rk {N : Nat} {m m1 : Monotones.Verts} {a b : Int}
    (h : Monotones.ProcessSplit m a b = .ok m1) (hq : RankInv N m) (ha : RankedI m a) :
    RankInv N m1 := by
  unfold Monotones.ProcessSplit at h
  obtain ⟨hh, hhh, h⟩ := bind_eq_ok h
  obtain ⟨ac, hac, h⟩ := bind_eq_ok h
  obtain ⟨h2, _, h⟩ := bind_eq_ok h
  have hh0 : 0 ≤ hh.across := (getI_ok hac).1
  obtain ⟨rb, rba⟩ := hq.read hhh hh0
  have rest : ∀ m3 b, RankInv N m3 → RankedI m3 a →
      (do
        let (m, newVert_idx) ← Monotones.SplitVerts m3 a b
        let m ← Monotones.MatchRightAcross m newVert_idx
        Monotones.MatchAcrossOf m a b) = .ok m1 → RankInv N m1 := by
    intro m3 b p3 r3 h
    obtain ⟨⟨m4, n⟩, h4, h⟩ := bind_eq_ok h
    obtain ⟨m5, h5, h⟩ := bind_eq_ok h
    obtain ⟨q4, rn⟩ := Monotones.SplitVerts_rk h4 p3 r3
    have e4 : Ext m3 m4 := Monotones.SplitVerts_keeps (Ext.copies _) h4 (Ext.self _)
    have e5 : Ext m4 m5 := by
      unfold Monotones.MatchRightAcross at h5
      obtain ⟨_, _, h5⟩ := bind_eq_ok h5
      obtain ⟨_, _, h5⟩ := bind_eq_ok h5
      exact Monotones.Match_keeps (Ext.copies _) h5 (Ext.self _)
    exact Monotones.MatchAcrossOf_rk h (Monotones.MatchRightAcross_rk h5 q4 rn)
      ((r3.extend e4).extend e5)
  simp only at h
  have rsel : RankedI m (if F32.lt hh.pos.y ac.pos.y = true then hh.across else b) := by
    split_ifs
    · exact rba
    · exact rb
  by_cases hc : (!h2.merge) = true
  · simp only [hc, if_true, ↓reduceIte] at h
    obtain ⟨m3, h3, h⟩ := bind_eq_ok h
    have e3 : Ext m m3 := Monotones.Duplicate_keeps (Ext.copies _) h3 (Ext.self _)
    exact rest m3 _ (Monotones.Duplicate_rk h3 hq rsel) (ha.extend e3) h
  · simp only [hc, if_false, Bool.false_eq_true, ↓reduceIte, pure_bind] at h
    exact rest m _ hq ha h

/-- One event of the sweep keeps the invariant of the ranks: the vertex at
hand has a rank, and every other vertex of which a copy is made, or which is
matched, is processed or is `across` of a processed vertex. -/
theorem Monotones.ProcessVert_rk {N : Nat} {m m1 : Monotones.Verts} {idx : Int} {vt : VertType}
    (h : Monotones.ProcessVert m idx = .ok (m1, vt)) (hq : RankInv N m) (ha : RankedI m idx) :
    RankInv N m1 := by
  unfold Monotones.ProcessVert at h
  obtain ⟨vert, hvert, h⟩ := bind_eq_ok h
  obtain ⟨right, hright, h⟩ := bind_eq_ok h
  by_cases c1 : right.Processed = true
  · simp only [c1, if_true, ↓reduceIte] at h
    obtain ⟨left, hleft, h⟩ := bind_eq_ok h
    by_cases c2 : left.Processed = true
    · simp only [c2, if_true, ↓reduceIte] at h
      by_cases c3 : right.across = vert.left
      · simp only [c3, if_true, ↓reduceIte, pure, Except.pure, Except.ok.injEq,
          Prod.mk.injEq] at h
        exact h.1 ▸ hq
      · simp only [c3, if_false, Bool.false_eq_true, ↓reduceIte] at h
        obtain ⟨ac, _, h⟩ := bind_eq_ok h
        by_cases c4 : (ac.right = left.across && ac.merge) = true
        · simp only [c4, if_true, ↓reduceIte] at h
          obtain ⟨⟨m4, n⟩, h4, h⟩ := bind_eq_ok h
          simp only [pure, Except.pure, Except.ok.injEq, Prod.mk.injEq] at h
          exact h.1 ▸ (Monotones.SplitVerts_rk h4 hq ha).1
        · simp only [c4, if_false, Bool.false_eq_true, ↓reduceIte] at h
          obtain ⟨m4, h4, h⟩ := bind_eq_ok h
          simp only [pure, Except.pure, Except.ok.injEq, Prod.mk.injEq] at h
          exact h.1 ▸ Monotones.ProcessMerge_rk h4 hq ha
    · simp only [c2, if_false, Bool.false_eq_true, ↓reduceIte] at h
      obtain ⟨hi, hhi, h⟩ := bind_eq_ok h
      obtain ⟨hv, _, h⟩ := bind_eq_ok h
      have rh := Monotones.Helper_rk hq hright c1 hhi
      by_cases c3 : hv.merge = true
      · simp only [c3, if_true, ↓reduceIte] at h
        obtain ⟨⟨m4, n⟩, h4, h⟩ := bind_eq_ok h
        obtain ⟨m5, h5, h⟩ := bind_eq_ok h
        simp only [pure, Except.pure, Except.ok.injEq, Prod.mk.injEq] at h
        obtain ⟨q4, rn⟩ := Monotones.SplitVerts_rk h4 hq ha
        exact h.1 ▸ Monotones.MatchRightAcross_rk h5 q4 rn
      · simp only [c3, if_false, Bool.false_eq_true, ↓reduceIte] at h
        obtain ⟨m4, h4, h⟩ := bind_eq_ok h
        simp only [pure, Except.pure, Except.ok.injEq, Prod.mk.injEq] at h
        exact h.1 ▸ Monotones.Match_rk h4 hq ha (fun _ => rh)
  · simp only [c1, if_false, Bool.false_eq_true, ↓reduceIte] at h
    obtain ⟨left, hleft, h⟩ := bind_eq_ok h
    by_cases c2 : left.Processed = true
    · simp only [c2, if_true, ↓reduceIte] at h
      obtain ⟨hi, hhi, h⟩ := bind_eq_ok h
      obtain ⟨hv, _, h⟩ := bind_eq_ok h
      have rh := Monotones.Helper_rk hq hleft c2 hhi
      by_cases c3 : hv.merge = true
      · simp only [c3, if_true, ↓reduceIte] at h
        obtain ⟨⟨m4, n⟩, h4, h⟩ := bind_eq_ok h
        obtain ⟨m5, h5, h⟩ := bind_eq_ok h
        simp only [pure, Except.pure, Except.ok.injEq, Prod.mk.injEq] at h
        obtain ⟨q4, _⟩ := Monotones.SplitVerts_rk h4 hq ha
        have e4 : Ext m m4 := Monotones.SplitVerts_keeps (Ext.copies _) h4 (Ext.self _)
        exact h.1 ▸ Monotones.MatchAcrossOf_rk h5 q4 (ha.extend e4)
      · simp only [c3, if_false, Bool.false_eq_true, ↓reduceIte] at h
        obtain ⟨m4, h4, h⟩ := bind_eq_ok h
        simp only [pure, Except.pure, Except.ok.injEq, Prod.mk.injEq] at h
        exact h.1 ▸ Monotones.Match_rk h4 hq ha (fun _ => rh)
    · simp only [c2, if_false, Bool.false_eq_true, ↓reduceIte] at h
      by_cases c3 : CCW vert.pos right.pos left.pos > 0
      · simp only [c3, if_true, ↓reduceIte] at h
        obtain ⟨m4, h4, h⟩ := bind_eq_ok h
        simp only [pure, Except.pure, Except.ok.injEq, Prod.mk.injEq] at h
        exact h.1 ▸ RankInv.setAcross h4 hq ha (fun _ => ha)
      · simp only [c3, if_false, Bool.false_eq_true, ↓reduceIte] at h
        obtain ⟨hi, _, h⟩ := bind_eq_ok h
        by_cases c4 : hi ≥ 0
        · simp only [c4, if_true, ↓reduceIte] at h
          obtain ⟨m4, h4, h⟩ := bind_eq_ok h
          simp only [pure, Except.pure, Except.ok.injEq, Prod.mk.injEq] at h
          exact h.1 ▸ Monotones.ProcessSplit_rk h4 hq ha
        · simp only [c4, if_false, Bool.false_eq_true, ↓reduceIte] at h
          obtain ⟨m4, h4, h⟩ := bind_eq_ok h
          simp only [pure, Except.pure, Except.ok.injEq, Prod.mk.injEq] at h
          exact h.1 ▸ RankInv.setAcross h4 hq ha (fun _ => ha)

/-! ## Monotone decomposer: the ranks given by the sweep -/

theorem modifyI_getI_self {m m1 : List VertAdj} {i : Int} {f : VertAdj → VertAdj}
    (h : modifyI m i f = .ok m1) : ∃ a, getI m i = .ok a ∧ getI m1 i = .ok (f a) := by
  obtain ⟨a, ha, rfl⟩ := modifyI_ok h
  obtain ⟨h0, hlt, _⟩ := getI_ok ha
  exact ⟨a, ha, getI_of_getElem? h0 (by simp [List.getElem?_set, hlt])⟩

theorem modifyI_getI_ne {m m1 : List VertAdj} {i j : Int} {f : VertAdj → VertAdj}
    (h : modifyI m i f = .ok m1) (hne : j ≠ i) {v : VertAdj} (hv : getI m j = .ok v) :
    getI m1 j = .ok v := by
  obtain ⟨a, ha, rfl⟩ := modifyI_ok h
  obtain ⟨h0, _, _⟩ := getI_ok ha
  obtain ⟨hj0, _, hget⟩ := getI_ok hv
  refine getI_of_getElem? hj0 ?_
  have : i.toNat ≠ j.toNat := by omega
  rw [List.getElem?_set_ne this]
  exact hget

theorem RankedI.reorder {m m1 : List VertAdj} {i k : Int}
    (h : modifyI m i (fun v => { v with sweep_order := k }) = .ok m1) (hk : 0 ≤ k) {j : Int}
    (hj : RankedI m j) : RankedI m1 j := by
  obtain ⟨v, hv, h0⟩ := hj
  by_cases hji : j = i
  · subst hji
    obtain ⟨a, _, ha1⟩ := modifyI_getI_self h
    exact ⟨_, ha1, hk⟩
  · exact ⟨v, modifyI_getI_ne h hji hv, h0⟩

theorem mem_set_of_ne {α : Type} {l : List α} {k : Nat} {x t : α} (ht : t ∈ l)
    (hne : ∀ h : k < l.length, l[k] ≠ t) : t ∈ l.set k x := by
  obtain ⟨q, hq, rfl⟩ := List.getElem_of_mem ht
  have hqk : k ≠ q := by
    intro heq
    subst heq
    exact hne hq rfl
  have : (l.set k x)[q]? = some l[q] := by
    rw [List.getElem?_set_ne hqk]
    exact List.getElem?_eq_getElem hq
  exact List.getElem?_mem this

/-- The assignment of a rank to an input vertex that has none. -/
theorem RankInv.setOrder {N : Nat} {m m1 : List VertAdj} {i k : Int}
    (h : modifyI m i (fun v => { v with sweep_order := k }) = .ok m1) (hk : 0 ≤ k)
    (hi : i.toNat < N) (hold : ∃ v, getI m i = .ok v ∧ v.sweep_order = -1)
    (hq : RankInv N m) : RankInv N m1 := by
  obtain ⟨a, ha, hm1⟩ := modifyI_ok h
  obtain ⟨hi0, hlt, hget⟩ := getI_ok ha
  obtain ⟨v, hv, hv1⟩ := hold
  rw [ha] at hv
  cases hv
  obtain ⟨hN, hc⟩ := hq.copies
  refine ⟨?_, ?_, ?_⟩
  · intro x hx hx0
    rcases modifyI_mem h hx with h1 | ⟨b, hb, rfl⟩
    · obtain ⟨h2, h3⟩ := hq.across x h1 hx0
      exact ⟨h2, h3.reorder h hk⟩
    · obtain ⟨_, h3⟩ := hq.across b (mem_of_getI hb) hx0
      exact ⟨hk, h3.reorder h hk⟩
  · rw [hm1]
    simpa using hN
  · intro t ht
    rw [hm1, List.map_set] at ht ⊢
    rw [List.drop_set_of_lt _ _ hi] at ht
    obtain ⟨h0, hmem⟩ := hc t ht
    refine ⟨h0, ?_⟩
    rw [List.set_take]
    refine mem_set_of_ne hmem ?_
    intro hlen heq
    have hlt2 : i.toNat < (m.map VertAdj.tag).length := by simpa using hlt
    rw [List.getElem_take] at heq
    have hg : (m.map VertAdj.tag)[i.toNat] = a.tag := by
      rw [List.getElem_map]
      have := List.getElem?_eq_getElem hlt
      rw [hget] at this
      rw [(Option.some.inj this)]
    rw [hg] at heq
    have : t.2.2 = -1 := by rw [← heq]; exact hv1
    omega

theorem Monotones.sweep_ranks (N : Nat) :
    ∀ (rest : List (F32 × Int)) (i : Int) (m : Monotones.Verts) (vt : VertType)
      (m1 : Monotones.Verts) (vt1 : VertType), 0 ≤ i → SweepInv N rest m →
      Monotones.sweep rest i m vt = .ok (m1, vt1) →
      RankInv N m1 ∧
        (∀ (k : Nat) (p : F32 × Int), rest[k]? = some p →
          ∃ v, getI m1 p.2 = .ok v ∧ v.sweep_order = i + k) ∧
        (∀ (j : Int) (v : VertAdj), getI m j = .ok v → j ∉ rest.map Prod.snd →
          ∃ v1, getI m1 j = .ok v1 ∧ v1.tag = v.tag) := by
  intro rest
  induction rest with
  | nil =>
    intro i m vt m1 vt1 _ hs h
    simp only [Monotones.sweep, Except.ok.injEq, Prod.mk.injEq] at h
    obtain ⟨rfl, _⟩ := h
    exact ⟨hs.rank, fun k p hp => by simp at hp, fun j v hv _ => ⟨v, hv, rfl⟩⟩
  | cons a rest ih =>
    intro i m vt m1 vt1 hi hs h
    obtain ⟨y, idx⟩ := a
    simp only [Monotones.sweep] at h
    cases h2 : modifyI m idx (fun v => { v with sweep_order := i }) with
    | error e => simp [h2] at h
    | ok m2 =>
      simp only [h2] at h
      cases h3 : Monotones.ProcessVert m2 idx with
      | error e => simp [h3] at h
      | ok r =>
        obtain ⟨m3, vt3⟩ := r
        simp only [h3] at h
        obtain ⟨_, hidx, hold⟩ := hs.todo (y, idx) (List.mem_cons_self _ _)
        simp only at hidx hold
        have q2 : RankInv N m2 := RankInv.setOrder h2 hi hidx hold hs.rank
        obtain ⟨a0, ha0, ha1⟩ := modifyI_getI_self h2
        have r2 : RankedI m2 idx := ⟨_, ha1, hi⟩
        have q3 : RankInv N m3 := Monotones.ProcessVert_rk h3 q2 r2
        have e3 : Ext m2 m3 := Monotones.ProcessVert_keeps (Ext.copies _) h3 (Ext.self _)
        have hnd := hs.nodup
        simp only [List.map_cons, List.nodup_cons] at hnd
        have hs3 : SweepInv N rest m3 := by
          refine ⟨q3, ?_, hnd.2⟩
          intro p hp
          obtain ⟨hp0, hpN, v, hv, hv1⟩ := hs.todo p (List.mem_cons_of_mem _ hp)
          have hne : p.2 ≠ idx := by
            intro heq
            exact hnd.1 (heq ▸ List.mem_map_of_mem Prod.snd hp)
          obtain ⟨v3, hv3, ht⟩ := e3.getI (modifyI_getI_ne h2 hne hv)
          refine ⟨hp0, hpN, v3, hv3, ?_⟩
          simp only [VertAdj.tag, Prod.mk.injEq] at ht
          rw [ht.2.2, hv1]
        obtain ⟨q1, hr, hf⟩ := ih (i + 1) m3 vt3 m1 vt1 (by omega) hs3 h
        refine ⟨q1, ?_, ?_⟩
        · intro k p hp
          cases k with
          | zero =>
            simp only [List.getElem?_cons_zero, Option.some.injEq] at hp
            subst hp
            obtain ⟨v3, hv3, ht3⟩ := e3.getI ha1
            obtain ⟨v1, hv1, ht1⟩ := hf idx v3 hv3 hnd.1
            refine ⟨v1, hv1, ?_⟩
            simp only [VertAdj.tag, Prod.mk.injEq] at ht1 ht3
            rw [ht1.2.2, ht3.2.2]
            simp
          | succ k =>
            simp only [List.getElem?_cons_succ] at hp
            obtain ⟨v, hv, hv1⟩ := hr k p hp
            refine ⟨v, hv, ?_⟩
            rw [hv1]
            push_cast
            ring
        · intro j v hv hj
          simp only [List.map_cons, List.mem_cons, not_or] at hj
          obtain ⟨v3, hv3, ht3⟩ := e3.getI (modifyI_getI_ne h2 hj.1 hv)
          obtain ⟨v1, hv1, ht1⟩ := hf j v3 hv3 hj.2
          exact ⟨v1, hv1, ht1.trans ht3⟩

theorem Monotones.initVerts_fresh :
    ∀ (polys : Polygons) (m : Monotones.Verts),
      (∀ v ∈ m, v.sweep_order = -1 ∧ v.across = -1) →
      ∀ v ∈ Monotones.initVerts polys m, v.sweep_order = -1 ∧ v.across = -1 := by
  intro polys
  induction polys with
  | nil => intro m hm; simpa [Monotones.initVerts] using hm
  | cons p rest ih =>
    intro m hm
    simp only [Monotones.initVerts]
    apply ih
    intro v hv
    rcases List.mem_append.1 hv with h1 | h1
    · exact hm v h1
    · simp only [Monotones.initPoly, List.mem_map] at h1
      obtain ⟨ip, _, rfl⟩ := h1
      exact ⟨rfl, rfl⟩

theorem Monotones.initSweepLine_snd (m : Monotones.Verts) :
    (Monotones.initSweepLine m).map Prod.snd = (List.range m.length).map (fun i : Nat => (i : Int)) := by
  unfold Monotones.initSweepLine
  rw [List.map_map]
  have : (Prod.snd ∘ fun (iv : Nat × VertAdj) => (iv.2.pos.y, (iv.1 : Int))) =
      (fun i : Nat => (i : Int)) ∘ Prod.fst := by
    funext iv
    rfl
  rw [this, ← List.map_map, List.enum_map_fst]

theorem Monotones.sortedSweepLine_perm (polys : Polygons) :
    List.Perm (Monotones.sortedSweepLine polys)
      (Monotones.initSweepLine (Monotones.initVerts polys [])) :=
  List.perm_insertionSort _ _

theorem Monotones.sortedSweepLine_snd (polys : Polygons) :
    List.Perm ((Monotones.sortedSweepLine polys).map Prod.snd)
      ((List.range (Monotones.initVerts polys []).length).map (fun i : Nat => (i : Int))) := by
  rw [← Monotones.initSweepLine_snd]
  exact (Monotones.sortedSweepLine_perm polys).map _

/-- The ranks in the buffer that the constructor returns: the input vertex
processed as number `k` has rank `k`, and the ranks are consistent. -/
theorem Monotones.Monotones_ranks (K : Edge) (polys : Polygons) (m : Monotones.Verts)
    (h : Monotones.Monotones K polys = .ok m) :
    RankInv (Monotones.initVerts polys []).length m ∧
      ∀ (k : Nat) (p : F32 × Int), (Monotones.sortedSweepLine polys)[k]? = some p →
        ∃ v, getI m p.2 = .ok v ∧ v.sweep_order = k := by
  have hsnd := Monotones.sortedSweepLine_snd polys
  have h0 : SweepInv (Monotones.initVerts polys []).length (Monotones.sortedSweepLine polys)
      (Monotones.initVerts polys []) := by
    have hfresh := Monotones.initVerts_fresh polys [] (fun v hv => absurd hv (List.not_mem_nil v))
    refine ⟨⟨?_, ?_, ?_⟩, ?_, ?_⟩
    · intro x hx hx0
      have := (hfresh x hx).2
      omega
    · exact le_of_eq (by simp)
    · intro t ht
      rw [List.drop_of_length_le (by simp)] at ht
      exact absurd ht (List.not_mem_nil t)
    · intro p hp
      have hp2 : p.2 ∈ (List.range (Monotones.initVerts polys []).length).map
          (fun i : Nat => (i : Int)) := hsnd.subset (List.mem_map_of_mem Prod.snd hp)
      obtain ⟨i, hi, hip⟩ := List.mem_map.1 hp2
      rw [List.mem_range] at hi
      rw [← hip]
      refine ⟨by omega, by simpa using hi, _, getI_of_lt hi, ?_⟩
      exact (hfresh _ (List.getElem_mem hi)).1
    · refine hsnd.nodup_iff.2 ?_
      exact (List.nodup_range _).map (fun a b hab => by simpa using hab)
  rcases Monotones.Monotones_cases K polys with ⟨_, he⟩ | ⟨m1, vt, hs, _, hc⟩
  · rw [he] at h
    cases h
  · rcases hc with ⟨_, he⟩ | ⟨_, _, he⟩ | ⟨_, _, he⟩
    · rw [he] at h; cases h
    · rw [he] at h; cases h
    · rw [he] at h
      cases h
      obtain ⟨q, hr, _⟩ := Monotones.sweep_ranks _ _ 0 _ _ _ _ (le_refl _) h0 hs
      refine ⟨q, fun k p hp => ?_⟩
      obtain ⟨v, hv, hv1⟩ := hr k p hp
      exact ⟨v, hv, by simpa using hv1⟩

/-! ## Monotone decomposer: the ranks of the input vertices and of the copies -/

theorem rankAt_eq {m : List VertAdj} {j : Int} {v : VertAdj} (h : getI m j = .ok v) :
    rankAt m j = v.sweep_order := by
  simp [rankAt, h]

theorem Monotones.sortedSweepLine_length (polys : Polygons) :
    (Monotones.sortedSweepLine polys).length = (Monotones.initVerts polys []).length := by
  rw [(Monotones.sortedSweepLine_perm polys).length_eq]
  simp [Monotones.initSweepLine]

/-- The ranks of the vertices in the order in which the sweep processes them
are `0, 1, 2, …`. -/
theorem Monotones.ranks_in_order (K : Edge) (polys : Polygons) (m : Monotones.Verts)
    (h : Monotones.Monotones K polys = .ok m) :
    (Monotones.sortedSweepLine polys).map (fun p => rankAt m p.2) =
      (List.range (Monotones.initVerts polys []).length).map (fun i : Nat => (i : Int)) := by
  obtain ⟨_, hr⟩ := Monotones.Monotones_ranks K polys m h
  apply List.ext_getElem
  · simp [Monotones.sortedSweepLine_length]
  · intro k h1 h2
    simp only [List.length_map] at h1
    obtain ⟨v, hv, hv1⟩ := hr k _ (List.getElem?_eq_getElem h1)
    simp [rankAt_eq hv, hv1]

theorem take_map_rank {m : List VertAdj} {N : Nat} (hN : N ≤ m.length) :
    (m.take N).map (fun v => v.sweep_order) =
      ((List.range N).map (fun i : Nat => (i : Int))).map (rankAt m) := by
  apply List.ext_getElem
  · simp [hN]
  · intro k h1 h2
    simp only [List.length_map, List.length_take] at h1
    have hk : k < m.length := by omega
    simp [rankAt_eq (getI_of_lt hk)]

/-- The ranks of the input vertices are a permutation of `0 .. N − 1`. -/
theorem Monotones.ranks_perm (K : Edge) (polys : Polygons) (m : Monotones.Verts)
    (h : Monotones.Monotones K polys = .ok m) :
    List.Perm ((m.take (Monotones.initVerts polys []).length).map (fun v => v.sweep_order))
      ((List.range (Monotones.initVerts polys []).length).map (fun i : Nat => (i : Int))) := by
  obtain ⟨hq, _⟩ := Monotones.Monotones_ranks K polys m h
  have hN : (Monotones.initVerts polys []).length ≤ m.length := by
    simpa using hq.copies.1
  have h2 := (Monotones.sortedSweepLine_snd polys).map (rankAt m)
  have h3 := Monotones.ranks_in_order K polys m h
  rw [List.map_map] at h2
  rw [take_map_rank hN]
  refine h2.symm.trans (List.Perm.of_eq ?_)
  rw [← h3]
  rfl

/-- C22, as amended: after the constructor completes successfully on an input
of `N` vertices, the ranks `sweep_order` of the `N` input vertices (the first
`N` entries of the buffer) are a permutation of `0 .. N − 1`, the vertex that
the sweep processes as number `k` having rank `k`; every vertex that
`Duplicate` or `SplitVerts` has appended after them carries the rank, the
position and the `mesh_idx` of one of the input vertices. So every rank is
set, and two sweep vertices share a rank only when one is such a copy. -/
theorem Monotones_sweep_order (K : Edge) (polys : Polygons) (m : Monotones.Verts)
    (h : Monotones.Monotones K polys = .ok m) :
    (Monotones.initVerts polys []).length ≤ m.length ∧
      List.Perm ((m.take (Monotones.initVerts polys []).length).map (fun v => v.sweep_order))
        ((List.range (Monotones.initVerts polys []).length).map (fun i : Nat => (i : Int))) ∧
      (Monotones.sortedSweepLine polys).map (fun p => rankAt m p.2) =
        (List.range (Monotones.initVerts polys []).length).map (fun i : Nat => (i : Int)) ∧
      (∀ x ∈ m.drop (Monotones.initVerts polys []).length,
        ∃ y ∈ m.take (Monotones.initVerts polys []).length,
          x.sweep_order = y.sweep_order ∧ x.pos = y.pos ∧ x.mesh_idx = y.mesh_idx) ∧
      ∀ x ∈ m, 0 ≤ x.sweep_order ∧
        x.sweep_order < ((Monotones.initVerts polys []).length : Int) := by
  obtain ⟨hq, _⟩ := Monotones.Monotones_ranks K polys m h
  have hN : (Monotones.initVerts polys []).length ≤ m.length := by
    simpa using hq.copies.1
  have hperm := Monotones.ranks_perm K polys m h
  have hcopy : ∀ x ∈ m.drop (Monotones.initVerts polys []).length,
      ∃ y ∈ m.take (Monotones.initVerts polys []).length,
        x.sweep_order = y.sweep_order ∧ x.pos = y.pos ∧ x.mesh_idx = y.mesh_idx := by
    intro x hx
    have hx1 : x.tag ∈ (m.map VertAdj.tag).drop (Monotones.initVerts polys []).length := by
      rw [← List.map_drop]
      exact List.mem_map_of_mem _ hx
    obtain ⟨_, hmem⟩ := hq.copies.2 _ hx1
    rw [← List.map_take] at hmem
    obtain ⟨y, hy, hyx⟩ := List.mem_map.1 hmem
    simp only [VertAdj.tag, Prod.mk.injEq] at hyx
    exact ⟨y, hy, hyx.2.2.symm, hyx.1.symm, hyx.2.1.symm⟩
  have horig : ∀ y ∈ m.take (Monotones.initVerts polys []).length,
      0 ≤ y.sweep_order ∧ y.sweep_order < ((Monotones.initVerts polys []).length : Int) := by
    intro y hy
    have h1 : y.sweep_order ∈ (List.range (Monotones.initVerts polys []).length).map
        (fun i : Nat => (i : Int)) :=
      hperm.subset (List.mem_map_of_mem (fun v => v.sweep_order) hy)
    obtain ⟨i, hi, hiy⟩ := List.mem_map.1 h1
    rw [List.mem_range] at hi
    rw [← hiy]
    exact ⟨by omega, by exact_mod_cast hi⟩
  refine ⟨hN, hperm, Monotones.ranks_in_order K polys m h, hcopy, ?_⟩
  intro x hx
  rw [← List.take_append_drop (Monotones.initVerts polys []).length m] at hx
  rcases List.mem_append.1 hx with h1 | h1
  · exact horig x h1
  · obtain ⟨y, hy, hxy, _⟩ := hcopy x h1
    rw [hxy]
    exact horig y hy

set_option maxRecDepth 100000 in
/-- C22, as amended, at the two-peaks polygon: seven input vertices with the
ranks `0, 1, 4, 2, 5, 3, 6` and four copies with the ranks `0, 2, 2, 3`. -/
theorem Monotones_sweep_order_witness :
    Monotones.Monotones sampleTags twoPeaks = .ok twoPeaksMonotones ∧
      twoPeaksMonotones.map (fun v => v.sweep_order) = [0, 1, 4, 2, 5, 3, 6, 0, 2, 2, 3] ∧
      ((Monotones.initVerts twoPeaks []).length ≤ twoPeaksMonotones.length ∧
        List.Perm
          ((twoPeaksMonotones.take (Monotones.initVerts twoPeaks []).length).map
            (fun v => v.sweep_order))
          ((List.range (Monotones.initVerts twoPeaks []).length).map
            (fun i : Nat => (i : Int))) ∧
        (Monotones.sortedSweepLine twoPeaks).map (fun p => rankAt twoPeaksMonotones p.2) =
          (List.range (Monotones.initVerts twoPeaks []).length).map (fun i : Nat => (i : Int)) ∧
        (∀ x ∈ twoPeaksMonotones.drop (Monotones.initVerts twoPeaks []).length,
          ∃ y ∈ twoPeaksMonotones.take (Monotones.initVerts twoPeaks []).length,
            x.sweep_order = y.sweep_order ∧ x.pos = y.pos ∧ x.mesh_idx = y.mesh_idx) ∧
        ∀ x ∈ twoPeaksMonotones, 0 ≤ x.sweep_order ∧
          x.sweep_order < ((Monotones.initVerts twoPeaks []).length : Int)) :=
  ⟨by decide!, by decide!,
    Monotones_sweep_order sampleTags twoPeaks twoPeaksMonotones (by decide!)⟩

set_option maxRecDepth 100000 in
/-- C22 fails as stated: for the two-peaks polygon the constructor succeeds
with a buffer of eleven sweep vertices whose ranks are
`0, 1, 4, 2, 5, 3, 6, 0, 2, 2, 3`: the ranks `0`, `2` and `3` repeat and the
ranks `7 .. 10` do not occur. -/
theorem Monotones_sweep_order_counterexample :
    Monotones.Monotones sampleTags twoPeaks = .ok twoPeaksMonotones ∧
      twoPeaksMonotones.length = 11 ∧
      twoPeaksMonotones.map (fun v => v.sweep_order) = [0, 1, 4, 2, 5, 3, 6, 0, 2, 2, 3] ∧
      ¬ (twoPeaksMonotones.map (fun v => v.sweep_order)).Nodup ∧
      ¬ List.Perm (twoPeaksMonotones.map (fun v => v.sweep_order))
        ((List.range twoPeaksMonotones.length).map (fun i : Nat => (i : Int))) := by
  decide!

/-! ## The two sweep orders -/

theorem F32.lt_iff_toExt {a b : F32} (ha : a ≠ .nan) (hb : b ≠ .nan) :
    F32.lt a b = true ↔ F32.toExt a < F32.toExt b := by
  cases a with
  | nan => exact absurd rfl ha
  | fin p =>
    cases b with
    | nan => exact absurd rfl hb
    | fin q => simp [F32.lt, F32.toExt]
    | pinf =>
      simp only [F32.lt, F32.toExt, true_iff]
      exact WithBot.coe_lt_coe.2 (WithTop.coe_lt_top p)
    | ninf => simp [F32.lt, F32.toExt]
  | pinf =>
    cases b with
    | nan => exact absurd rfl hb
    | fin q => simp [F32.lt, F32.toExt]
    | pinf => simp [F32.lt, F32.toExt]
    | ninf => simp [F32.lt, F32.toExt]
  | ninf =>
    cases b with
    | nan => exact absurd rfl hb
    | fin q => simp [F32.lt, F32.toExt, WithBot.bot_lt_coe]
    | pinf => simp [F32.lt, F32.toExt, WithBot.bot_lt_coe]
    | ninf => simp [F32.lt, F32.toExt]

theorem Monotones.tupleLt_iff {a b : F32 × Int} (ha : a.1 ≠ .nan) (hb : b.1 ≠ .nan) :
    Monotones.tupleLt a b = true ↔
      toLex (F32.toExt a.1, a.2) < toLex (F32.toExt b.1, b.2) := by
  rw [Prod.Lex.lt_iff]
  simp only [Monotones.tupleLt, Bool.or_eq_true, Bool.and_eq_true, Bool.not_eq_true',
    decide_eq_true_eq]
  have h1 := F32.lt_iff_toExt ha hb
  have h2 := F32.lt_iff_toExt hb ha
  constructor
  · rintro (h | ⟨h, h3⟩)
    · exact Or.inl (h1.1 h)
    · have h4 : ¬ F32.toExt b.1 < F32.toExt a.1 := fun h5 => by
        rw [h2.2 h5] at h
        cases h
      rcases lt_or_eq_of_le (not_lt.1 h4) with h5 | h5
      · exact Or.inl h5
      · exact Or.inr ⟨h5, h3⟩
  · rintro (h | ⟨h, h3⟩)
    · exact Or.inl (h1.2 h)
    · refine Or.inr ⟨?_, h3⟩
      cases hlt : F32.lt b.1 a.1 with
      | false => rfl
      | true =>
        have := h2.1 hlt
        rw [h] at this
        exact absurd this (lt_irrefl _)

theorem tupleLtInt_iff (a b : Int × Int) :
    tupleLtInt a b = true ↔ toLex a < toLex b := by
  rw [Prod.Lex.lt_iff]
  simp only [tupleLtInt, Bool.or_eq_true, Bool.and_eq_true, Bool.not_eq_true',
    decide_eq_true_eq, decide_eq_false_iff_not]
  constructor
  · rintro (h | ⟨h, h3⟩)
    · exact Or.inl h
    · rcases lt_or_eq_of_le (not_lt.1 h) with h5 | h5
      · exact Or.inl h5
      · exact Or.inr ⟨h5, h3⟩
  · rintro (h | ⟨h, h3⟩)
    · exact Or.inl h
    · exact Or.inr ⟨by rw [h]; exact lt_irrefl _, h3⟩

/-- Insertion sort sorts a list on whose elements the relation is total and
transitive. -/
theorem orderedInsert_sorted_on {α : Type} (r : α → α → Prop) [DecidableRel r] (P : α → Prop)
    (htot : ∀ a b, P a → P b → r a b ∨ r b a)
    (htr : ∀ a b c, P a → P b → P c → r a b → r b c → r a c) (a : α) (ha : P a) :
    ∀ l : List α, (∀ x ∈ l, P x) → l.Pairwise r → (l.orderedInsert r a).Pairwise r := by
  intro l
  induction l with
  | nil => intro _ _; simp
  | cons b l ih =>
    intro hP hs
    rw [List.pairwise_cons] at hs
    have hb := hP b (List.mem_cons_self _ _)
    have hl : ∀ x ∈ l, P x := fun x hx => hP x (List.mem_cons_of_mem _ hx)
    by_cases hab : r a b
    · rw [List.orderedInsert, if_pos hab, List.pairwise_cons]
      refine ⟨?_, List.pairwise_cons.2 hs⟩
      intro x hx
      rcases List.mem_cons.1 hx with rfl | hx
      · exact hab
      · exact htr a b x ha hb (hl x hx) hab (hs.1 x hx)
    · rw [List.orderedInsert, if_neg hab, List.pairwise_cons]
      have hba : r b a := (htot a b ha hb).resolve_left hab
      refine ⟨?_, ih hl hs.2⟩
      intro x hx
      rcases (List.mem_orderedInsert r).1 hx with rfl | hx
      · exact hba
      · exact hs.1 x hx

theorem insertionSort_sorted_on {α : Type} (r : α → α → Prop) [DecidableRel r] (P : α → Prop)
    (htot : ∀ a b, P a → P b → r a b ∨ r b a)
    (htr : ∀ a b c, P a → P b → P c → r a b → r b c → r a c) :
    ∀ l : List α, (∀ x ∈ l, P x) → (l.insertionSort r).Pairwise r := by
  intro l
  induction l with
  | nil => intro _; simp
  | cons a l ih =>
    intro hP
    have hl : ∀ x ∈ l, P x := fun x hx => hP x (List.mem_cons_of_mem _ hx)
    rw [List.insertionSort]
    refine orderedInsert_sorted_on r P htot htr a (hP a (List.mem_cons_self _ _)) _ ?_ (ih hl)
    intro x hx
    exact hl x ((List.perm_insertionSort r l).subset hx)

/-- In a list sorted by a strict order, of two members the smaller comes
first. -/
theorem sublist_pair_of_pairwise {α : Type} {r : α → α → Prop} (hirr : ∀ a b, r a b → ¬ r b a) :
    ∀ (l : List α), l.Pairwise r → ∀ a b, a ∈ l → b ∈ l → r a b → List.Sublist [a, b] l := by
  intro l
  induction l with
  | nil => intro _ a b ha; simp at ha
  | cons c l ih =>
    intro hs a b ha hb hab
    rw [List.pairwise_cons] at hs
    rcases List.mem_cons.1 ha with h1 | h1
    · rcases List.mem_cons.1 hb with h2 | h2
      · rw [h1, h2] at hab
        exact absurd hab (hirr _ _ hab)
      · rw [h1]
        exact List.Sublist.cons₂ _ (List.singleton_sublist.2 h2)
    · rcases List.mem_cons.1 hb with h2 | h2
      · rw [h2] at hab
        exact absurd (hs.1 a h1) (hirr _ _ hab)
      · exact List.Sublist.cons _ (ih hs.2 a b h1 h2 hab)

theorem mem_rankPairs {m : List VertAdj} {x : Int × Int} :
    x ∈ m.enum.map (fun iv => (iv.2.sweep_order, (iv.1 : Int))) ↔
      ∃ (i : Nat) (v : VertAdj), getI m (i : Int) = .ok v ∧ x = (v.sweep_order, (i : Int)) := by
  rw [List.mem_map]
  constructor
  · rintro ⟨iv, hiv, rfl⟩
    rw [List.mem_enum_iff_getElem?] at hiv
    exact ⟨iv.1, iv.2, getI_of_getElem? (by omega) (by simpa using hiv), rfl⟩
  · rintro ⟨i, v, hv, rfl⟩
    obtain ⟨_, _, hget⟩ := getI_ok hv
    refine ⟨(i, v), ?_, rfl⟩
    rw [List.mem_enum_iff_getElem?]
    simpa using hget

theorem rankPairs_snd (m : List VertAdj) :
    (m.enum.map (fun iv => (iv.2.sweep_order, (iv.1 : Int)))).map Prod.snd =
      (List.range m.length).map (fun i : Nat => (i : Int)) := by
  rw [List.map_map]
  have : (Prod.snd ∘ fun (iv : Nat × VertAdj) => (iv.2.sweep_order, (iv.1 : Int))) =
      (fun i : Nat => (i : Int)) ∘ Prod.fst := by
    funext iv
    rfl
  rw [this, ← List.map_map, List.enum_map_fst]

theorem sweepLine_perm (m : List VertAdj) :
    List.Perm (sweepLine m) (m.enum.map (fun iv => (iv.2.sweep_order, (iv.1 : Int)))) :=
  List.perm_insertionSort _ _

theorem sweepLine_snd (m : List VertAdj) :
    List.Perm ((sweepLine m).map Prod.snd) ((List.range m.length).map (fun i : Nat => (i : Int))) := by
  rw [← rankPairs_snd]
  exact (sweepLine_perm m).map _

theorem mem_sweepLine {m : List VertAdj} {x : Int × Int} :
    x ∈ sweepLine m ↔
      ∃ (i : Nat) (v : VertAdj), getI m (i : Int) = .ok v ∧ x = (v.sweep_order, (i : Int)) := by
  rw [(sweepLine_perm m).mem_iff, mem_rankPairs]

theorem sweepLine_nodup (m : List VertAdj) : (sweepLine m).Nodup := by
  apply List.Nodup.of_map Prod.snd
  rw [(sweepLine_snd m).nodup_iff]
  exact (List.nodup_range _).map (fun a b hab => by simpa using hab)

theorem tupleLtInt_false_iff (a b : Int × Int) :
    tupleLtInt b a = false ↔ toLex a ≤ toLex b := by
  rw [← not_lt, ← tupleLtInt_iff]
  simp

theorem sweepLine_sorted (m : List VertAdj) :
    (sweepLine m).Pairwise (fun a b => tupleLtInt b a = false) := by
  refine insertionSort_sorted_on _ (fun _ => True) ?_ ?_ _ (fun _ _ => trivial)
  · intro a b _ _
    simp only [tupleLtInt_false_iff]
    exact le_total _ _
  · intro a b c _ _ _
    simp only [tupleLtInt_false_iff]
    exact le_trans

/-- The visiting order of `TriangulateMonotones` ascends strictly in
`(sweep_order, index)`. -/
theorem sweepLine_strict (m : List VertAdj) :
    (sweepLine m).Pairwise (fun a b => tupleLtInt a b = true) := by
  refine ((sweepLine_sorted m).and (sweepLine_nodup m)).imp ?_
  intro a b hab
  rw [tupleLtInt_iff]
  rw [tupleLtInt_false_iff] at hab
  exact lt_of_le_of_ne hab.1 (fun heq => hab.2 (by simpa using heq))

theorem lexLe_of_fst_lt {a b : Int × Int} (h : a.1 < b.1) : tupleLtInt b a = false := by
  rw [tupleLtInt_false_iff, Prod.Lex.le_iff]
  exact Or.inl h

/-- The input vertices come in the visiting order of `TriangulateMonotones` in
the order in which the sweep of the decomposer has processed them. -/
theorem sweepLine_inputs (K : Edge) (polys : Polygons) (m : Monotones.Verts)
    (h : Monotones.Monotones K polys = .ok m) :
    (sweepLine m).filter (fun p => decide (p.2 < ((Monotones.initVerts polys []).length : Int))) =
      (Monotones.sortedSweepLine polys).map (fun p => (rankAt m p.2, p.2)) := by
  obtain ⟨hq, hr⟩ := Monotones.Monotones_ranks K polys m h
  have hN : (Monotones.initVerts polys []).length ≤ m.length := by
    simpa using hq.copies.1
  have hsnd := Monotones.sortedSweepLine_snd polys
  haveI : IsAntisymm (Int × Int) (fun a b => tupleLtInt b a = false) :=
    ⟨fun a b hab hba => by
      rw [tupleLtInt_false_iff] at hab hba
      simpa using le_antisymm hab hba⟩
  refine List.eq_of_perm_of_sorted ?_ ((sweepLine_sorted m).sublist (List.filter_sublist _)) ?_
  · rw [List.perm_ext_iff_of_nodup ((sweepLine_nodup m).filter _)]
    · intro x
      rw [List.mem_filter, mem_sweepLine, List.mem_map]
      constructor
      · rintro ⟨⟨i, v, hv, rfl⟩, hlt⟩
        simp only [decide_eq_true_eq] at hlt
        have hi : i < (Monotones.initVerts polys []).length := by exact_mod_cast hlt
        have hmem : (i : Int) ∈ (Monotones.sortedSweepLine polys).map Prod.snd :=
          hsnd.symm.subset (List.mem_map.2 ⟨i, List.mem_range.2 hi, rfl⟩)
        obtain ⟨p, hp, hpi⟩ := List.mem_map.1 hmem
        exact ⟨p, hp, by rw [hpi, rankAt_eq hv]⟩
      · rintro ⟨p, hp, rfl⟩
        have hmem : p.2 ∈ (List.range (Monotones.initVerts polys []).length).map
            (fun i : Nat => (i : Int)) := hsnd.subset (List.mem_map_of_mem Prod.snd hp)
        obtain ⟨i, hi, hip⟩ := List.mem_map.1 hmem
        rw [List.mem_range] at hi
        have hil : i < m.length := by omega
        refine ⟨⟨i, m[i], getI_of_lt hil, ?_⟩, ?_⟩
        · rw [← hip, rankAt_eq (getI_of_lt hil)]
        · simp only [decide_eq_true_eq, ← hip]
          exact_mod_cast hi
    · apply List.Nodup.of_map Prod.snd
      rw [List.map_map]
      have : (Prod.snd ∘ fun (p : F32 × Int) => (rankAt m p.2, p.2)) = Prod.snd := by
        funext p
        rfl
      rw [this, hsnd.nodup_iff]
      exact (List.nodup_range _).map (fun a b hab => by simpa using hab)
  · rw [List.Sorted, List.pairwise_iff_getElem]
    intro i j hi hj hij
    simp only [List.length_map] at hi hj
    obtain ⟨vi, hvi, hvi1⟩ := hr i _ (List.getElem?_eq_getElem hi)
    obtain ⟨vj, hvj, hvj1⟩ := hr j _ (List.getElem?_eq_getElem hj)
    apply lexLe_of_fst_lt
    simp only [List.getElem_map, rankAt_eq hvi, rankAt_eq hvj, hvi1, hvj1]
    exact_mod_cast hij

theorem Monotones.initVerts_pos (polys : Polygons) :
    ∀ v ∈ Monotones.initVerts polys [], ∃ w ∈ polys.flatten, v.pos = w.pos := by
  intro v hv
  have h1 : v.key ∈ (Monotones.initVerts polys []).map VertAdj.key := List.mem_map_of_mem _ hv
  rw [Monotones.initVerts_keys] at h1
  simp only [List.map_nil, List.nil_append, inputKeys, List.mem_map] at h1
  obtain ⟨w, hw, hwv⟩ := h1
  simp only [VertAdj.key, Prod.mk.injEq] at hwv
  exact ⟨w, hw, hwv.1.symm⟩

/-- When no height is a NaN, the order in which the sweep of the decomposer
processes the input vertices ascends strictly in `(y, index)`. -/
theorem Monotones.sortedSweepLine_ascending (polys : Polygons)
    (hy : ∀ w ∈ polys.flatten, w.pos.y ≠ .nan) :
    (Monotones.sortedSweepLine polys).Pairwise (fun a b => Monotones.tupleLt a b = true) := by
  have hP0 : ∀ p ∈ Monotones.initSweepLine (Monotones.initVerts polys []), p.1 ≠ F32.nan := by
    intro p hp
    simp only [Monotones.initSweepLine, List.mem_map] at hp
    obtain ⟨iv, hiv, rfl⟩ := hp
    rw [List.mem_enum_iff_getElem?] at hiv
    obtain ⟨w, hw, hwv⟩ := Monotones.initVerts_pos polys iv.2 (List.getElem?_mem hiv)
    simp only [hwv]
    exact hy w hw
  have hP : ∀ p ∈ Monotones.sortedSweepLine polys, p.1 ≠ F32.nan :=
    fun p hp => hP0 p ((Monotones.sortedSweepLine_perm polys).subset hp)
  have hle : ∀ a b : F32 × Int, a.1 ≠ F32.nan → b.1 ≠ F32.nan →
      (Monotones.tupleLt b a = false ↔
        toLex (F32.toExt a.1, a.2) ≤ toLex (F32.toExt b.1, b.2)) := by
    intro a b ha hb
    rw [← not_lt, ← Monotones.tupleLt_iff hb ha]
    simp
  have hs : (Monotones.sortedSweepLine polys).Pairwise
      (fun a b => Monotones.tupleLt b a = false) := by
    refine insertionSort_sorted_on _ (fun p : F32 × Int => p.1 ≠ F32.nan) ?_ ?_ _ hP0
    · intro a b ha hb
      rw [hle a b ha hb, hle b a hb ha]
      exact le_total _ _
    · intro a b c ha hb hc
      rw [hle a b ha hb, hle b c hb hc, hle a c ha hc]
      exact le_trans
  have hnd : (Monotones.sortedSweepLine polys).Pairwise (fun a b => a.2 ≠ b.2) := by
    have h1 : ((Monotones.sortedSweepLine polys).map Prod.snd).Nodup := by
      rw [(Monotones.sortedSweepLine_snd polys).nodup_iff]
      exact (List.nodup_range _).map (fun a b hab => by simpa using hab)
    exact List.pairwise_map.1 h1
  refine (hs.and hnd).imp_of_mem ?_
  intro a b ha hb hab
  rw [Monotones.tupleLt_iff (hP a ha) (hP b hb)]
  rw [hle a b (hP a ha) (hP b hb)] at hab
  refine lt_of_le_of_ne hab.1 (fun heq => hab.2 ?_)
  have := congrArg (fun x => (ofLex x).2) heq
  simpa using this

/-- Every vertex appended to the input vertices is, in position, identity and
rank, one of them, which has a smaller index. -/
theorem RankInv.source {N : Nat} {m : List VertAdj} (hq : RankInv N m) {j : Nat} (hj : N ≤ j)
    (hjl : j < m.length) :
    ∃ i : Nat, i < N ∧ ∃ (hi : i < m.length), m[i].tag = m[j].tag := by
  obtain ⟨hN, hc⟩ := hq.copies
  have hjt : j < (m.map VertAdj.tag).length := by simpa using hjl
  have hmem : m[j].tag ∈ (m.map VertAdj.tag).drop N := by
    have h1 : ((m.map VertAdj.tag).drop N)[j - N]? = some m[j].tag := by
      rw [List.getElem?_drop]
      have : N + (j - N) = j := by omega
      rw [this, List.getElem?_map, List.getElem?_eq_getElem hjl]
      rfl
    exact List.getElem?_mem h1
  obtain ⟨_, h2⟩ := hc _ hmem
  obtain ⟨i, hi, hti⟩ := List.getElem_of_mem h2
  rw [List.length_take] at hi
  have hiN : i < N := by omega
  have hil : i < m.length := by
    have : N ≤ m.length := by simpa using hN
    omega
  refine ⟨i, hiN, hil, ?_⟩
  rw [List.getElem_take, List.getElem_map] at hti
  exact hti

/-! ## Monotone triangulator: the order of the visits -/

/-- The vertex that `Duplicate` appends is a copy of the vertex `v_idx` in
position, identity and rank, and nothing else changes in these. -/
theorem Monotones.Duplicate_copy {m m1 : Monotones.Verts} {v : Int}
    (h : Monotones.Duplicate m v = .ok m1) :
    ∃ a, getI m v = .ok a ∧ m1.map VertAdj.tag = m.map VertAdj.tag ++ [a.tag] := by
  have hlen := (Monotones.Duplicate_links h).2.2.1
  have key : ∃ a, getI m v = .ok a ∧ Ext (m ++ [a]) m1 := by
    unfold Monotones.Duplicate at h
    obtain ⟨m2, h1, h⟩ := bind_eq_ok h
    obtain ⟨v1, hv1, h⟩ := bind_eq_ok h
    obtain ⟨m3, h3, h⟩ := bind_eq_ok h
    obtain ⟨v2, hv2, h⟩ := bind_eq_ok h
    obtain ⟨a, ha, ha1⟩ := modifyI_getI_self h1
    have hv1a : v1.tag = a.tag := by
      unfold Monotones.Vert at hv1
      rw [ha1] at hv1
      cases hv1
      rfl
    have hI := Ext.copies (m ++ [a])
    have p3 : Ext (m ++ [a]) m3 := by
      refine Ext.chain ⟨[], ?_⟩ (Ext.ofWrite h3 (fun _ => rfl))
      simp only [List.map_append, List.map_cons, List.map_nil, List.append_nil,
        modifyI_tags h1 (fun _ => rfl), hv1a]
    refine ⟨a, ha, ?_⟩
    revert p3
    generalize Ext (m ++ [a]) = P at hI ⊢
    intro p3
    have close : ∀ m4, P m4 → Monotones.Link m4 v (Monotones.Num_verts m2) = .ok m1 → P m1 :=
      fun m4 p4 h5 => Monotones.Link_keeps hI h5 p4
    simp only at h
    by_cases hp : v2.Processed = true
    · simp only [hp, if_true] at h
      obtain ⟨r, _, h⟩ := bind_eq_ok h
      by_cases hq : r.Processed = true
      · simp only [hq, if_true] at h
        obtain ⟨m5, h5, h⟩ := bind_eq_ok h
        obtain ⟨m6, h6, h⟩ := bind_eq_ok h
        exact close m6 (Monotones.Match_keeps hI h6 (Monotones.Match_keeps hI h5 p3)) h
      · simp only [hq, if_false] at h
        obtain ⟨m5, h5, h⟩ := bind_eq_ok h
        exact close m5 (Monotones.Match_keeps hI h5 p3) h
    · simp only [hp, if_false] at h
      obtain ⟨l, _, h⟩ := bind_eq_ok h
      have rest : ∀ m5, P m5 →
          (do
            let v_1 ← Monotones.Vert m5 v
            let r ← Monotones.Right m5 v_1
            if r.Processed = true then do
                let hh ← Monotones.Helper m5 v v_1.right
                let y ← Monotones.Match m5 (Monotones.Num_verts m2) hh
                Monotones.Link y v (Monotones.Num_verts m2)
              else do
                let y ← modifyI m5 (Monotones.Num_verts m2)
                  (fun w => { w with across := Monotones.Num_verts m2 })
                Monotones.Link y v (Monotones.Num_verts m2)) = .ok m1 → P m1 := by
        intro m5 p5 h
        obtain ⟨v3, _, h⟩ := bind_eq_ok h
        obtain ⟨r, _, h⟩ := bind_eq_ok h
        by_cases hq : r.Processed = true
        · simp only [hq, if_true] at h
          obtain ⟨hh, _, h⟩ := bind_eq_ok h
          obtain ⟨m6, h6, h⟩ := bind_eq_ok h
          exact close m6 (Monotones.Match_keeps hI h6 p5) h
        · simp only [hq, if_false] at h
          obtain ⟨m6, h6, h⟩ := bind_eq_ok h
          exact close m6 (hI.write _ _ _ _ h6 (fun _ => rfl) p5) h
      by_cases hq : l.Processed = true
      · simp only [hq, if_true] at h
        obtain ⟨hh, _, h⟩ := bind_eq_ok h
        obtain ⟨m5, h5, h⟩ := bind_eq_ok h
        exact rest m5 (Monotones.Match_keeps hI h5 p3) h
      · simp only [hq, if_false] at h
        obtain ⟨m5, h5, h⟩ := bind_eq_ok h
        exact rest m5 (hI.write _ _ _ _ h5 (fun _ => rfl) p3) h
  obtain ⟨a, ha, l, hl⟩ := key
  refine ⟨a, ha, ?_⟩
  have hl0 : l = [] := by
    have := congrArg List.length hl
    simp only [List.length_map, List.length_append, List.length_singleton, hlen] at this
    exact List.length_eq_zero.1 (by omega)
  rw [hl, hl0]
  simp

theorem Monotones.Link_tags {m m1 : Monotones.Verts} {a b : Int}
    (h : Monotones.Link m a b = .ok m1) : m1.map VertAdj.tag = m.map VertAdj.tag := by
  unfold Monotones.Link at h
  obtain ⟨m2, h1, h2⟩ := bind_eq_ok h
  rw [modifyI_tags h2 (fun _ => rfl), modifyI_tags h1 (fun _ => rfl)]

/-- The vertex that `SplitVerts` appends is a copy of the vertex `v_idx` in
position, identity and rank, and nothing else changes in these. -/
theorem Monotones.SplitVerts_copy {m m1 : Monotones.Verts} {v ld nv : Int}
    (h : Monotones.SplitVerts m v ld = .ok (m1, nv)) :
    ∃ a, getI m v = .ok a ∧ m1.map VertAdj.tag = m.map VertAdj.tag ++ [a.tag] := by
  unfold Monotones.SplitVerts at h
  obtain ⟨m2, h1, h⟩ := bind_eq_ok h
  obtain ⟨d, hd, h⟩ := bind_eq_ok h
  obtain ⟨m3, h3, h⟩ := bind_eq_ok h
  obtain ⟨w, hw, h⟩ := bind_eq_ok h
  obtain ⟨n, hn, h⟩ := bind_eq_ok h
  obtain ⟨m4, h4, h⟩ := bind_eq_ok h
  obtain ⟨d2, hd2, h⟩ := bind_eq_ok h
  obtain ⟨m5, h5, h⟩ := bind_eq_ok h
  obtain ⟨m6, h6, h⟩ := bind_eq_ok h
  simp only [pure, Except.pure, Except.ok.injEq, Prod.mk.injEq] at h
  obtain ⟨rfl, rfl⟩ := h
  have t3 : m3.map VertAdj.tag = m.map VertAdj.tag := by
    rw [modifyI_tags h3 (fun _ => rfl), modifyI_tags h1 (fun _ => rfl)]
  have hwt := getI_map_tag hw
  rw [t3] at hwt
  obtain ⟨a, ha, hat⟩ := getI_of_map_tag hwt
  refine ⟨a, ha, ?_⟩
  rw [Monotones.Link_tags h6, Monotones.Link_tags h5, modifyI_tags h4 (fun _ => rfl)]
  simp [t3, hat]

theorem tupleLtInt_asymm (a b : Int × Int) (h : tupleLtInt a b = true) :
    ¬ tupleLtInt b a = true := by
  rw [tupleLtInt_iff] at h ⊢
  exact lt_asymm h

/-- Two arrangements of the same elements without inversions are equal when
the relation is antisymmetric on the elements. -/
theorem eq_of_perm_of_pairwise {α : Type} {r : α → α → Prop} :
    ∀ {l1 l2 : List α}, List.Perm l1 l2 → l1.Pairwise r → l2.Pairwise r →
      (∀ a ∈ l1, ∀ b ∈ l1, r a b → r b a → a = b) → l1 = l2 := by
  intro l1
  induction l1 with
  | nil =>
    intro l2 hp _ _ _
    exact hp.nil_eq
  | cons a t ih =>
    intro l2 hp h1 h2 hanti
    cases l2 with
    | nil => exact absurd hp.symm.nil_eq (by simp)
    | cons b t2 =>
      have hab : a = b := by
        by_contra hne
        have ha : a ∈ b :: t2 := hp.subset (List.mem_cons_self _ _)
        have hb : b ∈ a :: t := hp.symm.subset (List.mem_cons_self _ _)
        have ha2 : a ∈ t2 := by
          rcases List.mem_cons.1 ha with h | h
          · exact absurd h hne
          · exact h
        have hb2 : b ∈ t := by
          rcases List.mem_cons.1 hb with h | h
          · exact absurd h.symm hne
          · exact h
        exact hne (hanti a (List.mem_cons_self _ _) b hb
          ((List.pairwise_cons.1 h1).1 b hb2) ((List.pairwise_cons.1 h2).1 a ha2))
      subst hab
      have ht := ih (List.Perm.cons_inv hp) (List.pairwise_cons.1 h1).2
        (List.pairwise_cons.1 h2).2
        (fun x hx y hy => hanti x (List.mem_cons_of_mem _ hx) y (List.mem_cons_of_mem _ hy))
      rw [ht]

/-- When no height is a NaN, the sorted sweep line of the decomposer is the
only arrangement of the pairs `(y, index)` without an inversion: whatever
sorting procedure is used, the order is this one. -/
theorem Monotones.sortedSweepLine_unique (polys : Polygons)
    (hy : ∀ w ∈ polys.flatten, w.pos.y ≠ .nan) (l : List (F32 × Int))
    (hp : List.Perm l (Monotones.initSweepLine (Monotones.initVerts polys [])))
    (hs : l.Pairwise (fun a b => Monotones.tupleLt b a = false)) :
    l = Monotones.sortedSweepLine polys := by
  have hP0 : ∀ p ∈ Monotones.initSweepLine (Monotones.initVerts polys []), p.1 ≠ F32.nan := by
    intro p hp
    simp only [Monotones.initSweepLine, List.mem_map] at hp
    obtain ⟨iv, hiv, rfl⟩ := hp
    rw [List.mem_enum_iff_getElem?] at hiv
    obtain ⟨w, hw, hwv⟩ := Monotones.initVerts_pos polys iv.2 (List.getElem?_mem hiv)
    simp only [hwv]
    exact hy w hw
  have hle : ∀ a b : F32 × Int, a.1 ≠ F32.nan → b.1 ≠ F32.nan →
      (Monotones.tupleLt b a = false ↔
        toLex (F32.toExt a.1, a.2) ≤ toLex (F32.toExt b.1, b.2)) := by
    intro a b ha hb
    rw [← not_lt, ← Monotones.tupleLt_iff hb ha]
    simp
  have hasc := Monotones.sortedSweepLine_ascending polys hy
  have hs2 : (Monotones.sortedSweepLine polys).Pairwise
      (fun a b => Monotones.tupleLt b a = false) := by
    refine hasc.imp_of_mem ?_
    intro a b ha hb hab
    have hPa := hP0 a ((Monotones.sortedSweepLine_perm polys).subset ha)
    have hPb := hP0 b ((Monotones.sortedSweepLine_perm polys).subset hb)
    rw [hle a b hPa hPb]
    rw [Monotones.tupleLt_iff hPa hPb] at hab
    exact le_of_lt hab
  have hnd : (l.map Prod.snd).Nodup := by
    rw [(hp.map Prod.snd).nodup_iff, ← (Monotones.sortedSweepLine_perm polys |>.map Prod.snd).nodup_iff,
      (Monotones.sortedSweepLine_snd polys).nodup_iff]
    exact (List.nodup_range _).map (fun a b hab => by simpa using hab)
  refine eq_of_perm_of_pairwise (hp.trans (Monotones.sortedSweepLine_perm polys).symm) hs hs2 ?_
  intro a ha b hb hab hba
  have hPa := hP0 a (hp.subset ha)
  have hPb := hP0 b (hp.subset hb)
  rw [hle a b hPa hPb] at hab
  rw [hle b a hPb hPa] at hba
  have heq := le_antisymm hab hba
  have h2 : a.2 = b.2 := by
    have := congrArg (fun x => (ofLex x).2) heq
    simpa using this
  exact List.inj_on_of_nodup_map hnd ha hb h2

/-- C21: for every polygon set with `N` input vertices on which the constructor
of `Monotones` succeeds, no height being a NaN (the pairs `(y, index)` are then
strictly ordered by `operator<`, as `std::sort` requires): `TriangulateMonotones`
visits the buffer in the order of its sorted sweep line, in which the `N` input
vertices (buffer indices `0 .. N − 1`) come in exactly the order in which the
sweep of the decomposer has processed them. That order is the one arrangement
of the pairs `(y, index)` without an inversion, and it ascends strictly in
`(y, index)`, equal heights in the order of the indices. The visiting order
ascends strictly in `(sweep_order, index)` and holds every vertex of the buffer
once; so every vertex appended by `Duplicate` or `SplitVerts`, which has the
position, the identity and the rank of an input vertex, is visited after that
vertex and before any vertex of higher rank. Each of the two appends one
vertex, a copy of the vertex `v_idx` in position, identity and rank. -/
theorem TriangulateMonotones_order (K : Edge) (g : Nat → Bool) (polys : Polygons)
    (m : Monotones.Verts) (h : Monotones.Monotones K polys = .ok m)
    (hy : ∀ w ∈ polys.flatten, w.pos.y ≠ .nan) :
    (∀ T, TriangulateMonotones g m T =
        match triangulateSweep g m (sweepLine m) [] T with
        | .error e => .error e
        | .ok (ts, T1) =>
          if trianglesLeft m ts = 0 then .ok T1 else .error .wrongTriangleCount) ∧
      ((sweepLine m).filter
          (fun p => decide (p.2 < ((Monotones.initVerts polys []).length : Int)))).map Prod.snd =
        (Monotones.sortedSweepLine polys).map Prod.snd ∧
      List.Perm (Monotones.sortedSweepLine polys)
        (Monotones.initSweepLine (Monotones.initVerts polys [])) ∧
      (Monotones.sortedSweepLine polys).Pairwise (fun a b => Monotones.tupleLt a b = true) ∧
      (∀ l, List.Perm l (Monotones.initSweepLine (Monotones.initVerts polys [])) →
        l.Pairwise (fun a b => Monotones.tupleLt b a = false) →
        l = Monotones.sortedSweepLine polys) ∧
      (sweepLine m).Pairwise (fun a b => tupleLtInt a b = true) ∧
      (∀ x, x ∈ sweepLine m ↔
        ∃ (i : Nat) (v : VertAdj), getI m (i : Int) = .ok v ∧ x = (v.sweep_order, (i : Int))) ∧
      (∀ j : Nat, (Monotones.initVerts polys []).length ≤ j → ∀ hj : j < m.length,
        ∃ i : Nat, i < (Monotones.initVerts polys []).length ∧ ∃ hi : i < m.length,
          m[i].tag = m[j].tag ∧
          List.Sublist [(m[j].sweep_order, (i : Int)), (m[j].sweep_order, (j : Int))]
            (sweepLine m) ∧
          ∀ q ∈ sweepLine m, m[j].sweep_order < q.1 →
            List.Sublist [(m[j].sweep_order, (j : Int)), q] (sweepLine m)) ∧
      (∀ m0 a m1, Monotones.Duplicate m0 a = .ok m1 →
        ∃ v, getI m0 a = .ok v ∧ m1.map VertAdj.tag = m0.map VertAdj.tag ++ [v.tag]) ∧
      (∀ m0 a b m1 n, Monotones.SplitVerts m0 a b = .ok (m1, n) →
        ∃ v, getI m0 a = .ok v ∧ m1.map VertAdj.tag = m0.map VertAdj.tag ++ [v.tag]) := by
  obtain ⟨hq, _⟩ := Monotones.Monotones_ranks K polys m h
  refine ⟨fun T => TriangulateMonotones_eq g m T, ?_, Monotones.sortedSweepLine_perm polys,
    Monotones.sortedSweepLine_ascending polys hy,
    fun l hl hs => Monotones.sortedSweepLine_unique polys hy l hl hs,
    sweepLine_strict m, fun x => mem_sweepLine, ?_,
    fun _ _ _ h1 => Monotones.Duplicate_copy h1, fun _ _ _ _ _ h1 => Monotones.SplitVerts_copy h1⟩
  · rw [sweepLine_inputs K polys m h, List.map_map]
    rfl
  · intro j hj hjl
    obtain ⟨i, hiN, hil, ht⟩ := hq.source hj hjl
    refine ⟨i, hiN, hil, ht, ?_, ?_⟩
    · have hr : m[i].sweep_order = m[j].sweep_order := by
        simp only [VertAdj.tag, Prod.mk.injEq] at ht
        exact ht.2.2
      refine sublist_pair_of_pairwise tupleLtInt_asymm _ (sweepLine_strict m) _ _
        (mem_sweepLine.2 ⟨i, m[i], getI_of_lt hil, by rw [hr]⟩)
        (mem_sweepLine.2 ⟨j, m[j], getI_of_lt hjl, rfl⟩) ?_
      rw [tupleLtInt_iff, Prod.Lex.lt_iff]
      exact Or.inr ⟨rfl, by simp only [ofLex_toLex]; omega⟩
    · intro q hqm hlt
      refine sublist_pair_of_pairwise tupleLtInt_asymm _ (sweepLine_strict m) _ _
        (mem_sweepLine.2 ⟨j, m[j], getI_of_lt hjl, rfl⟩) hqm ?_
      rw [tupleLtInt_iff, Prod.Lex.lt_iff]
      exact Or.inl hlt

set_option maxRecDepth 100000 in
/-- C21 at the two-peaks polygon: the sweep processes the input vertices in the
order `0, 1, 3, 5, 2, 4, 6`, and `TriangulateMonotones` visits
`0, 7, 1, 3, 8, 9, 5, 10, 2, 4, 6`, each copy after the vertex that it
copies. -/
theorem TriangulateMonotones_order_witness :
    Monotones.Monotones sampleTags twoPeaks = .ok twoPeaksMonotones ∧
      (∀ w ∈ twoPeaks.flatten, w.pos.y ≠ .nan) ∧
      (Monotones.sortedSweepLine twoPeaks).map Prod.snd = [0, 1, 3, 5, 2, 4, 6] ∧
      (sweepLine twoPeaksMonotones).map Prod.snd = [0, 7, 1, 3, 8, 9, 5, 10, 2, 4, 6] ∧
      ((∀ T, TriangulateMonotones (fun _ => false) twoPeaksMonotones T =
          match triangulateSweep (fun _ => false) twoPeaksMonotones
              (sweepLine twoPeaksMonotones) [] T with
          | .error e => .error e
          | .ok (ts, T1) =>
            if trianglesLeft twoPeaksMonotones ts = 0 then .ok T1
            else .error .wrongTriangleCount) ∧
        ((sweepLine twoPeaksMonotones).filter
            (fun p => decide (p.2 < ((Monotones.initVerts twoPeaks []).length : Int)))).map
              Prod.snd =
          (Monotones.sortedSweepLine twoPeaks).map Prod.snd ∧
        List.Perm (Monotones.sortedSweepLine twoPeaks)
          (Monotones.initSweepLine (Monotones.initVerts twoPeaks [])) ∧
        (Monotones.sortedSweepLine twoPeaks).Pairwise
          (fun a b => Monotones.tupleLt a b = true) ∧
        (∀ l, List.Perm l (Monotones.initSweepLine (Monotones.initVerts twoPeaks [])) →
          l.Pairwise (fun a b => Monotones.tupleLt b a = false) →
          l = Monotones.sortedSweepLine twoPeaks) ∧
        (sweepLine twoPeaksMonotones).Pairwise (fun a b => tupleLtInt a b = true) ∧
        (∀ x, x ∈ sweepLine twoPeaksMonotones ↔
          ∃ (i : Nat) (v : VertAdj), getI twoPeaksMonotones (i : Int) = .ok v ∧
            x = (v.sweep_order, (i : Int))) ∧
        (∀ j : Nat, (Monotones.initVerts twoPeaks []).length ≤ j →
          ∀ hj : j < twoPeaksMonotones.length,
          ∃ i : Nat, i < (Monotones.initVerts twoPeaks []).length ∧
            ∃ hi : i < twoPeaksMonotones.length,
            twoPeaksMonotones[i].tag = twoPeaksMonotones[j].tag ∧
            List.Sublist [(twoPeaksMonotones[j].sweep_order, (i : Int)),
                (twoPeaksMonotones[j].sweep_order, (j : Int))]
              (sweepLine twoPeaksMonotones) ∧
            ∀ q ∈ sweepLine twoPeaksMonotones, twoPeaksMonotones[j].sweep_order < q.1 →
              List.Sublist [(twoPeaksMonotones[j].sweep_order, (j : Int)), q]
                (sweepLine twoPeaksMonotones)) ∧
        (∀ m0 a m1, Monotones.Duplicate m0 a = .ok m1 →
          ∃ v, getI m0 a = .ok v ∧ m1.map VertAdj.tag = m0.map VertAdj.tag ++ [v.tag]) ∧
        (∀ m0 a b m1 n, Monotones.SplitVerts m0 a b = .ok (m1, n) →
          ∃ v, getI m0 a = .ok v ∧ m1.map VertAdj.tag = m0.map VertAdj.tag ++ [v.tag])) :=
  ⟨by decide!, by decide, by decide!, by decide!,
    TriangulateMonotones_order sampleTags (fun _ => false) twoPeaks twoPeaksMonotones
      (by decide!) (by decide)⟩

/-! ## Backup triangulator: reads through the unchecked `operator[]` -/

theorem nextEdgeAt_inside {g : Int} {poly : SimplePolygon} {i : Nat} (h : i < poly.length) :
    Unchecked.nextEdgeAt g poly (i : Int) = .ok poly[i].nextEdge := by
  have hne : ¬ ((i : Int) = -1) := by omega
  simp [Unchecked.nextEdgeAt, hne, getI_of_lt h]

theorem edgePair_inside {g : Int} {poly : SimplePolygon} {i j : Nat} (hi : i < poly.length)
    (hj : j < poly.length) : ∃ p, Unchecked.edgePair g poly (i : Int) (j : Int) = .ok p := by
  unfold Unchecked.edgePair
  rw [nextEdgeAt_inside hi, nextEdgeAt_inside hj]
  exact ⟨_, rfl⟩

theorem edgePair_front {g : Int} {poly : SimplePolygon} {j : Nat} (hj : j < poly.length) :
    ∃ p, Unchecked.edgePair g poly (-1) (j : Int) = .ok p := by
  have h1 : Unchecked.nextEdgeAt g poly (-1) = .ok g := by simp [Unchecked.nextEdgeAt]
  unfold Unchecked.edgePair
  rw [nextEdgeAt_inside hj, h1]
  exact ⟨_, rfl⟩

/-- Where the checked read of a pair of tags succeeds, the unchecked read
gives the same pair. -/
theorem edgePair_agrees {g : Int} {poly : SimplePolygon} {i j : Int} {p : Int × Int}
    (h : edgePair poly i j = .ok p) : Unchecked.edgePair g poly i j = .ok p := by
  unfold edgePair at h
  cases hi : getI poly i with
  | error e => simp [hi] at h
  | ok a =>
    cases hj : getI poly j with
    | error e => simp [hi, hj] at h
    | ok b =>
      simp only [hi, hj, Except.ok.injEq] at h
      have h1 := (getI_ok hi).1
      have h2 := (getI_ok hj).1
      have n1 : ¬ (i = -1) := by omega
      have n2 : ¬ (j = -1) := by omega
      simp [Unchecked.edgePair, Unchecked.nextEdgeAt, n1, n2, hi, hj, h]

theorem BackupSwitch_agrees {g : Int} {poly : SimplePolygon} {st st1 : BackupState}
    (h : BackupSwitch poly st = .ok st1) : Unchecked.BackupSwitch g poly st = .ok st1 := by
  unfold BackupSwitch at h
  unfold Unchecked.BackupSwitch
  cases hf : st.forward with
  | true =>
    simp only [hf, if_true] at h ⊢
    cases hc : getI poly (Prev st.stop (poly.length : Int)) with
    | error e =>
      rw [hc] at h
      cases h
    | ok c =>
      rw [hc] at h
      simp only at h ⊢
      split at h
      · rename_i se ee hse hee
        rw [edgePair_agrees hse, edgePair_agrees hee]
        exact h
      · cases h
  | false =>
    simp only [hf, Bool.false_eq_true, if_false] at h ⊢
    cases hc : getI poly (Next st.start (poly.length : Int)) with
    | error e =>
      rw [hc] at h
      cases h
    | ok c =>
      rw [hc] at h
      simp only at h ⊢
      split at h
      · rename_i se ee hse hee
        rw [edgePair_agrees hse, edgePair_agrees hee]
        exact h
      · cases h

theorem BackupAdvance_agrees {g : Int} {poly : SimplePolygon} {st st1 : BackupState}
    (h : BackupAdvance poly st = .ok st1) : Unchecked.BackupAdvance g poly st = .ok st1 := by
  unfold BackupAdvance at h
  unfold Unchecked.BackupAdvance
  cases hf : st.forward with
  | true =>
    simp only [hf, Bool.not_true, Bool.false_eq_true, if_false] at h ⊢
    split at h
    · rename_i se c hse hc
      rw [edgePair_agrees hse, hc]
      exact h
    · cases h
  | false =>
    simp only [hf, Bool.not_false, if_true] at h ⊢
    split at h
    · rename_i se c hse hc
      rw [edgePair_agrees hse, hc]
      exact h
    · cases h

theorem BackupLoop_agrees (g : Int) (K : Edge) (poly : SimplePolygon) :
    ∀ (fuel : Nat) (st : BackupState) (T : List IVec3),
      BackupLoop K poly fuel st = some (.ok T) →
      Unchecked.BackupLoop g K poly fuel st = some (.ok T) := by
  intro fuel
  induction fuel with
  | zero => intro st T h; simp [BackupLoop] at h
  | succ fuel ih =>
    intro st T h
    unfold BackupLoop at h
    unfold Unchecked.BackupLoop
    by_cases hstop : st.start = st.stop
    · simp only [hstop, if_true] at h ⊢
      exact h
    · simp only [hstop, if_false] at h ⊢
      by_cases hsh : SharedEdge K st.startEdges st.endEdges = true
      · simp only [hsh, if_true] at h ⊢
        cases hs1 : BackupSwitch poly st with
        | error err => simp [hs1] at h
        | ok st1 =>
          simp only [hs1] at h
          rw [BackupSwitch_agrees hs1]
          simp only
          cases hs2 : BackupAdvance poly st1 with
          | error err => simp [hs2] at h
          | ok st2 =>
            simp only [hs2] at h
            rw [BackupAdvance_agrees hs2]
            exact ih st2 T h
      · simp only [hsh, Bool.false_eq_true, if_false] at h ⊢
        cases hs2 : BackupAdvance poly st with
        | error err => simp [hs2] at h
        | ok st2 =>
          simp only [hs2] at h
          rw [BackupAdvance_agrees hs2]
          exact ih st2 T h

theorem BackupPoly_agrees (g : Int) (K : Edge) (poly : SimplePolygon) (T0 T : List IVec3)
    (h : BackupPoly K poly T0 = some (.ok T)) :
    Unchecked.BackupPoly g K poly T0 = some (.ok T) := by
  unfold BackupPoly at h
  unfold Unchecked.BackupPoly
  by_cases hn : poly.length < 3
  · simp only [hn, if_true] at h ⊢
    exact h
  · simp only [hn, if_false] at h ⊢
    split at h
    · rename_i pe p0 ps se ee hpe hp0 hps hse hee
      rw [hpe, hp0, hps, edgePair_agrees hse, edgePair_agrees hee]
      exact BackupLoop_agrees g K poly _ _ T h
    · cases h

/-- Wherever the checked run returns triangles, the unchecked run returns the
same triangles. -/
theorem BackupRun_agrees (g : Int) (K : Edge) :
    ∀ (P : Polygons) (T0 T : List IVec3), BackupRun K P T0 = some (.ok T) →
      Unchecked.BackupRun g K P T0 = some (.ok T) := by
  intro P
  induction P with
  | nil => intro T0 T h; exact h
  | cons p P ih =>
    intro T0 T h
    obtain ⟨T1, hp, hrest⟩ := BackupRun_cons h
    unfold Unchecked.BackupRun
    rw [BackupPoly_agrees g K p T0 T1 hp]
    exact ih T1 T hrest

theorem vid_closed_lt {poly : SimplePolygon} {i : Nat} (h : i < poly.length) :
    vid (poly ++ poly.take 1) i = vid poly i := by
  simp [vid, List.getElem?_append_left h]

theorem vid_closed_end {poly : SimplePolygon} (h : 1 ≤ poly.length) :
    vid (poly ++ poly.take 1) poly.length = vid poly 0 := by
  cases poly with
  | nil => simp at h
  | cons a l => simp [vid, List.getElem?_append_right]

/-- The shared-edge block under unchecked reads always returns and hands the
pending triangle over to the other cursor. -/
theorem BackupSwitch_unchecked {g : Int} {poly : SimplePolygon} {st : BackupState} {s e : Nat}
    {T : List IVec3} (hc : Unchecked.Corr poly st s e T) (hgap : s + 2 ≤ e)
    (hhead : st.forward = true → e < poly.length) :
    ∃ st1, Unchecked.BackupSwitch g poly st = .ok st1 ∧ Unchecked.Corr poly st1 s e T ∧
      st1.forward = !st.forward := by
  have hlow := hc.low
  have hhigh := hc.high
  unfold Unchecked.BackupSwitch
  cases hf : st.forward with
  | true =>
    obtain ⟨hs, he, ht⟩ := hc.fwd hf
    have hen := hhead hf
    have hne : ¬ (e = poly.length) := by omega
    simp only [hne, if_false] at he
    simp only [hf, if_true, hs, he]
    have h1 : Prev ((s : Int) + 1) (poly.length : Int) = (s : Int) := by
      have := Prev_eq (i := s + 1) (n := poly.length) (by omega)
      simpa using this
    have h2 : Prev (e : Int) (poly.length : Int) = ((e - 1 : Nat) : Int) := Prev_eq (by omega)
    rw [h1, h2]
    obtain ⟨c, hc1, hc2⟩ := @getI_vid poly (e - 1) (by omega)
    rw [hc1]
    simp only
    obtain ⟨se, hse⟩ := @edgePair_inside g poly (s - 1) s (by omega) (by omega)
    obtain ⟨ee, hee⟩ := @edgePair_inside g poly (e - 1 - 1) (e - 1) (by omega) (by omega)
    have c1 : ((s : Int) - 1) = ((s - 1 : Nat) : Int) := by omega
    have c2 : (((e - 1 : Nat) : Int) - 1) = ((e - 1 - 1 : Nat) : Int) := by omega
    rw [c1, c2, hse, hee]
    refine ⟨_, rfl, ⟨hlow, hc.lt, hhigh, hc.triangles, fun hh => by simp at hh, fun _ => ?_⟩,
      by simp⟩
    refine ⟨rfl, by simp; omega, ?_⟩
    simp [ht, triF, triB, hc2, vid_closed_lt (show e - 1 < poly.length by omega)]
  | false =>
    obtain ⟨hs, he, ht⟩ := hc.bwd hf
    simp only [hf, Bool.false_eq_true, if_false, hs, he]
    have h1 : Next (s : Int) (poly.length : Int) = ((s + 1 : Nat) : Int) := Next_eq (by omega)
    rw [h1]
    obtain ⟨c, hc1, hc2⟩ := @getI_vid poly (s + 1) (by omega)
    rw [hc1]
    simp only
    obtain ⟨se, hse⟩ := @edgePair_inside g poly s (s + 1) (by omega) (by omega)
    have c1 : (((s + 1 : Nat) : Int) - 1) = ((s : Nat) : Int) := by omega
    rw [c1, hse]
    by_cases hen : e = poly.length
    · have h2 : Next ((e : Int) - 1) (poly.length : Int) = 0 := by
        unfold Next
        have : (e : Int) - 1 + 1 ≥ (poly.length : Int) := by omega
        rw [if_pos this]
      obtain ⟨ee, hee⟩ := @edgePair_front g poly 0 (by omega)
      have c2 : ((0 : Int) - 1) = -1 := by omega
      have c3 : (0 : Int) = ((0 : Nat) : Int) := rfl
      rw [h2, c2]
      rw [c3, hee]
      refine ⟨_, rfl, ⟨hlow, hc.lt, hhigh, hc.triangles, fun _ => ?_, fun hh => by simp at hh⟩,
        by simp⟩
      refine ⟨by simp, by simp [hen], ?_⟩
      simp [ht, triF, triB, hc2, vid_closed_lt (show s + 1 < poly.length by omega)]
    · have h2 : Next ((e : Int) - 1) (poly.length : Int) = (e : Int) := by
        have := Next_eq (i := e - 1) (n := poly.length) (by omega)
        have h3 : ((e - 1 : Nat) : Int) = (e : Int) - 1 := by omega
        rw [h3] at this
        rw [this]
        omega
      obtain ⟨ee, hee⟩ := @edgePair_inside g poly (e - 1) e (by omega) (by omega)
      have c2 : ((e : Int) - 1) = ((e - 1 : Nat) : Int) := by omega
      rw [h2]
      rw [c2, hee]
      refine ⟨_, rfl, ⟨hlow, hc.lt, hhigh, hc.triangles, fun _ => ?_, fun hh => by simp at hh⟩,
        by simp⟩
      refine ⟨by simp, by simp [hen], ?_⟩
      simp [ht, triF, triB, hc2, vid_closed_lt (show s + 1 < poly.length by omega)]

/-- The rest of the loop body under unchecked reads always returns, emits the
pending triangle and moves the other cursor. -/
theorem BackupAdvance_unchecked {g : Int} {poly : SimplePolygon} {st : BackupState} {s e : Nat}
    {T : List IVec3} (hc : Unchecked.Corr poly st s e T) (hgap : s + 2 ≤ e) :
    ∃ st2, Unchecked.BackupAdvance g poly st = .ok st2 ∧
      (st.forward = true → st2.forward = false ∧
        Unchecked.Corr poly st2 (s + 1) e (T ++ [triF (poly ++ poly.take 1) s e])) ∧
      (st.forward = false → st2.forward = true ∧
        Unchecked.Corr poly st2 s (e - 1) (T ++ [triB (poly ++ poly.take 1) s e])) := by
  have hlow := hc.low
  have hhigh := hc.high
  unfold Unchecked.BackupAdvance
  cases hf : st.forward with
  | true =>
    obtain ⟨hs, he, ht⟩ := hc.fwd hf
    simp only [hf, Bool.not_true, Bool.false_eq_true, if_false, he]
    have h2 : Prev (if e = poly.length then 0 else (e : Int)) (poly.length : Int) =
        ((e - 1 : Nat) : Int) := by
      by_cases hen : e = poly.length
      · rw [if_pos hen]
        unfold Prev
        simp only [zero_sub, Int.reduceNeg, Left.neg_neg_iff, zero_lt_one, if_true]
        omega
      · rw [if_neg hen]
        exact Prev_eq (by omega)
    rw [h2]
    have h3 : Prev ((e - 1 : Nat) : Int) (poly.length : Int) = ((e - 1 - 1 : Nat) : Int) :=
      Prev_eq (by omega)
    rw [h3]
    obtain ⟨c, hc1, hc2⟩ := @getI_vid poly (e - 1) (by omega)
    obtain ⟨ee, hee⟩ := @edgePair_inside g poly (e - 1 - 1) (e - 1) (by omega) (by omega)
    rw [hc1, hee]
    refine ⟨_, rfl, fun _ => ⟨rfl, ⟨by omega, by omega, hhigh, by simp [hc.triangles, ht],
      fun hh => by simp at hh, fun _ => ?_⟩⟩, fun hh => by simp at hh⟩
    refine ⟨by simp [hs], by simp; omega, ?_⟩
    simp [ht, triF, triB, hc2, vid_closed_lt (show e - 1 < poly.length by omega)]
  | false =>
    obtain ⟨hs, he, ht⟩ := hc.bwd hf
    simp only [hf, Bool.not_false, if_true, hs]
    have h1 : Next (s : Int) (poly.length : Int) = ((s + 1 : Nat) : Int) := Next_eq (by omega)
    rw [h1]
    have h3 : Prev ((s + 1 : Nat) : Int) (poly.length : Int) = ((s + 1 - 1 : Nat) : Int) :=
      Prev_eq (by omega)
    rw [h3]
    obtain ⟨c, hc1, hc2⟩ := @getI_vid poly (s + 1) (by omega)
    obtain ⟨se, hse⟩ := @edgePair_inside g poly (s + 1 - 1) (s + 1) (by omega) (by omega)
    rw [hc1, hse]
    refine ⟨_, rfl, fun hh => by simp at hh, fun _ => ⟨rfl, ⟨hlow, by omega, by omega,
      by simp [hc.triangles, ht], fun _ => ?_, fun hh => by simp at hh⟩⟩⟩
    have hne : ¬ (e - 1 = poly.length) := by omega
    refine ⟨by simp, ?_, ?_⟩
    · simp only [he, hne, if_false]
      omega
    · simp [ht, triF, triB, hc2, vid_closed_lt (show s + 1 < poly.length by omega)]

/-- The loop under unchecked reads returns within `e − s` rounds of fuel, and
what it adds to the output is a strip between the two cursors. -/
theorem BackupLoop_unchecked (g : Int) (K : Edge) (poly : SimplePolygon) :
    ∀ (fuel : Nat) (st : BackupState) (s e : Nat) (T : List IVec3),
      Unchecked.Corr poly st s e T → (st.forward = true → e < poly.length) → e ≤ s + fuel →
      ∃ cs : List Bool, cs.length + s + 1 = e ∧
        Unchecked.BackupLoop g K poly fuel st =
          some (.ok (T ++ strip (poly ++ poly.take 1) s e cs)) := by
  intro fuel
  induction fuel with
  | zero =>
    intro st s e T hc _ hle
    have := hc.lt
    omega
  | succ fuel ih =>
    intro st s e T hc hhead hle
    have hlt := hc.lt
    have hhigh := hc.high
    unfold Unchecked.BackupLoop
    have hstop : st.start = st.stop ↔ s + 1 = e := by
      cases hf : st.forward with
      | true =>
        obtain ⟨hs, he, _⟩ := hc.fwd hf
        have hen := hhead hf
        have hne : ¬ (e = poly.length) := by omega
        simp only [hne, if_false] at he
        rw [hs, he]
        omega
      | false =>
        obtain ⟨hs, he, _⟩ := hc.bwd hf
        rw [hs, he]
        omega
    by_cases hse : s + 1 = e
    · simp only [hstop.2 hse, if_true]
      exact ⟨[], by simpa using hse, by simp [strip, hc.triangles]⟩
    · have hns : ¬ (st.start = st.stop) := fun h => hse (hstop.1 h)
      simp only [hns, if_false]
      have hgap : s + 2 ≤ e := by omega
      have hsw : ∃ st1, (if SharedEdge K st.startEdges st.endEdges = true
          then Unchecked.BackupSwitch g poly st else .ok st) = .ok st1 ∧
          Unchecked.Corr poly st1 s e T := by
        by_cases hsh : SharedEdge K st.startEdges st.endEdges = true
        · obtain ⟨st1, h1, h2, _⟩ := @BackupSwitch_unchecked g poly st s e T hc hgap hhead
          exact ⟨st1, by rw [if_pos hsh, h1], h2⟩
        · exact ⟨st, by rw [if_neg hsh], hc⟩
      obtain ⟨st1, hs1, hc1⟩ := hsw
      simp only [hs1]
      obtain ⟨st2, hadv, hF, hB⟩ := @BackupAdvance_unchecked g poly st1 s e T hc1 hgap
      simp only [hadv]
      cases hf : st1.forward with
      | true =>
        obtain ⟨hf2, hc2⟩ := hF hf
        obtain ⟨cs, hlen, hT⟩ := ih st2 (s + 1) e _ hc2 (fun hh => by rw [hf2] at hh; cases hh)
          (by omega)
        exact ⟨true :: cs, by simp; omega, by simp [strip, hT]⟩
      | false =>
        obtain ⟨hf2, hc2⟩ := hB hf
        obtain ⟨cs, hlen, hT⟩ := ih st2 s (e - 1) _ hc2 (fun _ => by omega) (by omega)
        exact ⟨false :: cs, by simp; omega, by simp [strip, hT]⟩

/-- For one polygon of `n ≥ 3` vertices the unchecked run returns, whatever
the tags and whatever lies in front of the storage: it adds a strip of `n − 2`
triangles of the closed polygon between positions `1` and `n`. -/
theorem BackupPoly_unchecked (g : Int) (K : Edge) (poly : SimplePolygon) (h3 : 3 ≤ poly.length)
    (T0 : List IVec3) :
    ∃ cs : List Bool, cs.length + 2 = poly.length ∧
      Unchecked.BackupPoly g K poly T0 =
        some (.ok (T0 ++ strip (poly ++ poly.take 1) 1 poly.length cs)) := by
  unfold Unchecked.BackupPoly
  have hn : ¬ poly.length < 3 := by omega
  simp only [hn, if_false]
  have hstopc : ((poly.length : Int) - 1) = ((poly.length - 1 : Nat) : Int) := by omega
  have h1c : (1 : Int) = ((1 : Nat) : Int) := rfl
  have h0c : (0 : Int) = ((0 : Nat) : Int) := rfl
  obtain ⟨pe, hpe, hpe1⟩ := @getI_vid poly (poly.length - 1) (by omega)
  obtain ⟨p0, hp0, hp01⟩ := @getI_vid poly (0) (by omega)
  obtain ⟨p1, hp1, hp11⟩ := @getI_vid poly (1) (by omega)
  obtain ⟨se, hse⟩ := @edgePair_inside g poly (0) (1) (by omega) (by omega)
  obtain ⟨ee, hee⟩ := @edgePair_inside g poly (poly.length - 2)
    (poly.length - 1) (by omega) (by omega)
  have hee1 : Unchecked.edgePair g poly ((poly.length : Int) - 1 - 1) ((poly.length : Int) - 1) =
      .ok ee := by
    have : ((poly.length : Int) - 1 - 1) = ((poly.length - 2 : Nat) : Int) := by omega
    rw [this, hstopc]
    exact hee
  have hse1 : Unchecked.edgePair g poly ((1 : Int) - 1) 1 = .ok se := by
    have : ((1 : Int) - 1) = ((0 : Nat) : Int) := by omega
    rw [this, h1c]
    exact hse
  rw [hstopc, hpe]
  rw [h0c, hp0, h1c, hp1, ← h1c, hse1, ← hstopc, hee1]
  simp only
  obtain ⟨cs, hlen, hrun⟩ := BackupLoop_unchecked g K poly poly.length
    ⟨1, (poly.length : Int) - 1, ⟨pe.idx, p0.idx, p1.idx⟩, se, ee, false, T0⟩ 1 poly.length T0
    ⟨le_refl _, by omega, le_refl _, rfl, fun hh => by simp at hh, fun _ =>
      ⟨by simp, rfl, by
        simp [triB, hpe1, hp01, hp11, vid_closed_lt (show poly.length - 1 < poly.length by omega),
          vid_closed_lt (show 1 < poly.length by omega),
          vid_closed_end (show 1 ≤ poly.length by omega)]⟩⟩
    (fun hh => by simp at hh) (by omega)
  exact ⟨cs, by omega, hrun⟩

theorem vid_append_lt {poly l : SimplePolygon} {i : Nat} (h : i < poly.length) :
    vid (poly ++ l) i = vid poly i := by
  simp [vid, List.getElem?_append_left h]

/-- A strip that stays below the last position does not see what follows the
polygon. -/
theorem strip_append_lt (poly l : SimplePolygon) :
    ∀ (cs : List Bool) (s e : Nat), cs.length + s + 1 ≤ e → e < poly.length →
      strip (poly ++ l) s e cs = strip poly s e cs := by
  intro cs
  induction cs with
  | nil => intro s e _ _; rfl
  | cons c cs ih =>
    intro s e h1 h2
    simp only [List.length_cons] at h1
    cases c with
    | true =>
      simp only [strip, triF, ih (s + 1) e (by omega) h2,
        vid_append_lt (show e < poly.length from h2),
        vid_append_lt (show s < poly.length by omega),
        vid_append_lt (show s + 1 < poly.length by omega)]
    | false =>
      simp only [strip, triB, ih s (e - 1) (by omega) (by omega),
        vid_append_lt (show e < poly.length from h2),
        vid_append_lt (show s < poly.length by omega),
        vid_append_lt (show e - 1 < poly.length by omega)]

/-- A strip of a polygon with one more vertex in front is the strip of the
polygon one position lower. -/
theorem strip_cons_shift (a : PolyVert) (l : SimplePolygon) :
    ∀ (cs : List Bool) (s e : Nat), cs.length + s + 1 ≤ e →
      strip (a :: l) (s + 1) (e + 1) cs = strip l s e cs := by
  intro cs
  induction cs with
  | nil => intro s e _; rfl
  | cons c cs ih =>
    intro s e h1
    simp only [List.length_cons] at h1
    cases c with
    | true =>
      simp only [strip, triF, vid_cons, ih (s + 1) e (by omega)]
    | false =>
      obtain ⟨k, hk⟩ : ∃ k, e = k + 1 := ⟨e - 1, by omega⟩
      subst hk
      have := ih s k (by omega)
      simp only [strip, triB, vid_cons, Nat.add_sub_cancel, this]

/-- The strip of the closed polygon between positions `1` and `n` is the
corner triangle and strip of the polygon itself when the first round moves the
end cursor, and of the polygon turned by one vertex when it moves the start
cursor. -/
theorem strip_closed (poly : SimplePolygon) (h3 : 3 ≤ poly.length) (cs : List Bool)
    (hcs : cs.length + 2 = poly.length) :
    ∃ (q : SimplePolygon) (cs1 : List Bool), (q = poly ∨ q = poly.rotate 1) ∧
      cs1.length + 3 = poly.length ∧
      strip (poly ++ poly.take 1) 1 poly.length cs = fan q cs1 := by
  cases cs with
  | nil => simp at hcs; omega
  | cons c cs1 =>
    simp only [List.length_cons] at hcs
    cases c with
    | false =>
      refine ⟨poly, cs1, Or.inl rfl, by omega, ?_⟩
      simp only [strip, fan, triB, strip_append_lt poly (poly.take 1) cs1 1 (poly.length - 1)
        (by omega) (by omega), vid_closed_lt (show poly.length - 1 < poly.length by omega),
        vid_closed_lt (show 1 < poly.length by omega),
        vid_closed_end (show 1 ≤ poly.length by omega)]
    | true =>
      cases poly with
      | nil => simp at h3
      | cons a l =>
        have hl : (a :: l).length = l.length + 1 := rfl
        have hr : (a :: l).rotate 1 = l ++ [a] := by simp [List.rotate_cons_succ]
        have hq : (a :: l) ++ (a :: l).take 1 = a :: (l ++ [a]) := by simp
        refine ⟨l ++ [a], cs1, Or.inr hr.symm, by omega, ?_⟩
        rw [hq, hl]
        have hlen : (l ++ [a]).length = l.length + 1 := by simp
        have hs := strip_cons_shift a (l ++ [a]) cs1 1 l.length (by rw [hl] at hcs; omega)
        simp only [strip, fan, triF, hlen, Nat.add_sub_cancel, vid_cons, hs]

theorem cycEdges_rotate (p : SimplePolygon) :
    List.Perm (cycEdges (p.rotate 1)) (cycEdges p) := by
  cases p with
  | nil => simp
  | cons a l =>
    have hr : (a :: l).rotate 1 = l ++ [a] := by simp [List.rotate_cons_succ]
    rw [hr]
    cases l with
    | nil => simp
    | cons b l =>
      have h1 : cycEdges (a :: b :: l) = ⟨a.idx, b.idx, a.nextEdge⟩ :: polyEdges (b :: l ++ [a]) := rfl
      have hne : (b :: l ++ [a]) ≠ [] := by simp
      have h2 : cycEdges (b :: l ++ [a]) =
          polyEdges (b :: l ++ [a]) ++ [⟨a.idx, b.idx, a.nextEdge⟩] := by
        have h3 : cycEdges (b :: l ++ [a]) = polyEdges ((b :: l ++ [a]) ++ [b]) := rfl
        rw [h3, polyEdges_append_singleton _ hne b]
        simp
      rw [h1, h2]
      exact List.perm_append_singleton _ _

/-- The triangles of one polygon with pairwise distinct ids, taken from the
polygon itself or from the polygon turned by one vertex, form with its
reversed boundary a 2-manifold edge set on the ids of the polygon. -/
theorem fan_rotate_manifold (K : Edge) (p q : SimplePolygon) (cs : List Bool)
    (h3 : 3 ≤ p.length) (hq : q = p ∨ q = p.rotate 1) (hcs : cs.length + 3 = p.length)
    (hnd : (p.map (fun v => v.idx)).Nodup) :
    Manifold2 (Triangles2Edges K (fan q cs) ++ (cycEdges p).map swapEnds) ∧
      ∀ e ∈ Triangles2Edges K (fan q cs) ++ (cycEdges p).map swapEnds,
        e.first ∈ p.map (fun v => v.idx) ∧ e.second ∈ p.map (fun v => v.idx) := by
  rcases hq with rfl | rfl
  · exact fanEdges_manifold K q cs h3 hcs hnd
  · have hlen : (p.rotate 1).length = p.length := List.length_rotate _ _
    have hperm : List.Perm ((p.rotate 1).map (fun v => v.idx)) (p.map (fun v => v.idx)) :=
      (List.rotate_perm p 1).map _
    obtain ⟨hM, hV⟩ := fanEdges_manifold K (p.rotate 1) cs (by omega) (by omega)
      (hperm.nodup_iff.mpr hnd)
    have hE : List.Perm (fanEdges K (p.rotate 1) cs)
        (Triangles2Edges K (fan (p.rotate 1) cs) ++ (cycEdges p).map swapEnds) := by
      unfold fanEdges
      exact List.Perm.append_left _ ((cycEdges_rotate p).map _)
    refine ⟨Manifold2.perm hE hM, ?_⟩
    intro e he
    have := hV e (hE.mem_iff.mpr he)
    exact ⟨hperm.mem_iff.mp this.1, hperm.mem_iff.mp this.2⟩

theorem fan_length (poly : SimplePolygon) (cs : List Bool) :
    (fan poly cs).length = cs.length + 1 := by
  simp [fan, strip_length]

/-- The unchecked run returns for every polygon set: its output is what it
started with followed by one run of triangles for each polygon, in polygon
order, none for a polygon of fewer than three vertices and otherwise the
corner triangle and strip of the polygon or of the polygon turned by one
vertex. -/
theorem BackupRun_unchecked (g : Int) (K : Edge) :
    ∀ (P : Polygons) (T0 : List IVec3),
      ∃ parts : List (List IVec3),
        Unchecked.BackupRun g K P T0 = some (.ok (T0 ++ parts.flatten)) ∧
        List.Forall₂ (fun (poly : SimplePolygon) (part : List IVec3) =>
          if 3 ≤ poly.length then
            ∃ (q : SimplePolygon) (cs : List Bool), (q = poly ∨ q = poly.rotate 1) ∧
              cs.length + 3 = poly.length ∧ part = fan q cs
          else part = []) P parts := by
  intro P
  induction P with
  | nil => intro T0; exact ⟨[], by simp [Unchecked.BackupRun], .nil⟩
  | cons p P ih =>
    intro T0
    unfold Unchecked.BackupRun
    by_cases h3 : 3 ≤ p.length
    · obtain ⟨cs, hcs, hrun⟩ := BackupPoly_unchecked g K p h3 T0
      obtain ⟨q, cs1, hq, hcs1, hfan⟩ := strip_closed p h3 cs hcs
      obtain ⟨parts, hrest, hF⟩ := ih (T0 ++ fan q cs1)
      rw [hrun, hfan]
      simp only
      refine ⟨fan q cs1 :: parts, ?_, .cons ?_ hF⟩
      · rw [hrest]
        simp
      · simp only [h3, if_true]
        exact ⟨q, cs1, hq, hcs1, rfl⟩
    · have hp : Unchecked.BackupPoly g K p T0 = some (.ok T0) := by
        have hlt : p.length < 3 := by omega
        simp [Unchecked.BackupPoly, hlt]
      obtain ⟨parts, hrest, hF⟩ := ih T0
      rw [hp]
      simp only
      refine ⟨[] :: parts, ?_, .cons ?_ hF⟩
      · rw [hrest]
        simp
      · simp [h3]

/-- The triangles of the unchecked run and the reversed boundary of polygons
with three or more vertices each and pairwise distinct ids form a 2-manifold
edge set on the ids of the polygons. -/
theorem parts_manifold (K : Edge) :
    ∀ (P : Polygons) (parts : List (List IVec3)), (∀ p ∈ P, 3 ≤ p.length) →
      (P.flatten.map (fun v => v.idx)).Nodup →
      List.Forall₂ (fun (poly : SimplePolygon) (part : List IVec3) =>
          if 3 ≤ poly.length then
            ∃ (q : SimplePolygon) (cs : List Bool), (q = poly ∨ q = poly.rotate 1) ∧
              cs.length + 3 = poly.length ∧ part = fan q cs
          else part = []) P parts →
      Manifold2 (Triangles2Edges K parts.flatten ++ (P.flatMap cycEdges).map swapEnds) ∧
        ∀ e ∈ Triangles2Edges K parts.flatten ++ (P.flatMap cycEdges).map swapEnds,
          e.first ∈ P.flatten.map (fun v => v.idx) ∧
            e.second ∈ P.flatten.map (fun v => v.idx) := by
  intro P parts h3 hnd hF
  induction hF with
  | nil =>
    refine ⟨⟨by simp [Triangles2Edges], by simp [Triangles2Edges], by simp [Triangles2Edges]⟩, ?_⟩
    simp [Triangles2Edges]
  | @cons p part P parts hp hF ih =>
    have h3p := h3 p (List.mem_cons_self _ _)
    simp only [h3p, if_true] at hp
    obtain ⟨q, cs, hq, hcs, rfl⟩ := hp
    simp only [List.flatten_cons, List.map_append] at hnd
    rw [List.nodup_append] at hnd
    obtain ⟨hndp, hndP, hdisj⟩ := hnd
    obtain ⟨hM, hV⟩ := ih (fun r hr => h3 r (List.mem_cons_of_mem _ hr)) hndP
    obtain ⟨hMp, hVp⟩ := fan_rotate_manifold K p q cs h3p hq hcs hndp
    have hperm : List.Perm
        ((Triangles2Edges K (fan q cs) ++ (cycEdges p).map swapEnds) ++
          (Triangles2Edges K parts.flatten ++ (P.flatMap cycEdges).map swapEnds))
        (Triangles2Edges K (fan q cs :: parts).flatten ++
          ((p :: P).flatMap cycEdges).map swapEnds) := by
      rw [List.perm_iff_count]
      intro a
      simp only [List.flatten_cons, Triangles2Edges_append, List.flatMap_cons, List.map_append,
        List.count_append]
      omega
    refine ⟨?_, ?_⟩
    · refine Manifold2.perm hperm (Manifold2.append hMp hM ?_)
      intro e1 he1 e2 he2 heq
      exact hdisj (hVp e1 he1).1 (heq ▸ (hV e2 he2).1)
    · intro e he
      rw [← hperm.mem_iff] at he
      simp only [List.flatten_cons, List.map_append, List.mem_append]
      rcases List.mem_append.mp he with he | he
      · exact ⟨Or.inl (hVp e he).1, Or.inl (hVp e he).2⟩
      · exact ⟨Or.inr (hV e he).1, Or.inr (hV e he).2⟩

/-- Reads inside the polygon do not depend on what lies in front of the
storage. -/
theorem edgePair_garbage (g g1 : Int) {poly : SimplePolygon} {i j : Nat} (hi : i < poly.length)
    (hj : j < poly.length) :
    Unchecked.edgePair g poly (i : Int) (j : Int) = Unchecked.edgePair g1 poly (i : Int) (j : Int) := by
  unfold Unchecked.edgePair
  rw [@nextEdgeAt_inside g poly i hi, @nextEdgeAt_inside g poly j hj,
    @nextEdgeAt_inside g1 poly i hi, @nextEdgeAt_inside g1 poly j hj]

/-- The shared-edge block for two values in front of the storage: the two
states differ at most in `endEdges`, and only when the block leaves `forward`
set. -/
theorem BackupSwitch_garbage (g g1 : Int) {poly : SimplePolygon} {st : BackupState} {s e : Nat}
    {T : List IVec3} (hc : Unchecked.Corr poly st s e T) (hgap : s + 2 ≤ e)
    (hhead : st.forward = true → e < poly.length) :
    ∃ (st1 : BackupState) (x : Int × Int), Unchecked.BackupSwitch g poly st = .ok st1 ∧
      Unchecked.BackupSwitch g1 poly st = .ok { st1 with endEdges := x } ∧
      (st1.forward = false → x = st1.endEdges) := by
  have hlow := hc.low
  have hhigh := hc.high
  unfold Unchecked.BackupSwitch
  cases hf : st.forward with
  | true =>
    obtain ⟨hs, he, ht⟩ := hc.fwd hf
    have hen := hhead hf
    have hne : ¬ (e = poly.length) := by omega
    simp only [hne, if_false] at he
    simp only [hf, if_true, hs, he]
    have h1 : Prev ((s : Int) + 1) (poly.length : Int) = (s : Int) := by
      have := Prev_eq (i := s + 1) (n := poly.length) (by omega)
      simpa using this
    have h2 : Prev (e : Int) (poly.length : Int) = ((e - 1 : Nat) : Int) := Prev_eq (by omega)
    rw [h1, h2]
    obtain ⟨c, hc1, hc2⟩ := @getI_vid poly (e - 1) (by omega)
    rw [hc1]
    simp only
    obtain ⟨se, hse⟩ := @edgePair_inside g poly (s - 1) s (by omega) (by omega)
    obtain ⟨ee, hee⟩ := @edgePair_inside g poly (e - 1 - 1) (e - 1) (by omega) (by omega)
    have hse1 := hse
    have hee1 := hee
    rw [edgePair_garbage g g1 (by omega) (by omega)] at hse1 hee1
    have c1 : ((s : Int) - 1) = ((s - 1 : Nat) : Int) := by omega
    have c2 : (((e - 1 : Nat) : Int) - 1) = ((e - 1 - 1 : Nat) : Int) := by omega
    rw [c1, c2, hse, hee, hse1, hee1]
    exact ⟨_, ee, rfl, rfl, fun _ => rfl⟩
  | false =>
    obtain ⟨hs, he, ht⟩ := hc.bwd hf
    simp only [hf, Bool.false_eq_true, if_false, hs, he]
    have h1 : Next (s : Int) (poly.length : Int) = ((s + 1 : Nat) : Int) := Next_eq (by omega)
    rw [h1]
    obtain ⟨c, hc1, hc2⟩ := @getI_vid poly (s + 1) (by omega)
    rw [hc1]
    simp only
    obtain ⟨se, hse⟩ := @edgePair_inside g poly s (s + 1) (by omega) (by omega)
    have hse1 := hse
    rw [edgePair_garbage g g1 (by omega) (by omega)] at hse1
    have c1 : (((s + 1 : Nat) : Int) - 1) = ((s : Nat) : Int) := by omega
    rw [c1, hse, hse1]
    by_cases hen : e = poly.length
    · have h2 : Next ((e : Int) - 1) (poly.length : Int) = 0 := by
        unfold Next
        have : (e : Int) - 1 + 1 ≥ (poly.length : Int) := by omega
        rw [if_pos this]
      obtain ⟨ee, hee⟩ := @edgePair_front g poly 0 (by omega)
      obtain ⟨ee1, hee1⟩ := @edgePair_front g1 poly 0 (by omega)
      have c2 : ((0 : Int) - 1) = -1 := by omega
      have c3 : (0 : Int) = ((0 : Nat) : Int) := rfl
      rw [h2, c2]
      rw [c3, hee, hee1]
      exact ⟨_, ee1, rfl, rfl, fun hh => by simp at hh⟩
    · have h2 : Next ((e : Int) - 1) (poly.length : Int) = (e : Int) := by
        have := Next_eq (i := e - 1) (n := poly.length) (by omega)
        have h3 : ((e - 1 : Nat) : Int) = (e : Int) - 1 := by omega
        rw [h3] at this
        rw [this]
        omega
      obtain ⟨ee, hee⟩ := @edgePair_inside g poly (e - 1) e (by omega) (by omega)
      have hee1 := hee
      rw [edgePair_garbage g g1 (by omega) (by omega)] at hee1
      have c2 : ((e : Int) - 1) = ((e - 1 : Nat) : Int) := by omega
      rw [h2]
      rw [c2, hee, hee1]
      exact ⟨_, ee, rfl, rfl, fun hh => by simp at hh⟩

/-- The rest of the loop body overwrites `endEdges` when `forward` is set, and
reads inside the polygon only. -/
theorem BackupAdvance_garbage (g g1 : Int) {poly : SimplePolygon} {st : BackupState} {s e : Nat}
    {T : List IVec3} (hc : Unchecked.Corr poly st s e T) (hgap : s + 2 ≤ e) (x : Int × Int)
    (hx : st.forward = false → x = st.endEdges) :
    Unchecked.BackupAdvance g poly st =
      Unchecked.BackupAdvance g1 poly { st with endEdges := x } := by
  have hlow := hc.low
  have hhigh := hc.high
  unfold Unchecked.BackupAdvance
  cases hf : st.forward with
  | true =>
    obtain ⟨hs, he, ht⟩ := hc.fwd hf
    simp only [hf, Bool.not_true, Bool.false_eq_true, if_false, he]
    have h2 : Prev (if e = poly.length then 0 else (e : Int)) (poly.length : Int) =
        ((e - 1 : Nat) : Int) := by
      by_cases hen : e = poly.length
      · rw [if_pos hen]
        unfold Prev
        simp only [zero_sub, Int.reduceNeg, Left.neg_neg_iff, zero_lt_one, if_true]
        omega
      · rw [if_neg hen]
        exact Prev_eq (by omega)
    rw [h2]
    have h3 : Prev ((e - 1 : Nat) : Int) (poly.length : Int) = ((e - 1 - 1 : Nat) : Int) :=
      Prev_eq (by omega)
    rw [h3, edgePair_garbage g g1 (by omega) (by omega)]
  | false =>
    obtain ⟨hs, he, ht⟩ := hc.bwd hf
    have hxe := hx hf
    subst hxe
    simp only [hf, Bool.not_false, if_true, hs]
    have h1 : Next (s : Int) (poly.length : Int) = ((s + 1 : Nat) : Int) := Next_eq (by omega)
    rw [h1]
    have h3 : Prev ((s + 1 : Nat) : Int) (poly.length : Int) = ((s + 1 - 1 : Nat) : Int) :=
      Prev_eq (by omega)
    rw [h3, edgePair_garbage g g1 (by omega) (by omega)]

/-- The loop under unchecked reads gives the same result whatever lies in
front of the storage: the value read there is overwritten before the next
test. -/
theorem BackupLoop_garbage (g g1 : Int) (K : Edge) (poly : SimplePolygon) :
    ∀ (fuel : Nat) (st : BackupState) (s e : Nat) (T : List IVec3),
      Unchecked.Corr poly st s e T → (st.forward = true → e < poly.length) →
      Unchecked.BackupLoop g K poly fuel st = Unchecked.BackupLoop g1 K poly fuel st := by
  intro fuel
  induction fuel with
  | zero => intro st s e T _ _; rfl
  | succ fuel ih =>
    intro st s e T hc hhead
    have hlt := hc.lt
    have hhigh := hc.high
    unfold Unchecked.BackupLoop
    have hstop : st.start = st.stop ↔ s + 1 = e := by
      cases hf : st.forward with
      | true =>
        obtain ⟨hs, he, _⟩ := hc.fwd hf
        have hen := hhead hf
        have hne : ¬ (e = poly.length) := by omega
        simp only [hne, if_false] at he
        rw [hs, he]
        omega
      | false =>
        obtain ⟨hs, he, _⟩ := hc.bwd hf
        rw [hs, he]
        omega
    by_cases hse : s + 1 = e
    · simp only [hstop.2 hse, if_true]
    · have hns : ¬ (st.start = st.stop) := fun h => hse (hstop.1 h)
      simp only [hns, if_false]
      have hgap : s + 2 ≤ e := by omega
      have key : ∃ (st1 : BackupState) (x : Int × Int),
          (if SharedEdge K st.startEdges st.endEdges = true
            then Unchecked.BackupSwitch g poly st else .ok st) = .ok st1 ∧
          (if SharedEdge K st.startEdges st.endEdges = true
            then Unchecked.BackupSwitch g1 poly st else .ok st) =
              .ok { st1 with endEdges := x } ∧
          (st1.forward = false → x = st1.endEdges) ∧ Unchecked.Corr poly st1 s e T := by
        by_cases hsh : SharedEdge K st.startEdges st.endEdges = true
        · obtain ⟨st1, x, h1, h2, h3⟩ := @BackupSwitch_garbage g g1 poly st s e T hc hgap hhead
          obtain ⟨st1a, h1a, hca, _⟩ := @BackupSwitch_unchecked g poly st s e T hc hgap hhead
          rw [h1] at h1a
          cases h1a
          exact ⟨st1, x, by rw [if_pos hsh, h1], by rw [if_pos hsh, h2], h3, hca⟩
        · exact ⟨st, st.endEdges, by rw [if_neg hsh], by rw [if_neg hsh], fun _ => rfl, hc⟩
      obtain ⟨st1, x, hs1, hs2, hx, hc1⟩ := key
      simp only [hs1, hs2]
      rw [← BackupAdvance_garbage g g1 hc1 hgap x hx]
      obtain ⟨st2, hadv, hF, hB⟩ := @BackupAdvance_unchecked g poly st1 s e T hc1 hgap
      simp only [hadv]
      cases hf : st1.forward with
      | true =>
        obtain ⟨hf2, hc2⟩ := hF hf
        exact ih st2 (s + 1) e _ hc2 (fun hh => by rw [hf2] at hh; cases hh)
      | false =>
        obtain ⟨hf2, hc2⟩ := hB hf
        exact ih st2 s (e - 1) _ hc2 (fun _ => by omega)

theorem BackupPoly_garbage (g g1 : Int) (K : Edge) (poly : SimplePolygon) (T0 : List IVec3) :
    Unchecked.BackupPoly g K poly T0 = Unchecked.BackupPoly g1 K poly T0 := by
  unfold Unchecked.BackupPoly
  by_cases hn : poly.length < 3
  · simp only [hn, if_true]
  · simp only [hn, if_false]
    have hstopc : ((poly.length : Int) - 1) = ((poly.length - 1 : Nat) : Int) := by omega
    have h1c : (1 : Int) = ((1 : Nat) : Int) := rfl
    have h0c : (0 : Int) = ((0 : Nat) : Int) := rfl
    obtain ⟨pe, hpe, hpe1⟩ := @getI_vid poly (poly.length - 1) (by omega)
    obtain ⟨p0, hp0, hp01⟩ := @getI_vid poly (0) (by omega)
    obtain ⟨p1, hp1, hp11⟩ := @getI_vid poly (1) (by omega)
    obtain ⟨se, hse⟩ := @edgePair_inside g poly (0) (1) (by omega) (by omega)
    obtain ⟨ee, hee⟩ := @edgePair_inside g poly (poly.length - 2)
      (poly.length - 1) (by omega) (by omega)
    have hsea := hse
    have heea := hee
    rw [edgePair_garbage g g1 (by omega) (by omega)] at hsea heea
    have e1 : ((poly.length : Int) - 1 - 1) = ((poly.length - 2 : Nat) : Int) := by omega
    have e2 : ((1 : Int) - 1) = ((0 : Nat) : Int) := by omega
    rw [e1, e2, hstopc, hpe]
    rw [h0c, hp0, h1c, hp1, hse, hee, hsea, heea]
    simp only
    refine BackupLoop_garbage g g1 K poly poly.length _ 1 poly.length T0 ?_ (fun hh => by simp at hh)
    refine ⟨le_refl _, by omega, le_refl _, rfl, fun hh => by simp at hh, fun _ =>
      ⟨by simp, by simp; omega, ?_⟩⟩
    simp [triB, hpe1, hp01, hp11, vid_closed_lt (show poly.length - 1 < poly.length by omega),
      vid_closed_lt (show 1 < poly.length by omega),
      vid_closed_end (show 1 ≤ poly.length by omega)]

/-- What lies in front of the storage has no influence on the unchecked
run. -/
theorem BackupRun_garbage (g g1 : Int) (K : Edge) :
    ∀ (P : Polygons) (T0 : List IVec3),
      Unchecked.BackupRun g K P T0 = Unchecked.BackupRun g1 K P T0 := by
  intro P
  induction P with
  | nil => intro T0; rfl
  | cons p P ih =>
    intro T0
    unfold Unchecked.BackupRun
    rw [BackupPoly_garbage g g1 K p T0]
    cases Unchecked.BackupPoly g1 K p T0 with
    | none => rfl
    | some r =>
      cases r with
      | error e => rfl
      | ok t => exact ih t

theorem BackupTriangulate_of_run {g : Int} {K : Edge} {P : Polygons} {T : List IVec3}
    (h : Unchecked.BackupRun g K P [] = some (.ok T)) :
    Unchecked.BackupTriangulate g K P = .ok T := by
  simp only [Unchecked.BackupTriangulate, h]

/-- C3: for every polygon set in which every polygon has at least 3 vertices and
all vertex ids are pairwise distinct, and for any edge tags and any sentinel
values: `BackupTriangulate`, its reads going through the unchecked `operator[]`,
returns, the same triangles whatever the memory in front of a polygon holds,
and the halfedges of its triangles together with the reversed boundary edges of
the polygons form a 2-manifold edge set: no halfedge is a loop, no two
halfedges have the same `(first, second)`, and the reverse of every halfedge
is present. When reads outside a polygon are taken to end the run
(`Err.undefined`), every run that returns gives these same triangles.
Consequently, when no edge tag is set (every `nextEdge = kNoIdx`, and `kNoIdx`
differs from `kInterior`), `BackupTriangulate` returns without any read outside
a polygon and `CheckManifold(BackupTriangulate(P), P)` passes. -/
theorem BackupTriangulate_manifold (K : Edge) (P : Polygons) (h3 : ∀ p ∈ P, 3 ≤ p.length)
    (hnd : (P.flatten.map (fun v => v.idx)).Nodup) :
    (∃ T, (∀ g : Int, Unchecked.BackupTriangulate g K P = .ok T) ∧
        ∃ E, Polygons2Edges P = .ok E ∧ Manifold2 (Triangles2Edges K T ++ E.map swapEnds)) ∧
      (∀ T, BackupTriangulate K P = .ok T →
        (∀ g : Int, Unchecked.BackupTriangulate g K P = .ok T) ∧
        ∃ E, Polygons2Edges P = .ok E ∧ Manifold2 (Triangles2Edges K T ++ E.map swapEnds)) ∧
      ((∀ p ∈ P, ∀ v ∈ p, v.nextEdge = K.kNoIdx) → K.kNoIdx ≠ K.kInterior →
        ∃ T, BackupTriangulate K P = .ok T ∧ CheckManifoldTP K T P = .ok ()) := by
  have hne : ∀ p ∈ P, p ≠ [] := by
    intro p hp h
    have := h3 p hp
    simp [h] at this
  have hE := Polygons2Edges_eq P hne
  have hrun : ∀ T, BackupTriangulate K P = .ok T → BackupRun K P [] = some (.ok T) := by
    intro T hT
    unfold BackupTriangulate at hT
    cases hr : BackupRun K P [] with
    | none => simp [hr] at hT
    | some r =>
      simp only [hr] at hT
      rw [hT]
  refine ⟨?_, ?_, ?_⟩
  · obtain ⟨parts, hparts, hF⟩ := BackupRun_unchecked 0 K P []
    simp only [List.nil_append] at hparts
    refine ⟨parts.flatten, fun g => ?_, _, hE, (parts_manifold K P parts h3 hnd hF).1⟩
    exact BackupTriangulate_of_run ((BackupRun_garbage g 0 K P []).trans hparts)
  · intro T hT
    obtain ⟨T1, hT1, hM, _⟩ := BackupRun_manifold K P h3 hnd [] T (hrun T hT)
    simp only [List.nil_append] at hT1
    subst hT1
    exact ⟨fun g => BackupTriangulate_of_run (BackupRun_agrees g K P [] _ (hrun _ hT)),
      _, hE, hM⟩
  · intro hk hI
    obtain ⟨T, hT⟩ := BackupRun_noTags K P hk []
    obtain ⟨T1, hT1, hM, hV⟩ := BackupRun_manifold K P h3 hnd [] T hT
    simp only [List.nil_append] at hT1
    subst hT1
    refine ⟨T, by simp only [BackupTriangulate, hT], ?_⟩
    unfold CheckManifoldTP
    rw [hE]
    exact CheckManifold_noTags K P T hk hI hM hV

set_option maxRecDepth 100000 in
/-- C3 at the pentagon with ids `0..4` and no tags, whose backup triangles are
`(4,0,1), (4,1,2), (3,4,2)`, and at the square whose four edges carry the tag
`5`, where the first round of the loop switches sides and the triangles are
`(0,1,2), (0,2,3)`. -/
theorem BackupTriangulate_manifold_witness :
    (∀ p ∈ pentagon, 3 ≤ p.length) ∧ (pentagon.flatten.map (fun v => v.idx)).Nodup ∧
      BackupTriangulate sampleTags pentagon = .ok [⟨4, 0, 1⟩, ⟨4, 1, 2⟩, ⟨3, 4, 2⟩] ∧
      (∃ E, Polygons2Edges pentagon = .ok E ∧
        Manifold2 (Triangles2Edges sampleTags [⟨4, 0, 1⟩, ⟨4, 1, 2⟩, ⟨3, 4, 2⟩] ++
          E.map swapEnds)) ∧
      (∃ T, BackupTriangulate sampleTags pentagon = .ok T ∧
        CheckManifoldTP sampleTags T pentagon = .ok ()) ∧
      (∀ p ∈ taggedSquare, 3 ≤ p.length) ∧ (taggedSquare.flatten.map (fun v => v.idx)).Nodup ∧
      Unchecked.BackupTriangulate 0 sampleTags taggedSquare = .ok [⟨0, 1, 2⟩, ⟨0, 2, 3⟩] ∧
      ∃ T, (∀ g : Int, Unchecked.BackupTriangulate g sampleTags taggedSquare = .ok T) ∧
        ∃ E, Polygons2Edges taggedSquare = .ok E ∧
          Manifold2 (Triangles2Edges sampleTags T ++ E.map swapEnds) :=
  ⟨by decide, by decide, by decide!,
    ((BackupTriangulate_manifold sampleTags pentagon (by decide) (by decide)).2.1 _
      (by decide!)).2,
    (BackupTriangulate_manifold sampleTags pentagon (by decide) (by decide)).2.2
      (by decide) (by decide),
    by decide, by decide, by decide!,
    (BackupTriangulate_manifold sampleTags taggedSquare (by decide) (by decide)).1⟩

/-- C25: for every polygon set and any edge tags `BackupTriangulate` terminates:
with its reads going through the unchecked `operator[]` it returns, whatever
the memory in front of a polygon holds, and its output is one run of triangles
per polygon in polygon order, of exactly `n − 2` triangles (one per round of the
loop, which emits one triangle in each round) for a polygon of `n ≥ 3` vertices
and of none for a polygon of fewer than 3. The loop over each polygon ends
within the `n` rounds of fuel of the model, also when a read outside a polygon
is taken to end the run, and every run that then returns gives these same
triangles. -/
theorem BackupTriangulate_passes (K : Edge) (polys : Polygons) :
    ∃ parts : List (List IVec3),
      (∀ g : Int, Unchecked.BackupRun g K polys [] = some (.ok parts.flatten)) ∧
      (∀ g : Int, Unchecked.BackupTriangulate g K polys = .ok parts.flatten) ∧
      List.Forall₂ (fun (poly : SimplePolygon) (part : List IVec3) =>
        part.length = if 3 ≤ poly.length then poly.length - 2 else 0) polys parts ∧
      BackupRun K polys [] ≠ none ∧
      ∀ T, BackupTriangulate K polys = .ok T → T = parts.flatten := by
  obtain ⟨parts, hparts, hF⟩ := BackupRun_unchecked 0 K polys []
  simp only [List.nil_append] at hparts
  have hall : ∀ g : Int, Unchecked.BackupRun g K polys [] = some (.ok parts.flatten) :=
    fun g => (BackupRun_garbage g 0 K polys []).trans hparts
  refine ⟨parts, hall, fun g => BackupTriangulate_of_run (hall g), ?_, ?_, ?_⟩
  · refine List.Forall₂.imp ?_ hF
    intro poly part h
    by_cases h3 : 3 ≤ poly.length
    · simp only [h3, if_true] at h ⊢
      obtain ⟨q, cs, _, hcs, rfl⟩ := h
      rw [fan_length]
      omega
    · simp only [h3, if_false] at h ⊢
      rw [h]
      rfl
  · have hR := BackupRun_returns K polys []
    by_cases h : ∀ p ∈ polys, 3 ≤ p.length → firstShared K p = false
    · obtain ⟨T, hT⟩ := hR.1 h
      rw [hT]
      simp
    · rw [hR.2 h]
      simp
  · intro T hT
    have hrun : BackupRun K polys [] = some (.ok T) := by
      unfold BackupTriangulate at hT
      cases hr : BackupRun K polys [] with
      | none => rw [hr] at hT; cases hT
      | some r => rw [hr] at hT; simp only at hT; rw [hT]
    have := BackupRun_agrees 0 K polys [] T hrun
    rw [hall 0] at this
    simp only [Option.some.injEq, Except.ok.injEq] at this
    exact this.symm

set_option maxRecDepth 100000 in
/-- The unchecked run on the triangle whose edges carry the tags `0, 1, 2` and
on the square whose edges all carry the tag `5`: both switch sides in the first
round, read `poly[-1]`, and return. -/
theorem BackupTriangulate_tagged (g : Int) :
    Unchecked.BackupTriangulate g sampleTags taggedTriangle = .ok [⟨0, 1, 2⟩] ∧
      Unchecked.BackupTriangulate g sampleTags taggedSquare = .ok [⟨0, 1, 2⟩, ⟨0, 2, 3⟩] := by
  have h1 : Unchecked.BackupRun 0 sampleTags taggedTriangle [] = some (.ok [⟨0, 1, 2⟩]) := by
    decide!
  have h2 : Unchecked.BackupRun 0 sampleTags taggedSquare [] =
      some (.ok [⟨0, 1, 2⟩, ⟨0, 2, 3⟩]) := by
    decide!
  exact ⟨BackupTriangulate_of_run ((BackupRun_garbage g 0 sampleTags taggedTriangle []).trans h1),
    BackupTriangulate_of_run ((BackupRun_garbage g 0 sampleTags taggedSquare []).trans h2)⟩

/-! ## Single precision with rounding -/

theorem F32.neg_twice (a : F32) : F32.neg (F32.neg a) = a := by
  cases a <;> simp [F32.neg]

theorem F32.abs_of_neg (a : F32) : F32.abs (F32.neg a) = F32.abs a := by
  cases a <;> simp [F32.neg, F32.abs]

theorem F32.add_swap (a b : F32) : F32.add a b = F32.add b a := by
  cases a <;> cases b <;> simp [F32.add, add_comm]

theorem F32.neg_of_add (a b : F32) :
    F32.neg (F32.add a b) = F32.add (F32.neg a) (F32.neg b) := by
  cases a <;> cases b <;> simp [F32.add, F32.neg, add_comm]

theorem F32.mul_swap (a b : F32) : F32.mul a b = F32.mul b a := by
  cases a <;> cases b <;> simp [F32.mul, mul_comm]

/-- Rounding is odd: the format is symmetric about zero. -/
theorem F32.round_of_neg (a : F32) : F32.round (F32.neg a) = F32.neg (F32.round a) := by
  cases a with
  | fin q =>
    show F32.round (.fin (-q)) = F32.neg (F32.round (.fin q))
    simp only [F32.round]
    rcases lt_trichotomy q 0 with h | h | h
    · have h1 : 0 < -q := by linarith
      have h2 : ¬ (0 < q) := by linarith
      rw [if_pos h1, if_neg h2, if_pos h, F32.neg_twice]
    · subst h
      simp [F32.neg]
    · have h1 : ¬ (0 < -q) := by linarith
      have h2 : -q < 0 := by linarith
      rw [if_neg h1, if_pos h2, if_pos h, neg_neg]
  | pinf => rfl
  | ninf => rfl
  | nan => rfl

theorem F32.sub_swap (a b : F32) : F32.sub b a = F32.neg (F32.sub a b) := by
  unfold F32.sub
  rw [F32.neg_of_add, F32.neg_twice, F32.add_swap]

theorem Rounded.sub32_swap (a b : F32) : Rounded.sub b a = F32.neg (Rounded.sub a b) := by
  unfold Rounded.sub
  rw [F32.sub_swap, F32.round_of_neg]

theorem Rounded.mul32_swap (a b : F32) : Rounded.mul a b = Rounded.mul b a := by
  unfold Rounded.mul
  rw [F32.mul_swap]

/-- Swapping the last two points negates the determinant that `CCW` computes,
exactly. -/
theorem Rounded.det_swap (p0 p1 p2 : Vec2) :
    Rounded.det p0 p2 p1 = F32.neg (Rounded.det p0 p1 p2) := by
  simp only [Rounded.det]
  rw [Rounded.sub32_swap, Rounded.mul32_swap (Rounded.vsub p2 p0).x, Rounded.mul32_swap (Rounded.vsub p2 p0).y]

theorem F32.pow2_pos (e : Int) : 0 < F32.pow2 e := by
  unfold F32.pow2
  split_ifs
  · positivity
  · positivity

theorem F32.nearestEven_nonneg (m : ℚ) (hm : 0 ≤ m) : 0 ≤ F32.nearestEven m := by
  have hf : 0 ≤ Rat.floor m := by
    have h := Int.floor_nonneg.2 hm
    exact h
  unfold F32.nearestEven
  simp only
  split_ifs <;> omega

/-- A positive rational rounds to a non-negative `float` or to `+∞`. -/
theorem F32.roundPos_nonneg (q : ℚ) (hq : 0 < q) :
    F32.roundPos q = .pinf ∨ ∃ r : ℚ, 0 ≤ r ∧ F32.roundPos q = .fin r := by
  unfold F32.roundPos
  simp only
  generalize (if F32.ilog2 q < -126 then -126 else F32.ilog2 q) = e
  have hu := F32.pow2_pos (e - 23)
  have hk := F32.nearestEven_nonneg (q / F32.pow2 (e - 23)) (by positivity)
  by_cases h : F32.pow2 128 ≤ (F32.nearestEven (q / F32.pow2 (e - 23)) : ℚ) * F32.pow2 (e - 23)
  · rw [if_pos h]
    exact Or.inl rfl
  · rw [if_neg h]
    refine Or.inr ⟨_, ?_, rfl⟩
    have : (0 : ℚ) ≤ ((F32.nearestEven (q / F32.pow2 (e - 23)) : Int) : ℚ) := by
      exact_mod_cast hk
    positivity

theorem F32.round_fin_inv {a : F32} {q : ℚ} (h : F32.round a = .fin q) : ∃ r, a = .fin r := by
  cases a with
  | fin r => exact ⟨r, rfl⟩
  | pinf => cases h
  | ninf => cases h
  | nan => cases h

theorem F32.neg_fin_inv {a : F32} {q : ℚ} (h : F32.neg a = .fin q) : ∃ r, a = .fin r := by
  cases a with
  | fin r => exact ⟨r, rfl⟩
  | pinf => cases h
  | ninf => cases h
  | nan => cases h

theorem F32.add_fin_inv {a b : F32} {q : ℚ} (h : F32.add a b = .fin q) :
    (∃ x, a = .fin x) ∧ ∃ y, b = .fin y := by
  cases a <;> cases b <;> simp [F32.add] at h ⊢

theorem F32.ofSign_ne_fin (s : Int) (q : ℚ) : F32.ofSign s ≠ .fin q := by
  unfold F32.ofSign
  split_ifs <;> simp

theorem F32.mul_fin_inv {a b : F32} {q : ℚ} (h : F32.mul a b = .fin q) :
    (∃ x, a = .fin x) ∧ ∃ y, b = .fin y := by
  cases a <;> cases b <;> simp [F32.mul, F32.ofSign_ne_fin] at h ⊢

theorem Rounded.sub32_fin_inv {a b : F32} {q : ℚ} (h : Rounded.sub a b = .fin q) :
    (∃ x, a = .fin x) ∧ ∃ y, b = .fin y := by
  obtain ⟨r, hr⟩ := F32.round_fin_inv h
  obtain ⟨ha, y, hy⟩ := F32.add_fin_inv hr
  exact ⟨ha, F32.neg_fin_inv hy⟩

theorem Rounded.mul32_fin_inv {a b : F32} {q : ℚ} (h : Rounded.mul a b = .fin q) :
    (∃ x, a = .fin x) ∧ ∃ y, b = .fin y := by
  obtain ⟨r, hr⟩ := F32.round_fin_inv h
  exact F32.mul_fin_inv hr

/-- A determinant that is a finite number comes from points with finite
coordinates. -/
theorem Rounded.det_fin_inv {p0 p1 p2 : Vec2} {q : ℚ} (h : Rounded.det p0 p1 p2 = .fin q) :
    p0.isFinite = true ∧ p1.isFinite = true ∧ p2.isFinite = true := by
  simp only [Rounded.det, Rounded.vsub] at h
  obtain ⟨⟨A, hA⟩, ⟨B, hB⟩⟩ := Rounded.sub32_fin_inv h
  obtain ⟨⟨a1, h1⟩, ⟨a2, h2⟩⟩ := Rounded.mul32_fin_inv hA
  obtain ⟨⟨b1, h3⟩, ⟨b2, h4⟩⟩ := Rounded.mul32_fin_inv hB
  obtain ⟨⟨x1, e1⟩, ⟨x0, e0⟩⟩ := Rounded.sub32_fin_inv h1
  obtain ⟨⟨y2, e2⟩, ⟨y0, e3⟩⟩ := Rounded.sub32_fin_inv h2
  obtain ⟨⟨y1, e4⟩, _⟩ := Rounded.sub32_fin_inv h3
  obtain ⟨⟨x2, e5⟩, _⟩ := Rounded.sub32_fin_inv h4
  rcases p0 with ⟨p0x, p0y⟩
  rcases p1 with ⟨p1x, p1y⟩
  rcases p2 with ⟨p2x, p2y⟩
  simp only at e0 e1 e2 e3 e4 e5
  subst e0 e1 e2 e3 e4 e5
  exact ⟨rfl, rfl, rfl⟩

theorem F32.round_nonneg {a : F32} (h : F32.NonNeg a) : F32.NonNeg (F32.round a) := by
  rcases h with rfl | ⟨r, hr, rfl⟩
  · exact Or.inl rfl
  · rcases eq_or_lt_of_le hr with h0 | hpos
    · subst h0
      exact Or.inr ⟨0, le_refl _, by simp [F32.round]⟩
    · have : F32.round (.fin r) = F32.roundPos r := by simp [F32.round, hpos]
      rw [this]
      exact F32.roundPos_nonneg r hpos

theorem F32.add_nonneg {a b : F32} (ha : F32.NonNeg a) (hb : F32.NonNeg b) :
    F32.NonNeg (F32.add a b) := by
  rcases ha with rfl | ⟨x, hx, rfl⟩ <;> rcases hb with rfl | ⟨y, hy, rfl⟩
  · exact Or.inl rfl
  · exact Or.inl rfl
  · exact Or.inl rfl
  · exact Or.inr ⟨x + y, by positivity, rfl⟩

theorem F32.le_zero_of_nonneg {a : F32} (h : F32.NonNeg a) : F32.le (.fin 0) a = true := by
  rcases h with rfl | ⟨r, hr, rfl⟩
  · rfl
  · simp [F32.le, hr]

/-- The scale `N` of points with finite coordinates is `+∞` or a finite number
that is not negative; it is never a NaN. -/
theorem Rounded.norm_nonneg {p0 p1 p2 : Vec2} (h0 : p0.isFinite = true)
    (h1 : p1.isFinite = true) (h2 : p2.isFinite = true) :
    F32.NonNeg (Rounded.norm p0 p1 p2) := by
  obtain ⟨x0, y0, rfl⟩ := (Vec2.isFinite_iff _).1 h0
  obtain ⟨x1, y1, rfl⟩ := (Vec2.isFinite_iff _).1 h1
  obtain ⟨x2, y2, rfl⟩ := (Vec2.isFinite_iff _).1 h2
  have hm : ∀ x y : ℚ, F32.NonNeg (Rounded.mul (.fin |x|) (.fin |y|)) := by
    intro x y
    exact F32.round_nonneg (Or.inr ⟨|x| * |y|, by positivity, rfl⟩)
  simp only [Rounded.norm, Vec2.ofRat, Vec2.abs, F32.abs, Rounded.add]
  exact F32.round_nonneg (F32.add_nonneg (F32.round_nonneg (F32.add_nonneg (hm _ _) (hm _ _)))
    (hm _ _))

theorem Rounded.CCW_range32 (p0 p1 p2 : Vec2) :
    Rounded.CCW p0 p1 p2 = -1 ∨ Rounded.CCW p0 p1 p2 = 0 ∨ Rounded.CCW p0 p1 p2 = 1 := by
  simp only [Rounded.CCW]
  split_ifs <;> simp

/-- A determinant `0` gives `CCW = 0`. -/
theorem Rounded.CCW_of_det_zero {p0 p1 p2 : Vec2} (h : Rounded.det p0 p1 p2 = .fin 0) :
    Rounded.CCW p0 p1 p2 = 0 := by
  obtain ⟨h0, h1, h2⟩ := Rounded.det_fin_inv h
  have hN := F32.le_zero_of_nonneg (Rounded.norm_nonneg h0 h1 h2)
  have ht : Rounded.mul (F32.abs (.fin 0)) kTolerance = .fin 0 := by
    simp [Rounded.mul, F32.abs, kTolerance, F32.mul, F32.round]
  simp only [Rounded.CCW, h, ht, hN, if_true]

/-- A determinant that is a NaN gives `CCW = −1`. -/
theorem Rounded.CCW_of_det_nan {p0 p1 p2 : Vec2} (h : Rounded.det p0 p1 p2 = .nan) :
    Rounded.CCW p0 p1 p2 = -1 := by
  have ht : Rounded.mul (F32.abs .nan) kTolerance = .nan := by
    simp [Rounded.mul, F32.abs, kTolerance, F32.mul, F32.round]
  have hle : ∀ a : F32, F32.le .nan a = false := by
    intro a
    cases a <;> rfl
  simp [Rounded.CCW, h, ht, hle, F32.lt]

/-- When the determinant is not `0` within the tolerance, `CCW` is its sign. -/
theorem Rounded.CCW_sign {p0 p1 p2 : Vec2} (h : Rounded.CCW p0 p1 p2 ≠ 0) :
    Rounded.CCW p0 p1 p2 = if F32.lt (.fin 0) (Rounded.det p0 p1 p2) = true then 1 else -1 := by
  simp only [Rounded.CCW] at h ⊢
  split_ifs at h ⊢ <;> simp_all

/-- Antisymmetry in single precision: when the determinant is not a NaN and
neither value is `0`, swapping the last two points negates `CCW`. -/
theorem Rounded.CCW_opposite (p0 p1 p2 : Vec2) (hd : Rounded.det p0 p1 p2 ≠ .nan)
    (h1 : Rounded.CCW p0 p1 p2 ≠ 0) (h2 : Rounded.CCW p0 p2 p1 ≠ 0) :
    Rounded.CCW p0 p1 p2 = -Rounded.CCW p0 p2 p1 := by
  rw [Rounded.CCW_sign h1, Rounded.CCW_sign h2, Rounded.det_swap p0 p1 p2]
  cases hdet : Rounded.det p0 p1 p2 with
  | fin q =>
    rcases lt_trichotomy q 0 with h | h | h
    · have h3 : ¬ (0 < q) := by linarith
      have h4 : 0 < -q := by linarith
      simp [F32.lt, F32.neg, h3, h4]
    · subst h
      exact absurd (Rounded.CCW_of_det_zero hdet) h1
    · have h4 : ¬ (0 < -q) := by linarith
      simp [F32.lt, F32.neg, h, h4]
  | pinf => simp [F32.lt, F32.neg]
  | ninf => simp [F32.lt, F32.neg]
  | nan => exact absurd hdet hd

/-- In single precision, `CCW = −1` for one order of the last two points and a
determinant that is not a NaN give `CCW ≥ 0` for the other order. -/
theorem Rounded.CCW_swap_nonneg (p0 p1 p2 : Vec2) (h : Rounded.CCW p0 p1 p2 = -1)
    (hd : Rounded.det p0 p1 p2 ≠ .nan) : 0 ≤ Rounded.CCW p0 p2 p1 := by
  rcases Rounded.CCW_range32 p0 p2 p1 with h2 | h2 | h2
  · have := Rounded.CCW_opposite p0 p1 p2 hd (by rw [h]; decide) (by rw [h2]; decide)
    rw [h, h2] at this
    exact absurd this (by decide)
  · omega
  · omega



/-! ## Monotone triangulator in single precision: the same-chain case -/

theorem Rounded.sameChain_single (m : List VertAdj) (vi : VertAdj) (onRight : Bool) :
    ∀ (vs : List VertAdj) (chain : List Int) (v_top_idx : Int) (v_top : VertAdj)
      (T : List IVec3) (n : Int),
      List.Forall₂ (fun j v => getI m j = .ok v) chain vs →
      ∃ r, Rounded.sameChain m vi onRight chain v_top_idx v_top (vs.headD vi) T n = .ok r ∧
        r.v_top_idx :: r.chain =
          (v_top_idx :: chain).drop (Rounded.sameChainEmitted onRight vi v_top vs).length ∧
        r.triangles = T ++ (Rounded.sameChainEmitted onRight vi v_top vs).map
            (fun p => meshTriangle (emittedOrder onRight vi p)) ∧
        r.triangles_output = n + (Rounded.sameChainEmitted onRight vi v_top vs).length := by
  intro vs
  induction vs with
  | nil =>
    intro chain v_top_idx v_top T n h
    cases h
    simp [Rounded.sameChain, Rounded.sameChainEmitted, chainPairs]
  | cons vj vs ih =>
    intro chain v_top_idx v_top T n h
    cases h with
    | cons hj hrest =>
      rename_i vj_idx rest
      have hE : Rounded.sameChainEmitted onRight vi v_top (vj :: vs) =
          if Rounded.emitWhile onRight vi vj v_top then
            (vj, v_top) :: Rounded.sameChainEmitted onRight vi vj vs
          else [] := by
        simp [Rounded.sameChainEmitted, chainPairs, List.takeWhile_cons]
      obtain ⟨r, hr, h1, h2, h3⟩ := ih rest vj_idx vj
        (T ++ [Triangulator.AddTriangle onRight vi.mesh_idx vj.mesh_idx v_top.mesh_idx]) (n + 1)
        hrest
      unfold Rounded.sameChain
      rw [hE]
      by_cases ht : Rounded.emitWhile onRight vi vj v_top = true
      · have ht1 : (Rounded.CCW vi.pos vj.pos v_top.pos != (if onRight then -1 else 1)) = true :=
          ht
        simp only [List.headD_cons, ht1, if_true, ht]
        have hT : Triangulator.AddTriangle onRight vi.mesh_idx vj.mesh_idx v_top.mesh_idx =
            meshTriangle (emittedOrder onRight vi (vj, v_top)) := by
          cases onRight <;> simp [Triangulator.AddTriangle, meshTriangle, emittedOrder]
        have hfin : r.v_top_idx :: r.chain =
              (v_top_idx :: vj_idx :: rest).drop
                ((vj, v_top) :: Rounded.sameChainEmitted onRight vi vj vs).length ∧
            r.triangles = T ++ ((vj, v_top) :: Rounded.sameChainEmitted onRight vi vj vs).map
              (fun p => meshTriangle (emittedOrder onRight vi p)) ∧
            r.triangles_output =
              n + (((vj, v_top) :: Rounded.sameChainEmitted onRight vi vj vs).length : Int) := by
          refine ⟨?_, ?_, ?_⟩
          · rw [h1]; simp
          · rw [h2, hT]; simp
          · rw [h3]; simp [add_assoc, add_comm]
        cases hrest with
        | nil =>
          simp only [Rounded.sameChain, List.headD_nil, Except.ok.injEq] at hr
          exact ⟨r, by rw [← hr], hfin⟩
        | cons hj1 hrest1 =>
          simp only [hj1]
          simp only [List.headD_cons] at hr
          exact ⟨r, hr, hfin⟩
      · have ht0 : Rounded.emitWhile onRight vi vj v_top = false := by simpa using ht
        have ht1 : (Rounded.CCW vi.pos vj.pos v_top.pos != (if onRight then -1 else 1)) = false :=
          ht0
        simp [ht1, ht0]

/-- The result of the same-chain case of `ProcessVert` in single precision, on
a reflex chain whose entries can be read. -/
theorem Rounded.ProcessVert_single_eq (m : List VertAdj) (t : Triangulator)
    (vi_idx : Int) (T : List IVec3) (vi v_top : VertAdj) (v_top_idx : Int) (chain : List Int)
    (vs : List VertAdj)
    (hA : Triangulator.Attached m t vi_idx = .ok 1)
    (hi : getI m vi_idx = .ok vi)
    (hc : t.reflex_chain_ = v_top_idx :: chain) (hne : chain ≠ [])
    (htop : getI m v_top_idx = .ok v_top)
    (hvs : List.Forall₂ (fun j v => getI m j = .ok v) chain vs) :
    Rounded.ProcessVert m t vi_idx T =
      .ok (true,
        { t with
          reflex_chain_ :=
            vi_idx ::
              (v_top_idx :: chain).drop (Rounded.sameChainEmitted t.onRight_ vi v_top vs).length
          triangles_output :=
            t.triangles_output + (Rounded.sameChainEmitted t.onRight_ vi v_top vs).length },
        T ++ (Rounded.sameChainEmitted t.onRight_ vi v_top vs).map
          (fun p => meshTriangle (emittedOrder t.onRight_ vi p))) := by
  obtain ⟨r, hr, h1, h2, h3⟩ := Rounded.sameChain_single m vi t.onRight_ vs chain v_top_idx
    v_top T t.triangles_output hvs
  cases hvs with
  | nil => exact absurd rfl hne
  | cons hj hrest =>
    rename_i vj_idx vj rest vs1
    simp only [List.headD_cons] at hr
    simp [Rounded.ProcessVert, hA, hi, Triangulator.top, hc, htop, hj, hr, bind, Except.bind,
      pure, Except.pure, h1, h2, h3]

theorem Rounded.emitted_single_mem (onRight : Bool) (vi v_top : VertAdj) (vs : List VertAdj)
    (p : VertAdj × VertAdj) (h : p ∈ Rounded.sameChainEmitted onRight vi v_top vs) :
    Rounded.emitWhile onRight vi p.1 p.2 = true ∧ p.1 ∈ vs ∧ p.2 ∈ v_top :: vs := by
  have h1 := List.mem_takeWhile_imp h
  have h2 : p ∈ chainPairs v_top vs := (List.takeWhile_sublist _).subset h
  have h3 := List.of_mem_zip (show (p.1, p.2) ∈ vs.zip (v_top :: vs) from h2)
  exact ⟨h1, h3.1, h3.2⟩

/-- In single precision the test of the loop is the orientation of the emitted
triangle on the right chain; on the left chain the emitted order is the swap
of the tested one, and a tested value `−1` with a determinant that is not a
NaN gives `CCW ≥ 0` for it. -/
theorem Rounded.emitWhile_orientation32 (onRight : Bool) (vi vj v_top : VertAdj)
    (h : Rounded.emitWhile onRight vi vj v_top = true) :
    (onRight = true → 0 ≤ Rounded.CCW vi.pos vj.pos v_top.pos) ∧
      (onRight = false →
        (Rounded.CCW vi.pos vj.pos v_top.pos = -1 ∨ Rounded.CCW vi.pos vj.pos v_top.pos = 0) ∧
        (Rounded.CCW vi.pos vj.pos v_top.pos = -1 →
          Rounded.det vi.pos vj.pos v_top.pos ≠ .nan →
          0 ≤ Rounded.CCW vi.pos v_top.pos vj.pos)) := by
  constructor
  · intro hr
    subst hr
    simp only [Rounded.emitWhile, if_true, bne_iff_ne, ne_eq] at h
    rcases Rounded.CCW_range32 vi.pos vj.pos v_top.pos with h1 | h1 | h1
    · exact absurd h1 h
    · omega
    · omega
  · intro hr
    subst hr
    simp only [Rounded.emitWhile, Bool.false_eq_true, if_false, bne_iff_ne, ne_eq] at h
    refine ⟨?_, fun h1 hd => Rounded.CCW_swap_nonneg _ _ _ h1 hd⟩
    rcases Rounded.CCW_range32 vi.pos vj.pos v_top.pos with h1 | h1 | h1
    · exact Or.inl h1
    · exact Or.inr h1
    · exact absurd h1 h

/-- C24, as amended: in the same-chain case of `Triangulator::ProcessVert` (the
vertex is attached to the top of a reflex chain of two or more readable
entries), with `CCW` computed in single precision, triangles are emitted
exactly while `CCW(vi, vj, v_top) ≠ (onRight ? −1 : +1)`, one for each pair
`(vj, v_top)` down the chain up to the first pair that fails the test, in vertex
order `(vi, vj, v_top)` on the right chain and `(vi, v_top, vj)` otherwise; the
chain loses one entry for each triangle and `vi` is pushed. Every triangle so
emitted on the right chain has `CCW ≥ 0` on its three positions in emitted
order. On the left chain the tested value is `−1` or `0`, and a triangle
emitted on a tested value `−1` whose determinant is not a NaN has `CCW ≥ 0` in
emitted order. -/
theorem Triangulator.ProcessVert_sameChain (m : List VertAdj) (t : Triangulator)
    (vi_idx : Int) (T : List IVec3) (vi v_top : VertAdj) (v_top_idx : Int) (chain : List Int)
    (vs : List VertAdj)
    (hA : Triangulator.Attached m t vi_idx = .ok 1)
    (hi : getI m vi_idx = .ok vi)
    (hc : t.reflex_chain_ = v_top_idx :: chain) (hne : chain ≠ [])
    (htop : getI m v_top_idx = .ok v_top)
    (hvs : List.Forall₂ (fun j v => getI m j = .ok v) chain vs) :
    Rounded.ProcessVert m t vi_idx T =
        .ok (true,
          { t with
            reflex_chain_ :=
              vi_idx ::
                (v_top_idx :: chain).drop
                  (Rounded.sameChainEmitted t.onRight_ vi v_top vs).length
            triangles_output :=
              t.triangles_output + (Rounded.sameChainEmitted t.onRight_ vi v_top vs).length },
          T ++ (Rounded.sameChainEmitted t.onRight_ vi v_top vs).map
            (fun p => meshTriangle (emittedOrder t.onRight_ vi p))) ∧
      ∀ p ∈ Rounded.sameChainEmitted t.onRight_ vi v_top vs,
        (t.onRight_ = true →
          emittedOrder t.onRight_ vi p = (vi, p.1, p.2) ∧
          0 ≤ Rounded.CCW (emittedOrder t.onRight_ vi p).1.pos
            (emittedOrder t.onRight_ vi p).2.1.pos (emittedOrder t.onRight_ vi p).2.2.pos) ∧
        (t.onRight_ = false →
          emittedOrder t.onRight_ vi p = (vi, p.2, p.1) ∧
          (Rounded.CCW vi.pos p.1.pos p.2.pos = -1 ∨ Rounded.CCW vi.pos p.1.pos p.2.pos = 0) ∧
          (Rounded.CCW vi.pos p.1.pos p.2.pos = -1 →
            Rounded.det vi.pos p.1.pos p.2.pos ≠ .nan →
            0 ≤ Rounded.CCW (emittedOrder t.onRight_ vi p).1.pos
              (emittedOrder t.onRight_ vi p).2.1.pos
              (emittedOrder t.onRight_ vi p).2.2.pos)) := by
  refine ⟨Rounded.ProcessVert_single_eq m t vi_idx T vi v_top v_top_idx chain vs hA hi hc hne
    htop hvs, ?_⟩
  intro p hp
  obtain ⟨h1, _, _⟩ := Rounded.emitted_single_mem _ _ _ _ _ hp
  obtain ⟨hR, hL⟩ := Rounded.emitWhile_orientation32 t.onRight_ vi p.1 p.2 h1
  constructor
  · intro hr
    have h2 := hR hr
    simp only [hr, emittedOrder, if_true]
    exact ⟨trivial, h2⟩
  · intro hr
    obtain ⟨h2, h3⟩ := hL hr
    simp only [hr, emittedOrder, Bool.false_eq_true, if_false]
    exact ⟨trivial, h2, h3⟩

set_option maxRecDepth 100000 in
/-- C24, as amended, at the buffer of `kite`, when vertex 2 at `(0,2)` meets the
left chain `3, 0`: the tested value is `−1`, one triangle is emitted,
`(2, 3, 0)`, and `CCW` in that order is `+1`. -/
theorem Triangulator.ProcessVert_sameChain_witness :
    Monotones.Monotones sampleTags kite = .ok kiteMonotones ∧
      Rounded.ProcessVert kiteMonotones ⟨[3, 0], 0, 0, false⟩ 2 [] =
        .ok (true, ⟨[2, 0], 0, 1, false⟩, [⟨2, 3, 0⟩]) ∧
      Rounded.CCW (Vec2.ofRat 0 2) (Vec2.ofRat 0 0) (Vec2.ofRat (-1) 1) = -1 ∧
      Rounded.CCW (Vec2.ofRat 0 2) (Vec2.ofRat (-1) 1) (Vec2.ofRat 0 0) = 1 ∧
      (Rounded.ProcessVert kiteMonotones ⟨[3, 0], 0, 0, false⟩ 2 [] =
          .ok (true,
            { (⟨[3, 0], 0, 0, false⟩ : Triangulator) with
              reflex_chain_ :=
                2 :: ([3, 0] : List Int).drop
                  (Rounded.sameChainEmitted false ⟨Vec2.ofRat 0 2, 2, 3, 1, 0, false, 2⟩
                    ⟨Vec2.ofRat (-1) 1, 3, 0, 2, 0, false, 1⟩
                    [⟨Vec2.ofRat 0 0, 0, 1, 3, 2, false, 0⟩]).length
              triangles_output :=
                0 + (Rounded.sameChainEmitted false ⟨Vec2.ofRat 0 2, 2, 3, 1, 0, false, 2⟩
                    ⟨Vec2.ofRat (-1) 1, 3, 0, 2, 0, false, 1⟩
                    [⟨Vec2.ofRat 0 0, 0, 1, 3, 2, false, 0⟩]).length },
            [] ++ (Rounded.sameChainEmitted false ⟨Vec2.ofRat 0 2, 2, 3, 1, 0, false, 2⟩
                    ⟨Vec2.ofRat (-1) 1, 3, 0, 2, 0, false, 1⟩
                    [⟨Vec2.ofRat 0 0, 0, 1, 3, 2, false, 0⟩]).map
              (fun p => meshTriangle
                (emittedOrder false ⟨Vec2.ofRat 0 2, 2, 3, 1, 0, false, 2⟩ p))) ∧
        ∀ p ∈ Rounded.sameChainEmitted false ⟨Vec2.ofRat 0 2, 2, 3, 1, 0, false, 2⟩
            ⟨Vec2.ofRat (-1) 1, 3, 0, 2, 0, false, 1⟩
            [⟨Vec2.ofRat 0 0, 0, 1, 3, 2, false, 0⟩],
          ((false : Bool) = true →
            emittedOrder false ⟨Vec2.ofRat 0 2, 2, 3, 1, 0, false, 2⟩ p =
              (⟨Vec2.ofRat 0 2, 2, 3, 1, 0, false, 2⟩, p.1, p.2) ∧
            0 ≤ Rounded.CCW (emittedOrder false ⟨Vec2.ofRat 0 2, 2, 3, 1, 0, false, 2⟩ p).1.pos
              (emittedOrder false ⟨Vec2.ofRat 0 2, 2, 3, 1, 0, false, 2⟩ p).2.1.pos
              (emittedOrder false ⟨Vec2.ofRat 0 2, 2, 3, 1, 0, false, 2⟩ p).2.2.pos) ∧
          ((false : Bool) = false →
            emittedOrder false ⟨Vec2.ofRat 0 2, 2, 3, 1, 0, false, 2⟩ p =
              (⟨Vec2.ofRat 0 2, 2, 3, 1, 0, false, 2⟩, p.2, p.1) ∧
            (Rounded.CCW (Vec2.ofRat 0 2) p.1.pos p.2.pos = -1 ∨
              Rounded.CCW (Vec2.ofRat 0 2) p.1.pos p.2.pos = 0) ∧
            (Rounded.CCW (Vec2.ofRat 0 2) p.1.pos p.2.pos = -1 →
              Rounded.det (Vec2.ofRat 0 2) p.1.pos p.2.pos ≠ .nan →
              0 ≤ Rounded.CCW
                (emittedOrder false ⟨Vec2.ofRat 0 2, 2, 3, 1, 0, false, 2⟩ p).1.pos
                (emittedOrder false ⟨Vec2.ofRat 0 2, 2, 3, 1, 0, false, 2⟩ p).2.1.pos
                (emittedOrder false ⟨Vec2.ofRat 0 2, 2, 3, 1, 0, false, 2⟩ p).2.2.pos))) :=
  ⟨by decide!, by decide!, by decide!, by decide!,
    Triangulator.ProcessVert_sameChain kiteMonotones ⟨[3, 0], 0, 0, false⟩ 2 []
      ⟨Vec2.ofRat 0 2, 2, 3, 1, 0, false, 2⟩ ⟨Vec2.ofRat (-1) 1, 3, 0, 2, 0, false, 1⟩ 3 [0]
      [⟨Vec2.ofRat 0 0, 0, 1, 3, 2, false, 0⟩] (by decide!) (by decide!) rfl (by decide)
      (by decide!) (.cons (by decide!) .nil)⟩

set_option maxRecDepth 100000 in
/-- C24 fails as stated: `sliver` is a quadrilateral with finite coordinates
whose left chain `0, 3, 2` is bent inwards at vertex 3. The decomposer makes
one piece of it (its only call of `CCW`, at the start vertex 0, gives `+1` with
and without rounding). In the triangulator vertex 2 meets the left chain
`3, 0`: the determinant of `CCW(vi, vj, v_top)` is `1047377 / 8388608`, times
`1e5` it rounds to `3196341 / 256`, which is the scale `N` summed in the order
of the test, so `CCW` is `0`, which differs from `+1`, and the triangle
`(2, 3, 0)` is emitted. In emitted order the scale sums to `12785363 / 1024`,
which is less, and `CCW` is `−1`. The run goes on to the last vertex and ends
with the two triangles `(2, 3, 0), (1, 2, 0)`. In `leftInf` vertex 2, whose `x`
is `−∞`, meets the left chain `3, 0`: the determinant is `∞ − ∞`, a NaN, the
tested value is `−1`, the triangle `(2, 3, 0)` is emitted and `CCW` in emitted
order is `−1` again. -/
theorem Triangulator.ProcessVert_sameChain_counterexample :
    Monotones.Monotones sampleTags sliver = .ok sliverMonotones ∧
      CCW (posOf sliver 0) (posOf sliver 1) (posOf sliver 3) = 1 ∧
      Rounded.CCW (posOf sliver 0) (posOf sliver 1) (posOf sliver 3) = 1 ∧
      (sweepLine sliverMonotones).map Prod.snd = [0, 3, 2, 1] ∧
      Rounded.ProcessVert sliverMonotones (Triangulator.new 0 false) 3 [] =
        .ok (true, ⟨[3, 0], 0, 0, false⟩, []) ∧
      Rounded.ProcessVert sliverMonotones (Triangulator.new 0 true) 3 [] =
        .ok (true, ⟨[3, 0], 0, 0, false⟩, []) ∧
      Triangulator.Attached sliverMonotones ⟨[3, 0], 0, 0, false⟩ 2 = .ok 1 ∧
      Rounded.ProcessVert sliverMonotones ⟨[3, 0], 0, 0, false⟩ 2 [] =
        .ok (true, ⟨[2, 0], 0, 1, false⟩, [⟨2, 3, 0⟩]) ∧
      Rounded.det (posOf sliver 2) (posOf sliver 0) (posOf sliver 3) =
        .fin (1047377 / 8388608) ∧
      Rounded.mul (F32.abs (.fin (1047377 / 8388608))) kTolerance = .fin (3196341 / 256) ∧
      Rounded.norm (posOf sliver 2) (posOf sliver 0) (posOf sliver 3) = .fin (3196341 / 256) ∧
      Rounded.norm (posOf sliver 2) (posOf sliver 3) (posOf sliver 0) =
        .fin (12785363 / 1024) ∧
      Rounded.CCW (posOf sliver 2) (posOf sliver 0) (posOf sliver 3) = 0 ∧
      Rounded.CCW (posOf sliver 2) (posOf sliver 3) (posOf sliver 0) = -1 ∧
      ¬ (0 ≤ Rounded.CCW (posOf sliver 2) (posOf sliver 3) (posOf sliver 0)) ∧
      Rounded.ProcessVert sliverMonotones ⟨[2, 0], 0, 1, false⟩ 1 [⟨2, 3, 0⟩] =
        .ok (true, ⟨[1, 2], 2, 2, true⟩, [⟨2, 3, 0⟩, ⟨1, 2, 0⟩]) ∧
      Monotones.Monotones sampleTags leftInf = .ok leftInfMonotones ∧
      CCW (posOf leftInf 0) (posOf leftInf 1) (posOf leftInf 3) = 1 ∧
      Rounded.CCW (posOf leftInf 0) (posOf leftInf 1) (posOf leftInf 3) = 1 ∧
      Triangulator.Attached leftInfMonotones ⟨[3, 0], 0, 0, false⟩ 2 = .ok 1 ∧
      Rounded.ProcessVert leftInfMonotones ⟨[3, 0], 0, 0, false⟩ 2 [] =
        .ok (true, ⟨[2, 0], 0, 1, false⟩, [⟨2, 3, 0⟩]) ∧
      Rounded.det (posOf leftInf 2) (posOf leftInf 0) (posOf leftInf 3) = .nan ∧
      Rounded.CCW (posOf leftInf 2) (posOf leftInf 0) (posOf leftInf 3) = -1 ∧
      Rounded.CCW (posOf leftInf 2) (posOf leftInf 3) (posOf leftInf 0) = -1 ∧
      ¬ (0 ≤ Rounded.CCW (posOf leftInf 2) (posOf leftInf 3) (posOf leftInf 0)) := by
  refine ⟨by decide!, by decide!, by decide!, by decide!, by decide!, by decide!, by decide!,
    by decide!, by decide!, by decide!, by decide!, by decide!, by decide!, by decide!, by decide!,
    by decide!, by decide!, by decide!, by decide!, by decide!, by decide!, by decide!, by decide!,
    by decide!, by decide!⟩

/-! ## Orientation predicate in single precision: antisymmetry -/

/-- C11, as amended: for all points `p0, p1, p2`, in single precision, the
determinants that `CCW` computes for `(p0, p1, p2)` and `(p0, p2, p1)` are exact
negatives of each other; when that determinant is not a NaN and neither value
of `CCW` is `0`, `CCW(p0, p1, p2) = −CCW(p0, p2, p1)`, so the two are never both
`+1` and never both `−1`; when the determinant is a NaN both are `−1`. (The
scale `N` is summed from left to right, in a different order for the two, so
one of the two can be `0` when the other is not.) -/
theorem CCW_antisymmetry (p0 p1 p2 : Vec2) :
    Rounded.det p0 p2 p1 = F32.neg (Rounded.det p0 p1 p2) ∧
      (Rounded.det p0 p1 p2 ≠ .nan → Rounded.CCW p0 p1 p2 ≠ 0 → Rounded.CCW p0 p2 p1 ≠ 0 →
        Rounded.CCW p0 p1 p2 = -Rounded.CCW p0 p2 p1) ∧
      (Rounded.det p0 p1 p2 ≠ .nan →
        ¬ (Rounded.CCW p0 p1 p2 = 1 ∧ Rounded.CCW p0 p2 p1 = 1) ∧
        ¬ (Rounded.CCW p0 p1 p2 = -1 ∧ Rounded.CCW p0 p2 p1 = -1)) ∧
      (Rounded.det p0 p1 p2 = .nan →
        Rounded.CCW p0 p1 p2 = -1 ∧ Rounded.CCW p0 p2 p1 = -1) := by
  refine ⟨Rounded.det_swap p0 p1 p2, Rounded.CCW_opposite p0 p1 p2, fun hd => ⟨?_, ?_⟩, ?_⟩
  · rintro ⟨h1, h2⟩
    have := Rounded.CCW_opposite p0 p1 p2 hd (by rw [h1]; decide) (by rw [h2]; decide)
    rw [h1, h2] at this
    exact absurd this (by decide)
  · rintro ⟨h1, h2⟩
    have := Rounded.CCW_opposite p0 p1 p2 hd (by rw [h1]; decide) (by rw [h2]; decide)
    rw [h1, h2] at this
    exact absurd this (by decide)
  · intro hd
    refine ⟨Rounded.CCW_of_det_nan hd, Rounded.CCW_of_det_nan ?_⟩
    rw [Rounded.det_swap, hd]
    rfl

set_option maxRecDepth 100000 in
/-- C11 fails as stated, on points with finite coordinates: for
`p0 = (1915, 1.375)`, `p1 = (1916, 1.375)` and `p2 = (273, 12009001 / 8388608)`
the determinant is `474665 / 8388608`, times `1e5` it rounds to
`11588501 / 2048`; the scale `N` sums to `11588501 / 2048` in the order
`p0, p1, p2` and to `2897125 / 512`, which is less, in the order `p0, p2, p1`, so
`CCW(p0, p1, p2) = 0` and `CCW(p0, p2, p1) = −1`. With `p0` the point
`glm::vec2(1.0f / 0.0f)` that `Assemble` writes as a position, the determinant
is `∞ − ∞`, a NaN, and `CCW` is `−1` for both orders. -/
theorem CCW_antisymmetry_counterexample :
    Rounded.det (Vec2.ofRat 1915 (11 / 8)) (Vec2.ofRat 1916 (11 / 8))
        (Vec2.ofRat 273 (12009001 / 8388608)) = .fin (474665 / 8388608) ∧
      Rounded.mul (F32.abs (.fin (474665 / 8388608))) kTolerance = .fin (11588501 / 2048) ∧
      Rounded.norm (Vec2.ofRat 1915 (11 / 8)) (Vec2.ofRat 1916 (11 / 8))
        (Vec2.ofRat 273 (12009001 / 8388608)) = .fin (11588501 / 2048) ∧
      Rounded.norm (Vec2.ofRat 1915 (11 / 8)) (Vec2.ofRat 273 (12009001 / 8388608))
        (Vec2.ofRat 1916 (11 / 8)) = .fin (2897125 / 512) ∧
      Rounded.CCW (Vec2.ofRat 1915 (11 / 8)) (Vec2.ofRat 1916 (11 / 8))
        (Vec2.ofRat 273 (12009001 / 8388608)) = 0 ∧
      Rounded.CCW (Vec2.ofRat 1915 (11 / 8)) (Vec2.ofRat 273 (12009001 / 8388608))
        (Vec2.ofRat 1916 (11 / 8)) = -1 ∧
      ¬ (Rounded.CCW (Vec2.ofRat 1915 (11 / 8)) (Vec2.ofRat 1916 (11 / 8))
          (Vec2.ofRat 273 (12009001 / 8388608)) =
        -Rounded.CCW (Vec2.ofRat 1915 (11 / 8)) (Vec2.ofRat 273 (12009001 / 8388608))
          (Vec2.ofRat 1916 (11 / 8))) ∧
      Rounded.det Vec2.inf (Vec2.ofRat 0 0) (Vec2.ofRat 1 0) = .nan ∧
      Rounded.CCW Vec2.inf (Vec2.ofRat 0 0) (Vec2.ofRat 1 0) = -1 ∧
      Rounded.CCW Vec2.inf (Vec2.ofRat 1 0) (Vec2.ofRat 0 0) = -1 ∧
      ¬ (Rounded.CCW Vec2.inf (Vec2.ofRat 0 0) (Vec2.ofRat 1 0) =
        -Rounded.CCW Vec2.inf (Vec2.ofRat 1 0) (Vec2.ofRat 0 0)) := by
  refine ⟨by decide!, by decide!, by decide!, by decide!, by decide!, by decide!, by decide!,
    by decide!, by decide!, by decide!, by decide!⟩

/-! ## Rounding at sample values -/

set_option maxRecDepth 100000 in
/-- Rounding to single precision at sample values: the nearest float to `0.1`,
ties to the even significand around `2^24`, overflow to infinity at half a unit
above the greatest float, and the subnormal range. -/
theorem F32.round_samples :
    F32.round (.fin (1 / 10)) = .fin (13421773 / 134217728) ∧
      F32.round (.fin 16777217) = .fin 16777216 ∧
      F32.round (.fin 16777219) = .fin 16777220 ∧
      F32.round (.fin (-16777219)) = .fin (-16777220) ∧
      F32.round (.fin (1 / 3)) = .fin (11184811 / 33554432) ∧
      F32.round (.fin (2 ^ 128)) = .pinf ∧
      F32.round (.fin (2 ^ 128 - 2 ^ 103)) = .pinf ∧
      F32.round (.fin (2 ^ 128 - 2 ^ 103 - 1)) = .fin (2 ^ 128 - 2 ^ 104) ∧
      F32.round (.fin (-(2 ^ 128))) = .ninf ∧
      F32.round (.fin (1 / 2 ^ 150)) = .fin 0 ∧
      F32.round (.fin (3 / 2 ^ 150)) = .fin (1 / 2 ^ 148) ∧
      F32.round (.fin (1 / 2 ^ 149)) = .fin (1 / 2 ^ 149) ∧
      F32.round (.fin 100000) = .fin 100000 ∧
      F32.round .nan = .nan := by
  decide!

end manifold
